import Mathlib

/-!
# Traveling-Salesman: a shallow embedding of `TSP.cpp` and `TSP_Brute_Force.cpp`

The C++ program is embedded as pure functions on explicit state.

* An `int` is 32 bits wide and is embedded as an integer (`Int`) between
  `INT_MIN` and `INT_MAX`; the entries of the input are values of that type.
  The sum of two `int`s is `wrapInt (a + b)`, the two's complement result
  (signed overflow is undefined behaviour in C++; the compiled program wraps
  around).  A statement `total += distance(..)` adds a `double` to an `int`: the
  sum is formed in `double`, exactly for the values at hand, and converted back
  (`doubleToInt`).  Node ids, node types and group numbers only ever hold
  non-negative values and are `Nat`.
* `vector::at` throws `std::out_of_range`; nothing catches it, so a failing
  lookup ends the run.  Fallible code returns `Option`, `none` standing for the
  uncaught exception (or for the read of an uninitialised variable).
* A `node *` is modelled by the index of the node it points to in
  `graph.nodes`.
* `std::sort` is a library routine whose contract fixes the result only up to
  the order of equivalent elements.  The functions of the program take the sort
  as a parameter `sort`, and what is proved of them needs the contract `StdSort`
  only.  The routine of the GNU C++ library is embedded as `stdSort`, the vector
  it leaves as `librarySort`; it meets the contract (`librarySort_std`).
  `std::next_permutation` is embedded as `next_permutation`, its rearrangement
  step as `nextPerm`.
-/

namespace TSP

/-- The largest value of a C++ `int` (32 bit). -/
def INT_MAX : Int := 2147483647

/-- The smallest value of a C++ `int` (32 bit). -/
def INT_MIN : Int := -2147483648

/-- The `int` that an addition of two `int`s yields when the mathematical value
of the sum is `x`: `x` reduced modulo `2^32` into the range `INT_MIN .. INT_MAX`
(two's complement wrap-around). -/
def wrapInt (x : Int) : Int := (x + 2147483648) % 4294967296 - 2147483648

/-- The conversion `(int) x` of a `double` whose value is the integer `x`: exact
when `x` is in the range of `int`.  Outside the range the conversion is undefined
behaviour; the result taken here is the one of the x86-64 conversion
instruction (`cvttsd2si`), which is `INT_MIN`. -/
def doubleToInt (x : Int) : Int := if INT_MIN ≤ x ∧ x ≤ INT_MAX then x else INT_MIN

/-! ## Data model (classes `node`, `connectedNode`, `weight`, `graph`) -/

/-- Class `node`. `nodeType`: 0 = untouched, 1 = leader, 2 = inside. -/
structure node where
  nodeName : Nat
  nodeType : Nat
  nodeGroup : Nat
  wasTouched : Bool
deriving DecidableEq, Repr

/-- The constructor `node(int nodeName)`. -/
def node.new (nodeName : Nat) : node := ⟨nodeName, 0, 0, false⟩

/-- Class `connectedNode`; the two node pointers are indices into `graph.nodes`. -/
structure connectedNode where
  connectedLeftNode : Nat
  connectedRightNode : Nat
  checked : Bool
deriving DecidableEq, Repr

/-- The constructor `connectedNode(left, right)`. -/
def connectedNode.new (l r : Nat) : connectedNode := ⟨l, r, false⟩

/-- Class `weight`. -/
structure weight where
  value : Int
  fromNode : Nat
  toNode : Nat
deriving DecidableEq, Repr

/-- Class `graph`. -/
structure graph where
  numNodes : Nat
  matrix : List (List Int)
  weights : List weight
  nodes : List node
  connectedNodes : List connectedNode
  pathTaken : List Nat
deriving DecidableEq, Repr

/-- The result of `new graph()`. -/
def graph.empty : graph := ⟨0, [], [], [], [], []⟩

/-- The program state of the original mode: the graph and the two globals. -/
structure state where
  myGraph : graph
  globalGroupNumber : Nat
  globalTotalWeight : Int
deriving DecidableEq, Repr

/-! ## `graph::addWeight`, `graph::distance`, `graph::sortWeghts` -/

/-- The call `vector::resize(k)` on the matrix: new rows are empty. -/
def resize (m : List (List Int)) (k : Nat) : List (List Int) :=
  m.take k ++ List.replicate (k - m.length) []

/-- The first half of `graph::addWeight`: grow the matrix to hold `row`, then
`matrix.at(row).push_back(item)`. -/
def pushItem (m : List (List Int)) (row : Nat) (item : Int) : List (List Int) :=
  let m1 := if m.length ≤ row then resize m (row + 1) else m
  m1.set row (m1.getD row [] ++ [item])

/-- The method `graph::addWeight(row, item)`. -/
def graph.addWeight (g : graph) (row : Nat) (item : Int) : graph :=
  let m2 := pushItem g.matrix row item
  if item ≠ 0 then
    { g with matrix := m2, weights := g.weights ++ [⟨item, row, (m2.getD row []).length - 1⟩] }
  else
    { g with matrix := m2 }

/-- The lookup `matrix.at(r).at(c)`. -/
def matAt (m : List (List Int)) (r c : Nat) : Option Int :=
  match m[r]? with
  | some row => row[c]?
  | none => none

/-- The method `graph::distance(from, to)`. -/
def graph.distance (g : graph) (fromN toN : Nat) : Option Int :=
  if fromN < toN then matAt g.matrix toN fromN else matAt g.matrix fromN toN

/-- The contract of `std::sort(first, last, comp)` with
`comp a b = (a->value < b->value)`: the result is a rearrangement of the input
in which no later element compares less than an earlier one. -/
def StdSort (sort : List weight → List weight) : Prop :=
  ∀ l, (sort l).Perm l ∧ (sort l).Pairwise (fun a b => ¬ b.value < a.value)

/-- The method `graph::sortWeghts`. -/
def graph.sortWeghts (sort : List weight → List weight) (g : graph) : graph :=
  { g with weights := sort g.weights }

/-! ## Reading the input (`main`, the parsing loop) -/

/-- The inner loop `while (iss >> weightToAdd) addWeight(index, weightToAdd)`. -/
def readLine (g : graph) (index : Nat) : List Int → graph
  | [] => g
  | item :: rest => readLine (g.addWeight index item) index rest

/-- The loop `while (getline(file, textLine))`. -/
def readRows (g : graph) (index : Nat) : List (List Int) → graph × Nat
  | [] => (g, index)
  | line :: rest =>
    let g1 := readLine g index line
    readRows { g1 with nodes := g1.nodes ++ [node.new index] } (index + 1) rest

/-- Reading the whole file, then `myGraph->numNodes = index`. -/
def readGraph (rows : List (List Int)) : graph :=
  let r := readRows graph.empty 0 rows
  { r.1 with numNodes := r.2 }

/-! ## Node access through pointers -/

/-- Apply `f` to the node a pointer refers to. -/
def modifyNode (f : node → node) : List node → Nat → List node
  | [], _ => []
  | n :: ns, 0 => f n :: ns
  | n :: ns, p + 1 => n :: modifyNode f ns p

/-- The assignment `p->nodeType = t`. -/
def setType (ns : List node) (p t : Nat) : List node :=
  modifyNode (fun n => { n with nodeType := t }) ns p

/-- The assignment `p->nodeGroup = g`. -/
def setGroup (ns : List node) (p g : Nat) : List node :=
  modifyNode (fun n => { n with nodeGroup := g }) ns p

/-- The read `p->nodeType`. -/
def typeAt (ns : List node) (p : Nat) : Nat :=
  match ns[p]? with
  | some n => n.nodeType
  | none => 0

/-- The read `p->nodeGroup`. -/
def groupAt (ns : List node) (p : Nat) : Nat :=
  match ns[p]? with
  | some n => n.nodeGroup
  | none => 0

/-- The read `p->nodeName`. -/
def nameAt (ns : List node) (p : Nat) : Nat :=
  match ns[p]? with
  | some n => n.nodeName
  | none => 0

/-! ## The original algorithm: the edge loop -/

/-- Push a new `connectedNode(l, r)` and run `globalTotalWeight +=
currentWeight->value` (an addition of two `int`s), installing the new node list. -/
def state.accept (st : state) (ns : List node) (l r : Nat) (v : Int) : state :=
  { st with
    myGraph := { st.myGraph with
      nodes := ns
      connectedNodes := st.myGraph.connectedNodes ++ [connectedNode.new l r] }
    globalTotalWeight := wrapInt (st.globalTotalWeight + v) }

/-- The loop that rewrites every node of group `old` to group `smallest`. -/
def regroup (ns : List node) (old smallest : Nat) : List node :=
  ns.map (fun n => if n.nodeGroup = old then { n with nodeGroup := smallest } else n)

/-- One iteration of the loop over `weights` (lines 425-522). -/
def edgeStep (st : state) (w : weight) : Option state :=
  let l := w.fromNode
  let r := w.toNode
  let ns := st.myGraph.nodes
  if l < ns.length ∧ r < ns.length then
    if typeAt ns l = 0 ∧ typeAt ns r = 0 then
      let ns1 := setType ns l 1
      let ns2 := setType ns1 r 1
      let ns3 := setGroup ns2 l st.globalGroupNumber
      let ns4 := setGroup ns3 r st.globalGroupNumber
      some { st.accept ns4 l r w.value with globalGroupNumber := st.globalGroupNumber + 1 }
    else if typeAt ns l = 2 ∧ typeAt ns r = 2 then
      some st
    else if typeAt ns l = 1 ∧ typeAt ns r = 1 then
      if groupAt ns l ≠ groupAt ns r then
        let ns1 := setType ns l 2
        let ns2 := setType ns1 r 2
        let smallestIntegerGroup :=
          if groupAt ns2 l < groupAt ns2 r then groupAt ns2 l else groupAt ns2 r
        let oldIntegerGroup :=
          if groupAt ns2 l < groupAt ns2 r then groupAt ns2 r else groupAt ns2 l
        some (st.accept (regroup ns2 oldIntegerGroup smallestIntegerGroup) l r w.value)
      else
        some st
    else if (typeAt ns l = 1 ∧ typeAt ns r = 2) ∨ (typeAt ns l = 2 ∧ typeAt ns r = 1) then
      some st
    else if (typeAt ns l = 2 ∧ typeAt ns r = 0) ∨ (typeAt ns l = 0 ∧ typeAt ns r = 2) then
      some st
    else
      if typeAt ns l = 1 then
        let ns1 := setType ns l 2
        let ns2 := setType ns1 r 1
        let ns3 := setGroup ns2 r (groupAt ns2 l)
        some (st.accept ns3 l r w.value)
      else
        let ns1 := setType ns r 2
        let ns2 := setType ns1 l 1
        let ns3 := setGroup ns2 l (groupAt ns2 r)
        some (st.accept ns3 l r w.value)
  else
    none

/-- The loop `for (i = 0; i < weights.size(); i++)` over a list of weights. -/
def cycleBuilder (st : state) : List weight → Option state
  | [] => some st
  | w :: ws =>
    match edgeStep st w with
    | some st1 => cycleBuilder st1 ws
    | none => none

/-! ## Closing the cycle -/

/-- The scan for leader nodes: the pair `(nodeOne, nodeTwo)`, each `none`
while it is still uninitialised. -/
def leaderScan (acc : Option Nat × Option Nat) : List node → Option Nat × Option Nat
  | [] => acc
  | n :: ns =>
    if n.nodeType = 1 then
      leaderScan (if acc.1.isNone then some n.nodeName else acc.1, some n.nodeName) ns
    else
      leaderScan acc ns

/-- Lines 542-544: push a new `connectedNode(l, r)` and run `globalTotalWeight +=
distance(nodeOne, nodeTwo)`, where `distance` returns the `double` of value `d`. -/
def state.close (st : state) (l r : Nat) (d : Int) : state :=
  { st with
    myGraph := { st.myGraph with
      connectedNodes := st.myGraph.connectedNodes ++ [connectedNode.new l r] }
    globalTotalWeight := doubleToInt (st.globalTotalWeight + d) }

/-- Lines 524-544: connect `nodeOne` and `nodeTwo`.  The two variables are read
uninitialised when no node is a leader; the outcome of such a read is undefined
and stands as `none`. -/
def cycleCloser (st : state) : Option (state × Nat) :=
  match leaderScan (none, none) st.myGraph.nodes with
  | (some nodeOne, some nodeTwo) =>
    if nodeOne < st.myGraph.nodes.length ∧ nodeTwo < st.myGraph.nodes.length then
      match st.myGraph.distance nodeOne nodeTwo with
      | some d => some (st.close nodeOne nodeTwo d, nodeOne)
      | none => none
    else none
  | _ => none

/-! ## Retracing the path -/

/-- The walker of the retrace: the current node pointer and `pathTaken`. -/
structure walker where
  currentNode : Nat
  pathTaken : List Nat
deriving DecidableEq, Repr

/-- The inner loop `for (j = 0; j < connectedNodes.size(); j++)`, run over the
connections from index `j` on; returns the walker and the updated connections. -/
def retraceScan (ns : List node) (wk : walker) :
    List connectedNode → walker × List connectedNode
  | [] => (wk, [])
  | c :: cs =>
    if (c.connectedLeftNode = wk.currentNode ∨ c.connectedRightNode = wk.currentNode)
        ∧ c.checked = false then
      let wk1 : walker :=
        if c.connectedLeftNode = wk.currentNode then
          ⟨c.connectedRightNode, wk.pathTaken ++ [nameAt ns wk.currentNode]⟩
        else
          ⟨c.connectedLeftNode, wk.pathTaken ++ [nameAt ns wk.currentNode]⟩
      let r := retraceScan ns wk1 cs
      (r.1, { c with checked := true } :: r.2)
    else
      let r := retraceScan ns wk cs
      (r.1, c :: r.2)

/-- The outer loop `for (i = 0; i < numNodes; i++)`, `k` iterations. -/
def retraceLoop (ns : List node) : Nat → walker → List connectedNode →
    walker × List connectedNode
  | 0, wk, cs => (wk, cs)
  | k + 1, wk, cs =>
    let r := retraceScan ns wk cs
    retraceLoop ns k r.1 r.2

/-- Lines 546-568: the path retrace starting at `currentLeftNode`. -/
def retrace (st : state) (currentLeftNode : Nat) : state :=
  let r := retraceLoop st.myGraph.nodes st.myGraph.numNodes
    ⟨currentLeftNode, st.myGraph.pathTaken⟩ st.myGraph.connectedNodes
  { st with
    myGraph := { st.myGraph with
      connectedNodes := r.2
      pathTaken := r.1.pathTaken ++ [nameAt st.myGraph.nodes currentLeftNode] } }

/-! ## The original mode of `main` -/

/-- The initial program state after reading and sorting. -/
def initState (sort : List weight → List weight) (rows : List (List Int)) : state :=
  ⟨(readGraph rows).sortWeghts sort, 1, 0⟩

/-- The original mode up to the end of the path retrace. -/
def originalCore (sort : List weight → List weight) (rows : List (List Int)) : Option state :=
  let st0 := initState sort rows
  match cycleBuilder st0 st0.myGraph.weights with
  | some st1 =>
    match cycleCloser st1 with
    | some (st2, a) => some (retrace st2 a)
    | none => none
  | none => none

/-- The original mode of `main`: the final state, provided the output loop
`for (i = 0; i <= numNodes; i++) pathTaken.at(i)` does not throw. -/
def original (sort : List weight → List weight) (rows : List (List Int)) : Option state :=
  match originalCore sort rows with
  | some st => if st.myGraph.numNodes < st.myGraph.pathTaken.length then some st else none
  | none => none

/-- The sequence the output loop prints. -/
def printed (st : state) : List Nat := st.myGraph.pathTaken.take (st.myGraph.numNodes + 1)

/-- The matrix of the concrete scenario. -/
def scenarioRows : List (List Int) := [[], [10], [15, 35], [20, 25, 30]]

/-- A reference implementation of the `std::sort` contract (insertion sort). -/
def insertionSortWeights (l : List weight) : List weight :=
  l.insertionSort (fun a b => a.value ≤ b.value)

/-! ## Input shapes and the row-major edge list -/

/-- Row `i` of the input (empty when the file has no such line). -/
def rowAt (rows : List (List Int)) (i : Nat) : List Int := rows.getD i []

/-- Lower-triangular shape: row `i` has exactly `i + 1` entries. -/
def LowerTriangular (rows : List (List Int)) : Prop :=
  ∀ i < rows.length, (rowAt rows i).length = i + 1

/-- Every row stores a zero at its diagonal position. -/
def ZeroDiagonal (rows : List (List Int)) : Prop :=
  ∀ i < rows.length, (rowAt rows i)[i]? = some 0

/-- The stored distance between any two distinct nodes is not zero. -/
def OffDiagonalNonZero (rows : List (List Int)) : Prop :=
  ∀ i < rows.length, ∀ j < i, (rowAt rows i).getD j 0 ≠ 0

/-- A well-formed distance matrix: lower-triangular, zero diagonal, non-zero
distance between every pair of distinct nodes. -/
def WellFormed (rows : List (List Int)) : Prop :=
  LowerTriangular rows ∧ ZeroDiagonal rows ∧ OffDiagonalNonZero rows

instance (rows : List (List Int)) : Decidable (LowerTriangular rows) := by
  unfold LowerTriangular; infer_instance

instance (rows : List (List Int)) : Decidable (ZeroDiagonal rows) := by
  unfold ZeroDiagonal; infer_instance

instance (rows : List (List Int)) : Decidable (OffDiagonalNonZero rows) := by
  unfold OffDiagonalNonZero; infer_instance

instance (rows : List (List Int)) : Decidable (WellFormed rows) := by
  unfold WellFormed; infer_instance

/-- The non-zero entries of one line, scanned left to right from column `c`,
each as the triple `(entry, row, column)`. -/
def lineWeights (row : Nat) : Nat → List Int → List weight
  | _, [] => []
  | c, x :: xs =>
    if x ≠ 0 then ⟨x, row, c⟩ :: lineWeights row (c + 1) xs else lineWeights row (c + 1) xs

/-- The non-zero entries of all lines in row-major order, rows numbered from `index`. -/
def rowsWeights : Nat → List (List Int) → List weight
  | _, [] => []
  | index, line :: rest => lineWeights index 0 line ++ rowsWeights (index + 1) rest

/-- The decisions of the edge loop: each processed edge with `true` when the
step pushed a new connection (accept) and `false` when it did not (reject). -/
def edgeTrace (st : state) : List weight → List (weight × Bool)
  | [] => []
  | w :: ws =>
    match edgeStep st w with
    | some st1 =>
      (w, decide (st1.myGraph.connectedNodes.length = st.myGraph.connectedNodes.length + 1))
        :: edgeTrace st1 ws
    | none => []

/-! ## Specification vocabulary for the edge loop -/

/-- What no step of the edge loop changes: the number of nodes, their names,
the matrix, the weights, `numNodes` and `pathTaken`. -/
def Frame (st st1 : state) : Prop :=
  st1.myGraph.nodes.length = st.myGraph.nodes.length ∧
  (∀ i, nameAt st1.myGraph.nodes i = nameAt st.myGraph.nodes i) ∧
  st1.myGraph.matrix = st.myGraph.matrix ∧
  st1.myGraph.weights = st.myGraph.weights ∧
  st1.myGraph.numNodes = st.myGraph.numNodes ∧
  st1.myGraph.pathTaken = st.myGraph.pathTaken

/-- Accept: a `Connection(left = u, right = v)` is appended and `w` is added
to the running total. -/
def Accepted (st st1 : state) (w : weight) : Prop :=
  st1.myGraph.connectedNodes =
    st.myGraph.connectedNodes ++ [connectedNode.new w.fromNode w.toNode] ∧
  st1.globalTotalWeight = wrapInt (st.globalTotalWeight + w.value)

/-- The unordered pair of endpoints of a connection. -/
def connectedNode.ends (c : connectedNode) : Sym2 Nat :=
  s(c.connectedLeftNode, c.connectedRightNode)

/-- The hops of a walk: the unordered pairs of consecutive nodes. -/
def hops : List Nat → List (Sym2 Nat)
  | [] => []
  | [_] => []
  | a :: b :: rest => s(a, b) :: hops (b :: rest)

/-- A path of accepted connections in the node table `ns`: both ends are
leaders, every inner node is inside, and all its nodes carry one group id. -/
def GoodPath (ns : List node) (p : List Nat) : Prop :=
  ∃ a mid b, p = a :: (mid ++ [b]) ∧ typeAt ns a = 1 ∧ typeAt ns b = 1 ∧
    (∀ m ∈ mid, typeAt ns m = 2) ∧ ∀ v ∈ p, groupAt ns v = groupAt ns a

/-- The structural invariant of the edge loop: the accepted connections are the
hops of the vertex-disjoint simple paths `ps`; group ids tell the paths apart;
nodes on no path are untouched. -/
structure PathInv (st : state) (ps : List (List Nat)) : Prop where
  nodup : ps.flatten.Nodup
  bound : ∀ v ∈ ps.flatten, v < st.myGraph.nodes.length
  edges : (st.myGraph.connectedNodes.map connectedNode.ends).Perm (ps.flatMap hops)
  good : ∀ p ∈ ps, GoodPath st.myGraph.nodes p
  grp : ∀ v ∈ ps.flatten,
    1 ≤ groupAt st.myGraph.nodes v ∧ groupAt st.myGraph.nodes v < st.globalGroupNumber
  sep : ∀ p ∈ ps, ∀ u ∈ p, ∀ v ∈ ps.flatten,
    groupAt st.myGraph.nodes u = groupAt st.myGraph.nodes v → v ∈ p
  untouched : ∀ v, v ∉ ps.flatten →
    typeAt st.myGraph.nodes v = 0 ∧ groupAt st.myGraph.nodes v = 0
  counter : 1 ≤ st.globalGroupNumber
  fresh : ∀ c ∈ st.myGraph.connectedNodes, c.checked = false

/-- An edge is settled when it can never be accepted any more: an endpoint is
inside, or both endpoints are leaders of one group. -/
def Settled (ns : List node) (u v : Nat) : Prop :=
  typeAt ns u = 2 ∨ typeAt ns v = 2 ∨
    (typeAt ns u = 1 ∧ typeAt ns v = 1 ∧ groupAt ns u = groupAt ns v)

/-- The distance between two nodes as a number (0 where the lookup fails). -/
def graph.dist (g : graph) (i j : Nat) : Int := (g.distance i j).getD 0

/-- The number of connection endpoints at node `v`: a connection counts once
for each of its two ends that is `v`. -/
def degree (cs : List connectedNode) (v : Nat) : Nat :=
  cs.countP (fun c => c.connectedLeftNode = v) + cs.countP (fun c => c.connectedRightNode = v)

/-- The sum of the distances spanned by a list of connections. -/
def connTotal (g : graph) (cs : List connectedNode) : Int :=
  (cs.map (fun c => g.dist c.connectedLeftNode c.connectedRightNode)).sum

/-- The bookkeeping invariant of the edge loop: a node's type is the number of
accepted connections at it, and the running total is the sum of the distances
of the accepted connections, as an `int`. -/
structure AuxInv (st : state) : Prop where
  deg : ∀ v, degree st.myGraph.connectedNodes v = typeAt st.myGraph.nodes v
  acct : st.globalTotalWeight = wrapInt (connTotal st.myGraph st.myGraph.connectedNodes)

/-- The edges a run can process: both ends are existing, distinct nodes and the
value is the stored distance. -/
def ValidEdge (g : graph) (w : weight) : Prop :=
  w.fromNode < g.nodes.length ∧ w.toNode < g.nodes.length ∧ w.fromNode ≠ w.toNode ∧
    g.distance w.fromNode w.toNode = some w.value

/-- The names of the leader nodes, in ascending order of node index. -/
def leaderNames (ns : List node) : List Nat :=
  (ns.filter (fun n => decide (n.nodeType = 1))).map node.nodeName

/-! ## Specification vocabulary for the path retrace -/

/-- The connection `c` is one the walker can take: it touches the current node
and is still unchecked. -/
def eligible (wk : walker) (c : connectedNode) : Prop :=
  (c.connectedLeftNode = wk.currentNode ∨ c.connectedRightNode = wk.currentNode)
    ∧ c.checked = false

instance (wk : walker) (c : connectedNode) : Decidable (eligible wk c) := by
  unfold eligible; infer_instance

/-- The walker after it has taken the connection `c`. -/
def hop (ns : List node) (wk : walker) (c : connectedNode) : walker :=
  if c.connectedLeftNode = wk.currentNode then
    ⟨c.connectedRightNode, wk.pathTaken ++ [nameAt ns wk.currentNode]⟩
  else
    ⟨c.connectedLeftNode, wk.pathTaken ++ [nameAt ns wk.currentNode]⟩

/-- The endpoints of the connections that are still unchecked. -/
def openEnds (cs : List connectedNode) : List (Sym2 Nat) :=
  (cs.filter (fun c => !c.checked)).map connectedNode.ends

/-- The walker is under way along the closed walk `a :: rest ++ [a]`: what it
has recorded, followed by a remaining walk `R` that starts at the current node,
is the closed walk, and the unchecked connections are exactly the hops of `R`. -/
def WalkOn (a : Nat) (rest : List Nat) (wk : walker) (cs : List connectedNode) : Prop :=
  wk.pathTaken ≠ [] ∧
  ∃ R, wk.pathTaken ++ R = a :: rest ++ [a] ∧ R.head? = some wk.currentNode ∧
    (openEnds cs).Perm (hops R)

/-- The invariant of the path retrace on a cycle `a :: rest`: either no hop has
been made yet, or the walker is under way in one of the two directions. -/
def Tracing (a : Nat) (rest : List Nat) (wk : walker) (cs : List connectedNode) : Prop :=
  (wk.pathTaken = [] ∧ wk.currentNode = a ∧ (openEnds cs).Perm (hops (a :: rest ++ [a]))) ∨
  WalkOn a rest wk cs ∨ WalkOn a rest.reverse wk cs

/-- The sum of `distance(seq[i], seq[i+1])` for `i = 0 .. n-1`. -/
def tourSum (g : graph) (seq : List Nat) (n : Nat) : Int :=
  ((List.range n).map (fun i => g.dist (seq.getD i 0) (seq.getD (i + 1) 0))).sum

/-- The length of a walk: the sum of the distances of its hops. -/
def walkLength (g : graph) : List Nat → Int
  | [] => 0
  | [_] => 0
  | a :: b :: rest => g.dist a b + walkLength g (b :: rest)

/-- A well-formed input: the scenario matrix with its zero diagonal stored. -/
def wellFormedRows : List (List Int) := [[0], [10, 0], [15, 35, 0], [20, 25, 30, 0]]

/-! ## Brute force: `std::next_permutation` -/

/-- In a non-decreasing list, the first element greater than `x` is taken out
and `x` put in its place. -/
def replaceFirstGreater (x : Nat) : List Nat → Option (Nat × List Nat)
  | [] => none
  | y :: ys =>
    if x < y then some (y, x :: ys)
    else
      match replaceFirstGreater x ys with
      | some r => some (r.1, y :: r.2)
      | none => none

/-- The algorithm of `std::next_permutation` on a range, `none` when the range is
already the last permutation: the longest non-increasing suffix is left behind,
the element before it (the pivot) is swapped with the rightmost element of the
suffix that is greater, and the suffix is reversed. -/
def nextPerm : List Nat → Option (List Nat)
  | [] => none
  | x :: xs =>
    match nextPerm xs with
    | some ys => some (x :: ys)
    | none =>
      match replaceFirstGreater x xs.reverse with
      | some r => some (r.1 :: r.2)
      | none => none

/-- The call `std::next_permutation(first, last)`: the rearranged range and the returned
flag; after the last permutation the range is put back in ascending order. -/
def next_permutation (l : List Nat) : List Nat × Bool :=
  match nextPerm l with
  | some l1 => (l1, true)
  | none => (l.reverse, false)

/-- Lexicographic order on node sequences. -/
def lexLt : List Nat → List Nat → Prop
  | [], [] => False
  | [], _ :: _ => True
  | _ :: _, [] => False
  | a :: as, b :: bs => a < b ∨ (a = b ∧ lexLt as bs)

instance lexLt.decide : (l1 l2 : List Nat) → Decidable (lexLt l1 l2)
  | [], [] => isFalse (fun h => h)
  | [], _ :: _ => isTrue trivial
  | _ :: _, [] => isFalse (fun h => h)
  | a :: as, b :: bs =>
    have : Decidable (lexLt as bs) := lexLt.decide as bs
    (inferInstance : Decidable (a < b ∨ (a = b ∧ lexLt as bs)))

/-! ## Brute force: the brute mode of `TSP.cpp` -/

/-- The loop `for (i = 0; i < numNodes - 1; i++) currentPathDistance +=
distance(nodeIndex.at(i), nodeIndex.at(i + 1))`, from the running sum `acc`;
every step adds a `double` to an `int`. -/
def pathDistance (g : graph) (acc : Int) : List Nat → Option Int
  | [] => some acc
  | [_] => some acc
  | a :: b :: rest =>
    match g.distance a b with
    | some d => pathDistance g (doubleToInt (acc + d)) (b :: rest)
    | none => none

/-- The body of the `do` loop up to the comparison: the length of the closed
tour `nodeIndex`. -/
def currentPathDistance (g : graph) (nodeIndex : List Nat) : Option Int :=
  match pathDistance g 0 nodeIndex, nodeIndex.getLast?, nodeIndex.head? with
  | some s, some l, some f =>
    match g.distance l f with
    | some d => some (doubleToInt (s + d))
    | none => none
  | _, _, _ => none

/-- The `do ... while (next_permutation(nodeIndex.begin() + 1, nodeIndex.end()))`
loop, run for at most `fuel` iterations; the state is `nodeIndex`,
`shortestDistance` and the local `pathTaken`. -/
def bruteLoop (g : graph) : Nat → List Nat → Int → List Nat → Option (Int × List Nat)
  | 0, _, _, _ => none
  | fuel + 1, nodeIndex, shortestDistance, pathTaken =>
    match currentPathDistance g nodeIndex with
    | none => none
    | some d =>
      let shortest1 := if d < shortestDistance then d else shortestDistance
      let path1 := if d < shortestDistance then nodeIndex else pathTaken
      match nodeIndex with
      | [] => none
      | first :: tail =>
        match next_permutation tail with
        | (tail1, true) => bruteLoop g fuel (first :: tail1) shortest1 path1
        | (_, false) => some (shortest1, path1)

/-- The brute mode of `main`: `(shortestDistance, pathTaken)`. The loop body runs
once per permutation of the nodes after the first, `(numNodes - 1)!` times. -/
def bruteForce (rows : List (List Int)) : Option (Int × List Nat) :=
  let g := readGraph rows
  if g.numNodes = 0 then none
  else
    bruteLoop g (g.numNodes - 1).factorial (List.range g.numNodes) INT_MAX
      (List.replicate g.numNodes 0)

/-! ## Brute force: `TSP_Brute_Force.cpp` -/

namespace BruteForce

/-- The constant `const int numNodes = 4`. -/
def numNodes : Nat := 4

/-- The loop over `nodeBank` that adds `myGraph[row][nodeBank[i]]` (an `int`) and
moves `row`; returns the total and the last row. -/
def edgeWalk (myGraph : Nat → Nat → Int) : Nat → Int → List Nat → Int × Nat
  | row, total, [] => (total, row)
  | row, total, x :: xs => edgeWalk myGraph x (wrapInt (total + myGraph row x)) xs

/-- One pass of the `do` body: `totalEdgeWeight` for the current `nodeBank`. -/
def totalEdgeWeight (myGraph : Nat → Nat → Int) (startingNode : Nat) (nodeBank : List Nat) :
    Int :=
  let r := edgeWalk myGraph startingNode 0 nodeBank
  wrapInt (r.1 + myGraph r.2 startingNode)

/-- The `do ... while (next_permutation(nodeBank.begin(), nodeBank.end()))` loop,
run for at most `fuel` iterations. -/
def minLoop (myGraph : Nat → Nat → Int) (startingNode : Nat) :
    Nat → List Nat → Int → Option Int
  | 0, _, _ => none
  | fuel + 1, nodeBank, minimumPath =>
    let total := totalEdgeWeight myGraph startingNode nodeBank
    let min1 := if total < minimumPath then total else minimumPath
    match next_permutation nodeBank with
    | (bank1, true) => minLoop myGraph startingNode fuel bank1 min1
    | (_, false) => some min1

/-- The function `findMinimumPath(myGraph, startingNode)`. -/
def findMinimumPath (myGraph : Nat → Nat → Int) (startingNode : Nat) : Option Int :=
  minLoop myGraph startingNode (numNodes - 1).factorial
    ((List.range numNodes).filter (fun i => i ≠ startingNode)) INT_MAX

/-- The matrix `myGraph` of `main`. -/
def mainGraph (i j : Nat) : Int :=
  (([[0, 10, 15, 20], [10, 0, 35, 25], [15, 35, 0, 30], [20, 25, 30, 0]] :
    List (List Int)).getD i []).getD j 0

end BruteForce

/-! ## Specification vocabulary for the permutation search -/

/-- One visit of a search for the minimum: the cost of the arrangement `l` is
compared with the best so far and recorded when strictly smaller. -/
def searchStep (cost : List Nat → Option Int) (record : List Nat → List Nat)
    (acc : Int × List Nat) (l : List Nat) : Option (Int × List Nat) :=
  match cost l with
  | some d => some (if d < acc.1 then (d, record l) else acc)
  | none => none

/-- The common shape of the two brute-force loops: visit the arrangement, then
move to the next permutation until there is none. -/
def permFold (cost : List Nat → Option Int) (record : List Nat → List Nat) :
    Nat → List Nat → Int × List Nat → Option (Int × List Nat)
  | 0, _, _ => none
  | fuel + 1, l, acc =>
    match searchStep cost record acc l with
    | none => none
    | some acc1 =>
      match nextPerm l with
      | some l1 => permFold cost record fuel l1 acc1
      | none => some acc1

/-- The number of rearrangements of `base` that come after `l`. -/
def laterPerms (base l : List Nat) : Nat :=
  (base.permutations.filter (fun p => decide (lexLt l p))).length

/-- The length of a walk under a distance function `d`. -/
def walkLen (d : Nat → Nat → Int) : List Nat → Int
  | [] => 0
  | [_] => 0
  | a :: b :: rest => d a b + walkLen d (b :: rest)

/-- The length of the closed tour through `seq`: the consecutive distances plus
the return edge from the last node to the first. -/
def closedLen (d : Nat → Nat → Int) (seq : List Nat) : Int :=
  walkLen d (seq ++ seq.take 1)

/-- The closed-tour length of an ordering of the nodes of a graph. -/
def tourLength (g : graph) (seq : List Nat) : Int := closedLen g.dist seq

/-- Row `i` of the input stores the distance to every lower node. -/
def CoversLowerTriangle (rows : List (List Int)) : Prop :=
  ∀ i < rows.length, i ≤ (rowAt rows i).length

instance (rows : List (List Int)) : Decidable (CoversLowerTriangle rows) := by
  unfold CoversLowerTriangle; infer_instance

/-- A symmetric matrix whose only closed tour has length exactly `INT_MAX`. -/
def intMaxRows : List (List Int) := [[0], [1, 0], [2147483645, 1, 0]]

/-! ## Specification vocabulary for the branches of the edge loop -/

/-- The branch of the if/else chain over the node types (lines 433-521) that an
iteration with end nodes `l` and `r` takes, numbered 1 (both untouched), 2 (both
inside), 3 (both leaders), 4 (leader and inside), 5 (inside and untouched),
6 (the final `else`), in source order. -/
def edgeBranch (ns : List node) (l r : Nat) : Nat :=
  if typeAt ns l = 0 ∧ typeAt ns r = 0 then 1
  else if typeAt ns l = 2 ∧ typeAt ns r = 2 then 2
  else if typeAt ns l = 1 ∧ typeAt ns r = 1 then 3
  else if (typeAt ns l = 1 ∧ typeAt ns r = 2) ∨ (typeAt ns l = 2 ∧ typeAt ns r = 1) then 4
  else if (typeAt ns l = 2 ∧ typeAt ns r = 0) ∨ (typeAt ns l = 0 ∧ typeAt ns r = 2) then 5
  else 6

/-- The number of connections that have node `v` as an endpoint. -/
def touching (cs : List connectedNode) (v : Nat) : Nat :=
  cs.countP (fun c => c.connectedLeftNode = v ∨ c.connectedRightNode = v)

/-- An input of one row whose only entry, on the diagonal, is not zero. -/
def selfLoopRows : List (List Int) := [[5]]

/-- A lower-triangular input in which only `d(0,1) = 1` and `d(2,3) = 2` are not
zero: the edge loop leaves two separate paths. -/
def twoPathRows : List (List Int) := [[0], [1, 0], [0, 0, 0], [0, 0, 2, 0]]

/-- A lower-triangular input with a non-zero diagonal entry at node 0. -/
def oneLeaderRows : List (List Int) := [[1], [5, 0]]

/-- An input of one row whose only entry, on the diagonal, is `INT_MIN`. -/
def minEntryRows : List (List Int) := [[-2147483648]]

/-- An input whose row 3 is too short to hold the distance to node 1. -/
def shortRows : List (List Int) := [[], [5], [], [9]]

/-- A well-formed input on four nodes whose third edge in ascending order,
`(5, 3, 1)`, joins the two paths made by the first two. -/
def mergeRows : List (List Int) := [[0], [1, 0], [9, 9, 0], [9, 5, 2, 0]]

/-- The state of the run on `mergeRows` after its first two edges, `(1, 1, 0)` and
`(2, 3, 2)`, were processed. -/
def mergeState : state :=
  ⟨⟨4, mergeRows, insertionSortWeights (readGraph mergeRows).weights,
    [⟨0, 1, 1, false⟩, ⟨1, 1, 1, false⟩, ⟨2, 1, 2, false⟩, ⟨3, 1, 2, false⟩],
    [⟨1, 0, false⟩, ⟨3, 2, false⟩], []⟩, 3, 3⟩

/-- The state/degree invariant of the edge loop: no connection joins a node to
itself, a node's type is the number of connections it is an endpoint of, and the
types are 0, 1 or 2. -/
structure DegInv (st : state) : Prop where
  loopfree : ∀ c ∈ st.myGraph.connectedNodes, c.connectedLeftNode ≠ c.connectedRightNode
  deg : ∀ v, touching st.myGraph.connectedNodes v = typeAt st.myGraph.nodes v
  le : ∀ v, typeAt st.myGraph.nodes v ≤ 2

/-! ## Specification vocabulary for connectivity -/

/-- Two nodes are adjacent when some connection has them as its two ends. -/
def Adjacent (cs : List connectedNode) (x y : Nat) : Prop :=
  ∃ c ∈ cs, (c.connectedLeftNode = x ∧ c.connectedRightNode = y) ∨
    (c.connectedLeftNode = y ∧ c.connectedRightNode = x)

/-- Two nodes are joined by a chain of connections (the empty chain joins a
node to itself). -/
def Joined (cs : List connectedNode) (x y : Nat) : Prop :=
  Relation.ReflTransGen (Adjacent cs) x y

/-- The group invariant of the edge loop: types are 0, 1 or 2; an untouched node
has group 0 and no connection; a touched node has a group id from 1 up to below
the group counter; two touched nodes have the same group exactly when a chain of
connections joins them. -/
structure GroupInv (st : state) : Prop where
  le : ∀ v, typeAt st.myGraph.nodes v ≤ 2
  untouched : ∀ v, typeAt st.myGraph.nodes v = 0 → groupAt st.myGraph.nodes v = 0 ∧
    ∀ c ∈ st.myGraph.connectedNodes, c.connectedLeftNode ≠ v ∧ c.connectedRightNode ≠ v
  touched : ∀ v, typeAt st.myGraph.nodes v ≠ 0 →
    1 ≤ groupAt st.myGraph.nodes v ∧ groupAt st.myGraph.nodes v < st.globalGroupNumber
  conn : ∀ u v, typeAt st.myGraph.nodes u ≠ 0 → typeAt st.myGraph.nodes v ≠ 0 →
    (groupAt st.myGraph.nodes u = groupAt st.myGraph.nodes v ↔
      Joined st.myGraph.connectedNodes u v)
  counter : 1 ≤ st.globalGroupNumber

/-- The distinct nodes `vs` lie on a cycle of the edges `E`: the hops of the closed
walk through `vs` (back to its first node) are found among `E`, each as often as
the walk uses it.  One node with a self-loop is a cycle, and so are two nodes
with two parallel edges. -/
def IsCycle (E : List (Sym2 Nat)) (vs : List Nat) : Prop :=
  vs ≠ [] ∧ vs.Nodup ∧ (hops (vs ++ vs.take 1)).Subperm E

/-- The two ends of a path: its first and its last node. -/
def pathEnds (p : List Nat) : List Nat := p.head?.toList ++ p.getLast?.toList

/-- All entries of the input in row-major order (row, then column), each
recorded as the triple `(value = entry, fromNode = row index, toNode = column
index)`. -/
def rowMajorEntries (rows : List (List Int)) : List weight :=
  (List.range rows.length).flatMap (fun i =>
    (List.range (rowAt rows i).length).map (fun j => ⟨(rowAt rows i).getD j 0, i, j⟩))

/-! ## The path retrace with one hop per iteration -/

/-- One iteration of the one-hop procedure: the lowest-index unchecked connection
touching the current node is marked checked, the current node id is appended
and the walker moves to the other end; `none` when there is no such connection. -/
def oneHop (ns : List node) (wk : walker) :
    List connectedNode → Option (walker × List connectedNode)
  | [] => none
  | c :: cs =>
    if eligible wk c then some (hop ns wk c, { c with checked := true } :: cs)
    else
      match oneHop ns wk cs with
      | some r => some (r.1, c :: r.2)
      | none => none

/-- The one-hop procedure for `k` iterations; it fails when an iteration finds
no connection. -/
def oneHopWalk (ns : List node) : Nat → walker → List connectedNode →
    Option (walker × List connectedNode)
  | 0, wk, cs => some (wk, cs)
  | k + 1, wk, cs =>
    match oneHop ns wk cs with
    | some r => oneHopWalk ns k r.1 r.2
    | none => none

/-- The path reconstruction with exactly one hop per iteration: `numNodes` hops
from `a`, then `a` once more. -/
def oneHopRetrace (st : state) (a : Nat) : Option state :=
  match oneHopWalk st.myGraph.nodes st.myGraph.numNodes ⟨a, st.myGraph.pathTaken⟩
      st.myGraph.connectedNodes with
  | some r =>
    some { st with
      myGraph := { st.myGraph with
        connectedNodes := r.2
        pathTaken := r.1.pathTaken ++ [nameAt st.myGraph.nodes a] } }
  | none => none

/-- The state of the run on the scenario rows after the closer: the four
connections form the cycle 2, 0, 1, 3. -/
def closedState : state :=
  ⟨⟨4, (readGraph scenarioRows).matrix, insertionSortWeights (readGraph scenarioRows).weights,
    [⟨0, 2, 1, false⟩, ⟨1, 2, 1, false⟩, ⟨2, 1, 1, false⟩, ⟨3, 1, 1, false⟩],
    [⟨1, 0, false⟩, ⟨2, 0, false⟩, ⟨3, 1, false⟩, ⟨2, 3, false⟩], []⟩, 2, 80⟩

/-! ## The nearest-neighbour mode of `main` (lines 197-231)

`graph::distance` returns `double`; the values it returns are the `int` entries
of the matrix, so the comparison with `smallestWeight` and the assignment
`smallestWeight = distance(..)` are exact.  `totalWeight += smallestWeight` adds
two `int`s; the last statement, `totalWeight += distance(..)`, adds a `double`. -/

/-- The assignment `p->wasTouched = true`. -/
def setTouched (ns : List node) (p : Nat) : List node :=
  modifyNode (fun n => { n with wasTouched := true }) ns p

/-- The read `nodes.at(i)->wasTouched`. -/
def touchedAt (ns : List node) (i : Nat) : Bool :=
  match ns[i]? with
  | some n => n.wasTouched
  | none => false

/-- The locals of the nearest-neighbour mode: the graph, `currentNodeIndex`,
`smallestNodeIndex` (`none` while it is uninitialised) and `totalWeight`. -/
structure nearestState where
  myGraph : graph
  currentNodeIndex : Nat
  smallestNodeIndex : Option Nat
  totalWeight : Int
deriving DecidableEq, Repr

/-- The inner loop `for (i = 0; i < nodes.size(); i++)` over the indices `is`;
the accumulator is `(smallestWeight, smallestNodeIndex)`. -/
def nearestScan (g : graph) (currentNodeIndex : Nat) :
    List Nat → Int × Option Nat → Option (Int × Option Nat)
  | [], acc => some acc
  | i :: is, acc =>
    if currentNodeIndex ≠ i ∧ touchedAt g.nodes i = false then
      match g.distance currentNodeIndex i with
      | some d =>
        if d < acc.1 then nearestScan g currentNodeIndex is (d, some i)
        else nearestScan g currentNodeIndex is acc
      | none => none
    else nearestScan g currentNodeIndex is acc

/-- The outer loop `for (x = 0; x < nodes.size() - 1; x++)`, `k` iterations. -/
def nearestLoop : Nat → nearestState → Option nearestState
  | 0, s => some s
  | k + 1, s =>
    match nearestScan s.myGraph s.currentNodeIndex (List.range s.myGraph.nodes.length)
        (INT_MAX, s.smallestNodeIndex) with
    | some (smallestWeight, some smallestNodeIndex) =>
      if smallestNodeIndex < s.myGraph.nodes.length ∧
          (s.myGraph.distance s.currentNodeIndex smallestNodeIndex).isSome then
        nearestLoop k
          { myGraph := { s.myGraph with
              pathTaken := s.myGraph.pathTaken ++ [s.currentNodeIndex]
              nodes := setTouched s.myGraph.nodes smallestNodeIndex }
            currentNodeIndex := smallestNodeIndex
            smallestNodeIndex := some smallestNodeIndex
            totalWeight := wrapInt (s.totalWeight + smallestWeight) }
      else none
    | _ => none

/-- The nearest-neighbour mode of `main`: `(pathTaken, totalWeight)` at the end. -/
def nearestNeighbor (rows : List (List Int)) : Option (List Nat × Int) :=
  let g := readGraph rows
  if 0 < g.nodes.length then
    match nearestLoop (g.nodes.length - 1)
        ⟨{ g with nodes := setTouched g.nodes 0 }, 0, none, 0⟩ with
    | some s =>
      match s.myGraph.distance s.currentNodeIndex 0 with
      | some d =>
        some (s.myGraph.pathTaken ++ [s.currentNodeIndex], doubleToInt (s.totalWeight + d))
      | none => none
    | none => none
  else none

/-! ## Specification vocabulary for the nearest-neighbour mode -/

/-- Each next node of `path` is not yet on the path and is, among the `n` nodes
not yet on the path, one of minimum distance from the node before it, with the
lowest id among those of minimum distance. -/
def Greedy (g : graph) (n : Nat) (path : List Nat) : Prop :=
  ∀ pre cur nxt post, path = pre ++ cur :: nxt :: post →
    nxt ∉ pre ++ [cur] ∧
    ∀ j < n, j ∉ pre ++ [cur] →
      g.dist cur nxt ≤ g.dist cur j ∧ (g.dist cur j = g.dist cur nxt → nxt ≤ j)

/-- The invariant of the outer loop of the nearest-neighbour mode; the nodes
visited so far are `pathTaken` followed by the current node. -/
structure NearInv (g0 : graph) (n : Nat) (s : nearestState) : Prop where
  len : s.myGraph.nodes.length = n
  mat : s.myGraph.matrix = g0.matrix
  nodup : (s.myGraph.pathTaken ++ [s.currentNodeIndex]).Nodup
  bound : ∀ v ∈ s.myGraph.pathTaken ++ [s.currentNodeIndex], v < n
  start : (s.myGraph.pathTaken ++ [s.currentNodeIndex]).head? = some 0
  touched : ∀ i, touchedAt s.myGraph.nodes i = true ↔
    i ∈ s.myGraph.pathTaken ++ [s.currentNodeIndex]
  total : s.totalWeight =
    wrapInt (walkLength g0 (s.myGraph.pathTaken ++ [s.currentNodeIndex]))
  greedy : Greedy g0 n (s.myGraph.pathTaken ++ [s.currentNodeIndex])

/-! ## Specification vocabulary for totals held in an `int` -/

/-- No entry of the input is negative. -/
def NonNegative (rows : List (List Int)) : Prop := ∀ row ∈ rows, ∀ x ∈ row, 0 ≤ x

instance (rows : List (List Int)) : Decidable (NonNegative rows) := by
  unfold NonNegative; infer_instance

/-- A well-formed matrix on three nodes whose three distances are all `INT_MAX`. -/
def intMaxEdgeRows : List (List Int) := [[0], [2147483647, 0], [2147483647, 2147483647, 0]]

/-- A well-formed matrix on three nodes with `d(0,1) = d(0,2) = 1` and
`d(1,2) = INT_MAX`. -/
def longEdgeRows : List (List Int) := [[0], [1, 0], [1, 2147483647, 0]]

/-- A well-formed matrix on three nodes whose three distances are all `2^30`. -/
def halfRangeRows : List (List Int) := [[0], [1073741824, 0], [1073741824, 1073741824, 0]]

/-- A well-formed matrix on three nodes whose three distances are all
`INT_MAX - 1`. -/
def nearMaxRows : List (List Int) := [[0], [2147483646, 0], [2147483646, 2147483646, 0]]

/-! ## `std::sort` as the GNU C++ library implements it

`graph::sortWeghts` calls `std::sort(weights.begin(), weights.end(), comp)` with
`comp(a, b) = a->value < b->value`.  The library routine (`__sort` in
`bits/stl_algo.h`, the heap routines in `bits/stl_heap.h`, GCC 12) works in
place on the vector; here the vector is a list and a random-access iterator is
the index of the element it points to.  Several loops of the library are
unguarded: they do not compare the iterator with the bounds of the range.  In
the embedding every read and every write goes through the index, and a routine
that would touch an element outside the vector returns `none`, as does a loop
that is given too little fuel. -/

/-- The store `*i = v`. -/
def storeAt (xs : List weight) (i : Nat) (v : weight) : Option (List weight) :=
  if i < xs.length then some (xs.set i v) else none

/-- The decrement `--i` of an iterator. -/
def prev (i : Nat) : Option Nat := if i = 0 then none else some (i - 1)

/-- The call `__comp(i, j)` on two iterators: `(*i)->value < (*j)->value`. -/
def compAt (xs : List weight) (i j : Nat) : Option Bool :=
  match xs[i]?, xs[j]? with
  | some a, some b => some (decide (a.value < b.value))
  | _, _ => none

/-- The call `std::iter_swap(i, j)`. -/
def iterSwap (xs : List weight) (i j : Nat) : Option (List weight) :=
  match xs[i]?, xs[j]? with
  | some a, some b => some ((xs.set i b).set j a)
  | _, _ => none

/-- The assignment `*i = *j`. -/
def assignAt (xs : List weight) (i j : Nat) : Option (List weight) :=
  match xs[j]? with
  | some b => storeAt xs i b
  | none => none

/-- The routine `__move_median_to_first(result, a, b, c, comp)`. -/
def moveMedianToFirst (xs : List weight) (result a b c : Nat) : Option (List weight) :=
  match compAt xs a b, compAt xs b c, compAt xs a c with
  | some ab, some bc, some ac =>
    if ab then
      if bc then iterSwap xs result b
      else if ac then iterSwap xs result c
      else iterSwap xs result a
    else if ac then iterSwap xs result a
    else if bc then iterSwap xs result c
    else iterSwap xs result b
  | _, _, _ => none

/-- The loop `while (__comp(__first, __pivot)) ++__first;`. -/
def scanForward (xs : List weight) (pivot : Nat) : Nat → Nat → Option Nat
  | 0, _ => none
  | fuel + 1, first =>
    match compAt xs first pivot with
    | some true => scanForward xs pivot fuel (first + 1)
    | some false => some first
    | none => none

/-- The loop `while (__comp(__pivot, __last)) --__last;`. -/
def scanBackward (xs : List weight) (pivot : Nat) : Nat → Nat → Option Nat
  | 0, _ => none
  | fuel + 1, last =>
    match compAt xs pivot last with
    | some true => (prev last).bind (scanBackward xs pivot fuel)
    | some false => some last
    | none => none

/-- The routine `__unguarded_partition(first, last, pivot, comp)`: the rearranged
vector and the returned iterator; `fuel` bounds the passes of the outer loop. -/
def unguardedPartition (pivot : Nat) : Nat → List weight → Nat → Nat → Option (List weight × Nat)
  | 0, _, _, _ => none
  | fuel + 1, xs, first, last => do
    let first1 ← scanForward xs pivot xs.length first
    let last0 ← prev last
    let last1 ← scanBackward xs pivot xs.length last0
    if first1 < last1 then
      let xs1 ← iterSwap xs first1 last1
      unguardedPartition pivot fuel xs1 (first1 + 1) last1
    else pure (xs, first1)

/-- The routine `__unguarded_partition_pivot(first, last, comp)`. -/
def unguardedPartitionPivot (xs : List weight) (first last : Nat) : Option (List weight × Nat) := do
  let mid := first + (last - first) / 2
  let last0 ← prev last
  let xs1 ← moveMedianToFirst xs first (first + 1) mid last0
  unguardedPartition first xs1.length xs1 (first + 1) last

/-- The routine `__push_heap(first, holeIndex, topIndex, value, comp)`. -/
def pushHeap (first topIndex : Nat) (value : weight) :
    Nat → List weight → Nat → Option (List weight)
  | 0, _, _ => none
  | fuel + 1, xs, holeIndex =>
    if topIndex < holeIndex then
      match xs[first + (holeIndex - 1) / 2]? with
      | some p =>
        if p.value < value.value then
          (storeAt xs (first + holeIndex) p).bind
            (fun xs1 => pushHeap first topIndex value fuel xs1 ((holeIndex - 1) / 2))
        else storeAt xs (first + holeIndex) value
      | none => none
    else storeAt xs (first + holeIndex) value

/-- The first loop of `__adjust_heap`: the hole moves down to the larger child
while `secondChild < (len - 1) / 2`; returns the vector and the hole. -/
def siftHole (first len : Nat) : Nat → List weight → Nat → Option (List weight × Nat)
  | 0, _, _ => none
  | fuel + 1, xs, holeIndex =>
    if holeIndex < (len - 1) / 2 then
      match compAt xs (first + 2 * (holeIndex + 1)) (first + (2 * (holeIndex + 1) - 1)) with
      | some c =>
        let child := if c then 2 * (holeIndex + 1) - 1 else 2 * (holeIndex + 1)
        (assignAt xs (first + holeIndex) (first + child)).bind
          (fun xs1 => siftHole first len fuel xs1 child)
      | none => none
    else some (xs, holeIndex)

/-- The step of `__adjust_heap` for a last node with one child only; the test
`secondChild == (len - 2) / 2` of the library is on signed numbers and fails
for `len < 2`. -/
def lastChild (first len : Nat) (r : List weight × Nat) : Option (List weight × Nat) :=
  if len % 2 = 0 ∧ 2 ≤ len ∧ r.2 = (len - 2) / 2 then
    (assignAt r.1 (first + r.2) (first + (2 * (r.2 + 1) - 1))).map
      (fun xs1 => (xs1, 2 * (r.2 + 1) - 1))
  else some r

/-- The routine `__adjust_heap(first, holeIndex, len, value, comp)`. -/
def adjustHeap (xs : List weight) (first holeIndex len : Nat) (value : weight) :
    Option (List weight) := do
  let r ← siftHole first len (len + 1) xs holeIndex
  let r1 ← lastChild first len r
  pushHeap first holeIndex value (len + 1) r1.1 r1.2

/-- The routine `__pop_heap(first, last, result, comp)`. -/
def popHeap (xs : List weight) (first last result : Nat) : Option (List weight) := do
  let value ← xs[result]?
  let xs1 ← assignAt xs result first
  adjustHeap xs1 first 0 (last - first) value

/-- The loop of `__make_heap`, from `parent` down to 0. -/
def makeHeapLoop (first len : Nat) : Nat → List weight → Option (List weight)
  | 0, xs => do
    let value ← xs[first]?
    adjustHeap xs first 0 len value
  | parent + 1, xs => do
    let value ← xs[first + (parent + 1)]?
    let xs1 ← adjustHeap xs first (parent + 1) len value
    makeHeapLoop first len parent xs1

/-- The routine `__make_heap(first, last, comp)`. -/
def makeHeap (xs : List weight) (first last : Nat) : Option (List weight) :=
  if last - first < 2 then some xs
  else makeHeapLoop first (last - first) ((last - first - 2) / 2) xs

/-- The loop of `__heap_select` over the iterators from `i` on, `n` of them. -/
def selectLoop (first middle : Nat) : Nat → List weight → Nat → Option (List weight)
  | 0, xs, _ => some xs
  | n + 1, xs, i =>
    match compAt xs i first with
    | some true => (popHeap xs first middle i).bind (fun xs1 => selectLoop first middle n xs1 (i + 1))
    | some false => selectLoop first middle n xs (i + 1)
    | none => none

/-- The routine `__heap_select(first, middle, last, comp)`. -/
def heapSelect (xs : List weight) (first middle last : Nat) : Option (List weight) := do
  let xs1 ← makeHeap xs first middle
  selectLoop first middle (last - middle) xs1 middle

/-- The routine `__sort_heap(first, last, comp)`; `n` is `last - first`. -/
def sortHeap (first : Nat) : Nat → List weight → Option (List weight)
  | 0, xs => some xs
  | n + 1, xs =>
    if 1 < n + 1 then
      (popHeap xs first (first + n) (first + n)).bind (fun xs1 => sortHeap first n xs1)
    else some xs

/-- The routine `__partial_sort(first, middle, last, comp)`. -/
def partialSort (xs : List weight) (first middle last : Nat) : Option (List weight) := do
  let xs1 ← heapSelect xs first middle last
  sortHeap first (middle - first) xs1

/-- The routine `__introsort_loop(first, last, depth_limit, comp)`, with
`_S_threshold = 16`. -/
def introsortLoop : Nat → List weight → Nat → Nat → Option (List weight)
  | 0, xs, first, last => if 16 < last - first then partialSort xs first last last else some xs
  | depth + 1, xs, first, last =>
    if 16 < last - first then do
      let r ← unguardedPartitionPivot xs first last
      let xs1 ← introsortLoop depth r.1 r.2 last
      introsortLoop depth xs1 first r.2
    else some xs

/-- The loop of `__unguarded_linear_insert` for the value `val` taken from
`*last`: larger elements move one place up until an element that is not larger
than `val` is met; nothing stops the loop at the start of the vector. -/
def linearInsert (val : weight) : List weight → Nat → Option (List weight)
  | _, 0 => none
  | xs, next + 1 =>
    match xs[next]? with
    | some nx =>
      if val.value < nx.value then
        (storeAt xs (next + 1) nx).bind (fun xs1 => linearInsert val xs1 next)
      else storeAt xs (next + 1) val
    | none => none

/-- The routine `__unguarded_linear_insert(last, comp)`. -/
def unguardedLinearInsert (xs : List weight) (last : Nat) : Option (List weight) :=
  match xs[last]? with
  | some val => linearInsert val xs last
  | none => none

/-- One pass of the loop of `__insertion_sort(first, last, comp)`, for the
iterator `i`: `std::move_backward(first, i, i + 1)` and `*first = val` when `*i`
is less than `*first`, `__unguarded_linear_insert(i)` otherwise. -/
def insertionStep (first : Nat) (xs : List weight) (i : Nat) : Option (List weight) :=
  match compAt xs i first, xs[i]? with
  | some true, some val =>
    some (xs.take first ++ val :: ((xs.drop first).take (i - first) ++ xs.drop (i + 1)))
  | some false, _ => unguardedLinearInsert xs i
  | _, _ => none

/-- The loop of `__insertion_sort` over `n` iterators from `i` on. -/
def insertionLoop (first : Nat) : Nat → List weight → Nat → Option (List weight)
  | 0, xs, _ => some xs
  | n + 1, xs, i => (insertionStep first xs i).bind (fun xs1 => insertionLoop first n xs1 (i + 1))

/-- The routine `__insertion_sort(first, last, comp)`; its loop ends when the
iterator equals `last`. -/
def insertionSort (xs : List weight) (first last : Nat) : Option (List weight) :=
  if first = last then some xs
  else if last < first + 1 then none
  else insertionLoop first (last - (first + 1)) xs (first + 1)

/-- The loop of `__unguarded_insertion_sort` over `n` iterators from `i` on. -/
def unguardedLoop : Nat → List weight → Nat → Option (List weight)
  | 0, xs, _ => some xs
  | n + 1, xs, i => (unguardedLinearInsert xs i).bind (fun xs1 => unguardedLoop n xs1 (i + 1))

/-- The routine `__unguarded_insertion_sort(first, last, comp)`. -/
def unguardedInsertionSort (xs : List weight) (first last : Nat) : Option (List weight) :=
  if last < first then none else unguardedLoop (last - first) xs first

/-- The routine `__final_insertion_sort(first, last, comp)`. -/
def finalInsertionSort (xs : List weight) (first last : Nat) : Option (List weight) :=
  if 16 < last - first then
    (insertionSort xs first (first + 16)).bind
      (fun xs1 => unguardedInsertionSort xs1 (first + 16) last)
  else insertionSort xs first last

/-- The function `std::__lg(n)`: the position of the highest bit set in `n`. -/
def lg : Nat → Nat → Nat
  | 0, _ => 0
  | fuel + 1, n => if 2 ≤ n then lg fuel (n / 2) + 1 else 0

/-- The routine `std::sort(first, last, comp)` (`__sort`) on the whole vector. -/
def stdSort (xs : List weight) : Option (List weight) :=
  if xs.length = 0 then some xs
  else
    (introsortLoop (lg xs.length xs.length * 2) xs 0 xs.length).bind
      (fun xs1 => finalInsertionSort xs1 0 xs.length)

/-- The vector that `std::sort` leaves; the sort returns on every vector
(`stdSort_librarySort`), so the second case never occurs. -/
def librarySort (xs : List weight) : List weight :=
  match stdSort xs with
  | some ys => ys
  | none => xs

/-! ## Specification vocabulary for the sort -/

/-- The value `val` put into a list that is given back to front: it goes behind
every element that is larger, up to the first one that is not. -/
def insertBehind (val : weight) : List weight → List weight
  | [] => [val]
  | x :: r => if val.value < x.value then x :: insertBehind val r else val :: x :: r

/-- Insertion sort from front to back: the elements of the second list are
inserted one by one into `pre`, the part in order so far. -/
def insertAll : List weight → List weight → List weight
  | pre, [] => pre
  | pre, val :: rest => insertAll (insertBehind val pre.reverse).reverse rest

/-- The weights of value `v`, in the order of the list. -/
def ofValue (v : Int) (l : List weight) : List weight := l.filter (fun w => decide (w.value = v))

/-- The value of the element at index `i`. -/
def valAt (xs : List weight) (i : Nat) : Int :=
  match xs[i]? with
  | some w => w.value
  | none => 0

/-- The vector `ys` comes from `xs` by moving elements inside the range from `a`
up to `b`: the length and the elements outside the range are those of `xs`, the
vector is a rearrangement, and every element inside the range was inside it. -/
structure Within (a b : Nat) (xs ys : List weight) : Prop where
  len : ys.length = xs.length
  out : ∀ i, (i < a ∨ b ≤ i) → ys[i]? = xs[i]?
  perm : ys.Perm xs
  mem : ∀ i, a ≤ i → i < b → ∀ w, ys[i]? = some w → ∃ j, a ≤ j ∧ j < b ∧ xs[j]? = some w

/-- The node `h` of a binary heap lies in the subtree of the node `top`: the
parent of node `c` is node `(c - 1) / 2`. -/
inductive Below (top : Nat) : Nat → Prop
  | refl : Below top top
  | child (h c : Nat) : Below top h → 0 < c → (c - 1) / 2 = h → Below top c

/-- Heap order on the `len` elements from `first` on, for every node whose parent
is node `top` or a later one: no element is larger than its parent. -/
def HeapFrom (xs : List weight) (first len top : Nat) : Prop :=
  ∀ i, 0 < i → i < len → top ≤ (i - 1) / 2 →
    valAt xs (first + i) ≤ valAt xs (first + (i - 1) / 2)

/-- Heap order as in `HeapFrom`, except for the children of the hole `h`. -/
def HeapBut (xs : List weight) (first len top h : Nat) : Prop :=
  ∀ i, 0 < i → i < len → top ≤ (i - 1) / 2 → (i - 1) / 2 ≠ h →
    valAt xs (first + i) ≤ valAt xs (first + (i - 1) / 2)

/-- No child of the hole `h` is larger than the parent of the hole. -/
def OverHole (xs : List weight) (first len top h : Nat) : Prop :=
  top < h → ∀ c, 0 < c → c < len → (c - 1) / 2 = h →
    valAt xs (first + c) ≤ valAt xs (first + (h - 1) / 2)

/-- The vector `ys` comes from `xs` by stores into the `len` elements from
`first` on, each of an element of that part of `xs` or of `value`. -/
structure HeapMove (first len : Nat) (value : weight) (xs ys : List weight) : Prop where
  size : ys.length = xs.length
  out : ∀ i, (i < first ∨ first + len ≤ i) → ys[i]? = xs[i]?
  mem : ∀ i, i < len → ∀ w, ys[first + i]? = some w →
    w = value ∨ ∃ j, j < len ∧ xs[first + j]? = some w

/-- Every element of the range from `lo` up to `hi`, from the 17th on, has an
element before it in the range that is not larger: the unguarded insertion
loop of the library stops inside the range. -/
def Guarded (xs : List weight) (lo hi : Nat) : Prop :=
  ∀ i, lo + 16 ≤ i → i < hi → ∃ j, lo ≤ j ∧ j < i ∧ valAt xs j ≤ valAt xs i

/-- A well-formed matrix on seven nodes whose 21 distances are the numbers 1 to 20,
the distance 2 occurring twice: at row 6, column 2 and at row 6, column 4. -/
def tieRows : List (List Int) :=
  [[0], [17, 0], [7, 18, 0], [6, 19, 5, 0], [8, 12, 15, 20, 0], [4, 9, 14, 3, 11, 0],
    [13, 10, 2, 16, 2, 1, 0]]

/-! # Theorems -/

/-! ## Machine arithmetic -/

theorem wrapInt_of_range (x : Int) (h1 : INT_MIN ≤ x) (h2 : x ≤ INT_MAX) : wrapInt x = x := by
  unfold INT_MIN at h1
  unfold INT_MAX at h2
  unfold wrapInt
  omega

theorem wrapInt_range (x : Int) : INT_MIN ≤ wrapInt x ∧ wrapInt x ≤ INT_MAX := by
  unfold INT_MIN INT_MAX wrapInt
  omega

theorem wrapInt_add_left (a b : Int) : wrapInt (wrapInt a + b) = wrapInt (a + b) := by
  unfold wrapInt
  omega

theorem wrapInt_zero : wrapInt 0 = 0 := by
  decide

theorem doubleToInt_of_range (x : Int) (h1 : INT_MIN ≤ x) (h2 : x ≤ INT_MAX) :
    doubleToInt x = x := by
  unfold doubleToInt
  rw [if_pos ⟨h1, h2⟩]

theorem doubleToInt_range (x : Int) : INT_MIN ≤ doubleToInt x ∧ doubleToInt x ≤ INT_MAX := by
  unfold doubleToInt
  by_cases h : INT_MIN ≤ x ∧ x ≤ INT_MAX
  · rw [if_pos h]
    exact h
  · rw [if_neg h]
    unfold INT_MIN INT_MAX
    omega

/-! ## The matrix and the edge list after reading -/

theorem getD_resize (m : List (List Int)) (k i : Nat) (h : m.length ≤ k) :
    (resize m k).getD i [] = m.getD i [] := by
  unfold resize
  rw [List.take_of_length_le h]
  simp only [List.getD_eq_getElem?_getD]
  by_cases hi : i < m.length
  · rw [List.getElem?_append_left hi]
  · rw [List.getElem?_append_right (by omega)]
    rw [List.getElem?_eq_none (by omega : m.length ≤ i)]
    by_cases h2 : i - m.length < k - m.length
    · rw [List.getElem?_replicate_of_lt h2]; rfl
    · rw [List.getElem?_eq_none (by simp; omega)]

theorem length_resize (m : List (List Int)) (k : Nat) (h : m.length ≤ k) :
    (resize m k).length = k := by
  unfold resize
  rw [List.take_of_length_le h]
  simp; omega

theorem pushItem_getD (m : List (List Int)) (row : Nat) (item : Int) (i : Nat) :
    (pushItem m row item).getD i [] =
      if i = row then m.getD row [] ++ [item] else m.getD i [] := by
  have key : ∀ m1 : List (List Int), row < m1.length →
      (m1.set row (m1.getD row [] ++ [item])).getD i [] =
        if i = row then m1.getD row [] ++ [item] else m1.getD i [] := by
    intro m1 hlen
    simp only [List.getD_eq_getElem?_getD]
    by_cases hi : i = row
    · subst hi; simp [hlen]
    · rw [List.getElem?_set_ne (Ne.symm hi)]; simp [hi]
  unfold pushItem
  by_cases hle : m.length ≤ row
  · simp only [hle, if_true]
    rw [key _ (by rw [length_resize _ _ (by omega)]; omega)]
    rw [getD_resize _ _ _ (by omega), getD_resize _ _ _ (by omega)]
  · simp only [hle, if_false]
    exact key _ (by omega)

theorem addWeight_matrix (g : graph) (row : Nat) (item : Int) :
    (g.addWeight row item).matrix = pushItem g.matrix row item := by
  unfold graph.addWeight; split <;> rfl

theorem addWeight_rowAt (g : graph) (row : Nat) (item : Int) (i : Nat) :
    rowAt (g.addWeight row item).matrix i =
      if i = row then rowAt g.matrix row ++ [item] else rowAt g.matrix i := by
  unfold rowAt
  rw [addWeight_matrix, pushItem_getD]

theorem addWeight_weights (g : graph) (row : Nat) (item : Int) :
    (g.addWeight row item).weights =
      g.weights ++ lineWeights row (rowAt g.matrix row).length [item] := by
  have h := pushItem_getD g.matrix row item row
  simp only [if_true] at h
  unfold graph.addWeight lineWeights lineWeights rowAt
  by_cases hz : item = 0
  · simp [hz]
  · simp only [ne_eq, hz, not_false_eq_true, if_true, h]
    simp

theorem addWeight_nodes (g : graph) (row : Nat) (item : Int) :
    (g.addWeight row item).nodes = g.nodes ∧
    (g.addWeight row item).connectedNodes = g.connectedNodes ∧
    (g.addWeight row item).pathTaken = g.pathTaken := by
  unfold graph.addWeight; split <;> simp

theorem readLine_rowAt (index : Nat) (line : List Int) (g : graph) (i : Nat) :
    rowAt (readLine g index line).matrix i =
      if i = index then rowAt g.matrix index ++ line else rowAt g.matrix i := by
  induction line generalizing g with
  | nil => by_cases hi : i = index <;> simp [readLine, hi]
  | cons x xs ih =>
    rw [readLine, ih, addWeight_rowAt, addWeight_rowAt]
    by_cases hi : i = index <;> simp [hi]

theorem lineWeights_append (row : Nat) (l1 l2 : List Int) (c : Nat) :
    lineWeights row c (l1 ++ l2) = lineWeights row c l1 ++ lineWeights row (c + l1.length) l2 := by
  induction l1 generalizing c with
  | nil => simp [lineWeights]
  | cons x xs ih =>
    rw [List.cons_append, lineWeights, lineWeights, ih, List.length_cons,
      show c + 1 + xs.length = c + (xs.length + 1) by omega]
    split <;> simp

theorem readLine_weights (index : Nat) (line : List Int) (g : graph) :
    (readLine g index line).weights =
      g.weights ++ lineWeights index (rowAt g.matrix index).length line := by
  induction line generalizing g with
  | nil => simp [readLine, lineWeights]
  | cons x xs ih =>
    rw [readLine, ih, addWeight_weights, addWeight_rowAt]
    simp only [if_true, List.length_append, List.length_singleton, List.append_assoc]
    rw [show x :: xs = [x] ++ xs by rfl, lineWeights_append]
    simp

theorem readLine_nodes (index : Nat) (line : List Int) (g : graph) :
    (readLine g index line).nodes = g.nodes ∧
    (readLine g index line).connectedNodes = g.connectedNodes ∧
    (readLine g index line).pathTaken = g.pathTaken := by
  induction line generalizing g with
  | nil => simp [readLine]
  | cons x xs ih =>
    rw [readLine]
    have h := addWeight_nodes g index x
    have h2 := ih (g.addWeight index x)
    exact ⟨h2.1.trans h.1, h2.2.1.trans h.2.1, h2.2.2.trans h.2.2⟩

theorem readRows_spec (rows : List (List Int)) (g : graph) (index : Nat)
    (hempty : ∀ i, index ≤ i → rowAt g.matrix i = []) :
    (∀ i, rowAt (readRows g index rows).1.matrix i =
      if i < index then rowAt g.matrix i else rowAt rows (i - index)) ∧
    (readRows g index rows).1.weights = g.weights ++ rowsWeights index rows ∧
    (readRows g index rows).1.nodes = g.nodes ++ (List.range' index rows.length).map node.new ∧
    (readRows g index rows).1.connectedNodes = g.connectedNodes ∧
    (readRows g index rows).1.pathTaken = g.pathTaken ∧
    (readRows g index rows).2 = index + rows.length := by
  induction rows generalizing g index with
  | nil =>
    refine ⟨?_, by simp [readRows, rowsWeights], by simp [readRows], rfl, rfl, rfl⟩
    intro i
    by_cases hi : i < index
    · simp [readRows, hi]
    · simp only [readRows, hi, if_false]
      rw [hempty i (by omega)]; simp [rowAt]
  | cons line rest ih =>
    have hn := readLine_nodes index line g
    have hrow := readLine_rowAt index line g
    have hw := readLine_weights index line g
    have hempty2 : ∀ i, index + 1 ≤ i →
        rowAt ({ readLine g index line with
          nodes := (readLine g index line).nodes ++ [node.new index] } : graph).matrix i = [] := by
      intro i hi
      show rowAt (readLine g index line).matrix i = []
      rw [hrow, if_neg (by omega)]
      exact hempty i (by omega)
    obtain ⟨h1, h2, h3, h4, h5, h6⟩ := ih _ (index + 1) hempty2
    rw [readRows]
    refine ⟨?_, ?_, ?_, ?_, ?_, ?_⟩
    · intro i
      rw [h1 i]
      show (if i < index + 1 then rowAt (readLine g index line).matrix i else _) = _
      rw [hrow]
      by_cases hi : i < index
      · simp [hi, show i < index + 1 by omega, show i ≠ index by omega]
      · by_cases hi2 : i = index
        · simp only [hi2, Nat.lt_irrefl, Nat.lt_succ_self, if_true, if_false, Nat.sub_self]
          rw [hempty index (le_refl _)]
          simp [rowAt]
        · simp only [hi, hi2, show ¬ i < index + 1 by omega, if_false]
          rw [show i - index = (i - (index + 1)) + 1 by omega]
          simp [rowAt]
    · rw [h2]
      show (readLine g index line).weights ++ _ = _
      rw [hw, hempty index (le_refl _)]
      simp [rowsWeights]
    · rw [h3]
      show ((readLine g index line).nodes ++ [node.new index]) ++ _ = _
      rw [hn.1]
      simp [List.range', List.length_cons]
    · rw [h4]; exact hn.2.1
    · rw [h5]; exact hn.2.2
    · rw [h6]; simp; omega

theorem readGraph_rowAt (rows : List (List Int)) (i : Nat) :
    rowAt (readGraph rows).matrix i = rowAt rows i := by
  have h := (readRows_spec rows graph.empty 0 (by intro i _; simp [rowAt, graph.empty])).1 i
  simpa [readGraph] using h

theorem readGraph_weights (rows : List (List Int)) :
    (readGraph rows).weights = rowsWeights 0 rows := by
  have h := (readRows_spec rows graph.empty 0 (by intro i _; simp [rowAt, graph.empty])).2.1
  simpa [readGraph, graph.empty] using h

theorem readGraph_nodes (rows : List (List Int)) :
    (readGraph rows).nodes = (List.range rows.length).map node.new := by
  have h := (readRows_spec rows graph.empty 0 (by intro i _; simp [rowAt, graph.empty])).2.2.1
  simpa [readGraph, graph.empty, List.range_eq_range'] using h

theorem readGraph_numNodes (rows : List (List Int)) :
    (readGraph rows).numNodes = rows.length := by
  have h := (readRows_spec rows graph.empty 0 (by intro i _; simp [rowAt, graph.empty])).2.2.2.2.2
  simpa [readGraph] using h

theorem readGraph_connectedNodes (rows : List (List Int)) :
    (readGraph rows).connectedNodes = [] ∧ (readGraph rows).pathTaken = [] := by
  have h := (readRows_spec rows graph.empty 0 (by intro i _; simp [rowAt, graph.empty]))
  exact ⟨by simpa [readGraph, graph.empty] using h.2.2.2.1,
    by simpa [readGraph, graph.empty] using h.2.2.2.2.1⟩

theorem matAt_eq_rowAt (m : List (List Int)) (r c : Nat) : matAt m r c = (rowAt m r)[c]? := by
  unfold matAt rowAt
  simp only [List.getD_eq_getElem?_getD]
  cases h : m[r]? <;> simp

theorem readGraph_matAt (rows : List (List Int)) (r c : Nat) :
    matAt (readGraph rows).matrix r c = (rowAt rows r)[c]? := by
  rw [matAt_eq_rowAt, readGraph_rowAt]

theorem mem_lineWeights (row : Nat) (ln : List Int) (c : Nat) (w : weight) :
    w ∈ lineWeights row c ln ↔
      w.fromNode = row ∧ c ≤ w.toNode ∧ ln[w.toNode - c]? = some w.value ∧ w.value ≠ 0 := by
  induction ln generalizing c with
  | nil => simp [lineWeights]
  | cons x xs ih =>
    have hcons : w ∈ lineWeights row c (x :: xs) ↔
        (x ≠ 0 ∧ w = ⟨x, row, c⟩) ∨ w ∈ lineWeights row (c + 1) xs := by
      rw [lineWeights]
      by_cases hx : x = 0 <;> simp [hx]
    rw [hcons, ih]
    constructor
    · rintro (⟨hx, rfl⟩ | ⟨h1, h2, h3, h4⟩)
      · simp [hx]
      · refine ⟨h1, by omega, ?_, h4⟩
        rw [show w.toNode - c = (w.toNode - (c + 1)) + 1 by omega]
        simpa using h3
    · rintro ⟨h1, h2, h3, h4⟩
      by_cases hc : w.toNode = c
      · left
        rw [hc] at h3
        simp at h3
        refine ⟨by rw [h3]; exact h4, ?_⟩
        cases w; simp_all
      · right
        refine ⟨h1, by omega, ?_, h4⟩
        rw [show w.toNode - c = (w.toNode - (c + 1)) + 1 by omega] at h3
        simpa using h3

theorem mem_rowsWeights (rows : List (List Int)) (index : Nat) (w : weight) :
    w ∈ rowsWeights index rows ↔
      index ≤ w.fromNode ∧ (rowAt rows (w.fromNode - index))[w.toNode]? = some w.value ∧
        w.value ≠ 0 := by
  induction rows generalizing index with
  | nil => simp [rowsWeights, rowAt]
  | cons line rest ih =>
    rw [rowsWeights, List.mem_append, mem_lineWeights, ih]
    constructor
    · rintro (⟨h1, _, h3, h4⟩ | ⟨h1, h2, h3⟩)
      · refine ⟨by omega, ?_, h4⟩
        rw [h1]; simpa [rowAt] using h3
      · refine ⟨by omega, ?_, h3⟩
        rw [show w.fromNode - index = (w.fromNode - (index + 1)) + 1 by omega]
        simpa [rowAt] using h2
    · rintro ⟨h1, h2, h3⟩
      by_cases hc : w.fromNode = index
      · left
        rw [hc] at h2
        exact ⟨hc, by omega, by simpa [rowAt] using h2, h3⟩
      · right
        refine ⟨by omega, ?_, h3⟩
        rw [show w.fromNode - index = (w.fromNode - (index + 1)) + 1 by omega] at h2
        simpa [rowAt] using h2

theorem nodup_lineWeights (row : Nat) (line : List Int) (c : Nat) :
    (lineWeights row c line).Nodup := by
  induction line generalizing c with
  | nil => simp [lineWeights]
  | cons x xs ih =>
    rw [lineWeights]
    split
    · refine List.nodup_cons.mpr ⟨?_, ih _⟩
      intro hmem
      have := ((mem_lineWeights row xs (c + 1) _).mp hmem).2.1
      simp at this
    · exact ih _

theorem nodup_rowsWeights (rows : List (List Int)) (index : Nat) :
    (rowsWeights index rows).Nodup := by
  induction rows generalizing index with
  | nil => simp [rowsWeights]
  | cons line rest ih =>
    rw [rowsWeights]
    refine List.Nodup.append (nodup_lineWeights _ _ _) (ih _) ?_
    intro w h1 h2
    have a := ((mem_lineWeights _ _ _ _).mp h1).1
    have b := ((mem_rowsWeights _ _ _).mp h2).1
    omega

theorem rowAt_ne_nil_lt (rows : List (List Int)) (i c : Nat) (v : Int)
    (h : (rowAt rows i)[c]? = some v) : i < rows.length := by
  by_contra hlt
  have : rowAt rows i = [] := by
    unfold rowAt
    rw [List.getD_eq_getElem?_getD, List.getElem?_eq_none (by omega)]; rfl
  rw [this] at h
  simp at h

/-- Every edge read from a lower-triangular input with zero diagonal runs from a
row to a strictly smaller column and carries the stored distance. -/
theorem weights_sound (rows : List (List Int)) (hlt : LowerTriangular rows)
    (hz : ZeroDiagonal rows) (w : weight) (hw : w ∈ (readGraph rows).weights) :
    w.toNode < w.fromNode ∧ w.fromNode < rows.length ∧ w.value ≠ 0 ∧
      (readGraph rows).distance w.fromNode w.toNode = some w.value := by
  rw [readGraph_weights, mem_rowsWeights] at hw
  obtain ⟨_, h2, h3⟩ := hw
  simp only [Nat.sub_zero] at h2
  have hlen := rowAt_ne_nil_lt _ _ _ _ h2
  have hcol : w.toNode < (rowAt rows w.fromNode).length := by
    by_contra hc
    rw [List.getElem?_eq_none (by omega)] at h2
    simp at h2
  rw [hlt _ hlen] at hcol
  have hne : w.toNode ≠ w.fromNode := by
    intro heq
    rw [heq, hz _ hlen] at h2
    exact h3 (by simpa using h2.symm)
  refine ⟨by omega, hlen, h3, ?_⟩
  unfold graph.distance
  rw [if_neg (by omega), readGraph_matAt]
  exact h2

/-- Every stored non-zero entry is in the edge list, exactly once. -/
theorem weights_complete (rows : List (List Int)) (i j : Nat) (v : Int)
    (h : (rowAt rows i)[j]? = some v) (hv : v ≠ 0) :
    (readGraph rows).weights.count ⟨v, i, j⟩ = 1 := by
  rw [readGraph_weights]
  apply List.count_eq_one_of_mem (nodup_rowsWeights _ _)
  rw [mem_rowsWeights]
  exact ⟨Nat.zero_le _, by simpa using h, hv⟩

/-! ## Sorting -/

theorem map_injOn_eq {α β : Type} (f : α → β) (a b : List α)
    (hinj : ∀ x ∈ a, ∀ y ∈ b, f x = f y → x = y) (h : a.map f = b.map f) : a = b := by
  induction a generalizing b with
  | nil => cases b <;> simp_all
  | cons x xs ih =>
    cases b with
    | nil => simp at h
    | cons y ys =>
      simp only [List.map_cons, List.cons.injEq] at h
      have hxy := hinj x (by simp) y (by simp) h.1
      rw [hxy, ih ys (fun u hu v hv => hinj u (by simp [hu]) v (by simp [hv])) h.2]

theorem insertionSortWeights_std : StdSort insertionSortWeights := by
  intro l
  haveI : IsTotal weight (fun a b => a.value ≤ b.value) := ⟨fun a b => le_total _ _⟩
  haveI : IsTrans weight (fun a b => a.value ≤ b.value) := ⟨fun a b c => le_trans⟩
  refine ⟨List.perm_insertionSort _ l, ?_⟩
  have h := List.sorted_insertionSort (fun a b : weight => a.value ≤ b.value) l
  exact List.Pairwise.imp (fun hab => not_lt.mpr hab) h

/-- When no two weights have the same value, every conforming sort returns the
same list. -/
theorem sort_unique (sort : List weight → List weight) (hs : StdSort sort) (l : List weight)
    (hnd : (l.map weight.value).Nodup) : sort l = insertionSortWeights l := by
  obtain ⟨hp1, hs1⟩ := hs l
  obtain ⟨hp2, hs2⟩ := insertionSortWeights_std l
  have hperm : (sort l).Perm (insertionSortWeights l) := hp1.trans hp2.symm
  have hmap : (sort l).map weight.value = (insertionSortWeights l).map weight.value := by
    have h1 : ((sort l).map weight.value).Sorted (fun a b : Int => a ≤ b) :=
      List.pairwise_map.mpr (hs1.imp (fun h => not_lt.mp h))
    have h2 : ((insertionSortWeights l).map weight.value).Sorted (fun a b : Int => a ≤ b) :=
      List.pairwise_map.mpr (hs2.imp (fun h => not_lt.mp h))
    exact List.eq_of_perm_of_sorted (hperm.map _) h1 h2
  apply map_injOn_eq weight.value _ _ _ hmap
  intro x hx y hy hxy
  exact List.inj_on_of_nodup_map hnd (hp1.subset hx) (hp2.subset hy) hxy

theorem initState_congr (sort sort2 : List weight → List weight) (rows : List (List Int))
    (h : sort (readGraph rows).weights = sort2 (readGraph rows).weights) :
    initState sort rows = initState sort2 rows := by
  unfold initState graph.sortWeghts
  rw [h]

theorem original_congr (sort sort2 : List weight → List weight) (rows : List (List Int))
    (h : sort (readGraph rows).weights = sort2 (readGraph rows).weights) :
    original sort rows = original sort2 rows := by
  unfold original originalCore
  rw [initState_congr sort sort2 rows h]

/-! ## Reading and writing nodes through pointers -/

theorem length_modifyNode (f : node → node) (ns : List node) (p : Nat) :
    (modifyNode f ns p).length = ns.length := by
  induction ns generalizing p with
  | nil => rfl
  | cons n ns ih => cases p <;> simp [modifyNode, ih]

theorem getElem?_modifyNode (f : node → node) (ns : List node) (p i : Nat) :
    (modifyNode f ns p)[i]? = if i = p then ns[i]?.map f else ns[i]? := by
  induction ns generalizing p i with
  | nil => simp [modifyNode]
  | cons n ns ih =>
    cases p with
    | zero => cases i <;> simp [modifyNode]
    | succ p =>
      cases i with
      | zero => simp [modifyNode]
      | succ i => simp [modifyNode, ih]

theorem length_setType (ns : List node) (p t : Nat) : (setType ns p t).length = ns.length :=
  length_modifyNode _ _ _

theorem length_setGroup (ns : List node) (p g : Nat) : (setGroup ns p g).length = ns.length :=
  length_modifyNode _ _ _

theorem length_regroup (ns : List node) (a b : Nat) : (regroup ns a b).length = ns.length := by
  simp [regroup]

theorem typeAt_setType (ns : List node) (p t i : Nat) :
    typeAt (setType ns p t) i = if i = p ∧ p < ns.length then t else typeAt ns i := by
  unfold typeAt setType
  rw [getElem?_modifyNode]
  by_cases hi : i = p
  · subst hi
    by_cases hl : i < ns.length
    · simp [hl, List.getElem?_eq_getElem hl]
    · simp [hl, List.getElem?_eq_none (Nat.le_of_not_lt hl)]
  · simp [hi]

theorem groupAt_setType (ns : List node) (p t i : Nat) :
    groupAt (setType ns p t) i = groupAt ns i := by
  unfold groupAt setType
  rw [getElem?_modifyNode]
  by_cases hi : i = p
  · subst hi
    cases h : ns[i]? <;> simp [h]
  · simp [hi]

theorem nameAt_setType (ns : List node) (p t i : Nat) :
    nameAt (setType ns p t) i = nameAt ns i := by
  unfold nameAt setType
  rw [getElem?_modifyNode]
  by_cases hi : i = p
  · subst hi
    cases h : ns[i]? <;> simp [h]
  · simp [hi]

theorem typeAt_setGroup (ns : List node) (p g i : Nat) :
    typeAt (setGroup ns p g) i = typeAt ns i := by
  unfold typeAt setGroup
  rw [getElem?_modifyNode]
  by_cases hi : i = p
  · subst hi
    cases h : ns[i]? <;> simp [h]
  · simp [hi]

theorem groupAt_setGroup (ns : List node) (p g i : Nat) :
    groupAt (setGroup ns p g) i = if i = p ∧ p < ns.length then g else groupAt ns i := by
  unfold groupAt setGroup
  rw [getElem?_modifyNode]
  by_cases hi : i = p
  · subst hi
    by_cases hl : i < ns.length
    · simp [hl, List.getElem?_eq_getElem hl]
    · simp [hl, List.getElem?_eq_none (Nat.le_of_not_lt hl)]
  · simp [hi]

theorem nameAt_setGroup (ns : List node) (p g i : Nat) :
    nameAt (setGroup ns p g) i = nameAt ns i := by
  unfold nameAt setGroup
  rw [getElem?_modifyNode]
  by_cases hi : i = p
  · subst hi
    cases h : ns[i]? <;> simp [h]
  · simp [hi]

theorem typeAt_regroup (ns : List node) (a b i : Nat) :
    typeAt (regroup ns a b) i = typeAt ns i := by
  unfold typeAt regroup
  rw [List.getElem?_map]
  cases h : ns[i]? with
  | none => simp
  | some n => by_cases hg : n.nodeGroup = a <;> simp [hg]

theorem nameAt_regroup (ns : List node) (a b i : Nat) :
    nameAt (regroup ns a b) i = nameAt ns i := by
  unfold nameAt regroup
  rw [List.getElem?_map]
  cases h : ns[i]? with
  | none => simp
  | some n => by_cases hg : n.nodeGroup = a <;> simp [hg]

theorem groupAt_regroup (ns : List node) (a b i : Nat) :
    groupAt (regroup ns a b) i =
      if i < ns.length ∧ groupAt ns i = a then b else groupAt ns i := by
  unfold groupAt regroup
  rw [List.getElem?_map]
  by_cases hl : i < ns.length
  · rw [List.getElem?_eq_getElem hl]
    by_cases hg : ns[i].nodeGroup = a <;> simp [hg, hl]
  · rw [List.getElem?_eq_none (Nat.le_of_not_lt hl)]
    simp [hl]

theorem typeAt_of_le (ns : List node) (i : Nat) (h : ns.length ≤ i) : typeAt ns i = 0 := by
  unfold typeAt; rw [List.getElem?_eq_none h]

theorem groupAt_of_le (ns : List node) (i : Nat) (h : ns.length ≤ i) : groupAt ns i = 0 := by
  unfold groupAt; rw [List.getElem?_eq_none h]

/-! ## One step of the edge loop, case by case -/

theorem frame_refl (st : state) : Frame st st :=
  ⟨rfl, fun _ => rfl, rfl, rfl, rfl, rfl⟩

theorem frame_trans {a b c : state} (h1 : Frame a b) (h2 : Frame b c) : Frame a c :=
  ⟨h2.1.trans h1.1, fun i => (h2.2.1 i).trans (h1.2.1 i), h2.2.2.1.trans h1.2.2.1,
    h2.2.2.2.1.trans h1.2.2.2.1, h2.2.2.2.2.1.trans h1.2.2.2.2.1,
    h2.2.2.2.2.2.trans h1.2.2.2.2.2⟩

/-- The effect of one iteration of the edge loop on an edge between two distinct
existing nodes whose types are 0, 1 or 2. -/
theorem edgeStep_spec (st : state) (w : weight)
    (hl : w.fromNode < st.myGraph.nodes.length) (hr : w.toNode < st.myGraph.nodes.length)
    (hne : w.fromNode ≠ w.toNode)
    (hTl : typeAt st.myGraph.nodes w.fromNode ≤ 2)
    (hTr : typeAt st.myGraph.nodes w.toNode ≤ 2) :
    ∃ st1, edgeStep st w = some st1 ∧ Frame st st1 ∧
      ((typeAt st.myGraph.nodes w.fromNode = 0 ∧ typeAt st.myGraph.nodes w.toNode = 0 ∧
          Accepted st st1 w ∧ st1.globalGroupNumber = st.globalGroupNumber + 1 ∧
          (∀ i, typeAt st1.myGraph.nodes i =
            if i = w.fromNode ∨ i = w.toNode then 1 else typeAt st.myGraph.nodes i) ∧
          (∀ i, groupAt st1.myGraph.nodes i =
            if i = w.fromNode ∨ i = w.toNode then st.globalGroupNumber
            else groupAt st.myGraph.nodes i)) ∨
       (typeAt st.myGraph.nodes w.fromNode = 1 ∧ typeAt st.myGraph.nodes w.toNode = 1 ∧
          groupAt st.myGraph.nodes w.fromNode ≠ groupAt st.myGraph.nodes w.toNode ∧
          Accepted st st1 w ∧ st1.globalGroupNumber = st.globalGroupNumber ∧
          (∀ i, typeAt st1.myGraph.nodes i =
            if i = w.fromNode ∨ i = w.toNode then 2 else typeAt st.myGraph.nodes i) ∧
          (∀ i, groupAt st1.myGraph.nodes i =
            if i < st.myGraph.nodes.length ∧ groupAt st.myGraph.nodes i =
                max (groupAt st.myGraph.nodes w.fromNode) (groupAt st.myGraph.nodes w.toNode)
            then min (groupAt st.myGraph.nodes w.fromNode) (groupAt st.myGraph.nodes w.toNode)
            else groupAt st.myGraph.nodes i)) ∨
       (∃ x y, ((x = w.fromNode ∧ y = w.toNode) ∨ (x = w.toNode ∧ y = w.fromNode)) ∧
          typeAt st.myGraph.nodes x = 1 ∧ typeAt st.myGraph.nodes y = 0 ∧
          Accepted st st1 w ∧ st1.globalGroupNumber = st.globalGroupNumber ∧
          (∀ i, typeAt st1.myGraph.nodes i =
            if i = x then 2 else if i = y then 1 else typeAt st.myGraph.nodes i) ∧
          (∀ i, groupAt st1.myGraph.nodes i =
            if i = y then groupAt st.myGraph.nodes x else groupAt st.myGraph.nodes i)) ∨
       ((typeAt st.myGraph.nodes w.fromNode = 2 ∨ typeAt st.myGraph.nodes w.toNode = 2 ∨
          (typeAt st.myGraph.nodes w.fromNode = 1 ∧ typeAt st.myGraph.nodes w.toNode = 1 ∧
            groupAt st.myGraph.nodes w.fromNode = groupAt st.myGraph.nodes w.toNode)) ∧
          st1 = st)) := by
  have hTl' : typeAt st.myGraph.nodes w.fromNode = 0 ∨ typeAt st.myGraph.nodes w.fromNode = 1 ∨
      typeAt st.myGraph.nodes w.fromNode = 2 := by omega
  have hTr' : typeAt st.myGraph.nodes w.toNode = 0 ∨ typeAt st.myGraph.nodes w.toNode = 1 ∨
      typeAt st.myGraph.nodes w.toNode = 2 := by omega
  have hne' : w.toNode ≠ w.fromNode := fun h => hne h.symm
  rcases hTl' with h0 | h0 | h0 <;> rcases hTr' with h1 | h1 | h1
  · -- untouched, untouched
    refine ⟨({ st.accept
      (setGroup (setGroup (setType (setType st.myGraph.nodes w.fromNode 1) w.toNode 1)
        w.fromNode st.globalGroupNumber) w.toNode st.globalGroupNumber)
      w.fromNode w.toNode w.value with globalGroupNumber := st.globalGroupNumber + 1 } : state),
      by simp [edgeStep, hl, hr, h0, h1], ?_, Or.inl ⟨h0, h1, ⟨rfl, rfl⟩, rfl, ?_, ?_⟩⟩
    · refine ⟨?_, ?_, rfl, rfl, rfl, rfl⟩
      · simp [state.accept, length_setGroup, length_setType]
      · intro i
        simp [state.accept, nameAt_setGroup, nameAt_setType]
    · intro i
      simp only [state.accept, typeAt_setGroup, typeAt_setType, length_setType, hl, hr, and_true]
      by_cases h2 : i = w.toNode <;> by_cases h3 : i = w.fromNode <;> simp [h2, h3]
    · intro i
      simp only [state.accept, groupAt_setGroup, groupAt_setType, length_setGroup,
        length_setType, hl, hr, and_true]
      by_cases h2 : i = w.toNode <;> by_cases h3 : i = w.fromNode <;> simp [h2, h3]
  · -- untouched, leader
    refine ⟨(st.accept
      (setGroup (setType (setType st.myGraph.nodes w.toNode 2) w.fromNode 1) w.fromNode
        (groupAt (setType (setType st.myGraph.nodes w.toNode 2) w.fromNode 1) w.toNode))
      w.fromNode w.toNode w.value),
      by simp [edgeStep, hl, hr, h0, h1], ?_,
      Or.inr (Or.inr (Or.inl ⟨w.toNode, w.fromNode, Or.inr ⟨rfl, rfl⟩, h1, h0, ⟨rfl, rfl⟩, rfl,
        ?_, ?_⟩))⟩
    · refine ⟨?_, ?_, rfl, rfl, rfl, rfl⟩
      · simp [state.accept, length_setGroup, length_setType]
      · intro i
        simp [state.accept, nameAt_setGroup, nameAt_setType]
    · intro i
      simp only [state.accept, typeAt_setGroup, typeAt_setType, length_setType, hl, hr, and_true]
      by_cases h2 : i = w.toNode <;> by_cases h3 : i = w.fromNode <;> simp [h2, h3, hne, hne']
    · intro i
      simp only [state.accept, groupAt_setGroup, groupAt_setType, length_setGroup,
        length_setType, hl, hr, and_true]
  · -- untouched, inside
    exact ⟨st, by simp [edgeStep, hl, hr, h0, h1], frame_refl st,
      Or.inr (Or.inr (Or.inr ⟨Or.inr (Or.inl h1), rfl⟩))⟩
  · -- leader, untouched
    refine ⟨(st.accept
      (setGroup (setType (setType st.myGraph.nodes w.fromNode 2) w.toNode 1) w.toNode
        (groupAt (setType (setType st.myGraph.nodes w.fromNode 2) w.toNode 1) w.fromNode))
      w.fromNode w.toNode w.value),
      by simp [edgeStep, hl, hr, h0, h1], ?_,
      Or.inr (Or.inr (Or.inl ⟨w.fromNode, w.toNode, Or.inl ⟨rfl, rfl⟩, h0, h1, ⟨rfl, rfl⟩, rfl,
        ?_, ?_⟩))⟩
    · refine ⟨?_, ?_, rfl, rfl, rfl, rfl⟩
      · simp [state.accept, length_setGroup, length_setType]
      · intro i
        simp [state.accept, nameAt_setGroup, nameAt_setType]
    · intro i
      simp only [state.accept, typeAt_setGroup, typeAt_setType, length_setType, hl, hr, and_true]
      by_cases h2 : i = w.toNode <;> by_cases h3 : i = w.fromNode <;> simp [h2, h3, hne, hne']
    · intro i
      simp only [state.accept, groupAt_setGroup, groupAt_setType, length_setGroup,
        length_setType, hl, hr, and_true]
  · -- leader, leader
    by_cases hg : groupAt st.myGraph.nodes w.fromNode = groupAt st.myGraph.nodes w.toNode
    · exact ⟨st, by simp [edgeStep, hl, hr, h0, h1, hg], frame_refl st,
        Or.inr (Or.inr (Or.inr ⟨Or.inr (Or.inr ⟨h0, h1, hg⟩), rfl⟩))⟩
    · refine ⟨(st.accept
        (regroup (setType (setType st.myGraph.nodes w.fromNode 2) w.toNode 2)
          (if groupAt (setType (setType st.myGraph.nodes w.fromNode 2) w.toNode 2) w.fromNode <
              groupAt (setType (setType st.myGraph.nodes w.fromNode 2) w.toNode 2) w.toNode
            then groupAt (setType (setType st.myGraph.nodes w.fromNode 2) w.toNode 2) w.toNode
            else groupAt (setType (setType st.myGraph.nodes w.fromNode 2) w.toNode 2) w.fromNode)
          (if groupAt (setType (setType st.myGraph.nodes w.fromNode 2) w.toNode 2) w.fromNode <
              groupAt (setType (setType st.myGraph.nodes w.fromNode 2) w.toNode 2) w.toNode
            then groupAt (setType (setType st.myGraph.nodes w.fromNode 2) w.toNode 2) w.fromNode
            else groupAt (setType (setType st.myGraph.nodes w.fromNode 2) w.toNode 2) w.toNode))
        w.fromNode w.toNode w.value),
        by simp [edgeStep, hl, hr, h0, h1, hg], ?_,
        Or.inr (Or.inl ⟨h0, h1, hg, ⟨rfl, rfl⟩, rfl, ?_, ?_⟩)⟩
      · refine ⟨?_, ?_, rfl, rfl, rfl, rfl⟩
        · simp [state.accept, length_regroup, length_setType]
        · intro i
          simp [state.accept, nameAt_regroup, nameAt_setType]
      · intro i
        simp only [state.accept, typeAt_regroup, typeAt_setType, length_setType, hl, hr,
          and_true]
        by_cases h2 : i = w.toNode <;> by_cases h3 : i = w.fromNode <;> simp [h2, h3]
      · intro i
        simp only [state.accept, groupAt_regroup, groupAt_setType, length_setType]
        by_cases hlt : groupAt st.myGraph.nodes w.fromNode < groupAt st.myGraph.nodes w.toNode
        · rw [if_pos hlt, if_pos hlt, max_eq_right (le_of_lt hlt), min_eq_left (le_of_lt hlt)]
        · rw [if_neg hlt, if_neg hlt, max_eq_left (by omega), min_eq_right (by omega)]
  · -- leader, inside
    exact ⟨st, by simp [edgeStep, hl, hr, h0, h1], frame_refl st,
      Or.inr (Or.inr (Or.inr ⟨Or.inr (Or.inl h1), rfl⟩))⟩
  · -- inside, untouched
    exact ⟨st, by simp [edgeStep, hl, hr, h0, h1], frame_refl st,
      Or.inr (Or.inr (Or.inr ⟨Or.inl h0, rfl⟩))⟩
  · -- inside, leader
    exact ⟨st, by simp [edgeStep, hl, hr, h0, h1], frame_refl st,
      Or.inr (Or.inr (Or.inr ⟨Or.inl h0, rfl⟩))⟩
  · -- inside, inside
    exact ⟨st, by simp [edgeStep, hl, hr, h0, h1], frame_refl st,
      Or.inr (Or.inr (Or.inr ⟨Or.inl h0, rfl⟩))⟩

/-! ## Walks and their hops -/

theorem hops_append_cons (p : List Nat) (x y : Nat) (q : List Nat) :
    hops (p ++ [x] ++ y :: q) = hops (p ++ [x]) ++ s(x, y) :: hops (y :: q) := by
  induction p with
  | nil => simp [hops]
  | cons a p ih =>
    cases p with
    | nil => simp [hops]
    | cons b p =>
      simp only [List.cons_append] at ih ⊢
      rw [hops, hops, ih]
      rfl

theorem hops_snoc (p : List Nat) (x y : Nat) :
    hops (p ++ [x] ++ [y]) = hops (p ++ [x]) ++ [s(x, y)] := by
  have h := hops_append_cons p x y []
  simpa [hops] using h

theorem hops_reverse (p : List Nat) : hops p.reverse = (hops p).reverse := by
  induction p with
  | nil => simp [hops]
  | cons a p ih =>
    cases p with
    | nil => simp [hops]
    | cons b p =>
      rw [List.reverse_cons, List.reverse_cons, hops_snoc, ← List.reverse_cons, ih]
      simp [hops, Sym2.eq_swap]

theorem mem_of_mem_hops (p : List Nat) (e : Sym2 Nat) (he : e ∈ hops p) :
    ∀ v ∈ e, v ∈ p := by
  induction p with
  | nil => simp [hops] at he
  | cons a p ih =>
    cases p with
    | nil => simp [hops] at he
    | cons b p =>
      simp only [hops, List.mem_cons] at he
      intro v hv
      rcases he with rfl | he
      · rcases Sym2.mem_iff.mp hv with rfl | rfl <;> simp
      · exact List.mem_cons_of_mem _ (ih he v hv)

/-- In a walk that starts at `x` and does not come back to `x`, the only hop that
touches `x` is the first one. -/
theorem hop_at_head (x y : Nat) (q : List Nat) (hx : x ∉ y :: q) (e : Sym2 Nat)
    (he : e ∈ hops (x :: y :: q)) (hxe : x ∈ e) : e = s(x, y) := by
  simp only [hops, List.mem_cons] at he
  rcases he with rfl | he
  · rfl
  · exact absurd (mem_of_mem_hops _ e he x hxe) hx

theorem length_hops (p : List Nat) : (hops p).length = p.length - 1 := by
  induction p with
  | nil => rfl
  | cons a p ih =>
    cases p with
    | nil => rfl
    | cons b p => simp [hops, ih]

/-! ## The path invariant: re-ordering and re-orienting the paths -/

theorem perm_cons_of_mem {α : Type} {a : α} {l : List α} (h : a ∈ l) :
    ∃ rest, l.Perm (a :: rest) := by
  obtain ⟨s, t, rfl⟩ := List.append_of_mem h
  exact ⟨s ++ t, List.perm_middle⟩

theorem goodPath_congr (ns ns1 : List node) (p : List Nat)
    (h : ∀ v ∈ p, typeAt ns1 v = typeAt ns v ∧ groupAt ns1 v = groupAt ns v)
    (hp : GoodPath ns p) : GoodPath ns1 p := by
  obtain ⟨a, mid, b, rfl, ha, hb, hmid, hg⟩ := hp
  refine ⟨a, mid, b, rfl, ?_, ?_, ?_, ?_⟩
  · rw [(h a (by simp)).1]; exact ha
  · rw [(h b (by simp)).1]; exact hb
  · intro m hm
    rw [(h m (by simp [hm])).1]; exact hmid m hm
  · intro v hv
    rw [(h v hv).2, (h a (by simp)).2]; exact hg v hv

theorem goodPath_reverse (ns : List node) (p : List Nat) (hp : GoodPath ns p) :
    GoodPath ns p.reverse := by
  obtain ⟨a, mid, b, rfl, ha, hb, hmid, hg⟩ := hp
  refine ⟨b, mid.reverse, a, by simp, hb, ha, ?_, ?_⟩
  · intro m hm
    exact hmid m (List.mem_reverse.mp hm)
  · intro v hv
    rw [hg v (List.mem_reverse.mp hv), hg b (by simp)]

theorem goodPath_touched (ns : List node) (p : List Nat) (hp : GoodPath ns p) (v : Nat)
    (hv : v ∈ p) : typeAt ns v = 1 ∨ typeAt ns v = 2 := by
  obtain ⟨a, mid, b, rfl, ha, hb, hmid, _⟩ := hp
  simp only [List.mem_cons, List.mem_append, List.mem_singleton, List.not_mem_nil,
    or_false] at hv
  rcases hv with rfl | hv | rfl
  · exact Or.inl ha
  · exact Or.inr (hmid v hv)
  · exact Or.inl hb

theorem goodPath_leader_end (ns : List node) (p : List Nat) (hp : GoodPath ns p) (v : Nat)
    (hv : v ∈ p) (hT : typeAt ns v = 1) :
    (∃ mid b, p = v :: (mid ++ [b])) ∨ (∃ a mid, p = a :: (mid ++ [v])) := by
  obtain ⟨a, mid, b, rfl, ha, hb, hmid, _⟩ := hp
  simp only [List.mem_cons, List.mem_append, List.mem_singleton, List.not_mem_nil,
    or_false] at hv
  rcases hv with rfl | hv | rfl
  · exact Or.inl ⟨mid, b, rfl⟩
  · have := hmid v hv
    omega
  · exact Or.inr ⟨a, mid, rfl⟩

theorem PathInv.perm {st : state} {ps ps1 : List (List Nat)} (h : PathInv st ps)
    (hp : ps.Perm ps1) : PathInv st ps1 := by
  have hmem : ∀ v, v ∈ ps1.flatten ↔ v ∈ ps.flatten := fun v => (hp.flatten.mem_iff).symm
  have hmem2 : ∀ p, p ∈ ps1 ↔ p ∈ ps := fun p => (hp.mem_iff).symm
  refine ⟨(hp.flatten.nodup_iff).mp h.nodup, ?_, h.edges.trans (hp.flatMap_right hops), ?_, ?_,
    ?_, ?_, h.counter, h.fresh⟩
  · intro v hv; exact h.bound v ((hmem v).mp hv)
  · intro p hp1; exact h.good p ((hmem2 p).mp hp1)
  · intro v hv; exact h.grp v ((hmem v).mp hv)
  · intro p hp1 u hu v hv hg
    exact h.sep p ((hmem2 p).mp hp1) u hu v ((hmem v).mp hv) hg
  · intro v hv
    exact h.untouched v (fun hc => hv ((hmem v).mpr hc))

theorem PathInv.reverse_head {st : state} {p : List Nat} {rest : List (List Nat)}
    (h : PathInv st (p :: rest)) : PathInv st (p.reverse :: rest) := by
  have hfl : (p.reverse :: rest).flatten.Perm (p :: rest).flatten := by
    simp only [List.flatten_cons]
    exact (List.reverse_perm p).append_right _
  have hmem : ∀ v, v ∈ (p.reverse :: rest).flatten ↔ v ∈ (p :: rest).flatten :=
    fun v => hfl.mem_iff
  refine ⟨(hfl.nodup_iff).mpr h.nodup, ?_, ?_, ?_, ?_, ?_, ?_, h.counter, h.fresh⟩
  · intro v hv; exact h.bound v ((hmem v).mp hv)
  · refine h.edges.trans ?_
    simp only [List.flatMap_cons, hops_reverse]
    exact ((List.reverse_perm (hops p)).append_right _).symm
  · intro q hq
    rcases List.mem_cons.mp hq with rfl | hq
    · exact goodPath_reverse _ _ (h.good p (by simp))
    · exact h.good q (List.mem_cons_of_mem _ hq)
  · intro v hv; exact h.grp v ((hmem v).mp hv)
  · intro q hq u hu v hv hg
    rcases List.mem_cons.mp hq with rfl | hq
    · exact List.mem_reverse.mpr
        (h.sep p (by simp) u (List.mem_reverse.mp hu) v ((hmem v).mp hv) hg)
    · exact h.sep q (List.mem_cons_of_mem _ hq) u hu v ((hmem v).mp hv) hg
  · intro v hv
    exact h.untouched v (fun hc => hv ((hmem v).mpr hc))

theorem PathInv.type_of_mem {st : state} {ps : List (List Nat)} (h : PathInv st ps) (v : Nat)
    (hv : v ∈ ps.flatten) :
    typeAt st.myGraph.nodes v = 1 ∨ typeAt st.myGraph.nodes v = 2 := by
  obtain ⟨p, hp, hvp⟩ := List.mem_flatten.mp hv
  exact goodPath_touched _ p (h.good p hp) v hvp

theorem PathInv.type_le {st : state} {ps : List (List Nat)} (h : PathInv st ps) (v : Nat) :
    typeAt st.myGraph.nodes v ≤ 2 := by
  by_cases hv : v ∈ ps.flatten
  · rcases h.type_of_mem v hv with h1 | h1 <;> omega
  · rw [(h.untouched v hv).1]; omega

theorem PathInv.mem_of_type {st : state} {ps : List (List Nat)} (h : PathInv st ps) (v : Nat)
    (hv : typeAt st.myGraph.nodes v ≠ 0) : v ∈ ps.flatten := by
  by_contra hc
  exact hv (h.untouched v hc).1

theorem PathInv.not_mem_of_type {st : state} {ps : List (List Nat)} (h : PathInv st ps)
    (v : Nat) (hv : typeAt st.myGraph.nodes v = 0) : v ∉ ps.flatten := by
  intro hc
  rcases h.type_of_mem v hc with h1 | h1 <;> omega

/-- A leader is the end of a path: the paths can be listed so that the first one
ends at the leader. -/
theorem PathInv.path_ending_at {st : state} {ps : List (List Nat)} (h : PathInv st ps)
    (x : Nat) (hx : typeAt st.myGraph.nodes x = 1) :
    ∃ a mid rest, PathInv st ((a :: (mid ++ [x])) :: rest) := by
  have hmem := h.mem_of_type x (by omega)
  obtain ⟨p, hp, hxp⟩ := List.mem_flatten.mp hmem
  obtain ⟨rest, hperm⟩ := perm_cons_of_mem hp
  have h1 : PathInv st (p :: rest) := h.perm hperm
  rcases goodPath_leader_end _ p (h.good p hp) x hxp hx with ⟨mid, b, rfl⟩ | ⟨a, mid, rfl⟩
  · refine ⟨b, mid.reverse, rest, ?_⟩
    have h2 := h1.reverse_head
    simpa using h2
  · exact ⟨a, mid, rest, h1⟩

/-! ## The path invariant is kept by every step -/

theorem ends_append_new (cs : List connectedNode) (l r : Nat) :
    ((cs ++ [connectedNode.new l r]).map connectedNode.ends) =
      cs.map connectedNode.ends ++ [s(l, r)] := by
  simp [connectedNode.ends, connectedNode.new]

theorem fresh_append_new (cs : List connectedNode) (l r : Nat)
    (h : ∀ c ∈ cs, c.checked = false) :
    ∀ c ∈ cs ++ [connectedNode.new l r], c.checked = false := by
  intro c hc
  rcases List.mem_append.mp hc with hc | hc
  · exact h c hc
  · simp only [List.mem_singleton] at hc
    rw [hc]; rfl

/-- Both endpoints untouched: a new two-node path appears. -/
theorem pathInv_new_path {st st1 : state} {ps : List (List Nat)} (h : PathInv st ps)
    (l r : Nat) (hl : l < st.myGraph.nodes.length) (hr : r < st.myGraph.nodes.length)
    (hne : l ≠ r)
    (h0l : typeAt st.myGraph.nodes l = 0) (h0r : typeAt st.myGraph.nodes r = 0)
    (hlen : st1.myGraph.nodes.length = st.myGraph.nodes.length)
    (hconn : st1.myGraph.connectedNodes = st.myGraph.connectedNodes ++ [connectedNode.new l r])
    (hggn : st1.globalGroupNumber = st.globalGroupNumber + 1)
    (hT : ∀ i, typeAt st1.myGraph.nodes i =
      if i = l ∨ i = r then 1 else typeAt st.myGraph.nodes i)
    (hG : ∀ i, groupAt st1.myGraph.nodes i =
      if i = l ∨ i = r then st.globalGroupNumber else groupAt st.myGraph.nodes i) :
    PathInv st1 ([l, r] :: ps) := by
  have hnl := h.not_mem_of_type l h0l
  have hnr := h.not_mem_of_type r h0r
  have hold : ∀ v ∈ ps.flatten, ¬ (v = l ∨ v = r) := by
    rintro v hv (rfl | rfl)
    · exact hnl hv
    · exact hnr hv
  have hfl : ([l, r] :: ps).flatten = l :: r :: ps.flatten := by simp
  refine ⟨?_, ?_, ?_, ?_, ?_, ?_, ?_, by omega, ?_⟩
  · rw [hfl]
    refine List.nodup_cons.mpr ⟨?_, List.nodup_cons.mpr ⟨hnr, h.nodup⟩⟩
    simp only [List.mem_cons, not_or]
    exact ⟨hne, hnl⟩
  · intro v hv
    rw [hfl] at hv
    rw [hlen]
    rcases List.mem_cons.mp hv with rfl | hv
    · exact hl
    · rcases List.mem_cons.mp hv with rfl | hv
      · exact hr
      · exact h.bound v hv
  · rw [hconn, ends_append_new]
    simp only [List.flatMap_cons, hops]
    exact (List.perm_append_comm).trans (h.edges.cons _)
  · intro p hp
    rcases List.mem_cons.mp hp with rfl | hp
    · refine ⟨l, [], r, rfl, ?_, ?_, by simp, ?_⟩
      · rw [hT]; simp
      · rw [hT]; simp
      · intro v hv
        rw [hG v, hG l]
        simp only [List.mem_cons, List.mem_singleton, List.not_mem_nil, or_false] at hv
        simp [hv]
    · refine goodPath_congr _ _ p ?_ (h.good p hp)
      intro v hv
      have := hold v (List.mem_flatten.mpr ⟨p, hp, hv⟩)
      rw [hT, hG, if_neg this, if_neg this]
      exact ⟨rfl, rfl⟩
  · intro v hv
    rw [hfl] at hv
    rw [hG, hggn]
    by_cases hc : v = l ∨ v = r
    · rw [if_pos hc]
      have := h.counter
      omega
    · rw [if_neg hc]
      have hv2 : v ∈ ps.flatten := by
        simp only [List.mem_cons] at hv
        tauto
      have := h.grp v hv2
      omega
  · intro p hp u hu v hv hg
    rw [hfl] at hv
    rw [hG u, hG v] at hg
    rcases List.mem_cons.mp hp with rfl | hp
    · have hu2 : u = l ∨ u = r := by simpa using hu
      rw [if_pos hu2] at hg
      by_cases hc : v = l ∨ v = r
      · simpa using hc
      · rw [if_neg hc] at hg
        have hv2 : v ∈ ps.flatten := by
          simp only [List.mem_cons] at hv
          tauto
        have := h.grp v hv2
        omega
    · have hu1 : u ∈ ps.flatten := List.mem_flatten.mpr ⟨p, hp, hu⟩
      rw [if_neg (hold u hu1)] at hg
      by_cases hc : v = l ∨ v = r
      · rw [if_pos hc] at hg
        have := h.grp u hu1
        omega
      · rw [if_neg hc] at hg
        have hv2 : v ∈ ps.flatten := by
          simp only [List.mem_cons] at hv
          tauto
        exact h.sep p hp u hu v hv2 hg
  · intro v hv
    rw [hfl] at hv
    simp only [List.mem_cons, not_or] at hv
    rw [hT, hG, if_neg (by tauto), if_neg (by tauto)]
    exact h.untouched v hv.2.2
  · rw [hconn]
    exact fresh_append_new _ _ _ h.fresh

theorem goodPath_iff (ns : List node) (a : Nat) (mid : List Nat) (b : Nat) :
    GoodPath ns (a :: (mid ++ [b])) ↔
      typeAt ns a = 1 ∧ typeAt ns b = 1 ∧ (∀ m ∈ mid, typeAt ns m = 2) ∧
        ∀ v ∈ a :: (mid ++ [b]), groupAt ns v = groupAt ns a := by
  constructor
  · rintro ⟨a1, mid1, b1, heq, ha, hb, hmid, hg⟩
    simp only [List.cons.injEq] at heq
    obtain ⟨rfl, heq⟩ := heq
    obtain ⟨rfl, hb1⟩ := List.append_inj' heq rfl
    simp only [List.cons.injEq, and_true] at hb1
    subst hb1
    exact ⟨ha, hb, hmid, hg⟩
  · rintro ⟨ha, hb, hmid, hg⟩
    exact ⟨a, mid, b, rfl, ha, hb, hmid, hg⟩

/-- A leader `x` at the end of the first path and an untouched `y`: the path
grows by `y`. -/
theorem pathInv_extend {st st1 : state} {a x : Nat} {mid : List Nat} {rest : List (List Nat)}
    (h : PathInv st ((a :: (mid ++ [x])) :: rest))
    (l r y : Nat) (hy : y < st.myGraph.nodes.length)
    (hxy : (x = l ∧ y = r) ∨ (x = r ∧ y = l))
    (h0y : typeAt st.myGraph.nodes y = 0)
    (hlen : st1.myGraph.nodes.length = st.myGraph.nodes.length)
    (hconn : st1.myGraph.connectedNodes = st.myGraph.connectedNodes ++ [connectedNode.new l r])
    (hggn : st1.globalGroupNumber = st.globalGroupNumber)
    (hT : ∀ i, typeAt st1.myGraph.nodes i =
      if i = x then 2 else if i = y then 1 else typeAt st.myGraph.nodes i)
    (hG : ∀ i, groupAt st1.myGraph.nodes i =
      if i = y then groupAt st.myGraph.nodes x else groupAt st.myGraph.nodes i) :
    PathInv st1 ((a :: ((mid ++ [x]) ++ [y])) :: rest) := by
  have hny := h.not_mem_of_type y h0y
  have hgood := (goodPath_iff _ a mid x).mp (h.good _ (by simp))
  obtain ⟨hTa, hTx, hTmid, hGp⟩ := hgood
  have hnd := h.nodup
  simp only [List.flatten_cons] at hnd hny
  have hndp : (a :: (mid ++ [x])).Nodup := (List.nodup_append.mp hnd).1
  have hdisj : ∀ v ∈ a :: (mid ++ [x]), v ∉ rest.flatten :=
    fun v hv hc => (List.nodup_append.mp hnd).2.2 hv hc
  have hxp : x ∈ a :: (mid ++ [x]) := by simp
  have hax : a ≠ x := by
    intro hc
    simp [hc] at hndp
  have hxmid : x ∉ mid := by
    intro hc
    have := (List.nodup_cons.mp hndp).2
    rw [List.nodup_append] at this
    exact this.2.2 hc (by simp) 
  have hyp : y ∉ a :: (mid ++ [x]) := fun hc => hny (List.mem_append_left _ hc)
  have hyx : y ≠ x := fun hc => hyp (hc ▸ hxp)
  have hya : y ≠ a := fun hc => hyp (by simp [hc])
  have hsame : ∀ v, v ≠ x → v ≠ y →
      typeAt st1.myGraph.nodes v = typeAt st.myGraph.nodes v ∧
      groupAt st1.myGraph.nodes v = groupAt st.myGraph.nodes v := by
    intro v h1 h2
    rw [hT, hG, if_neg h1, if_neg h2, if_neg h2]
    exact ⟨rfl, rfl⟩
  have hGold : ∀ v, v ≠ y → groupAt st1.myGraph.nodes v = groupAt st.myGraph.nodes v := by
    intro v h2
    rw [hG, if_neg h2]
  have hGy : groupAt st1.myGraph.nodes y = groupAt st.myGraph.nodes a := by
    rw [hG, if_pos rfl, hGp x hxp]
  have hfl : ((a :: ((mid ++ [x]) ++ [y])) :: rest).flatten.Perm
      (y :: ((a :: (mid ++ [x])) :: rest).flatten) := by
    simp only [List.flatten_cons]
    have : a :: (mid ++ [x] ++ [y]) ++ rest.flatten =
        (a :: (mid ++ [x])) ++ ([y] ++ rest.flatten) := by simp
    rw [this]
    exact (List.perm_middle).trans (List.Perm.refl _)
  have hmem : ∀ v, v ∈ ((a :: ((mid ++ [x]) ++ [y])) :: rest).flatten ↔
      v = y ∨ v ∈ ((a :: (mid ++ [x])) :: rest).flatten := by
    intro v
    rw [hfl.mem_iff, List.mem_cons]
  have hmemp : ∀ v, v ∈ a :: ((mid ++ [x]) ++ [y]) ↔ v = y ∨ v ∈ a :: (mid ++ [x]) := by
    intro v
    simp only [List.mem_cons, List.mem_append, List.mem_singleton, List.not_mem_nil, or_false]
    tauto
  refine ⟨?_, ?_, ?_, ?_, ?_, ?_, ?_, by rw [hggn]; exact h.counter, ?_⟩
  · rw [hfl.nodup_iff]
    exact List.nodup_cons.mpr ⟨by simpa using hny, h.nodup⟩
  · intro v hv
    rw [hlen]
    rcases (hmem v).mp hv with rfl | hv
    · exact hy
    · exact h.bound v hv
  · rw [hconn, ends_append_new]
    have hs : s(l, r) = s(x, y) := by
      rcases hxy with ⟨rfl, rfl⟩ | ⟨rfl, rfl⟩
      · rfl
      · exact Sym2.eq_swap
    rw [hs]
    simp only [List.flatMap_cons]
    have e1 : a :: (mid ++ [x] ++ [y]) = (a :: mid) ++ [x] ++ [y] := by simp
    have e2 : a :: (mid ++ [x]) = (a :: mid) ++ [x] := by simp
    rw [e1, hops_snoc, ← e2]
    have := h.edges
    simp only [List.flatMap_cons] at this
    refine (this.append_right [s(x, y)]).trans ?_
    simp only [List.append_assoc]
    exact List.Perm.append_left _ List.perm_append_comm
  · intro p hp
    rcases List.mem_cons.mp hp with rfl | hp
    · rw [goodPath_iff]
      refine ⟨?_, ?_, ?_, ?_⟩
      · rw [(hsame a hax (Ne.symm hya)).1]; exact hTa
      · rw [hT, if_neg hyx, if_pos rfl]
      · intro m hm
        rcases List.mem_append.mp hm with hm | hm
        · have hmx : m ≠ x := fun hc => hxmid (hc ▸ hm)
          have hmy : m ≠ y := fun hc => hyp (by simp [← hc, hm])
          rw [(hsame m hmx hmy).1]; exact hTmid m hm
        · simp only [List.mem_singleton] at hm
          rw [hm, hT, if_pos rfl]
      · intro v hv
        rw [hGold a (Ne.symm hya)]
        rcases (hmemp v).mp hv with rfl | hv
        · exact hGy
        · have hvy : v ≠ y := fun hc => hyp (hc ▸ hv)
          rw [hGold v hvy]; exact hGp v hv
    · refine goodPath_congr _ _ p ?_ (h.good p (List.mem_cons_of_mem _ hp))
      intro v hv
      have hvr : v ∈ rest.flatten := List.mem_flatten.mpr ⟨p, hp, hv⟩
      have hvx : v ≠ x := fun hc => hdisj x hxp (hc ▸ hvr)
      have hvy : v ≠ y := fun hc => hny (List.mem_append_right _ (hc ▸ hvr))
      exact hsame v hvx hvy
  · intro v hv
    rw [hggn]
    rcases (hmem v).mp hv with rfl | hv
    · rw [hGy]
      exact h.grp a (by simp)
    · have hvy : v ≠ y := by
        intro hc
        rw [hc] at hv
        simp only [List.flatten_cons] at hv
        exact hny hv
      rw [hGold v hvy]
      exact h.grp v hv
  · intro p hp u hu v hv hg
    have hGv : v ∈ ((a :: (mid ++ [x])) :: rest).flatten →
        groupAt st1.myGraph.nodes v = groupAt st.myGraph.nodes v := by
      intro hv2
      apply hGold
      intro hc
      rw [hc] at hv2
      simp only [List.flatten_cons] at hv2
      exact hny hv2
    rcases List.mem_cons.mp hp with rfl | hp
    · rw [hmemp]
      rcases (hmem v).mp hv with hvy | hv2
      · exact Or.inl hvy
      · right
        have hGu : groupAt st1.myGraph.nodes u = groupAt st.myGraph.nodes a := by
          rcases (hmemp u).mp hu with rfl | hu2
          · exact hGy
          · have huy : u ≠ y := fun hc => hyp (hc ▸ hu2)
            rw [hGold u huy]; exact hGp u hu2
        rw [hGu, hGv hv2] at hg
        exact h.sep _ (by simp) a (by simp) v hv2 hg
    · have hur : u ∈ rest.flatten := List.mem_flatten.mpr ⟨p, hp, hu⟩
      have huy : u ≠ y := fun hc => hny (List.mem_append_right _ (hc ▸ hur))
      rw [hGold u huy] at hg
      rcases (hmem v).mp hv with hvy | hv2
      · exfalso
        rw [hvy, hGy, ← hGp x hxp] at hg
        have := h.sep p (List.mem_cons_of_mem _ hp) u hu x (by simp) hg
        exact hdisj x hxp (List.mem_flatten.mpr ⟨p, hp, this⟩)
      · rw [hGv hv2] at hg
        exact h.sep p (List.mem_cons_of_mem _ hp) u hu v hv2 hg
  · intro v hv
    rw [hmem] at hv
    simp only [not_or] at hv
    have hvx : v ≠ x := by
      intro hc
      apply hv.2
      rw [hc]
      simp
    rw [(hsame v hvx hv.1).1, (hsame v hvx hv.1).2]
    exact h.untouched v hv.2
  · rw [hconn]
    exact fresh_append_new _ _ _ h.fresh

/-- Two leaders of different groups: the paths can be listed so that the first
ends at `x` and the second starts at `y`. -/
theorem PathInv.two_paths {st : state} {ps : List (List Nat)} (h : PathInv st ps)
    (x y : Nat) (hx : typeAt st.myGraph.nodes x = 1) (hy : typeAt st.myGraph.nodes y = 1)
    (hg : groupAt st.myGraph.nodes x ≠ groupAt st.myGraph.nodes y) :
    ∃ a mid mid2 b rest,
      PathInv st ((a :: (mid ++ [x])) :: (y :: (mid2 ++ [b])) :: rest) := by
  obtain ⟨a, mid, rest1, h1⟩ := h.path_ending_at x hx
  have hgood := (goodPath_iff _ a mid x).mp (h1.good _ (by simp))
  have hymem := h1.mem_of_type y (by omega)
  simp only [List.flatten_cons] at hymem
  have hyp : y ∉ a :: (mid ++ [x]) := by
    intro hc
    apply hg
    rw [hgood.2.2.2 y hc, hgood.2.2.2 x (by simp)]
  have hyr : y ∈ rest1.flatten := by
    rcases List.mem_append.mp hymem with hc | hc
    · exact absurd hc hyp
    · exact hc
  obtain ⟨q, hq, hyq⟩ := List.mem_flatten.mp hyr
  obtain ⟨rest2, hperm⟩ := perm_cons_of_mem hq
  have h2 : PathInv st ((a :: (mid ++ [x])) :: q :: rest2) := h1.perm (hperm.cons _)
  rcases goodPath_leader_end _ q (h2.good q (by simp)) y hyq hy with
    ⟨mid2, b, rfl⟩ | ⟨a2, mid2, rfl⟩
  · exact ⟨a, mid, mid2, b, rest2, h2⟩
  · refine ⟨a, mid, mid2.reverse, a2, rest2, ?_⟩
    have h3 := (h2.perm (List.Perm.swap _ _ _)).reverse_head
    have h4 := h3.perm (List.Perm.swap _ _ _)
    simpa using h4

/-- Two leaders of different groups, the first path ending at `x` and the second
starting at `y`: the two paths are joined and the larger group id disappears. -/
theorem pathInv_join {st st1 : state} {a x y b : Nat} {mid mid2 : List Nat}
    {rest : List (List Nat)}
    (h : PathInv st ((a :: (mid ++ [x])) :: (y :: (mid2 ++ [b])) :: rest))
    (l r : Nat) (hxy : (x = l ∧ y = r) ∨ (x = r ∧ y = l))
    (hlen : st1.myGraph.nodes.length = st.myGraph.nodes.length)
    (hconn : st1.myGraph.connectedNodes = st.myGraph.connectedNodes ++ [connectedNode.new l r])
    (hggn : st1.globalGroupNumber = st.globalGroupNumber)
    (hT : ∀ i, typeAt st1.myGraph.nodes i =
      if i = x ∨ i = y then 2 else typeAt st.myGraph.nodes i)
    (hG : ∀ i, groupAt st1.myGraph.nodes i =
      if i < st.myGraph.nodes.length ∧ groupAt st.myGraph.nodes i =
          max (groupAt st.myGraph.nodes x) (groupAt st.myGraph.nodes y)
      then min (groupAt st.myGraph.nodes x) (groupAt st.myGraph.nodes y)
      else groupAt st.myGraph.nodes i) :
    PathInv st1 ((a :: ((mid ++ x :: y :: mid2) ++ [b])) :: rest) := by
  obtain ⟨hTa, hTx, hTmid, hGp⟩ := (goodPath_iff _ a mid x).mp (h.good _ (by simp))
  obtain ⟨hTy, hTb, hTmid2, hGq⟩ := (goodPath_iff _ y mid2 b).mp (h.good _ (by simp))
  have hnd := h.nodup
  simp only [List.flatten_cons] at hnd
  have hndp : (a :: (mid ++ [x])).Nodup := (List.nodup_append.mp hnd).1
  have hnd2 := (List.nodup_append.mp hnd).2.1
  have hndq : (y :: (mid2 ++ [b])).Nodup := (List.nodup_append.mp hnd2).1
  have hdpq : ∀ v ∈ a :: (mid ++ [x]), v ∉ y :: (mid2 ++ [b]) :=
    fun v hv hc => (List.nodup_append.mp hnd).2.2 hv (List.mem_append_left _ hc)
  have hdpr : ∀ v ∈ a :: (mid ++ [x]), v ∉ rest.flatten :=
    fun v hv hc => (List.nodup_append.mp hnd).2.2 hv (List.mem_append_right _ hc)
  have hdqr : ∀ v ∈ y :: (mid2 ++ [b]), v ∉ rest.flatten :=
    fun v hv hc => (List.nodup_append.mp hnd2).2.2 hv hc
  have hxp : x ∈ a :: (mid ++ [x]) := by simp
  have hyq : y ∈ y :: (mid2 ++ [b]) := by simp
  have hbq : b ∈ y :: (mid2 ++ [b]) := by simp
  have hap : a ∈ a :: (mid ++ [x]) := by simp
  have hnew : a :: ((mid ++ x :: y :: mid2) ++ [b]) =
      (a :: (mid ++ [x])) ++ (y :: (mid2 ++ [b])) := by simp
  have hfl : ((a :: ((mid ++ x :: y :: mid2) ++ [b])) :: rest).flatten =
      ((a :: (mid ++ [x])) :: (y :: (mid2 ++ [b])) :: rest).flatten := by
    rw [List.flatten_cons, hnew]
    simp
  have hGx : groupAt st.myGraph.nodes x = groupAt st.myGraph.nodes a := hGp x hxp
  have hmin1 : 1 ≤ min (groupAt st.myGraph.nodes x) (groupAt st.myGraph.nodes y) := by
    have h1 := (h.grp x (by simp)).1
    have h2 := (h.grp y (by simp)).1
    exact le_min h1 h2
  have hGnew : ∀ v ∈ (a :: (mid ++ [x])) ++ (y :: (mid2 ++ [b])),
      groupAt st1.myGraph.nodes v =
        min (groupAt st.myGraph.nodes x) (groupAt st.myGraph.nodes y) := by
    intro v hv
    have hvb : v < st.myGraph.nodes.length := h.bound v (by
      simp only [List.flatten_cons]
      rcases List.mem_append.mp hv with hv | hv
      · exact List.mem_append_left _ hv
      · exact List.mem_append_right _ (List.mem_append_left _ hv))
    have hv2 : groupAt st.myGraph.nodes v = groupAt st.myGraph.nodes x ∨
        groupAt st.myGraph.nodes v = groupAt st.myGraph.nodes y := by
      rcases List.mem_append.mp hv with hv | hv
      · left; rw [hGp v hv, hGx]
      · right; exact hGq v hv
    rw [hG]
    split
    · rfl
    · rename_i hc
      simp only [hvb, true_and] at hc
      rcases hv2 with e | e <;> rw [e] at hc ⊢ <;> omega
  have hGrest : ∀ v, v ∉ (a :: (mid ++ [x])) ++ (y :: (mid2 ++ [b])) →
      groupAt st1.myGraph.nodes v = groupAt st.myGraph.nodes v ∧
      typeAt st1.myGraph.nodes v = typeAt st.myGraph.nodes v := by
    intro v hv
    have hvx : v ≠ x := fun hc => hv (List.mem_append_left _ (hc ▸ hxp))
    have hvy : v ≠ y := fun hc => hv (List.mem_append_right _ (hc ▸ hyq))
    refine ⟨?_, by rw [hT, if_neg (by tauto)]⟩
    rw [hG]
    split
    · rename_i hc
      exfalso
      by_cases hvf : v ∈ ((a :: (mid ++ [x])) :: (y :: (mid2 ++ [b])) :: rest).flatten
      · have hcase : groupAt st.myGraph.nodes v = groupAt st.myGraph.nodes x ∨
            groupAt st.myGraph.nodes v = groupAt st.myGraph.nodes y := by
          rw [hc.2]
          rcases le_total (groupAt st.myGraph.nodes x) (groupAt st.myGraph.nodes y) with e | e
          · right; exact max_eq_right e
          · left; exact max_eq_left e
        rcases hcase with e | e
        · exact hv (List.mem_append_left _
            (h.sep _ (by simp) x hxp v hvf e.symm))
        · exact hv (List.mem_append_right _
            (h.sep _ (by simp) y hyq v hvf e.symm))
      · have := (h.untouched v hvf).2
        have hM : 1 ≤ max (groupAt st.myGraph.nodes x) (groupAt st.myGraph.nodes y) :=
          le_trans hmin1 (min_le_max)
        omega
    · rfl
  refine ⟨by rw [hfl]; exact h.nodup, ?_, ?_, ?_, ?_, ?_, ?_,
    by rw [hggn]; exact h.counter, ?_⟩
  · intro v hv
    rw [hlen]
    exact h.bound v (hfl ▸ hv)
  · rw [hconn, ends_append_new]
    have hs : s(l, r) = s(x, y) := by
      rcases hxy with ⟨rfl, rfl⟩ | ⟨rfl, rfl⟩
      · rfl
      · exact Sym2.eq_swap
    rw [hs]
    simp only [List.flatMap_cons]
    have e1 : a :: ((mid ++ x :: y :: mid2) ++ [b]) =
        (a :: mid) ++ [x] ++ y :: (mid2 ++ [b]) := by simp
    have e2 : a :: (mid ++ [x]) = (a :: mid) ++ [x] := by simp
    rw [e1, hops_append_cons, ← e2]
    have := h.edges
    simp only [List.flatMap_cons] at this
    refine (this.append_right [s(x, y)]).trans ?_
    simp only [List.append_assoc]
    refine List.Perm.append_left _ ?_
    rw [← List.append_assoc]
    exact List.perm_append_singleton _ _
  · intro p hp
    rcases List.mem_cons.mp hp with rfl | hp
    · rw [goodPath_iff]
      have hax : a ≠ x := by
        intro hc
        simp [hc] at hndp
      have hay : a ≠ y := fun hc => hdpq a hap (hc ▸ hyq)
      have hbx : b ≠ x := fun hc => hdpq x hxp (hc ▸ hbq)
      have hby : b ≠ y := by
        intro hc
        simp [hc] at hndq
      refine ⟨?_, ?_, ?_, ?_⟩
      · rw [hT, if_neg (by tauto)]; exact hTa
      · rw [hT, if_neg (by tauto)]; exact hTb
      · intro m hm
        rw [hT]
        split
        · rfl
        · rename_i hc
          simp only [List.mem_append, List.mem_cons] at hm
          rcases hm with hm | hm | hm | hm
          · exact hTmid m hm
          · exact absurd (Or.inl hm) hc
          · exact absurd (Or.inr hm) hc
          · exact hTmid2 m hm
      · intro v hv
        rw [hnew] at hv
        rw [hGnew v hv, hGnew a (List.mem_append_left _ hap)]
    · refine goodPath_congr _ _ p ?_ (h.good p (by simp [hp]))
      intro v hv
      have hvr : v ∈ rest.flatten := List.mem_flatten.mpr ⟨p, hp, hv⟩
      have hvn : v ∉ (a :: (mid ++ [x])) ++ (y :: (mid2 ++ [b])) := by
        intro hc
        rcases List.mem_append.mp hc with hc | hc
        · exact hdpr v hc hvr
        · exact hdqr v hc hvr
      exact ⟨(hGrest v hvn).2, (hGrest v hvn).1⟩
  · intro v hv
    rw [hggn]
    by_cases hvn : v ∈ (a :: (mid ++ [x])) ++ (y :: (mid2 ++ [b]))
    · rw [hGnew v hvn]
      refine ⟨hmin1, lt_of_le_of_lt (min_le_left _ _) (h.grp x (by simp)).2⟩
    · rw [(hGrest v hvn).1]
      exact h.grp v (hfl ▸ hv)
  · intro p hp u hu v hv hg
    have hvin : v ∈ (a :: (mid ++ [x])) ++ (y :: (mid2 ++ [b])) ∨ v ∈ rest.flatten := by
      rw [hfl] at hv
      simp only [List.flatten_cons] at hv
      rcases List.mem_append.mp hv with hv | hv
      · exact Or.inl (List.mem_append_left _ hv)
      · rcases List.mem_append.mp hv with hv | hv
        · exact Or.inl (List.mem_append_right _ hv)
        · exact Or.inr hv
    have hrest_grp : ∀ z ∈ rest.flatten,
        groupAt st1.myGraph.nodes z = groupAt st.myGraph.nodes z ∧
        groupAt st.myGraph.nodes z ≠
          min (groupAt st.myGraph.nodes x) (groupAt st.myGraph.nodes y) := by
      intro z hz
      have hzn : z ∉ (a :: (mid ++ [x])) ++ (y :: (mid2 ++ [b])) := by
        intro hc
        rcases List.mem_append.mp hc with hc | hc
        · exact hdpr z hc hz
        · exact hdqr z hc hz
      refine ⟨(hGrest z hzn).1, ?_⟩
      intro hc
      have hzf : z ∈ ((a :: (mid ++ [x])) :: (y :: (mid2 ++ [b])) :: rest).flatten := by
        simp only [List.flatten_cons]
        exact List.mem_append_right _ (List.mem_append_right _ hz)
      rcases le_total (groupAt st.myGraph.nodes x) (groupAt st.myGraph.nodes y) with e | e
      · rw [min_eq_left e] at hc
        exact hzn (List.mem_append_left _ (h.sep _ (by simp) x hxp z hzf hc.symm))
      · rw [min_eq_right e] at hc
        exact hzn (List.mem_append_right _ (h.sep _ (by simp) y hyq z hzf hc.symm))
    rcases List.mem_cons.mp hp with rfl | hp
    · rw [hnew] at hu ⊢
      rcases hvin with hv1 | hv1
      · exact hv1
      · exfalso
        rw [hGnew u hu, (hrest_grp v hv1).1] at hg
        exact (hrest_grp v hv1).2 hg.symm
    · have hur : u ∈ rest.flatten := List.mem_flatten.mpr ⟨p, hp, hu⟩
      rcases hvin with hv1 | hv1
      · exfalso
        rw [hGnew v hv1, (hrest_grp u hur).1] at hg
        exact (hrest_grp u hur).2 hg
      · rw [(hrest_grp u hur).1, (hrest_grp v hv1).1] at hg
        refine h.sep p (by simp [hp]) u hu v ?_ hg
        simp only [List.flatten_cons]
        exact List.mem_append_right _ (List.mem_append_right _ hv1)
  · intro v hv
    rw [hfl] at hv
    have hvn : v ∉ (a :: (mid ++ [x])) ++ (y :: (mid2 ++ [b])) := by
      intro hc
      apply hv
      simp only [List.flatten_cons]
      rcases List.mem_append.mp hc with hc | hc
      · exact List.mem_append_left _ hc
      · exact List.mem_append_right _ (List.mem_append_left _ hc)
    rw [(hGrest v hvn).1, (hGrest v hvn).2]
    exact h.untouched v hv
  · rw [hconn]
    exact fresh_append_new _ _ _ h.fresh

theorem settled_symm (ns : List node) (u v : Nat) (h : Settled ns u v) : Settled ns v u := by
  rcases h with h | h | ⟨h1, h2, h3⟩
  · exact Or.inr (Or.inl h)
  · exact Or.inl h
  · exact Or.inr (Or.inr ⟨h2, h1, h3.symm⟩)

/-- One step of the edge loop on a valid edge: it succeeds, keeps the frame and
the path invariant, settles its own edge and keeps every settled edge settled. -/
theorem edgeStep_inv {st : state} {ps : List (List Nat)} (h : PathInv st ps) (w : weight)
    (hl : w.fromNode < st.myGraph.nodes.length) (hr : w.toNode < st.myGraph.nodes.length)
    (hne : w.fromNode ≠ w.toNode) :
    ∃ st1 ps1, edgeStep st w = some st1 ∧ Frame st st1 ∧ PathInv st1 ps1 ∧
      (Accepted st st1 w ∨ st1 = st) ∧
      Settled st1.myGraph.nodes w.fromNode w.toNode ∧
      (∀ u v, Settled st.myGraph.nodes u v → Settled st1.myGraph.nodes u v) := by
  obtain ⟨st1, hstep, hfr, hcase⟩ :=
    edgeStep_spec st w hl hr hne (h.type_le _) (h.type_le _)
  rcases hcase with ⟨h0l, h0r, hacc, hggn, hT, hG⟩ | ⟨h1l, h1r, hg, hacc, hggn, hT, hG⟩ |
    ⟨x, y, hxy, h1x, h0y, hacc, hggn, hT, hG⟩ | ⟨hset, rfl⟩
  · -- both untouched
    refine ⟨st1, _, hstep, hfr,
      pathInv_new_path h _ _ hl hr hne h0l h0r hfr.1 hacc.1 hggn hT hG, Or.inl hacc, ?_, ?_⟩
    · right; right
      rw [hT, hT, hG, hG]
      simp
    · intro u v huv
      have hu : typeAt st.myGraph.nodes u ≠ 0 → ¬ (u = w.fromNode ∨ u = w.toNode) := by
        rintro hc (rfl | rfl) <;> exact hc (by assumption)
      have hv : typeAt st.myGraph.nodes v ≠ 0 → ¬ (v = w.fromNode ∨ v = w.toNode) := by
        rintro hc (rfl | rfl) <;> exact hc (by assumption)
      rcases huv with h2 | h2 | ⟨h2, h3, h4⟩
      · left; rw [hT, if_neg (hu (by omega))]; exact h2
      · right; left; rw [hT, if_neg (hv (by omega))]; exact h2
      · right; right
        rw [hT, hT, hG, hG, if_neg (hu (by omega)), if_neg (hv (by omega)),
          if_neg (hu (by omega)), if_neg (hv (by omega))]
        exact ⟨h2, h3, h4⟩
  · -- both leaders, different groups
    obtain ⟨a, mid, mid2, b, rest, h2⟩ := h.two_paths _ _ h1l h1r hg
    refine ⟨st1, _, hstep, hfr,
      pathInv_join h2 w.fromNode w.toNode (Or.inl ⟨rfl, rfl⟩) hfr.1 hacc.1 hggn hT hG,
      Or.inl hacc, ?_, ?_⟩
    · left; rw [hT]; simp
    · intro u v huv
      rcases huv with h3 | h3 | ⟨h3, h4, h5⟩
      · left; rw [hT]; split
        · rfl
        · exact h3
      · right; left; rw [hT]; split
        · rfl
        · exact h3
      · by_cases hu : u = w.fromNode ∨ u = w.toNode
        · left; rw [hT, if_pos hu]
        · by_cases hv : v = w.fromNode ∨ v = w.toNode
          · right; left; rw [hT, if_pos hv]
          · right; right
            rw [hT, hT, if_neg hu, if_neg hv]
            refine ⟨h3, h4, ?_⟩
            have hub : u < st.myGraph.nodes.length := by
              by_contra hc
              rw [typeAt_of_le _ _ (by omega)] at h3
              omega
            have hvb : v < st.myGraph.nodes.length := by
              by_contra hc
              rw [typeAt_of_le _ _ (by omega)] at h4
              omega
            rw [hG, hG, h5]
            simp only [hub, hvb, true_and]
  · -- a leader and an untouched node
    obtain ⟨a, mid, rest, h2⟩ := h.path_ending_at x h1x
    have hy : y < st.myGraph.nodes.length := by
      rcases hxy with ⟨_, rfl⟩ | ⟨_, rfl⟩
      · exact hr
      · exact hl
    refine ⟨st1, _, hstep, hfr,
      pathInv_extend h2 w.fromNode w.toNode y hy hxy h0y hfr.1 hacc.1 hggn hT hG,
      Or.inl hacc, ?_, ?_⟩
    · rcases hxy with ⟨rfl, rfl⟩ | ⟨rfl, rfl⟩
      · left; rw [hT, if_pos rfl]
      · right; left; rw [hT, if_pos rfl]
    · intro u v huv
      have hu : typeAt st.myGraph.nodes u ≠ 0 → u ≠ y := by
        rintro hc rfl; exact hc h0y
      have hv : typeAt st.myGraph.nodes v ≠ 0 → v ≠ y := by
        rintro hc rfl; exact hc h0y
      rcases huv with h3 | h3 | ⟨h3, h4, h5⟩
      · left; rw [hT]; split
        · rfl
        · rw [if_neg (hu (by omega))]; exact h3
      · right; left; rw [hT]; split
        · rfl
        · rw [if_neg (hv (by omega))]; exact h3
      · by_cases hux : u = x
        · left; rw [hT, if_pos hux]
        · by_cases hvx : v = x
          · right; left; rw [hT, if_pos hvx]
          · right; right
            rw [hT, hT, hG, hG, if_neg hux, if_neg hvx, if_neg (hu (by omega)),
              if_neg (hv (by omega)), if_neg (hu (by omega)), if_neg (hv (by omega))]
            exact ⟨h3, h4, h5⟩
  · -- rejected
    exact ⟨st1, ps, hstep, hfr, h, Or.inr rfl, hset, fun u v huv => huv⟩

/-! ## Bookkeeping: degrees and the running total -/

theorem degree_append_new (cs : List connectedNode) (l r v : Nat) :
    degree (cs ++ [connectedNode.new l r]) v =
      degree cs v + (if l = v then 1 else 0) + (if r = v then 1 else 0) := by
  unfold degree connectedNode.new
  simp only [List.countP_append, List.countP_cons, List.countP_nil, decide_eq_true_eq]
  omega

theorem connTotal_append_new (g : graph) (cs : List connectedNode) (l r : Nat) :
    connTotal g (cs ++ [connectedNode.new l r]) = connTotal g cs + g.dist l r := by
  unfold connTotal connectedNode.new
  simp

theorem dist_congr (g g1 : graph) (h : g1.matrix = g.matrix) (i j : Nat) :
    g1.dist i j = g.dist i j := by
  unfold graph.dist graph.distance
  rw [h]

theorem connTotal_congr (g g1 : graph) (h : g1.matrix = g.matrix) (cs : List connectedNode) :
    connTotal g1 cs = connTotal g cs := by
  unfold connTotal
  congr 1
  apply List.map_congr_left
  intro c _
  exact dist_congr g g1 h _ _

theorem validEdge_frame {st st1 : state} (hfr : Frame st st1) (w : weight)
    (h : ValidEdge st.myGraph w) : ValidEdge st1.myGraph w := by
  obtain ⟨h1, h2, h3, h4⟩ := h
  refine ⟨by rw [hfr.1]; exact h1, by rw [hfr.1]; exact h2, h3, ?_⟩
  unfold graph.distance at h4 ⊢
  rw [hfr.2.2.1]
  exact h4

theorem edgeStep_aux {st st1 : state} (h : AuxInv st) (w : weight)
    (hv : ValidEdge st.myGraph w)
    (hTl : typeAt st.myGraph.nodes w.fromNode ≤ 2)
    (hTr : typeAt st.myGraph.nodes w.toNode ≤ 2)
    (hstep : edgeStep st w = some st1) : AuxInv st1 := by
  obtain ⟨hl, hr, hne, hd⟩ := hv
  obtain ⟨st2, hstep2, hfr, hcase⟩ := edgeStep_spec st w hl hr hne hTl hTr
  rw [hstep] at hstep2
  cases hstep2
  have hacct : Accepted st st1 w → st1.globalTotalWeight =
      wrapInt (connTotal st1.myGraph st1.myGraph.connectedNodes) := by
    intro hacc
    rw [hacc.2, hacc.1, connTotal_congr _ _ hfr.2.2.1, connTotal_append_new, h.acct,
      wrapInt_add_left]
    unfold graph.dist
    rw [hd]
    rfl
  have hne' : w.toNode ≠ w.fromNode := fun hc => hne hc.symm
  rcases hcase with ⟨h0l, h0r, hacc, _, hT, _⟩ | ⟨h1l, h1r, _, hacc, _, hT, _⟩ |
    ⟨x, y, hxy, h1x, h0y, hacc, _, hT, _⟩ | ⟨_, heq⟩
  · refine ⟨?_, hacct hacc⟩
    intro v
    rw [hacc.1, degree_append_new, h.deg, hT]
    by_cases e1 : v = w.fromNode
    · rw [e1]; simp [hne, hne', h0l]
    · by_cases e2 : v = w.toNode
      · rw [e2]; simp [hne, hne', h0r]
      · simp [e1, e2, Ne.symm e1, Ne.symm e2]
  · refine ⟨?_, hacct hacc⟩
    intro v
    rw [hacc.1, degree_append_new, h.deg, hT]
    by_cases e1 : v = w.fromNode
    · rw [e1]; simp [hne, hne', h1l]
    · by_cases e2 : v = w.toNode
      · rw [e2]; simp [hne, hne', h1r]
      · simp [e1, e2, Ne.symm e1, Ne.symm e2]
  · refine ⟨?_, hacct hacc⟩
    intro v
    rw [hacc.1, degree_append_new, h.deg, hT]
    rcases hxy with ⟨rfl, rfl⟩ | ⟨rfl, rfl⟩
    · by_cases e1 : v = w.fromNode
      · rw [e1]; simp [hne, hne', h1x]
      · by_cases e2 : v = w.toNode
        · rw [e2]; simp [hne, hne', h0y]
        · simp [e1, e2, Ne.symm e1, Ne.symm e2]
    · by_cases e1 : v = w.fromNode
      · rw [e1]; simp [hne, hne', h0y]
      · by_cases e2 : v = w.toNode
        · rw [e2]; simp [hne, hne', h1x]
        · simp [e1, e2, Ne.symm e1, Ne.symm e2]
  · rw [heq]; exact h

/-! ## The whole edge loop -/

/-- The edge loop over valid edges: it terminates normally, keeps the frame and
both invariants, and leaves every processed edge settled. -/
theorem cycleBuilder_inv (ws : List weight) {st : state} {ps : List (List Nat)}
    (h : PathInv st ps) (haux : AuxInv st)
    (hv : ∀ w ∈ ws, ValidEdge st.myGraph w) :
    ∃ st1 ps1, cycleBuilder st ws = some st1 ∧ Frame st st1 ∧ PathInv st1 ps1 ∧ AuxInv st1 ∧
      (∀ w ∈ ws, Settled st1.myGraph.nodes w.fromNode w.toNode) ∧
      (∀ u v, Settled st.myGraph.nodes u v → Settled st1.myGraph.nodes u v) := by
  induction ws generalizing st ps with
  | nil =>
    exact ⟨st, ps, rfl, frame_refl st, h, haux, by simp, fun _ _ huv => huv⟩
  | cons w ws ih =>
    have hw := hv w (by simp)
    obtain ⟨st1, ps1, hstep, hfr, hinv, _, hset, hkeep⟩ := edgeStep_inv h w hw.1 hw.2.1 hw.2.2.1
    have haux1 := edgeStep_aux haux w hw (h.type_le _) (h.type_le _) hstep
    obtain ⟨st2, ps2, hrun, hfr2, hinv2, haux2, hset2, hkeep2⟩ :=
      ih hinv haux1 (fun w1 hw1 => validEdge_frame hfr w1 (hv w1 (by simp [hw1])))
    refine ⟨st2, ps2, ?_, frame_trans hfr hfr2, hinv2, haux2, ?_, ?_⟩
    · rw [cycleBuilder, hstep]
      exact hrun
    · intro w1 hw1
      rcases List.mem_cons.mp hw1 with rfl | hw1
      · exact hkeep2 _ _ hset
      · exact hset2 w1 hw1
    · intro u v huv
      exact hkeep2 u v (hkeep u v huv)

/-! ## The state before the edge loop -/

theorem getElem?_new_nodes (n i : Nat) :
    ((List.range n).map node.new)[i]? = if i < n then some (node.new i) else none := by
  rw [List.getElem?_map]
  by_cases h : i < n
  · rw [List.getElem?_range h, if_pos h]; rfl
  · rw [List.getElem?_eq_none (by simp; omega), if_neg h]; rfl

theorem typeAt_new_nodes (n i : Nat) : typeAt ((List.range n).map node.new) i = 0 := by
  unfold typeAt
  rw [getElem?_new_nodes]
  by_cases h : i < n
  · rw [if_pos h]; rfl
  · rw [if_neg h]

theorem groupAt_new_nodes (n i : Nat) : groupAt ((List.range n).map node.new) i = 0 := by
  unfold groupAt
  rw [getElem?_new_nodes]
  by_cases h : i < n
  · rw [if_pos h]; rfl
  · rw [if_neg h]

theorem nameAt_new_nodes (n i : Nat) (h : i < n) :
    nameAt ((List.range n).map node.new) i = i := by
  unfold nameAt
  rw [getElem?_new_nodes, if_pos h]
  rfl

theorem initState_nodes (sort : List weight → List weight) (rows : List (List Int)) :
    (initState sort rows).myGraph.nodes = (List.range rows.length).map node.new := by
  unfold initState graph.sortWeghts
  exact readGraph_nodes rows

theorem initState_matrix (sort : List weight → List weight) (rows : List (List Int)) :
    (initState sort rows).myGraph.matrix = (readGraph rows).matrix := rfl

theorem initState_weights (sort : List weight → List weight) (rows : List (List Int)) :
    (initState sort rows).myGraph.weights = sort (readGraph rows).weights := rfl

theorem initState_numNodes (sort : List weight → List weight) (rows : List (List Int)) :
    (initState sort rows).myGraph.numNodes = rows.length := by
  unfold initState graph.sortWeghts
  exact readGraph_numNodes rows

theorem initState_connectedNodes (sort : List weight → List weight) (rows : List (List Int)) :
    (initState sort rows).myGraph.connectedNodes = [] ∧
    (initState sort rows).myGraph.pathTaken = [] := by
  unfold initState graph.sortWeghts
  exact readGraph_connectedNodes rows

theorem initState_pathInv (sort : List weight → List weight) (rows : List (List Int)) :
    PathInv (initState sort rows) [] := by
  refine ⟨by simp, by simp, ?_, by simp, by simp, by simp, ?_, ?_, ?_⟩
  · rw [(initState_connectedNodes sort rows).1]; simp
  · intro v _
    rw [initState_nodes]
    exact ⟨typeAt_new_nodes _ _, groupAt_new_nodes _ _⟩
  · exact le_refl 1
  · rw [(initState_connectedNodes sort rows).1]; simp

theorem initState_auxInv (sort : List weight → List weight) (rows : List (List Int)) :
    AuxInv (initState sort rows) := by
  constructor
  · intro v
    rw [(initState_connectedNodes sort rows).1, initState_nodes, typeAt_new_nodes]
    rfl
  · rw [(initState_connectedNodes sort rows).1]
    rfl

theorem initState_distance (sort : List weight → List weight) (rows : List (List Int))
    (i j : Nat) : (initState sort rows).myGraph.distance i j = (readGraph rows).distance i j :=
  rfl

theorem initState_validEdge (sort : List weight → List weight) (hs : StdSort sort)
    (rows : List (List Int)) (hlt : LowerTriangular rows) (hz : ZeroDiagonal rows) :
    ∀ w ∈ (initState sort rows).myGraph.weights, ValidEdge (initState sort rows).myGraph w := by
  intro w hw
  rw [initState_weights] at hw
  have hw2 := (hs _).1.subset hw
  obtain ⟨h1, h2, _, h4⟩ := weights_sound rows hlt hz w hw2
  refine ⟨?_, ?_, by omega, ?_⟩
  · rw [initState_nodes]; simpa using h2
  · rw [initState_nodes]; simp; omega
  · rw [initState_distance]; exact h4

/-- In a well-formed input every pair of distinct nodes is an edge of the list. -/
theorem initState_complete (sort : List weight → List weight) (hs : StdSort sort)
    (rows : List (List Int)) (hwf : WellFormed rows) (i j : Nat) (hi : i < rows.length)
    (hji : j < i) :
    ∃ w ∈ (initState sort rows).myGraph.weights, w.fromNode = i ∧ w.toNode = j := by
  obtain ⟨hlt, _, hoff⟩ := hwf
  have hlen := hlt i hi
  have hget : (rowAt rows i)[j]? = some ((rowAt rows i).getD j 0) := by
    rw [List.getD_eq_getElem?_getD, List.getElem?_eq_getElem (by omega)]
    rfl
  refine ⟨⟨(rowAt rows i).getD j 0, i, j⟩, ?_, rfl, rfl⟩
  rw [initState_weights]
  apply (hs _).1.symm.subset
  rw [readGraph_weights, mem_rowsWeights]
  exact ⟨Nat.zero_le _, by simpa using hget, hoff i hi j hji⟩

/-! ## After the edge loop: one path through all nodes -/

/-- When every pair of distinct nodes is settled, the accepted connections form
one single path that visits every node. -/
theorem single_path {st : state} {ps : List (List Nat)} (h : PathInv st ps) (n : Nat)
    (hn : 2 ≤ n) (hlen : st.myGraph.nodes.length = n)
    (hset : ∀ i j, i < n → j < n → i ≠ j → Settled st.myGraph.nodes i j) :
    ∃ a mid b, PathInv st [a :: (mid ++ [b])] ∧ (a :: (mid ++ [b])).Perm (List.range n) := by
  have h01 := hset 0 1 (by omega) (by omega) (by omega)
  have hex : ∃ v, v ∈ ps.flatten := by
    rcases h01 with h2 | h2 | ⟨h2, _, _⟩
    · exact ⟨0, h.mem_of_type 0 (by omega)⟩
    · exact ⟨1, h.mem_of_type 1 (by omega)⟩
    · exact ⟨0, h.mem_of_type 0 (by omega)⟩
  obtain ⟨v0, hv0⟩ := hex
  obtain ⟨p, hp, _⟩ := List.mem_flatten.mp hv0
  obtain ⟨rest, hperm⟩ := perm_cons_of_mem hp
  have h1 : PathInv st (p :: rest) := h.perm hperm
  obtain ⟨a, mid, b, rfl, hTa, hTb, hTmid, hGp⟩ := h1.good p (by simp)
  have hap : a ∈ a :: (mid ++ [b]) := by simp
  have hab : a < n := by
    rw [← hlen]
    exact h1.bound a (by simp)
  have hrest : rest = [] := by
    cases rest with
    | nil => rfl
    | cons q rest2 =>
      exfalso
      obtain ⟨a2, mid2, b2, rfl, hTa2, _, _, _⟩ := h1.good q (by simp)
      have hnd := h1.nodup
      simp only [List.flatten_cons] at hnd
      have hdisj := (List.nodup_append.mp hnd).2.2
      have ha2f : a2 ∈ ((a :: (mid ++ [b])) :: (a2 :: (mid2 ++ [b2])) :: rest2).flatten := by
        simp
      have ha2b : a2 < n := by
        rw [← hlen]
        exact h1.bound a2 ha2f
      have hne : a ≠ a2 := by
        intro hc
        exact hdisj hap (by rw [hc]; simp)
      rcases hset a a2 hab ha2b hne with h2 | h2 | ⟨_, _, h2⟩
      · omega
      · omega
      · have := h1.sep _ (by simp) a hap a2 ha2f h2
        exact hdisj this (by simp)
  subst hrest
  refine ⟨a, mid, b, h1, ?_⟩
  have hndp : (a :: (mid ++ [b])).Nodup := by
    have := h1.nodup
    simpa using this
  rw [List.perm_ext_iff_of_nodup hndp (List.nodup_range n)]
  intro v
  rw [List.mem_range]
  constructor
  · intro hv
    rw [← hlen]
    exact h1.bound v (by simpa using hv)
  · intro hv
    by_cases hva : v = a
    · rw [hva]; exact hap
    · have hT : typeAt st.myGraph.nodes v ≠ 0 := by
        rcases hset a v hab hv (Ne.symm hva) with h2 | h2 | ⟨_, h2, _⟩ <;> omega
      have := h1.mem_of_type v hT
      simpa using this

/-- After the edge loop on a well-formed input the accepted connections form a
single path through all nodes. -/
theorem builder_single_path (sort : List weight → List weight) (hs : StdSort sort)
    (rows : List (List Int)) (hwf : WellFormed rows) (hn : 2 ≤ rows.length) :
    ∃ st1 a mid b,
      cycleBuilder (initState sort rows) (initState sort rows).myGraph.weights = some st1 ∧
      Frame (initState sort rows) st1 ∧ AuxInv st1 ∧
      PathInv st1 [a :: (mid ++ [b])] ∧ (a :: (mid ++ [b])).Perm (List.range rows.length) := by
  obtain ⟨st1, ps1, hrun, hfr, hinv, haux, hset, _⟩ :=
    cycleBuilder_inv (initState sort rows).myGraph.weights (initState_pathInv sort rows)
      (initState_auxInv sort rows) (initState_validEdge sort hs rows hwf.1 hwf.2.1)
  have hlen : st1.myGraph.nodes.length = rows.length := by
    rw [hfr.1, initState_nodes]; simp
  have hall : ∀ i j, i < rows.length → j < rows.length → i ≠ j →
      Settled st1.myGraph.nodes i j := by
    intro i j hi hj hij
    rcases Nat.lt_or_gt_of_ne hij with hlt | hlt
    · obtain ⟨w, hw, h1, h2⟩ := initState_complete sort hs rows hwf j i hj hlt
      have := hset w hw
      rw [h1, h2] at this
      exact settled_symm _ _ _ this
    · obtain ⟨w, hw, h1, h2⟩ := initState_complete sort hs rows hwf i j hi hlt
      have := hset w hw
      rw [h1, h2] at this
      exact this
  obtain ⟨a, mid, b, hp, hperm⟩ := single_path hinv rows.length hn hlen hall
  exact ⟨st1, a, mid, b, hrun, hfr, haux, hp, hperm⟩

/-! ## Closing the cycle -/

theorem getLast?_cons_or (a : Nat) (l : List Nat) :
    (a :: l).getLast? = (l.getLast?).or (some a) := by
  rw [List.getLast?_cons]
  cases l.getLast? <;> rfl

/-- The scan returns the first and the last leader. -/
theorem leaderScan_eq (l : List node) (acc : Option Nat × Option Nat) :
    leaderScan acc l =
      (acc.1.or (leaderNames l).head?, ((leaderNames l).getLast?).or acc.2) := by
  induction l generalizing acc with
  | nil => simp [leaderScan, leaderNames]
  | cons n l ih =>
    by_cases hn : n.nodeType = 1
    · have hl : leaderNames (n :: l) = n.nodeName :: leaderNames l := by
        simp [leaderNames, hn]
      rw [leaderScan, if_pos hn, ih, hl, getLast?_cons_or]
      obtain ⟨a1, a2⟩ := acc
      cases a1 <;> cases h : (leaderNames l).getLast? <;> simp
    · have hl : leaderNames (n :: l) = leaderNames l := by
        simp [leaderNames, hn]
      rw [leaderScan, if_neg hn, ih, hl]

theorem leaderNames_append_single (l : List node) (x : node) :
    leaderNames (l ++ [x]) = leaderNames l ++ (if x.nodeType = 1 then [x.nodeName] else []) := by
  unfold leaderNames
  rw [List.filter_append, List.map_append]
  by_cases hx : x.nodeType = 1 <;> simp [hx]

theorem typeAt_append_left (l : List node) (x : node) (i : Nat) (h : i < l.length) :
    typeAt (l ++ [x]) i = typeAt l i := by
  unfold typeAt
  rw [List.getElem?_append_left h]

theorem nameAt_append_left (l : List node) (x : node) (i : Nat) (h : i < l.length) :
    nameAt (l ++ [x]) i = nameAt l i := by
  unfold nameAt
  rw [List.getElem?_append_left h]

/-- When every node is named by its index, the leader names are the indices of
the leaders in ascending order. -/
theorem leaderNames_eq (ns : List node) (hname : ∀ i < ns.length, nameAt ns i = i) :
    leaderNames ns = (List.range ns.length).filter (fun i => decide (typeAt ns i = 1)) := by
  induction ns using List.reverseRecOn with
  | nil => rfl
  | append_singleton l x ih =>
    have hx : nameAt (l ++ [x]) l.length = l.length := hname _ (by simp)
    have hxn : x.nodeName = l.length := by
      unfold nameAt at hx
      simpa using hx
    have hxt : typeAt (l ++ [x]) l.length = x.nodeType := by
      unfold typeAt
      simp
    have ih2 := ih (fun i hi => by
      rw [← nameAt_append_left l x i hi]
      exact hname i (by simp; omega))
    rw [leaderNames_append_single, List.length_append, List.length_singleton,
      List.range_succ, List.filter_append, ih2]
    congr 1
    · apply List.filter_congr
      intro i hi
      rw [typeAt_append_left l x i (List.mem_range.mp hi)]
    · by_cases h1 : x.nodeType = 1 <;> simp [h1, hxt, hxn]

theorem filter_range_pair (n a b : Nat) (f : Nat → Bool) (hab : a < b) (hb : b < n)
    (hf : ∀ i, i < n → (f i = true ↔ i = a ∨ i = b)) :
    (List.range n).filter f = [a, b] := by
  have hs1 : ((List.range n).filter f).Sorted (fun x y : Nat => x < y) :=
    (List.pairwise_lt_range n).sublist (List.filter_sublist _)
  have hs2 : [a, b].Sorted (fun x y : Nat => x < y) := by simp [List.Sorted, hab]
  have hperm : ((List.range n).filter f).Perm [a, b] := by
    rw [List.perm_ext_iff_of_nodup ((List.nodup_range n).filter _) (by simp; omega)]
    intro i
    simp only [List.mem_filter, List.mem_range, List.mem_cons, List.mem_singleton,
      List.not_mem_nil, or_false]
    constructor
    · rintro ⟨h1, h2⟩
      exact (hf i h1).mp h2
    · intro h1
      have hi : i < n := by rcases h1 with rfl | rfl <;> omega
      exact ⟨hi, (hf i hi).mpr h1⟩
  exact List.eq_of_perm_of_sorted hperm hs1 hs2

/-- With one path through all nodes, the two leaders are its ends; the closer
finds them as `nodeOne < nodeTwo`, appends `Connection(nodeOne, nodeTwo)` and
adds their distance. -/
theorem cycleCloser_spec {st1 : state} {a b : Nat} {mid : List Nat}
    (h : PathInv st1 [a :: (mid ++ [b])])
    (hname : ∀ i < st1.myGraph.nodes.length, nameAt st1.myGraph.nodes i = i)
    (hdist : ∀ i j, i < st1.myGraph.nodes.length → j < st1.myGraph.nodes.length →
      ∃ d, st1.myGraph.distance i j = some d) :
    ∃ lo mid2 hi d, lo < hi ∧ PathInv st1 [lo :: (mid2 ++ [hi])] ∧
      (lo :: (mid2 ++ [hi])).Perm (a :: (mid ++ [b])) ∧
      st1.myGraph.distance lo hi = some d ∧
      cycleCloser st1 = some (st1.close lo hi d, lo) := by
  have key : ∀ (lo hi : Nat) (mid2 : List Nat), lo < hi → PathInv st1 [lo :: (mid2 ++ [hi])] →
      ∃ d, st1.myGraph.distance lo hi = some d ∧
        cycleCloser st1 = some (st1.close lo hi d, lo) := by
    intro lo hi mid2 hlt hp
    obtain ⟨hTa, hTb, hTmid, _⟩ := (goodPath_iff _ lo mid2 hi).mp (hp.good _ (by simp))
    have hlo : lo < st1.myGraph.nodes.length := hp.bound lo (by simp)
    have hhi : hi < st1.myGraph.nodes.length := hp.bound hi (by simp)
    obtain ⟨d, hd⟩ := hdist lo hi hlo hhi
    refine ⟨d, hd, ?_⟩
    have hleaders : ∀ i, i < st1.myGraph.nodes.length →
        (decide (typeAt st1.myGraph.nodes i = 1) = true ↔ i = lo ∨ i = hi) := by
      intro i _
      rw [decide_eq_true_eq]
      constructor
      · intro hT
        have hmem := hp.mem_of_type i (by omega)
        simp only [List.flatten_cons, List.flatten_nil, List.append_nil, List.mem_cons,
          List.mem_append, List.mem_singleton, List.not_mem_nil, or_false] at hmem
        rcases hmem with rfl | hm | rfl
        · exact Or.inl rfl
        · have := hTmid i hm
          omega
        · exact Or.inr rfl
      · rintro (rfl | rfl)
        · exact hTa
        · exact hTb
    have hnames : leaderNames st1.myGraph.nodes = [lo, hi] := by
      rw [leaderNames_eq _ hname]
      exact filter_range_pair _ lo hi _ hlt hhi hleaders
    unfold cycleCloser
    rw [leaderScan_eq, hnames]
    simp only [List.head?_cons, Option.none_or, List.getLast?_cons_cons, List.getLast?_singleton,
      Option.or_some]
    rw [if_pos ⟨hlo, hhi⟩, hd]
  have hnd : (a :: (mid ++ [b])).Nodup := by
    have := h.nodup
    simpa using this
  have hab : a ≠ b := by
    intro hc
    simp [hc] at hnd
  rcases Nat.lt_or_gt_of_ne hab with hlt | hlt
  · obtain ⟨d, hd, hc⟩ := key a b mid hlt h
    exact ⟨a, mid, b, d, hlt, h, List.Perm.refl _, hd, hc⟩
  · have h2 : PathInv st1 [b :: (mid.reverse ++ [a])] := by
      have := h.reverse_head
      simpa using this
    obtain ⟨d, hd, hc⟩ := key b a mid.reverse hlt h2
    refine ⟨b, mid.reverse, a, d, hlt, h2, ?_, hd, hc⟩
    have : b :: (mid.reverse ++ [a]) = (a :: (mid ++ [b])).reverse := by simp
    rw [this]
    exact List.reverse_perm _

/-! ## The path retrace -/

theorem retraceScan_cons (ns : List node) (wk : walker) (c : connectedNode)
    (cs : List connectedNode) :
    retraceScan ns wk (c :: cs) =
      if eligible wk c then
        ((retraceScan ns (hop ns wk c) cs).1,
          { c with checked := true } :: (retraceScan ns (hop ns wk c) cs).2)
      else
        ((retraceScan ns wk cs).1, c :: (retraceScan ns wk cs).2) := by
  rw [retraceScan]
  unfold eligible hop
  by_cases h : (c.connectedLeftNode = wk.currentNode ∨ c.connectedRightNode = wk.currentNode)
      ∧ c.checked = false
  · rw [if_pos h]
  · rw [if_neg h]

theorem openEnds_append (l1 l2 : List connectedNode) :
    openEnds (l1 ++ l2) = openEnds l1 ++ openEnds l2 := by
  simp [openEnds]

theorem openEnds_cons_unchecked (c : connectedNode) (l : List connectedNode)
    (h : c.checked = false) : openEnds (c :: l) = c.ends :: openEnds l := by
  simp [openEnds, h]

theorem openEnds_cons_checked (c : connectedNode) (l : List connectedNode)
    (h : c.checked = true) : openEnds (c :: l) = openEnds l := by
  simp [openEnds, h]

theorem openEnds_of_fresh (cs : List connectedNode) (h : ∀ c ∈ cs, c.checked = false) :
    openEnds cs = cs.map connectedNode.ends := by
  unfold openEnds
  rw [List.filter_eq_self.mpr]
  intro c hc
  simp [h c hc]

theorem openEnds_check (pre post : List connectedNode) (c : connectedNode)
    (h : c.checked = false) :
    (openEnds (pre ++ c :: post)).Perm
      (c.ends :: openEnds (pre ++ { c with checked := true } :: post)) := by
  rw [openEnds_append, openEnds_append, openEnds_cons_unchecked c post h,
    openEnds_cons_checked _ post rfl]
  exact List.perm_middle

theorem mem_openEnds (cs : List connectedNode) (e : Sym2 Nat) (h : e ∈ openEnds cs) :
    ∃ c ∈ cs, c.checked = false ∧ c.ends = e := by
  unfold openEnds at h
  rw [List.mem_map] at h
  obtain ⟨c, hc, he⟩ := h
  rw [List.mem_filter] at hc
  exact ⟨c, hc.1, by simpa using hc.2, he⟩

/-- The scan never unchecks a connection, and it checks at least one when some
connection ahead is eligible. -/
theorem retraceScan_progress (ns : List node) (cs : List connectedNode) (wk : walker) :
    (openEnds (retraceScan ns wk cs).2).length ≤ (openEnds cs).length ∧
    ((∃ c ∈ cs, eligible wk c) →
      (openEnds (retraceScan ns wk cs).2).length < (openEnds cs).length) := by
  induction cs generalizing wk with
  | nil => simp [retraceScan]
  | cons c cs ih =>
    rw [retraceScan_cons]
    by_cases he : eligible wk c
    · rw [if_pos he]
      have h1 := (ih (hop ns wk c)).1
      simp only []
      rw [openEnds_cons_checked _ _ rfl, openEnds_cons_unchecked c cs he.2, List.length_cons]
      exact ⟨by omega, fun _ => by omega⟩
    · rw [if_neg he]
      simp only []
      by_cases hc : c.checked = false
      · rw [openEnds_cons_unchecked c _ hc, openEnds_cons_unchecked c cs hc,
          List.length_cons, List.length_cons]
        refine ⟨by have := (ih wk).1; omega, ?_⟩
        rintro ⟨c1, hc1, hel⟩
        rcases List.mem_cons.mp hc1 with rfl | hc1
        · exact absurd hel he
        · have := (ih wk).2 ⟨c1, hc1, hel⟩
          omega
      · have hc2 : c.checked = true := by simpa using hc
        rw [openEnds_cons_checked c _ hc2, openEnds_cons_checked c cs hc2]
        refine ⟨(ih wk).1, ?_⟩
        rintro ⟨c1, hc1, hel⟩
        rcases List.mem_cons.mp hc1 with rfl | hc1
        · exact absurd hel he
        · exact (ih wk).2 ⟨c1, hc1, hel⟩

theorem retraceScan_ends (ns : List node) (cs : List connectedNode) (wk : walker) :
    (retraceScan ns wk cs).2.map connectedNode.ends = cs.map connectedNode.ends := by
  induction cs generalizing wk with
  | nil => simp [retraceScan]
  | cons c cs ih =>
    rw [retraceScan_cons]
    by_cases he : eligible wk c
    · rw [if_pos he]
      simp only [List.map_cons, ih]
      rfl
    · rw [if_neg he]
      simp only [List.map_cons, ih]

theorem hop_core (ns : List node) (wk : walker) (c : connectedNode)
    (pre post : List connectedNode) (y : Nat) (R2 : List Nat)
    (he : eligible wk c) (hends : c.ends = s(wk.currentNode, y)) (hy : y ≠ wk.currentNode)
    (hname : nameAt ns wk.currentNode = wk.currentNode)
    (hopen : (openEnds (pre ++ c :: post)).Perm (hops (wk.currentNode :: y :: R2))) :
    hop ns wk c = ⟨y, wk.pathTaken ++ [wk.currentNode]⟩ ∧
    (openEnds (pre ++ { c with checked := true } :: post)).Perm (hops (y :: R2)) := by
  constructor
  · unfold hop
    rw [hname]
    unfold connectedNode.ends at hends
    rw [Sym2.eq_iff] at hends
    by_cases hl : c.connectedLeftNode = wk.currentNode
    · rw [if_pos hl]
      rcases hends with ⟨_, h2⟩ | ⟨h1, _⟩
      · rw [h2]
      · exact absurd (h1.symm.trans hl) hy
    · rw [if_neg hl]
      rcases hends with ⟨h1, _⟩ | ⟨h1, _⟩
      · exact absurd h1 hl
      · rw [h1]
  · have h1 := (openEnds_check pre post c he.2).symm.trans hopen
    rw [hops, hends] at h1
    exact h1.cons_inv

theorem mem_ends_of_eligible (wk : walker) (c : connectedNode) (he : eligible wk c) :
    wk.currentNode ∈ c.ends := by
  unfold connectedNode.ends
  rw [Sym2.mem_iff]
  rcases he.1 with h | h
  · exact Or.inl h.symm
  · exact Or.inr h.symm

theorem ends_mem_openEnds (pre post : List connectedNode) (c : connectedNode)
    (h : c.checked = false) : c.ends ∈ openEnds (pre ++ c :: post) := by
  rw [openEnds_append, openEnds_cons_unchecked c post h]
  simp

/-- A hop of a walker that is under way keeps it under way. -/
theorem walkOn_hop (ns : List node) (a : Nat) (rest : List Nat) (hnd : (a :: rest).Nodup)
    (hname : ∀ v ∈ a :: rest, nameAt ns v = v) (wk : walker) (c : connectedNode)
    (pre post : List connectedNode) (hw : WalkOn a rest wk (pre ++ c :: post))
    (he : eligible wk c) :
    WalkOn a rest (hop ns wk c) (pre ++ { c with checked := true } :: post) := by
  obtain ⟨hne, R, hR, hhead, hopen⟩ := hw
  have hnd2 : (rest ++ [a]).Nodup := by
    have : (rest ++ [a]).Perm (a :: rest) := List.perm_append_singleton a rest
    exact (this.nodup_iff).mpr hnd
  cases hpath : wk.pathTaken with
  | nil => exact absurd hpath hne
  | cons p0 path1 =>
    cases R with
    | nil => simp at hhead
    | cons cur R1 =>
      simp only [List.head?_cons, Option.some.injEq] at hhead
      subst hhead
      rw [hpath] at hR
      simp only [List.cons_append, List.cons.injEq] at hR
      obtain ⟨_, hR2⟩ := hR
      have hnd3 : (path1 ++ wk.currentNode :: R1).Nodup := by rw [hR2]; exact hnd2
      have hnd4 : (wk.currentNode :: R1).Nodup := (List.nodup_append.mp hnd3).2.1
      have hcurR : wk.currentNode ∉ R1 := (List.nodup_cons.mp hnd4).1
      have hcmem : c.ends ∈ hops (wk.currentNode :: R1) :=
        hopen.subset (ends_mem_openEnds pre post c he.2)
      cases R1 with
      | nil => simp [hops] at hcmem
      | cons y R2 =>
        have hends := hop_at_head _ y R2 hcurR _ hcmem (mem_ends_of_eligible wk c he)
        have hy : y ≠ wk.currentNode := by
          intro hc
          apply hcurR
          rw [hc]
          simp
        have hcurmem : wk.currentNode ∈ a :: rest := by
          have : wk.currentNode ∈ rest ++ [a] := by
            rw [← hR2]; simp
          simp only [List.mem_append, List.mem_singleton] at this
          simp only [List.mem_cons]
          tauto
        obtain ⟨h1, h2⟩ := hop_core ns wk c pre post y R2 he hends hy (hname _ hcurmem) hopen
        refine ⟨by rw [h1]; simp, y :: R2, ?_, by rw [h1]; rfl, h2⟩
        rw [h1]
        simp only [List.append_assoc, List.singleton_append]
        rw [hpath]
        simp only [List.cons_append, List.cons.injEq]
        exact ⟨by tauto, hR2⟩

theorem hops_reverse_perm (p : List Nat) : (hops p.reverse).Perm (hops p) := by
  rw [hops_reverse]
  exact List.reverse_perm _

/-- The first hop of the retrace puts the walker under way in one of the two
directions of the cycle. -/
theorem tracing_first_hop (ns : List node) (a : Nat) (rest : List Nat)
    (hnd : (a :: rest).Nodup) (hrest : rest ≠ [])
    (hname : ∀ v ∈ a :: rest, nameAt ns v = v) (wk : walker) (c : connectedNode)
    (pre post : List connectedNode) (hpath : wk.pathTaken = []) (hcur : wk.currentNode = a)
    (hopen : (openEnds (pre ++ c :: post)).Perm (hops (a :: rest ++ [a])))
    (he : eligible wk c) :
    WalkOn a rest (hop ns wk c) (pre ++ { c with checked := true } :: post) ∨
    WalkOn a rest.reverse (hop ns wk c) (pre ++ { c with checked := true } :: post) := by
  have hanr : a ∉ rest := (List.nodup_cons.mp hnd).1
  have hcmem : c.ends ∈ hops (a :: rest ++ [a]) :=
    hopen.subset (ends_mem_openEnds pre post c he.2)
  have hamem : a ∈ c.ends := hcur ▸ mem_ends_of_eligible wk c he
  have hnamea : nameAt ns wk.currentNode = wk.currentNode := by
    rw [hcur]; exact hname a (by simp)
  -- the general step, for a direction `rs` whose first hop is the connection taken
  have key : ∀ (y : Nat) (R2 rs : List Nat), rs ++ [a] = y :: R2 → y ≠ a →
      c.ends = s(a, y) → (openEnds (pre ++ c :: post)).Perm (hops (a :: rs ++ [a])) →
      WalkOn a rs (hop ns wk c) (pre ++ { c with checked := true } :: post) := by
    intro y R2 rs hrs hya hends hopen2
    have hopen3 : (openEnds (pre ++ c :: post)).Perm (hops (wk.currentNode :: y :: R2)) := by
      rw [hcur, ← hrs]
      exact hopen2
    obtain ⟨h1, h2⟩ := hop_core ns wk c pre post y R2 he (hcur ▸ hends) (hcur ▸ hya) hnamea
      hopen3
    refine ⟨by rw [h1]; simp, y :: R2, ?_, by rw [h1]; rfl, h2⟩
    rw [h1, hpath, hcur, ← hrs]
    simp
  cases hr : rest with
  | nil => exact absurd hr hrest
  | cons r1 rest1 =>
    rw [hr] at hcmem
    simp only [List.cons_append, hops, List.mem_cons] at hcmem
    have hr1 : r1 ≠ a := by
      intro hc
      apply hanr
      rw [hr, hc]
      simp
    rcases hcmem with hfirst | hlater
    · left
      rw [← hr]
      exact key r1 (rest1 ++ [a]) rest (by rw [hr]; simp) hr1 hfirst hopen
    · right
      rw [← hr]
      have hrev : (a :: rest.reverse).reverse = rest ++ [a] := by simp
      have hlater2 : c.ends ∈ hops (a :: rest.reverse) := by
        have : c.ends ∈ hops (rest ++ [a]) := by
          rw [hr]; exact hlater
        rw [← hrev, hops_reverse] at this
        exact List.mem_reverse.mp this
      have hopen2 : (openEnds (pre ++ c :: post)).Perm (hops (a :: rest.reverse ++ [a])) := by
        refine hopen.trans ?_
        have : a :: rest.reverse ++ [a] = (a :: rest ++ [a]).reverse := by simp
        rw [this]
        exact (hops_reverse_perm _).symm
      cases hrr : rest.reverse with
      | nil =>
        exfalso
        apply hrest
        have := congrArg List.reverse hrr
        simpa using this
      | cons z rr =>
        rw [hrr] at hlater2
        have hzr : a ∉ z :: rr := by
          rw [← hrr]
          simpa using hanr
        have hends := hop_at_head a z rr hzr _ hlater2 hamem
        have hza : z ≠ a := by
          intro hc
          apply hzr
          rw [hc]
          simp
        have := key z (rr ++ [a]) rest.reverse (by rw [hrr]; simp) hza hends hopen2
        rw [hrr] at this
        exact this

/-- One scan over the connections keeps the retrace invariant. -/
theorem tracing_scan (ns : List node) (a : Nat) (rest : List Nat) (hnd : (a :: rest).Nodup)
    (hrest : rest ≠ []) (hname : ∀ v ∈ a :: rest, nameAt ns v = v)
    (cs pre : List connectedNode) (wk : walker) (h : Tracing a rest wk (pre ++ cs)) :
    Tracing a rest (retraceScan ns wk cs).1 (pre ++ (retraceScan ns wk cs).2) := by
  have hndr : (a :: rest.reverse).Nodup := by
    have : (a :: rest.reverse).Perm (a :: rest) := (List.reverse_perm rest).cons a
    exact (this.nodup_iff).mpr hnd
  have hnamer : ∀ v ∈ a :: rest.reverse, nameAt ns v = v := by
    intro v hv
    apply hname
    simpa using hv
  induction cs generalizing pre wk with
  | nil => simpa [retraceScan] using h
  | cons c cs ih =>
    rw [retraceScan_cons]
    by_cases he : eligible wk c
    · rw [if_pos he]
      have hstep : Tracing a rest (hop ns wk c)
          ((pre ++ [{ c with checked := true }]) ++ cs) := by
        rw [List.append_assoc, List.singleton_append]
        rcases h with ⟨hp, hc, hopen⟩ | hw | hw
        · exact Or.inr (tracing_first_hop ns a rest hnd hrest hname wk c pre cs hp hc hopen he)
        · exact Or.inr (Or.inl (walkOn_hop ns a rest hnd hname wk c pre cs hw he))
        · exact Or.inr (Or.inr (walkOn_hop ns a rest.reverse hndr hnamer wk c pre cs hw he))
      have := ih (pre ++ [{ c with checked := true }]) (hop ns wk c) hstep
      simpa using this
    · rw [if_neg he]
      have hstep : Tracing a rest wk ((pre ++ [c]) ++ cs) := by
        rw [List.append_assoc, List.singleton_append]
        exact h
      have := ih (pre ++ [c]) wk hstep
      simpa using this

/-- While connections are unchecked, one of them is eligible. -/
theorem tracing_eligible (a : Nat) (rest : List Nat) (hrest : rest ≠ []) (wk : walker)
    (cs : List connectedNode) (h : Tracing a rest wk cs) (hopen : openEnds cs ≠ []) :
    ∃ c ∈ cs, eligible wk c := by
  have key : ∀ (x y : Nat), wk.currentNode = x → s(x, y) ∈ openEnds cs →
      ∃ c ∈ cs, eligible wk c := by
    intro x y hx hmem
    obtain ⟨c, hc, hch, hends⟩ := mem_openEnds cs _ hmem
    refine ⟨c, hc, ?_, hch⟩
    unfold connectedNode.ends at hends
    rw [Sym2.eq_iff] at hends
    rw [hx]
    rcases hends with ⟨h1, _⟩ | ⟨_, h2⟩
    · exact Or.inl h1
    · exact Or.inr h2
  have walk : ∀ rs, WalkOn a rs wk cs → ∃ c ∈ cs, eligible wk c := by
    rintro rs ⟨_, R, _, hhead, hperm⟩
    cases R with
    | nil => simp at hhead
    | cons cur R1 =>
      simp only [List.head?_cons, Option.some.injEq] at hhead
      cases R1 with
      | nil =>
        exfalso
        apply hopen
        simpa [hops] using hperm
      | cons y R2 =>
        refine key cur y hhead.symm ?_
        apply hperm.symm.subset
        simp [hops]
  rcases h with ⟨_, hc, hperm⟩ | hw | hw
  · cases hr : rest with
    | nil => exact absurd hr hrest
    | cons r1 rest1 =>
      refine key a r1 hc ?_
      apply hperm.symm.subset
      rw [hr]
      simp [hops]
  · exact walk _ hw
  · exact walk _ hw

/-- After `k` passes at most `total - k` connections are still unchecked. -/
theorem tracing_loop (ns : List node) (a : Nat) (rest : List Nat) (hnd : (a :: rest).Nodup)
    (hrest : rest ≠ []) (hname : ∀ v ∈ a :: rest, nameAt ns v = v) (k : Nat)
    (wk : walker) (cs : List connectedNode) (h : Tracing a rest wk cs) :
    Tracing a rest (retraceLoop ns k wk cs).1 (retraceLoop ns k wk cs).2 ∧
    (openEnds (retraceLoop ns k wk cs).2).length ≤ (openEnds cs).length - k ∧
    (retraceLoop ns k wk cs).2.map connectedNode.ends = cs.map connectedNode.ends := by
  induction k generalizing wk cs with
  | zero => exact ⟨h, by simp [retraceLoop], rfl⟩
  | succ k ih =>
    rw [retraceLoop]
    have h1 := tracing_scan ns a rest hnd hrest hname cs [] wk (by simpa using h)
    simp only [List.nil_append] at h1
    have hprog := retraceScan_progress ns cs wk
    obtain ⟨h2, h3, h4⟩ := ih _ _ h1
    refine ⟨h2, ?_, by rw [h4, retraceScan_ends]⟩
    by_cases hopen : openEnds cs = []
    · have : (openEnds cs).length = 0 := by rw [hopen]; rfl
      have := hprog.1
      omega
    · have := hprog.2 (tracing_eligible a rest hrest wk cs h hopen)
      omega

/-- When no connection is unchecked the walker is back at the start and has
recorded the cycle in one of its two directions. -/
theorem tracing_done (a : Nat) (rest : List Nat) (hrest : rest ≠ []) (wk : walker)
    (cs : List connectedNode) (h : Tracing a rest wk cs) (hopen : openEnds cs = []) :
    wk.currentNode = a ∧ (wk.pathTaken = a :: rest ∨ wk.pathTaken = a :: rest.reverse) := by
  have walk : ∀ rs, WalkOn a rs wk cs → wk.currentNode = a ∧ wk.pathTaken = a :: rs := by
    rintro rs ⟨_, R, hR, hhead, hperm⟩
    rw [hopen] at hperm
    have hh : hops R = [] := List.perm_nil.mp hperm.symm
    cases R with
    | nil => simp at hhead
    | cons cur R1 =>
      simp only [List.head?_cons, Option.some.injEq] at hhead
      cases R1 with
      | cons y R2 => simp [hops] at hh
      | nil =>
        have hR2 : wk.pathTaken ++ [cur] = (a :: rs) ++ [a] := by simpa using hR
        obtain ⟨h1, h2⟩ := List.append_inj' hR2 rfl
        simp only [List.cons.injEq, and_true] at h2
        exact ⟨by rw [← hhead, h2], h1⟩
  rcases h with ⟨_, _, hperm⟩ | hw | hw
  · exfalso
    rw [hopen] at hperm
    have hh : hops (a :: rest ++ [a]) = [] := List.perm_nil.mp hperm.symm
    cases hr : rest with
    | nil => exact hrest hr
    | cons r1 rest1 =>
      rw [hr] at hh
      simp [hops] at hh
  · exact ⟨(walk _ hw).1, Or.inl (walk _ hw).2⟩
  · exact ⟨(walk _ hw).1, Or.inr (walk _ hw).2⟩

/-- The path retrace on a connection list that is a cycle through all nodes:
the recorded sequence is the cycle, in one of its two directions, closed by the
start node. -/
theorem retrace_spec (st : state) (a : Nat) (rest : List Nat) (hnd : (a :: rest).Nodup)
    (hrest : rest ≠ []) (hname : ∀ v ∈ a :: rest, nameAt st.myGraph.nodes v = v)
    (hfresh : ∀ c ∈ st.myGraph.connectedNodes, c.checked = false)
    (hedges : (st.myGraph.connectedNodes.map connectedNode.ends).Perm (hops (a :: rest ++ [a])))
    (hpath : st.myGraph.pathTaken = []) (hnum : st.myGraph.numNodes = (a :: rest).length) :
    (retrace st a).myGraph.pathTaken = a :: rest ++ [a] ∨
    (retrace st a).myGraph.pathTaken = a :: rest.reverse ++ [a] := by
  have h0 : Tracing a rest ⟨a, st.myGraph.pathTaken⟩ st.myGraph.connectedNodes := by
    left
    refine ⟨hpath, rfl, ?_⟩
    rw [openEnds_of_fresh _ hfresh]
    exact hedges
  obtain ⟨h1, h2, _⟩ := tracing_loop st.myGraph.nodes a rest hnd hrest hname
    st.myGraph.numNodes _ _ h0
  have hlen : (openEnds st.myGraph.connectedNodes).length = st.myGraph.numNodes := by
    rw [openEnds_of_fresh _ hfresh, hedges.length_eq, length_hops, hnum]
    simp
  have hdone : openEnds (retraceLoop st.myGraph.nodes st.myGraph.numNodes
      ⟨a, st.myGraph.pathTaken⟩ st.myGraph.connectedNodes).2 = [] := by
    apply List.eq_nil_of_length_eq_zero
    omega
  obtain ⟨_, h4⟩ := tracing_done a rest hrest _ _ h1 hdone
  have hna : nameAt st.myGraph.nodes a = a := hname a (by simp)
  unfold retrace
  simp only [hna]
  rcases h4 with h4 | h4
  · left; rw [h4]
  · right; rw [h4]

/-! ## Distances along walks -/

theorem dist_symm (g : graph) (i j : Nat) : g.dist i j = g.dist j i := by
  unfold graph.dist graph.distance
  rcases Nat.lt_trichotomy i j with h | h | h
  · rw [if_pos h, if_neg (by omega)]
  · rw [h]
  · rw [if_neg (by omega), if_pos h]

/-- The distance of an unordered pair of nodes. -/
theorem exists_distSym (g : graph) :
    ∃ f : Sym2 Nat → Int, ∀ i j, f s(i, j) = g.dist i j :=
  ⟨Sym2.lift ⟨g.dist, dist_symm g⟩, fun _ _ => rfl⟩

theorem walkLength_eq_hops (g : graph) (f : Sym2 Nat → Int)
    (hf : ∀ i j, f s(i, j) = g.dist i j) (p : List Nat) :
    walkLength g p = ((hops p).map f).sum := by
  induction p with
  | nil => rfl
  | cons a p ih =>
    cases p with
    | nil => rfl
    | cons b p =>
      rw [walkLength, hops, List.map_cons, List.sum_cons, hf, ih]

theorem connTotal_eq_ends (g : graph) (f : Sym2 Nat → Int)
    (hf : ∀ i j, f s(i, j) = g.dist i j) (cs : List connectedNode) :
    connTotal g cs = ((cs.map connectedNode.ends).map f).sum := by
  unfold connTotal
  rw [List.map_map]
  congr 1
  apply List.map_congr_left
  intro c _
  simp [connectedNode.ends, hf]

/-- Connections that are the hops of a walk sum up to the length of the walk. -/
theorem connTotal_eq_walkLength (g : graph) (cs : List connectedNode) (p : List Nat)
    (h : (cs.map connectedNode.ends).Perm (hops p)) : connTotal g cs = walkLength g p := by
  obtain ⟨f, hf⟩ := exists_distSym g
  rw [connTotal_eq_ends g f hf, walkLength_eq_hops g f hf]
  exact (h.map f).sum_eq

theorem tourSum_eq_walkLength (g : graph) (seq : List Nat) (n : Nat)
    (h : seq.length = n + 1) : tourSum g seq n = walkLength g seq := by
  induction seq generalizing n with
  | nil => simp at h
  | cons a p ih =>
    cases p with
    | nil =>
      have : n = 0 := by simpa using h
      subst this
      rfl
    | cons b p =>
      cases n with
      | zero => simp at h
      | succ n =>
        have h2 : (b :: p).length = n + 1 := by simpa using h
        rw [walkLength, ← ih n h2]
        unfold tourSum
        rw [List.range_succ_eq_map, List.map_cons, List.sum_cons, List.map_map]
        rfl

/-- Every lookup between two existing nodes of a lower-triangular input succeeds. -/
theorem distance_defined (rows : List (List Int)) (hlt : LowerTriangular rows) (i j : Nat)
    (hi : i < rows.length) (hj : j < rows.length) :
    ∃ d, (readGraph rows).distance i j = some d := by
  unfold graph.distance
  by_cases h : i < j
  · rw [if_pos h, readGraph_matAt]
    exact ⟨_, List.getElem?_eq_getElem (by rw [hlt j hj]; omega)⟩
  · rw [if_neg h, readGraph_matAt]
    exact ⟨_, List.getElem?_eq_getElem (by rw [hlt i hi]; omega)⟩

theorem retraceScan_degree (ns : List node) (cs : List connectedNode) (wk : walker) (v : Nat) :
    degree (retraceScan ns wk cs).2 v = degree cs v := by
  induction cs generalizing wk with
  | nil => simp [retraceScan]
  | cons c cs ih =>
    have hcons : ∀ (c1 : connectedNode) (l : List connectedNode),
        degree (c1 :: l) v = degree l v +
          (if c1.connectedLeftNode = v then 1 else 0) +
          (if c1.connectedRightNode = v then 1 else 0) := by
      intro c1 l
      unfold degree
      simp only [List.countP_cons, decide_eq_true_eq]
      omega
    rw [retraceScan_cons]
    by_cases he : eligible wk c
    · rw [if_pos he]
      simp only []
      rw [hcons, hcons, ih]
    · rw [if_neg he]
      simp only []
      rw [hcons, hcons, ih]

theorem retraceLoop_degree (ns : List node) (k : Nat) (cs : List connectedNode) (wk : walker)
    (v : Nat) : degree (retraceLoop ns k wk cs).2 v = degree cs v := by
  induction k generalizing wk cs with
  | zero => rfl
  | succ k ih => rw [retraceLoop, ih, retraceScan_degree]

/-! ## The whole run of the original algorithm -/

theorem distance_congr (g g1 : graph) (h : g1.matrix = g.matrix) (i j : Nat) :
    g1.distance i j = g.distance i j := by
  unfold graph.distance
  rw [h]

theorem walkLength_congr (g g1 : graph) (h : g1.matrix = g.matrix) (p : List Nat) :
    walkLength g1 p = walkLength g p := by
  induction p with
  | nil => rfl
  | cons a p ih =>
    cases p with
    | nil => rfl
    | cons b p => rw [walkLength, walkLength, ih, dist_congr g g1 h]

/-- The run of the original algorithm on a well-formed input with at least two
nodes, stage by stage. -/
theorem original_run (sort : List weight → List weight) (hs : StdSort sort)
    (rows : List (List Int)) (hwf : WellFormed rows) (hn : 2 ≤ rows.length) :
    ∃ st1 st2 lo rest,
      cycleBuilder (initState sort rows) (initState sort rows).myGraph.weights = some st1 ∧
      cycleCloser st1 = some (st2, lo) ∧
      original sort rows = some (retrace st2 lo) ∧
      (lo :: rest).Perm (List.range rows.length) ∧
      (retrace st2 lo).myGraph.pathTaken = lo :: rest ++ [lo] ∧
      (retrace st2 lo).myGraph.numNodes = rows.length ∧
      (∃ hi d, st1.myGraph.distance lo hi = some d ∧
        (retrace st2 lo).globalTotalWeight =
          doubleToInt (wrapInt (connTotal st1.myGraph st1.myGraph.connectedNodes) + d) ∧
        connTotal st1.myGraph st1.myGraph.connectedNodes + d =
          walkLength (retrace st2 lo).myGraph (lo :: rest ++ [lo])) ∧
      (retrace st2 lo).myGraph.matrix = (readGraph rows).matrix ∧
      (∀ v, degree st2.myGraph.connectedNodes v = if v < rows.length then 2 else 0) ∧
      (∀ v, degree (retrace st2 lo).myGraph.connectedNodes v =
        degree st2.myGraph.connectedNodes v) := by
  obtain ⟨st1, a, mid, b, hrun, hfr, haux, hp, hperm⟩ := builder_single_path sort hs rows hwf hn
  have hlen1 : st1.myGraph.nodes.length = rows.length := by
    rw [hfr.1, initState_nodes]; simp
  have hname1 : ∀ i < st1.myGraph.nodes.length, nameAt st1.myGraph.nodes i = i := by
    intro i hi
    rw [hfr.2.1 i, initState_nodes]
    exact nameAt_new_nodes _ _ (hlen1 ▸ hi)
  have hmat1 : st1.myGraph.matrix = (readGraph rows).matrix := by
    rw [hfr.2.2.1]; rfl
  have hdist1 : ∀ i j, i < st1.myGraph.nodes.length → j < st1.myGraph.nodes.length →
      ∃ d, st1.myGraph.distance i j = some d := by
    intro i j hi hj
    rw [distance_congr _ _ hmat1]
    exact distance_defined rows hwf.1 i j (hlen1 ▸ hi) (hlen1 ▸ hj)
  obtain ⟨lo, mid2, hi, d, hlt, hp2, hperm2, hd, hclose⟩ := cycleCloser_spec hp hname1 hdist1
  have hnd : (lo :: (mid2 ++ [hi])).Nodup := by
    have := hp2.nodup
    simpa using this
  have hpermn : (lo :: (mid2 ++ [hi])).Perm (List.range rows.length) := hperm2.trans hperm
  have hrest : mid2 ++ [hi] ≠ [] := by simp
  have hname2 : ∀ v ∈ lo :: (mid2 ++ [hi]),
      nameAt (st1.close lo hi d).myGraph.nodes v = v := by
    intro v hv
    exact hname1 v (hp2.bound v (by simpa using hv))
  have hfresh2 : ∀ c ∈ (st1.close lo hi d).myGraph.connectedNodes,
      c.checked = false := fresh_append_new _ _ _ hp2.fresh
  have hedges2 : ((st1.close lo hi d).myGraph.connectedNodes.map
      connectedNode.ends).Perm (hops (lo :: (mid2 ++ [hi]) ++ [lo])) := by
    show ((st1.myGraph.connectedNodes ++ [connectedNode.new lo hi]).map
      connectedNode.ends).Perm _
    rw [ends_append_new]
    have e1 : lo :: (mid2 ++ [hi]) ++ [lo] = (lo :: mid2) ++ [hi] ++ [lo] := by simp
    have e2 : lo :: (mid2 ++ [hi]) = (lo :: mid2) ++ [hi] := by simp
    rw [e1, hops_snoc, ← e2, Sym2.eq_swap]
    have := hp2.edges
    simp only [List.flatMap_cons, List.flatMap_nil, List.append_nil] at this
    exact this.append_right _
  have hpath2 : (st1.close lo hi d).myGraph.pathTaken = [] := by
    show st1.myGraph.pathTaken = []
    rw [hfr.2.2.2.2.2]
    exact (initState_connectedNodes sort rows).2
  have hnum1 : st1.myGraph.numNodes = rows.length := by
    rw [hfr.2.2.2.2.1]
    exact initState_numNodes sort rows
  have hlenp : (lo :: (mid2 ++ [hi])).length = rows.length := by
    rw [hpermn.length_eq]; simp
  have hnum2 : (st1.close lo hi d).myGraph.numNodes =
      (lo :: (mid2 ++ [hi])).length := by
    rw [hlenp]; exact hnum1
  have htotal2 : connTotal st1.myGraph st1.myGraph.connectedNodes + d =
      connTotal st1.myGraph (st1.close lo hi d).myGraph.connectedNodes := by
    show _ = connTotal st1.myGraph (st1.myGraph.connectedNodes ++ [connectedNode.new lo hi])
    rw [connTotal_append_new]
    unfold graph.dist
    rw [hd]
    rfl
  have hdeg2 : ∀ v, degree (st1.close lo hi d).myGraph.connectedNodes v =
      if v < rows.length then 2 else 0 := by
    intro v
    show degree (st1.myGraph.connectedNodes ++ [connectedNode.new lo hi]) v = _
    rw [degree_append_new, haux.deg]
    obtain ⟨hTlo, hThi, hTmid, _⟩ := (goodPath_iff _ lo mid2 hi).mp (hp2.good _ (by simp))
    have hlob : lo < rows.length := hlen1 ▸ hp2.bound lo (by simp)
    have hhib : hi < rows.length := hlen1 ▸ hp2.bound hi (by simp)
    by_cases hv : v < rows.length
    · rw [if_pos hv]
      have hvm : v ∈ lo :: (mid2 ++ [hi]) := hpermn.symm.subset (List.mem_range.mpr hv)
      simp only [List.mem_cons, List.mem_append, List.mem_singleton, List.not_mem_nil,
        or_false] at hvm
      rcases hvm with rfl | hvm | rfl
      · rw [hTlo, if_pos rfl, if_neg (by omega)]
      · have hvlo : lo ≠ v := by
          intro hc
          have := hTmid v hvm
          rw [← hc] at this
          omega
        have hvhi : hi ≠ v := by
          intro hc
          have := hTmid v hvm
          rw [← hc] at this
          omega
        rw [hTmid v hvm, if_neg hvlo, if_neg hvhi]
      · rw [hThi, if_neg (by omega), if_pos rfl]
    · rw [if_neg hv, typeAt_of_le _ _ (by omega), if_neg (by omega), if_neg (by omega)]
  have hdeg3 : ∀ v, degree (retrace (st1.close lo hi d) lo).myGraph.connectedNodes
      v = degree (st1.close lo hi d).myGraph.connectedNodes v := by
    intro v
    exact retraceLoop_degree _ _ _ _ v
  have hfinal : ∀ rest1 : List Nat,
      (retrace (st1.close lo hi d) lo).myGraph.pathTaken =
        lo :: rest1 ++ [lo] →
      (lo :: rest1).Perm (lo :: (mid2 ++ [hi])) →
      (hops (lo :: rest1 ++ [lo])).Perm (hops (lo :: (mid2 ++ [hi]) ++ [lo])) →
      ∃ st1 st2 lo rest,
        cycleBuilder (initState sort rows) (initState sort rows).myGraph.weights = some st1 ∧
        cycleCloser st1 = some (st2, lo) ∧
        original sort rows = some (retrace st2 lo) ∧
        (lo :: rest).Perm (List.range rows.length) ∧
        (retrace st2 lo).myGraph.pathTaken = lo :: rest ++ [lo] ∧
        (retrace st2 lo).myGraph.numNodes = rows.length ∧
        (∃ hi d, st1.myGraph.distance lo hi = some d ∧
          (retrace st2 lo).globalTotalWeight =
            doubleToInt (wrapInt (connTotal st1.myGraph st1.myGraph.connectedNodes) + d) ∧
          connTotal st1.myGraph st1.myGraph.connectedNodes + d =
            walkLength (retrace st2 lo).myGraph (lo :: rest ++ [lo])) ∧
        (retrace st2 lo).myGraph.matrix = (readGraph rows).matrix ∧
        (∀ v, degree st2.myGraph.connectedNodes v = if v < rows.length then 2 else 0) ∧
        (∀ v, degree (retrace st2 lo).myGraph.connectedNodes v =
          degree st2.myGraph.connectedNodes v) := by
    intro rest1 hpt hperm1 hhops
    have hnum3 : (retrace (st1.close lo hi d) lo).myGraph.numNodes =
        rows.length := hnum1
    refine ⟨st1, _, lo, rest1, hrun, hclose, ?_, hperm1.trans hpermn, hpt, hnum3, ?_, hmat1,
      hdeg2, hdeg3⟩
    · unfold original originalCore
      simp only [hrun, hclose]
      rw [if_pos]
      rw [hnum3, hpt]
      have := hperm1.length_eq
      rw [hlenp] at this
      simp only [List.length_cons, List.length_append, List.length_nil] at this ⊢
      omega
    · refine ⟨hi, d, hd, ?_, ?_⟩
      · show doubleToInt (st1.globalTotalWeight + d) = _
        rw [haux.acct]
      · rw [htotal2, walkLength_congr st1.myGraph
          (retrace (st1.close lo hi d) lo).myGraph rfl]
        exact connTotal_eq_walkLength _ _ _ (hedges2.trans hhops.symm)
  rcases retrace_spec _ lo (mid2 ++ [hi]) hnd hrest hname2 hfresh2 hedges2 hpath2 hnum2 with
    hpt | hpt
  · exact hfinal _ hpt (List.Perm.refl _) (List.Perm.refl _)
  · refine hfinal _ hpt ((List.reverse_perm _).cons lo) ?_
    have : lo :: (mid2 ++ [hi]).reverse ++ [lo] = (lo :: (mid2 ++ [hi]) ++ [lo]).reverse := by
      simp
    rw [this]
    exact hops_reverse_perm _

/-! ## Lexicographic order and `nextPerm` -/

theorem lexLt_irrefl (l : List Nat) : ¬ lexLt l l := by
  induction l with
  | nil => exact fun h => h
  | cons a l ih =>
    intro h
    rcases h with h | ⟨_, h⟩
    · exact Nat.lt_irrefl a h
    · exact ih h

theorem lexLt_trans {l1 l2 l3 : List Nat} (h1 : lexLt l1 l2) (h2 : lexLt l2 l3) :
    lexLt l1 l3 := by
  induction l1 generalizing l2 l3 with
  | nil =>
    cases l2 with
    | nil => exact absurd h1 (fun h => h)
    | cons b l2 =>
      cases l3 with
      | nil => exact absurd h2 (fun h => h)
      | cons c l3 => trivial
  | cons a l1 ih =>
    cases l2 with
    | nil => exact absurd h1 (fun h => h)
    | cons b l2 =>
      cases l3 with
      | nil => exact absurd h2 (fun h => h)
      | cons c l3 =>
        rcases h1 with h1 | ⟨h1, h1'⟩
        · rcases h2 with h2 | ⟨h2, _⟩
          · exact Or.inl (lt_trans h1 h2)
          · exact Or.inl (h2 ▸ h1)
        · rcases h2 with h2 | ⟨h2, h2'⟩
          · exact Or.inl (h1 ▸ h2)
          · exact Or.inr ⟨h1.trans h2, ih h1' h2'⟩

theorem lexLt_trichotomy (l1 l2 : List Nat) (h : l1.length = l2.length) :
    lexLt l1 l2 ∨ l1 = l2 ∨ lexLt l2 l1 := by
  induction l1 generalizing l2 with
  | nil =>
    cases l2 with
    | nil => exact Or.inr (Or.inl rfl)
    | cons b l2 => simp at h
  | cons a l1 ih =>
    cases l2 with
    | nil => simp at h
    | cons b l2 =>
      rcases Nat.lt_trichotomy a b with hab | hab | hab
      · exact Or.inl (Or.inl hab)
      · rcases ih l2 (by simpa using h) with h1 | h1 | h1
        · exact Or.inl (Or.inr ⟨hab, h1⟩)
        · exact Or.inr (Or.inl (by rw [hab, h1]))
        · exact Or.inr (Or.inr (Or.inr ⟨hab.symm, h1⟩))
      · exact Or.inr (Or.inr (Or.inl hab))

theorem perm_cons_exists {x : Nat} {xs p : List Nat} (h : p.Perm (x :: xs)) :
    ∃ y q, p = y :: q := by
  cases p with
  | nil => exact absurd h.symm (List.cons_ne_nil _ _ ∘ List.Perm.eq_nil)
  | cons y q => exact ⟨y, q, rfl⟩

/-- An ascending list is the least of its rearrangements. -/
theorem lexLt_least_of_sorted (l : List Nat) (hs : l.Pairwise (fun a b => a ≤ b)) (p : List Nat)
    (hp : p.Perm l) : p = l ∨ lexLt l p := by
  induction l generalizing p with
  | nil => exact Or.inl hp.eq_nil
  | cons x t ih =>
    obtain ⟨y, q, rfl⟩ := perm_cons_exists hp
    have hy : y ∈ x :: t := hp.subset (by simp)
    have hxy : x ≤ y := by
      rcases List.mem_cons.mp hy with rfl | hy
      · exact le_refl _
      · exact (List.pairwise_cons.mp hs).1 y hy
    rcases Nat.lt_or_ge x y with hlt | hge
    · exact Or.inr (Or.inl hlt)
    · have hxy2 : y = x := le_antisymm hge hxy
      subst hxy2
      rcases ih (List.pairwise_cons.mp hs).2 q hp.cons_inv with h1 | h1
      · exact Or.inl (by rw [h1])
      · exact Or.inr (Or.inr ⟨rfl, h1⟩)

/-- A descending list is the greatest of its rearrangements. -/
theorem lexLt_greatest_of_sorted (l : List Nat) (hs : l.Pairwise (fun a b => b ≤ a))
    (p : List Nat) (hp : p.Perm l) : ¬ lexLt l p := by
  induction l generalizing p with
  | nil =>
    rw [hp.eq_nil]
    exact fun h => h
  | cons x t ih =>
    obtain ⟨y, q, rfl⟩ := perm_cons_exists hp
    have hy : y ∈ x :: t := hp.subset (by simp)
    have hxy : y ≤ x := by
      rcases List.mem_cons.mp hy with rfl | hy
      · exact le_refl _
      · exact (List.pairwise_cons.mp hs).1 y hy
    rintro (h | ⟨h1, h2⟩)
    · omega
    · subst h1
      exact ih (List.pairwise_cons.mp hs).2 q hp.cons_inv h2

theorem replaceFirstGreater_some (x : Nat) (l : List Nat) (z : Nat) (l1 : List Nat)
    (h : replaceFirstGreater x l = some (z, l1)) :
    ∃ pre post, l = pre ++ z :: post ∧ l1 = pre ++ x :: post ∧ x < z ∧ ∀ y ∈ pre, y ≤ x := by
  induction l generalizing z l1 with
  | nil => simp [replaceFirstGreater] at h
  | cons y ys ih =>
    rw [replaceFirstGreater] at h
    by_cases hxy : x < y
    · rw [if_pos hxy] at h
      simp only [Option.some.injEq, Prod.mk.injEq] at h
      obtain ⟨rfl, rfl⟩ := h
      exact ⟨[], ys, rfl, rfl, hxy, by simp⟩
    · rw [if_neg hxy] at h
      cases hr : replaceFirstGreater x ys with
      | none => rw [hr] at h; simp at h
      | some r =>
        rw [hr] at h
        simp only [Option.some.injEq, Prod.mk.injEq] at h
        obtain ⟨rfl, rfl⟩ := h
        obtain ⟨pre, post, h1, h2, h3, h4⟩ := ih r.1 r.2 hr
        refine ⟨y :: pre, post, by rw [h1]; rfl, by rw [h2]; rfl, h3, ?_⟩
        intro v hv
        rcases List.mem_cons.mp hv with rfl | hv
        · omega
        · exact h4 v hv

theorem replaceFirstGreater_none (x : Nat) (l : List Nat)
    (h : replaceFirstGreater x l = none) : ∀ y ∈ l, y ≤ x := by
  induction l with
  | nil => simp
  | cons y ys ih =>
    rw [replaceFirstGreater] at h
    by_cases hxy : x < y
    · rw [if_pos hxy] at h; simp at h
    · rw [if_neg hxy] at h
      cases hr : replaceFirstGreater x ys with
      | some r => rw [hr] at h; simp at h
      | none =>
        intro v hv
        rcases List.mem_cons.mp hv with rfl | hv
        · omega
        · exact ih hr v hv

/-- When there is no next permutation the range is descending. -/
theorem nextPerm_none_sorted (l : List Nat) (h : nextPerm l = none) :
    l.Pairwise (fun a b => b ≤ a) := by
  induction l with
  | nil => exact List.Pairwise.nil
  | cons x xs ih =>
    rw [nextPerm] at h
    cases hn : nextPerm xs with
    | some ys => rw [hn] at h; simp at h
    | none =>
      rw [hn] at h
      simp only [] at h
      cases hr : replaceFirstGreater x xs.reverse with
      | some r => rw [hr] at h; simp at h
      | none =>
        refine List.pairwise_cons.mpr ⟨?_, ih hn⟩
        intro y hy
        exact replaceFirstGreater_none x _ hr y (List.mem_reverse.mpr hy)

theorem nextPerm_none (l : List Nat) (h : nextPerm l = none) (p : List Nat) (hp : p.Perm l) :
    ¬ lexLt l p :=
  lexLt_greatest_of_sorted l (nextPerm_none_sorted l h) p hp

/-- The function `nextPerm` returns the next rearrangement in lexicographic order. -/
theorem nextPerm_some (l l1 : List Nat) (h : nextPerm l = some l1) :
    l1.Perm l ∧ lexLt l l1 ∧ ∀ p, p.Perm l → lexLt l p → p = l1 ∨ lexLt l1 p := by
  induction l generalizing l1 with
  | nil => simp [nextPerm] at h
  | cons x xs ih =>
    rw [nextPerm] at h
    cases hn : nextPerm xs with
    | some ys =>
      rw [hn] at h
      simp only [Option.some.injEq] at h
      subst h
      obtain ⟨h1, h2, h3⟩ := ih ys hn
      refine ⟨h1.cons x, Or.inr ⟨rfl, h2⟩, ?_⟩
      intro p hp hlt
      obtain ⟨y, q, rfl⟩ := perm_cons_exists hp
      rcases hlt with hlt | ⟨rfl, hlt⟩
      · exact Or.inr (Or.inl hlt)
      · rcases h3 q hp.cons_inv hlt with h4 | h4
        · exact Or.inl (by rw [h4])
        · exact Or.inr (Or.inr ⟨rfl, h4⟩)
    | none =>
      rw [hn] at h
      simp only [] at h
      cases hr : replaceFirstGreater x xs.reverse with
      | none => rw [hr] at h; simp at h
      | some r =>
        rw [hr] at h
        simp only [Option.some.injEq] at h
        subst h
        obtain ⟨pre, post, hrev, hr2, hxz, hpre⟩ :=
          replaceFirstGreater_some x xs.reverse r.1 r.2 hr
        have hperm0 : (r.1 :: r.2).Perm (x :: xs) := by
          rw [hr2]
          have e1 : (x :: xs).Perm (x :: (pre ++ r.1 :: post)) := by
            rw [← hrev]
            exact (List.reverse_perm xs).symm.cons x
          refine List.Perm.trans ?_ e1.symm
          have e2 : (r.1 :: (pre ++ x :: post)).Perm (r.1 :: x :: (pre ++ post)) :=
            (List.perm_middle).cons _
          have e3 : (x :: (pre ++ r.1 :: post)).Perm (x :: r.1 :: (pre ++ post)) :=
            (List.perm_middle).cons _
          exact e2.trans ((List.Perm.swap _ _ _).trans e3.symm)
        refine ⟨hperm0, Or.inl hxz, ?_⟩
        intro p hp hlt
        obtain ⟨y, q, rfl⟩ := perm_cons_exists hp
        have hsorted : (pre ++ r.1 :: post).Pairwise (fun a b => a ≤ b) := by
          rw [← hrev]
          exact List.pairwise_reverse.mpr (nextPerm_none_sorted xs hn)
        rw [List.pairwise_append] at hsorted
        obtain ⟨hs1, hs2, hs3⟩ := hsorted
        have hzpost : ∀ b ∈ post, r.1 ≤ b := (List.pairwise_cons.mp hs2).1
        have hsorted2 : (pre ++ x :: post).Pairwise (fun a b => a ≤ b) := by
          rw [List.pairwise_append]
          refine ⟨hs1, List.pairwise_cons.mpr ⟨?_, (List.pairwise_cons.mp hs2).2⟩, ?_⟩
          · intro b hb
            have := hzpost b hb
            omega
          · intro a ha b hb
            rcases List.mem_cons.mp hb with rfl | hb
            · exact hpre a ha
            · exact hs3 a ha b (List.mem_cons_of_mem _ hb)
        rcases hlt with hlt | ⟨rfl, hlt⟩
        · have hy : y ∈ x :: xs := hp.subset (by simp)
          have hy2 : y ∈ pre ++ r.1 :: post := by
            rcases List.mem_cons.mp hy with rfl | hy
            · omega
            · rw [← hrev]
              exact List.mem_reverse.mpr hy
          have hzy : r.1 ≤ y := by
            rcases List.mem_append.mp hy2 with hy3 | hy3
            · have := hpre y hy3
              omega
            · rcases List.mem_cons.mp hy3 with rfl | hy3
              · exact le_refl _
              · exact hzpost y hy3
          rcases Nat.lt_or_ge r.1 y with hlt2 | hge
          · exact Or.inr (Or.inl hlt2)
          · have hyz : y = r.1 := le_antisymm hge hzy
            subst hyz
            have hq : q.Perm r.2 := (hp.trans hperm0.symm).cons_inv
            rw [hr2] at hq ⊢
            rcases lexLt_least_of_sorted _ hsorted2 q hq with h5 | h5
            · exact Or.inl (by rw [h5])
            · exact Or.inr (Or.inr ⟨rfl, h5⟩)
        · exact absurd hlt (nextPerm_none xs hn q hp.cons_inv)

/-! ## The permutation search visits every permutation -/

theorem laterPerms_lt_of_next (base l l1 : List Nat) (hl : l.Perm base)
    (h : nextPerm l = some l1) : laterPerms base l1 < laterPerms base l := by
  obtain ⟨h1, h2, _⟩ := nextPerm_some l l1 h
  unfold laterPerms
  have hsub : (base.permutations.filter (fun p => decide (lexLt l1 p))).Sublist
      (base.permutations.filter (fun p => decide (lexLt l p))) := by
    apply List.monotone_filter_right
    intro p hp
    simp only [decide_eq_true_eq] at hp ⊢
    exact lexLt_trans h2 hp
  rcases Nat.lt_or_ge (base.permutations.filter (fun p => decide (lexLt l1 p))).length
    (base.permutations.filter (fun p => decide (lexLt l p))).length with hlt | hge
  · exact hlt
  · exfalso
    have heq := hsub.eq_of_length (le_antisymm hsub.length_le hge)
    have hmem : l1 ∈ base.permutations.filter (fun p => decide (lexLt l p)) := by
      rw [List.mem_filter]
      exact ⟨List.mem_permutations.mpr (h1.trans hl), by simpa using h2⟩
    rw [← heq, List.mem_filter] at hmem
    exact lexLt_irrefl l1 (by simpa using hmem.2)

theorem laterPerms_lt_factorial (base l : List Nat) (hl : l.Perm base) :
    laterPerms base l < base.length.factorial := by
  unfold laterPerms
  rw [← List.length_permutations]
  have hsub : (base.permutations.filter (fun p => decide (lexLt l p))).Sublist
      base.permutations := List.filter_sublist _
  rcases Nat.lt_or_ge (base.permutations.filter (fun p => decide (lexLt l p))).length
    base.permutations.length with hlt | hge
  · exact hlt
  · exfalso
    have heq := hsub.eq_of_length (le_antisymm hsub.length_le hge)
    have hmem : l ∈ base.permutations := List.mem_permutations.mpr hl
    rw [← heq, List.mem_filter] at hmem
    exact lexLt_irrefl l (by simpa using hmem.2)

/-- The permutation search, started at the arrangement `l` with enough fuel,
ends normally; its result is the least cost over `l` and all later rearrangements
(capped by the initial best), recorded at the first rearrangement that attains it. -/
theorem permFold_spec (cost : List Nat → Option Int) (record : List Nat → List Nat)
    (c : List Nat → Int) (base : List Nat) (hc : ∀ p, p.Perm base → cost p = some (c p))
    (fuel : Nat) (l : List Nat) (acc : Int × List Nat) (hl : l.Perm base)
    (hfuel : laterPerms base l < fuel) :
    ∃ res, permFold cost record fuel l acc = some res ∧ res.1 ≤ acc.1 ∧
      (∀ p, p.Perm base → (p = l ∨ lexLt l p) → res.1 ≤ c p) ∧
      ((res = acc ∧ ∀ p, p.Perm base → (p = l ∨ lexLt l p) → acc.1 ≤ c p) ∨
       (∃ q, q.Perm base ∧ (q = l ∨ lexLt l q) ∧ res = (c q, record q) ∧ c q < acc.1 ∧
          ∀ p, p.Perm base → (p = l ∨ lexLt l p) → lexLt p q → c q < c p)) := by
  induction fuel generalizing l acc with
  | zero => omega
  | succ fuel ih =>
    rw [permFold]
    have hstep : searchStep cost record acc l =
        some (if c l < acc.1 then (c l, record l) else acc) := by
      unfold searchStep
      rw [hc l hl]
    rw [hstep]
    simp only []
    -- the first visit alone
    have hfirst : ∀ p, (p = l ∨ lexLt l p) → lexLt p l → False := by
      rintro p (rfl | h1) h2
      · exact lexLt_irrefl _ h2
      · exact lexLt_irrefl _ (lexLt_trans h1 h2)
    cases hn : nextPerm l with
    | none =>
      simp only []
      have hall : ∀ p, p.Perm base → (p = l ∨ lexLt l p) → p = l := by
        rintro p hp (rfl | h1)
        · rfl
        · exact absurd h1 (nextPerm_none l hn p (hp.trans hl.symm))
      by_cases hlt : c l < acc.1
      · rw [if_pos hlt]
        refine ⟨_, rfl, le_of_lt hlt, ?_, Or.inr ⟨l, hl, Or.inl rfl, rfl, hlt, ?_⟩⟩
        · intro p hp hpl
          rw [hall p hp hpl]
        · intro p _ hpl hpq
          exact absurd hpq (fun h => hfirst p hpl h)
      · rw [if_neg hlt]
        refine ⟨_, rfl, le_refl _, ?_, Or.inl ⟨rfl, ?_⟩⟩
        · intro p hp hpl
          rw [hall p hp hpl]
          omega
        · intro p hp hpl
          rw [hall p hp hpl]
          omega
    | some l1 =>
      simp only []
      obtain ⟨h1, h2, h3⟩ := nextPerm_some l l1 hn
      have hl1 : l1.Perm base := h1.trans hl
      have hfuel1 : laterPerms base l1 < fuel := by
        have := laterPerms_lt_of_next base l l1 hl hn
        omega
      have hsplit : ∀ p, p.Perm base → (p = l ∨ lexLt l p) → p = l ∨ (p = l1 ∨ lexLt l1 p) := by
        rintro p hp (rfl | h4)
        · exact Or.inl rfl
        · exact Or.inr (h3 p (hp.trans hl.symm) h4)
      have hback : ∀ p, (p = l1 ∨ lexLt l1 p) → (p = l ∨ lexLt l p) := by
        rintro p (rfl | h4)
        · exact Or.inr h2
        · exact Or.inr (lexLt_trans h2 h4)
      obtain ⟨res, hres, hle, hmin, hcase⟩ :=
        ih l1 (if c l < acc.1 then (c l, record l) else acc) hl1 hfuel1
      have hacc1 : (if c l < acc.1 then (c l, record l) else acc).1 ≤ acc.1 ∧
          (if c l < acc.1 then (c l, record l) else acc).1 ≤ c l := by
        by_cases hlt : c l < acc.1
        · rw [if_pos hlt]; exact ⟨le_of_lt hlt, le_refl _⟩
        · rw [if_neg hlt]; exact ⟨le_refl _, by omega⟩
      refine ⟨res, hres, le_trans hle hacc1.1, ?_, ?_⟩
      · intro p hp hpl
        rcases hsplit p hp hpl with rfl | h4
        · exact le_trans hle hacc1.2
        · exact hmin p hp h4
      · rcases hcase with ⟨hr1, hr2⟩ | ⟨q, hq1, hq2, hq3, hq4, hq5⟩
        · by_cases hlt : c l < acc.1
          · rw [if_pos hlt] at hr1
            refine Or.inr ⟨l, hl, Or.inl rfl, hr1, hlt, ?_⟩
            intro p _ hpl hpq
            exact absurd hpq (fun h => hfirst p hpl h)
          · rw [if_neg hlt] at hr1 hr2
            refine Or.inl ⟨hr1, ?_⟩
            intro p hp hpl
            rcases hsplit p hp hpl with rfl | h4
            · omega
            · exact hr2 p hp h4
        · refine Or.inr ⟨q, hq1, hback q hq2, hq3, lt_of_lt_of_le hq4 hacc1.1, ?_⟩
          intro p hp hpl hpq
          rcases hsplit p hp hpl with rfl | h4
          · exact lt_of_lt_of_le hq4 hacc1.2
          · exact hq5 p hp h4 hpq

/-! ## Closed tours -/

theorem walkLen_append_cons (d : Nat → Nat → Int) (p : List Nat) (x y : Nat) (q : List Nat) :
    walkLen d (p ++ [x] ++ y :: q) = walkLen d (p ++ [x]) + d x y + walkLen d (y :: q) := by
  induction p with
  | nil => simp [walkLen]
  | cons a p ih =>
    cases p with
    | nil => simp [walkLen]; omega
    | cons b p =>
      simp only [List.cons_append] at ih ⊢
      rw [walkLen, walkLen, ih]
      omega

theorem walkLen_snoc (d : Nat → Nat → Int) (p : List Nat) (x y : Nat) :
    walkLen d (p ++ [x] ++ [y]) = walkLen d (p ++ [x]) + d x y := by
  rw [walkLen_append_cons]
  simp [walkLen]

theorem walkLength_eq_walkLen (g : graph) (p : List Nat) :
    walkLength g p = walkLen g.dist p := by
  induction p with
  | nil => rfl
  | cons a p ih =>
    cases p with
    | nil => rfl
    | cons b p => rw [walkLength, walkLen, ih]

theorem closedLen_cons (d : Nat → Nat → Int) (x : Nat) (l : List Nat) :
    closedLen d (x :: l) = walkLen d (x :: l ++ [x]) := by
  unfold closedLen
  rfl

theorem closedLen_rotate_one (d : Nat → Nat → Int) (x : Nat) (l : List Nat) :
    closedLen d (x :: l) = closedLen d (l ++ [x]) := by
  cases l with
  | nil => rfl
  | cons y l =>
    rw [closedLen_cons]
    have e1 : closedLen d (y :: l ++ [x]) = walkLen d ((y :: l) ++ [x] ++ [y]) := by
      unfold closedLen
      rfl
    rw [e1, walkLen_snoc]
    show d x y + walkLen d (y :: l ++ [x]) = _
    rw [add_comm]

theorem closedLen_rotate (d : Nat → Nat → Int) (l1 l2 : List Nat) :
    closedLen d (l1 ++ l2) = closedLen d (l2 ++ l1) := by
  induction l1 generalizing l2 with
  | nil => simp
  | cons x l1 ih =>
    rw [List.cons_append, closedLen_rotate_one, List.append_assoc, ih]
    simp

/-- Every ordering of the nodes has a rotation that starts at `s`, of the same
closed-tour length. -/
theorem rotate_to_front (d : Nat → Nat → Int) (base : List Nat) (s : Nat) (σ : List Nat)
    (hσ : σ.Perm (s :: base)) :
    ∃ q, q.Perm base ∧ closedLen d σ = closedLen d (s :: q) := by
  have hs : s ∈ σ := hσ.symm.subset (by simp)
  obtain ⟨l1, l2, rfl⟩ := List.append_of_mem hs
  refine ⟨l2 ++ l1, ?_, ?_⟩
  · have h1 : (s :: (l1 ++ l2)).Perm (s :: base) := (List.perm_middle).symm.trans hσ
    exact (List.perm_append_comm).trans h1.cons_inv
  · rw [closedLen_rotate]
    rfl

/-! ## The brute mode of `TSP.cpp` as a permutation search -/

theorem bruteLoop_eq_permFold (g : graph) (first : Nat) (fuel : Nat) (tail : List Nat)
    (s : Int) (path : List Nat) :
    bruteLoop g fuel (first :: tail) s path =
      permFold (fun t => currentPathDistance g (first :: t)) (fun t => first :: t) fuel tail
        (s, path) := by
  induction fuel generalizing tail s path with
  | zero => rfl
  | succ fuel ih =>
    rw [bruteLoop, permFold]
    unfold searchStep next_permutation
    simp only []
    cases hc : currentPathDistance g (first :: tail) with
    | none => rfl
    | some d =>
      simp only []
      cases hn : nextPerm tail with
      | none => by_cases hlt : d < s <;> simp [hlt]
      | some tail1 =>
        simp only []
        rw [ih]
        by_cases hlt : d < s <;> simp [hlt]

theorem distance_defined_ne (rows : List (List Int)) (hc : CoversLowerTriangle rows)
    (i j : Nat) (hi : i < rows.length) (hj : j < rows.length) (hne : i ≠ j) :
    ∃ d, (readGraph rows).distance i j = some d := by
  unfold graph.distance
  by_cases h : i < j
  · rw [if_pos h, readGraph_matAt]
    exact ⟨_, List.getElem?_eq_getElem (by have := hc j hj; omega)⟩
  · rw [if_neg h, readGraph_matAt]
    exact ⟨_, List.getElem?_eq_getElem (by have := hc i hi; omega)⟩

theorem dist_of_distance (g : graph) (i j : Nat) (d : Int) (h : g.distance i j = some d) :
    g.dist i j = d := by
  unfold graph.dist
  rw [h]
  rfl

theorem walkLen_nonneg (d : Nat → Nat → Int) (hnn : ∀ a b, 0 ≤ d a b) (l : List Nat) :
    0 ≤ walkLen d l := by
  induction l with
  | nil => exact le_refl _
  | cons a l ih =>
    cases l with
    | nil => exact le_refl _
    | cons b l =>
      rw [walkLen]
      have := hnn a b
      omega

/-- The running sum of the brute mode always has a value when the lookups do. -/
theorem pathDistance_defined (g : graph) (l : List Nat) (acc : Int) (hnd : l.Nodup)
    (hdef : ∀ a ∈ l, ∀ b ∈ l, a ≠ b → ∃ d, g.distance a b = some d) :
    ∃ c, pathDistance g acc l = some c := by
  induction l generalizing acc with
  | nil => exact ⟨acc, rfl⟩
  | cons a l ih =>
    cases l with
    | nil => exact ⟨acc, rfl⟩
    | cons b l =>
      have hab : a ≠ b := by
        intro hc
        simp [hc] at hnd
      obtain ⟨d, hd⟩ := hdef a (by simp) b (by simp) hab
      rw [pathDistance, hd]
      exact ih _ (List.nodup_cons.mp hnd).2
        (fun u hu v hv => hdef u (List.mem_cons_of_mem _ hu) v (List.mem_cons_of_mem _ hv))

/-- Without negative distances, a running sum that stays within `INT_MAX` is
computed exactly. -/
theorem pathDistance_eq (g : graph) (l : List Nat) (acc : Int) (hnd : l.Nodup)
    (hdef : ∀ a ∈ l, ∀ b ∈ l, a ≠ b → ∃ d, g.distance a b = some d)
    (hnn : ∀ a b, 0 ≤ g.dist a b) (hlo : INT_MIN ≤ acc)
    (hhi : acc + walkLen g.dist l ≤ INT_MAX) :
    pathDistance g acc l = some (acc + walkLen g.dist l) := by
  induction l generalizing acc with
  | nil => simp [pathDistance, walkLen]
  | cons a l ih =>
    cases l with
    | nil => simp [pathDistance, walkLen]
    | cons b l =>
      have hab : a ≠ b := by
        intro hc
        simp [hc] at hnd
      obtain ⟨d, hd⟩ := hdef a (by simp) b (by simp) hab
      have hdd : g.dist a b = d := dist_of_distance g a b d hd
      have hd0 : 0 ≤ d := hdd ▸ hnn a b
      have hw0 := walkLen_nonneg g.dist hnn (b :: l)
      rw [walkLen, hdd] at hhi
      rw [pathDistance, hd]
      simp only []
      rw [doubleToInt_of_range _ (by omega) (by omega),
        ih (acc + d) (List.nodup_cons.mp hnd).2
          (fun u hu v hv => hdef u (List.mem_cons_of_mem _ hu) v (List.mem_cons_of_mem _ hv))
          (by omega) (by omega),
        walkLen, hdd]
      congr 1
      omega

theorem currentPathDistance_defined (g : graph) (x y : Nat) (l : List Nat)
    (hnd : (x :: y :: l).Nodup)
    (hdef : ∀ a ∈ x :: y :: l, ∀ b ∈ x :: y :: l, a ≠ b → ∃ d, g.distance a b = some d) :
    ∃ c, currentPathDistance g (x :: y :: l) = some c := by
  obtain ⟨p, z, hpz⟩ : ∃ p z, y :: l = p ++ [z] :=
    ⟨(y :: l).dropLast, (y :: l).getLast (by simp), (List.dropLast_append_getLast _).symm⟩
  have hz : z ∈ x :: y :: l := by rw [hpz]; simp
  have hzx : z ≠ x := by
    intro hc
    rw [hpz, hc] at hnd
    simp at hnd
  obtain ⟨d, hd⟩ := hdef z hz x (by simp) hzx
  have hlast : (x :: y :: l).getLast? = some z := by
    rw [hpz, show x :: (p ++ [z]) = (x :: p) ++ [z] from rfl, List.getLast?_append]
    rfl
  obtain ⟨c, hc⟩ := pathDistance_defined g _ 0 hnd hdef
  unfold currentPathDistance
  rw [hc, hlast]
  simp only [List.head?_cons, hd]
  exact ⟨_, rfl⟩

/-- Without negative distances, the length of a closed tour that is at most
`INT_MAX` is computed exactly. -/
theorem currentPathDistance_eq (g : graph) (x y : Nat) (l : List Nat) (hnd : (x :: y :: l).Nodup)
    (hdef : ∀ a ∈ x :: y :: l, ∀ b ∈ x :: y :: l, a ≠ b → ∃ d, g.distance a b = some d)
    (hnn : ∀ a b, 0 ≤ g.dist a b) (hhi : closedLen g.dist (x :: y :: l) ≤ INT_MAX) :
    currentPathDistance g (x :: y :: l) = some (closedLen g.dist (x :: y :: l)) := by
  obtain ⟨p, z, hpz⟩ : ∃ p z, y :: l = p ++ [z] :=
    ⟨(y :: l).dropLast, (y :: l).getLast (by simp), (List.dropLast_append_getLast _).symm⟩
  have hz : z ∈ x :: y :: l := by rw [hpz]; simp
  have hzx : z ≠ x := by
    intro hc
    rw [hpz, hc] at hnd
    simp at hnd
  obtain ⟨d, hd⟩ := hdef z hz x (by simp) hzx
  have hdd : g.dist z x = d := dist_of_distance g z x d hd
  have hd0 : 0 ≤ d := hdd ▸ hnn z x
  have hlast : (x :: y :: l).getLast? = some z := by
    rw [hpz, show x :: (p ++ [z]) = (x :: p) ++ [z] from rfl, List.getLast?_append]
    rfl
  have hsplit : closedLen g.dist (x :: y :: l) = walkLen g.dist (x :: y :: l) + d := by
    rw [closedLen_cons, hpz, show x :: (p ++ [z]) ++ [x] = (x :: p) ++ [z] ++ [x] by simp,
      walkLen_snoc, hdd]
    rfl
  have hw0 := walkLen_nonneg g.dist hnn (x :: y :: l)
  rw [hsplit] at hhi ⊢
  have hmin : INT_MIN ≤ 0 := by decide
  unfold currentPathDistance
  rw [pathDistance_eq g _ 0 hnd hdef hnn hmin (by omega), hlast]
  simp only [List.head?_cons, hd]
  rw [doubleToInt_of_range _ (by omega) (by omega)]
  simp

/-- The brute mode on a matrix that stores the whole lower triangle, with at
least two nodes: the search ends normally; the result is at most `INT_MAX` and at
most the length the loop body computes for any ordering of the nodes that
starts at node 0. -/
theorem bruteForce_le (rows : List (List Int)) (hc : CoversLowerTriangle rows)
    (hn : 2 ≤ rows.length) :
    ∃ s path, bruteForce rows = some (s, path) ∧ s ≤ INT_MAX ∧
      ∀ σ, σ.Perm (List.range rows.length) → σ.head? = some 0 →
        ∃ c, currentPathDistance (readGraph rows) σ = some c ∧ s ≤ c := by
  obtain ⟨m, hm⟩ : ∃ m, rows.length = m + 1 := ⟨rows.length - 1, by omega⟩
  have hrange : List.range rows.length = 0 :: (List.range m).map Nat.succ := by
    rw [hm, List.range_succ_eq_map]
  have hsorted : ((List.range m).map Nat.succ).Pairwise (fun a b => a ≤ b) :=
    List.pairwise_map.mpr ((List.pairwise_lt_range m).imp (fun h => by omega))
  have hlen : ((List.range m).map Nat.succ).length = m := by simp
  have hcost : ∀ p, p.Perm ((List.range m).map Nat.succ) →
      currentPathDistance (readGraph rows) (0 :: p) =
        some ((currentPathDistance (readGraph rows) (0 :: p)).getD 0) := by
    intro p hp
    have hperm : (0 :: p).Perm (List.range rows.length) := by
      rw [hrange]; exact hp.cons 0
    have hnd : (0 :: p).Nodup := (hperm.nodup_iff).mpr (List.nodup_range _)
    have hbound : ∀ v ∈ 0 :: p, v < rows.length :=
      fun v hv => List.mem_range.mp (hperm.subset hv)
    cases p with
    | nil =>
      have := hp.length_eq
      rw [hlen] at this
      simp at this
      omega
    | cons y l =>
      obtain ⟨c, hc1⟩ := currentPathDistance_defined (readGraph rows) 0 y l hnd
        (fun a ha b hb hab => distance_defined_ne rows hc a b (hbound a ha) (hbound b hb) hab)
      rw [hc1]
      rfl
  have hfuel : laterPerms ((List.range m).map Nat.succ) ((List.range m).map Nat.succ) <
      ((readGraph rows).numNodes - 1).factorial := by
    have := laterPerms_lt_factorial ((List.range m).map Nat.succ) _ (List.Perm.refl _)
    rw [hlen] at this
    rw [readGraph_numNodes, hm]
    exact this
  obtain ⟨res, hres, hle, hmin, _⟩ :=
    permFold_spec (fun t => currentPathDistance (readGraph rows) (0 :: t)) (fun t => 0 :: t)
      (fun t => (currentPathDistance (readGraph rows) (0 :: t)).getD 0)
      ((List.range m).map Nat.succ) hcost
      ((readGraph rows).numNodes - 1).factorial ((List.range m).map Nat.succ)
      (INT_MAX, List.replicate (readGraph rows).numNodes 0) (List.Perm.refl _) hfuel
  have hall : ∀ p, p.Perm ((List.range m).map Nat.succ) →
      (p = (List.range m).map Nat.succ ∨ lexLt ((List.range m).map Nat.succ) p) :=
    fun p hp => lexLt_least_of_sorted _ hsorted p hp
  have hbrute : bruteForce rows = some res := by
    unfold bruteForce
    simp only []
    rw [if_neg (by rw [readGraph_numNodes]; omega)]
    have : List.range (readGraph rows).numNodes = 0 :: (List.range m).map Nat.succ := by
      rw [readGraph_numNodes]; exact hrange
    rw [this, bruteLoop_eq_permFold]
    exact hres
  refine ⟨res.1, res.2, hbrute, hle, ?_⟩
  intro σ hσ hhead
  rw [hrange] at hσ
  obtain ⟨y, q1, rfl⟩ := perm_cons_exists hσ
  simp only [List.head?_cons, Option.some.injEq] at hhead
  subst hhead
  have hq1p : q1.Perm ((List.range m).map Nat.succ) := hσ.cons_inv
  exact ⟨_, hcost q1 hq1p, hmin q1 hq1p (hall q1 hq1p)⟩

/-- The brute mode on a matrix without negative entries that stores the whole
lower triangle, with at least two nodes, when no closed tour is longer than
`INT_MAX`: the search ends normally; the result is at most `INT_MAX` and at
most the closed-tour length of every ordering of the nodes; either no tour is
below `INT_MAX` and the stored order is still the initial zero vector, or the
result is the length of the stored order, which starts at node 0 and is the
lexicographically first such ordering of that length. -/
theorem bruteForce_spec (rows : List (List Int)) (hc : CoversLowerTriangle rows)
    (hn : 2 ≤ rows.length) (hnn : ∀ a b, 0 ≤ (readGraph rows).dist a b)
    (hfit : ∀ σ, σ.Perm (List.range rows.length) →
      tourLength (readGraph rows) σ ≤ INT_MAX) :
    ∃ s path, bruteForce rows = some (s, path) ∧ s ≤ INT_MAX ∧
      (∀ σ, σ.Perm (List.range rows.length) → s ≤ tourLength (readGraph rows) σ) ∧
      ((s = INT_MAX ∧ path = List.replicate rows.length 0 ∧
          ∀ σ, σ.Perm (List.range rows.length) → INT_MAX ≤ tourLength (readGraph rows) σ) ∨
       (s < INT_MAX ∧ path.Perm (List.range rows.length) ∧ path.head? = some 0 ∧
          tourLength (readGraph rows) path = s ∧
          ∀ σ, σ.Perm (List.range rows.length) → σ.head? = some 0 →
            tourLength (readGraph rows) σ = s → σ = path ∨ lexLt path σ)) := by
  obtain ⟨m, hm⟩ : ∃ m, rows.length = m + 1 := ⟨rows.length - 1, by omega⟩
  have hrange : List.range rows.length = 0 :: (List.range m).map Nat.succ := by
    rw [hm, List.range_succ_eq_map]
  have hsorted : ((List.range m).map Nat.succ).Pairwise (fun a b => a ≤ b) :=
    List.pairwise_map.mpr ((List.pairwise_lt_range m).imp (fun h => by omega))
  have hlen : ((List.range m).map Nat.succ).length = m := by simp
  have hcost : ∀ p, p.Perm ((List.range m).map Nat.succ) →
      currentPathDistance (readGraph rows) (0 :: p) =
        some (closedLen (readGraph rows).dist (0 :: p)) := by
    intro p hp
    have hperm : (0 :: p).Perm (List.range rows.length) := by
      rw [hrange]; exact hp.cons 0
    have hnd : (0 :: p).Nodup := (hperm.nodup_iff).mpr (List.nodup_range _)
    have hbound : ∀ v ∈ 0 :: p, v < rows.length :=
      fun v hv => List.mem_range.mp (hperm.subset hv)
    cases p with
    | nil =>
      have := hp.length_eq
      rw [hlen] at this
      simp at this
      omega
    | cons y l =>
      exact currentPathDistance_eq _ 0 y l hnd
        (fun a ha b hb hab => distance_defined_ne rows hc a b (hbound a ha) (hbound b hb) hab)
        hnn (hfit _ hperm)
  have hfuel : laterPerms ((List.range m).map Nat.succ) ((List.range m).map Nat.succ) <
      ((readGraph rows).numNodes - 1).factorial := by
    have := laterPerms_lt_factorial ((List.range m).map Nat.succ) _ (List.Perm.refl _)
    rw [hlen] at this
    rw [readGraph_numNodes, hm]
    exact this
  obtain ⟨res, hres, hle, hmin, hcase⟩ :=
    permFold_spec (fun t => currentPathDistance (readGraph rows) (0 :: t)) (fun t => 0 :: t)
      (fun t => closedLen (readGraph rows).dist (0 :: t)) ((List.range m).map Nat.succ) hcost
      ((readGraph rows).numNodes - 1).factorial ((List.range m).map Nat.succ)
      (INT_MAX, List.replicate (readGraph rows).numNodes 0) (List.Perm.refl _) hfuel
  have hall : ∀ p, p.Perm ((List.range m).map Nat.succ) →
      (p = (List.range m).map Nat.succ ∨ lexLt ((List.range m).map Nat.succ) p) :=
    fun p hp => lexLt_least_of_sorted _ hsorted p hp
  have hbrute : bruteForce rows = some res := by
    unfold bruteForce
    simp only []
    rw [if_neg (by rw [readGraph_numNodes]; omega)]
    have : List.range (readGraph rows).numNodes = 0 :: (List.range m).map Nat.succ := by
      rw [readGraph_numNodes]; exact hrange
    rw [this, bruteLoop_eq_permFold]
    exact hres
  have hrot : ∀ σ, σ.Perm (List.range rows.length) →
      ∃ q, q.Perm ((List.range m).map Nat.succ) ∧
        tourLength (readGraph rows) σ = closedLen (readGraph rows).dist (0 :: q) := by
    intro σ hσ
    rw [hrange] at hσ
    exact rotate_to_front _ _ 0 σ hσ
  refine ⟨res.1, res.2, hbrute, hle, ?_, ?_⟩
  · intro σ hσ
    obtain ⟨q, hq, hlenq⟩ := hrot σ hσ
    rw [hlenq]
    exact hmin q hq (hall q hq)
  · rcases hcase with ⟨hr1, hr2⟩ | ⟨q, hq1, _, hq3, hq4, hq5⟩
    · left
      refine ⟨by rw [hr1], by rw [hr1, readGraph_numNodes], ?_⟩
      intro σ hσ
      obtain ⟨q, hq, hlenq⟩ := hrot σ hσ
      rw [hlenq]
      exact hr2 q hq (hall q hq)
    · right
      refine ⟨by rw [hq3]; exact hq4, ?_, by rw [hq3]; rfl, by rw [hq3]; rfl, ?_⟩
      · rw [hq3, hrange]
        exact hq1.cons 0
      · intro σ hσ hhead hlenσ
        rw [hrange] at hσ
        obtain ⟨y, q1, rfl⟩ := perm_cons_exists hσ
        simp only [List.head?_cons, Option.some.injEq] at hhead
        subst hhead
        have hq1p : q1.Perm ((List.range m).map Nat.succ) := hσ.cons_inv
        rw [hq3] at hlenσ ⊢
        have hcq : closedLen (readGraph rows).dist (0 :: q1) =
            closedLen (readGraph rows).dist (0 :: q) := hlenσ
        rcases lexLt_trichotomy q1 q (hq1p.length_eq.trans hq1.length_eq.symm) with h | h | h
        · have := hq5 q1 hq1p (hall q1 hq1p) h
          omega
        · exact Or.inl (by rw [h])
        · exact Or.inr (Or.inr ⟨rfl, h⟩)

/-! ## `findMinimumPath` as a permutation search -/

theorem edgeWalk_eq (M : Nat → Nat → Int) (s : Nat) (l : List Nat) (row : Nat) (total : Int) :
    wrapInt ((BruteForce.edgeWalk M row total l).1 + M (BruteForce.edgeWalk M row total l).2 s) =
      wrapInt (total + walkLen M (row :: l ++ [s])) := by
  induction l generalizing row total with
  | nil => simp [BruteForce.edgeWalk, walkLen]
  | cons x xs ih =>
    rw [BruteForce.edgeWalk, ih, wrapInt_add_left]
    congr 1
    show total + M row x + walkLen M (x :: xs ++ [s]) =
      total + (M row x + walkLen M (x :: xs ++ [s]))
    omega

/-- The total of one pass of `findMinimumPath` is the closed-tour length as an
`int`. -/
theorem totalEdgeWeight_eq (M : Nat → Nat → Int) (s : Nat) (l : List Nat) :
    BruteForce.totalEdgeWeight M s l = wrapInt (closedLen M (s :: l)) := by
  unfold BruteForce.totalEdgeWeight
  simp only []
  rw [edgeWalk_eq, closedLen_cons]
  simp

theorem minLoop_eq_permFold (M : Nat → Nat → Int) (s : Nat) (fuel : Nat) (bank : List Nat)
    (m : Int) (path : List Nat) :
    BruteForce.minLoop M s fuel bank m =
      (permFold (fun t => some (BruteForce.totalEdgeWeight M s t)) id fuel bank
        (m, path)).map Prod.fst := by
  induction fuel generalizing bank m path with
  | zero => rfl
  | succ fuel ih =>
    rw [BruteForce.minLoop, permFold]
    unfold searchStep next_permutation
    simp only []
    cases hn : nextPerm bank with
    | none =>
      by_cases hlt : BruteForce.totalEdgeWeight M s bank < m <;> simp [hlt]
    | some bank1 =>
      simp only []
      by_cases hlt : BruteForce.totalEdgeWeight M s bank < m
      · rw [if_pos hlt, if_pos hlt]
        exact ih _ _ _
      · rw [if_neg hlt, if_neg hlt]
        exact ih _ _ _

theorem nodeBank_facts (s : Nat) (hs : s < BruteForce.numNodes) :
    (s :: (List.range BruteForce.numNodes).filter (fun i => i ≠ s)).Perm
      (List.range BruteForce.numNodes) ∧
    ((List.range BruteForce.numNodes).filter (fun i => i ≠ s)).Pairwise (fun a b => a ≤ b) ∧
    ((List.range BruteForce.numNodes).filter (fun i => i ≠ s)).length.factorial =
      (BruteForce.numNodes - 1).factorial := by
  unfold BruteForce.numNodes at hs
  interval_cases s <;> decide

/-- The function `findMinimumPath` ends normally; its result is at most `INT_MAX` and at most
the closed-tour length, as an `int`, of every ordering of the four nodes, and it
is `INT_MAX` or the length of some such ordering. -/
theorem findMinimumPath_spec (M : Nat → Nat → Int) (s : Nat) (hs : s < BruteForce.numNodes) :
    ∃ v, BruteForce.findMinimumPath M s = some v ∧ v ≤ INT_MAX ∧
      (∀ σ, σ.Perm (List.range BruteForce.numNodes) → v ≤ wrapInt (closedLen M σ)) ∧
      (v = INT_MAX ∨
        ∃ σ, σ.Perm (List.range BruteForce.numNodes) ∧ wrapInt (closedLen M σ) = v) := by
  obtain ⟨hperm, hsorted, hfact⟩ := nodeBank_facts s hs
  have hfuel : laterPerms ((List.range BruteForce.numNodes).filter (fun i => i ≠ s))
      ((List.range BruteForce.numNodes).filter (fun i => i ≠ s)) <
      (BruteForce.numNodes - 1).factorial := by
    rw [← hfact]
    exact laterPerms_lt_factorial _ _ (List.Perm.refl _)
  obtain ⟨res, hres, hle, hmin, hcase⟩ :=
    permFold_spec (fun t => some (BruteForce.totalEdgeWeight M s t)) id
      (fun t => wrapInt (closedLen M (s :: t)))
      ((List.range BruteForce.numNodes).filter (fun i => i ≠ s))
      (fun p _ => by simp only [totalEdgeWeight_eq])
      (BruteForce.numNodes - 1).factorial
      ((List.range BruteForce.numNodes).filter (fun i => i ≠ s)) (INT_MAX, [])
      (List.Perm.refl _) hfuel
  have hall : ∀ p, p.Perm ((List.range BruteForce.numNodes).filter (fun i => i ≠ s)) →
      (p = (List.range BruteForce.numNodes).filter (fun i => i ≠ s) ∨
        lexLt ((List.range BruteForce.numNodes).filter (fun i => i ≠ s)) p) :=
    fun p hp => lexLt_least_of_sorted _ hsorted p hp
  refine ⟨res.1, ?_, hle, ?_, ?_⟩
  · unfold BruteForce.findMinimumPath
    rw [minLoop_eq_permFold M s _ _ _ [], hres]
    rfl
  · intro σ hσ
    obtain ⟨q, hq, hlen⟩ := rotate_to_front M _ s σ (hσ.trans hperm.symm)
    rw [hlen]
    exact hmin q hq (hall q hq)
  · rcases hcase with ⟨hr1, _⟩ | ⟨q, hq1, _, hq3, _, _⟩
    · left; rw [hr1]
    · right
      exact ⟨s :: q, (hq1.cons s).trans hperm, by rw [hq3]⟩

theorem findMinimumPath_same (M : Nat → Nat → Int) (s1 s2 : Nat)
    (h1 : s1 < BruteForce.numNodes) (h2 : s2 < BruteForce.numNodes) :
    BruteForce.findMinimumPath M s1 = BruteForce.findMinimumPath M s2 := by
  obtain ⟨v1, e1, a1, b1, c1⟩ := findMinimumPath_spec M s1 h1
  obtain ⟨v2, e2, a2, b2, c2⟩ := findMinimumPath_spec M s2 h2
  rw [e1, e2]
  congr 1
  apply le_antisymm
  · rcases c2 with c2 | ⟨σ, hσ, c2⟩
    · rw [c2]; exact a1
    · rw [← c2]; exact b1 σ hσ
  · rcases c1 with c1 | ⟨σ, hσ, c1⟩
    · rw [c1]; exact a2
    · rw [← c1]; exact b2 σ hσ

theorem coversLowerTriangle_of_lowerTriangular (rows : List (List Int))
    (h : LowerTriangular rows) : CoversLowerTriangle rows := by
  intro i hi
  rw [h i hi]
  omega

theorem tourLength_congr (g g1 : graph) (h : g1.matrix = g.matrix) (σ : List Nat) :
    tourLength g1 σ = tourLength g σ := by
  unfold tourLength
  have : g1.dist = g.dist := by
    funext i j
    exact dist_congr g g1 h i j
  rw [this]

/-! ## The branches of the edge loop -/

theorem getElem?_setType_ne (ns : List node) (p t i : Nat) (h : i ≠ p) :
    (setType ns p t)[i]? = ns[i]? := by
  unfold setType
  rw [getElem?_modifyNode, if_neg h]

theorem getElem?_setGroup_ne (ns : List node) (p g i : Nat) (h : i ≠ p) :
    (setGroup ns p g)[i]? = ns[i]? := by
  unfold setGroup
  rw [getElem?_modifyNode, if_neg h]

/-- The first branch: both end nodes are untouched. -/
theorem edgeStep_first_branch (st : state) (w : weight)
    (hl : w.fromNode < st.myGraph.nodes.length) (hr : w.toNode < st.myGraph.nodes.length)
    (h0l : typeAt st.myGraph.nodes w.fromNode = 0)
    (h0r : typeAt st.myGraph.nodes w.toNode = 0) :
    edgeStep st w = some { st.accept
      (setGroup (setGroup (setType (setType st.myGraph.nodes w.fromNode 1) w.toNode 1)
        w.fromNode st.globalGroupNumber) w.toNode st.globalGroupNumber)
      w.fromNode w.toNode w.value with globalGroupNumber := st.globalGroupNumber + 1 } := by
  simp [edgeStep, hl, hr, h0l, h0r]

/-- The final `else` branch is the body the iteration runs when `edgeBranch` is 6. -/
theorem edgeStep_final_branch (st : state) (w : weight)
    (hl : w.fromNode < st.myGraph.nodes.length) (hr : w.toNode < st.myGraph.nodes.length)
    (hb : edgeBranch st.myGraph.nodes w.fromNode w.toNode = 6) :
    edgeStep st w = some (st.accept
      (if typeAt st.myGraph.nodes w.fromNode = 1 then
        setGroup (setType (setType st.myGraph.nodes w.fromNode 2) w.toNode 1) w.toNode
          (groupAt (setType (setType st.myGraph.nodes w.fromNode 2) w.toNode 1) w.fromNode)
      else
        setGroup (setType (setType st.myGraph.nodes w.toNode 2) w.fromNode 1) w.fromNode
          (groupAt (setType (setType st.myGraph.nodes w.toNode 2) w.fromNode 1) w.toNode))
      w.fromNode w.toNode w.value) := by
  unfold edgeBranch at hb
  by_cases c1 : typeAt st.myGraph.nodes w.fromNode = 0 ∧ typeAt st.myGraph.nodes w.toNode = 0
  · rw [if_pos c1] at hb; omega
  rw [if_neg c1] at hb
  by_cases c2 : typeAt st.myGraph.nodes w.fromNode = 2 ∧ typeAt st.myGraph.nodes w.toNode = 2
  · rw [if_pos c2] at hb; omega
  rw [if_neg c2] at hb
  by_cases c3 : typeAt st.myGraph.nodes w.fromNode = 1 ∧ typeAt st.myGraph.nodes w.toNode = 1
  · rw [if_pos c3] at hb; omega
  rw [if_neg c3] at hb
  by_cases c4 : (typeAt st.myGraph.nodes w.fromNode = 1 ∧ typeAt st.myGraph.nodes w.toNode = 2) ∨
      (typeAt st.myGraph.nodes w.fromNode = 2 ∧ typeAt st.myGraph.nodes w.toNode = 1)
  · rw [if_pos c4] at hb; omega
  rw [if_neg c4] at hb
  by_cases c5 : (typeAt st.myGraph.nodes w.fromNode = 2 ∧ typeAt st.myGraph.nodes w.toNode = 0) ∨
      (typeAt st.myGraph.nodes w.fromNode = 0 ∧ typeAt st.myGraph.nodes w.toNode = 2)
  · rw [if_pos c5] at hb; omega
  unfold edgeStep
  simp only [hl, hr, and_self, if_true, if_neg c1, if_neg c2, if_neg c3, if_neg c4, if_neg c5]
  by_cases h1 : typeAt st.myGraph.nodes w.fromNode = 1
  · rw [if_pos h1, if_pos h1]
  · rw [if_neg h1, if_neg h1]

/-- Every branch but the first, the third with different groups and the last
leaves the state as it is. -/
theorem edgeStep_other_branches (st : state) (w : weight)
    (hl : w.fromNode < st.myGraph.nodes.length) (hr : w.toNode < st.myGraph.nodes.length)
    (hb : edgeBranch st.myGraph.nodes w.fromNode w.toNode = 2 ∨
      (edgeBranch st.myGraph.nodes w.fromNode w.toNode = 3 ∧
        groupAt st.myGraph.nodes w.fromNode = groupAt st.myGraph.nodes w.toNode) ∨
      edgeBranch st.myGraph.nodes w.fromNode w.toNode = 4 ∨
      edgeBranch st.myGraph.nodes w.fromNode w.toNode = 5) :
    edgeStep st w = some st := by
  unfold edgeBranch at hb
  unfold edgeStep
  simp only [hl, hr, and_self, if_true]
  by_cases c1 : typeAt st.myGraph.nodes w.fromNode = 0 ∧ typeAt st.myGraph.nodes w.toNode = 0
  · rw [if_pos c1] at hb; omega
  rw [if_neg c1] at hb ⊢
  by_cases c2 : typeAt st.myGraph.nodes w.fromNode = 2 ∧ typeAt st.myGraph.nodes w.toNode = 2
  · rw [if_pos c2]
  rw [if_neg c2] at hb ⊢
  by_cases c3 : typeAt st.myGraph.nodes w.fromNode = 1 ∧ typeAt st.myGraph.nodes w.toNode = 1
  · rw [if_pos c3] at hb ⊢
    have hg : groupAt st.myGraph.nodes w.fromNode = groupAt st.myGraph.nodes w.toNode := by
      rcases hb with hb | ⟨_, hb⟩ | hb | hb
      · omega
      · exact hb
      · omega
      · omega
    simp [hg]
  rw [if_neg c3] at hb ⊢
  by_cases c4 : (typeAt st.myGraph.nodes w.fromNode = 1 ∧ typeAt st.myGraph.nodes w.toNode = 2) ∨
      (typeAt st.myGraph.nodes w.fromNode = 2 ∧ typeAt st.myGraph.nodes w.toNode = 1)
  · rw [if_pos c4]
  rw [if_neg c4] at hb ⊢
  by_cases c5 : (typeAt st.myGraph.nodes w.fromNode = 2 ∧ typeAt st.myGraph.nodes w.toNode = 0) ∨
      (typeAt st.myGraph.nodes w.fromNode = 0 ∧ typeAt st.myGraph.nodes w.toNode = 2)
  · rw [if_pos c5]
  rw [if_neg c5] at hb
  omega

/-! ## Runs on arbitrary inputs -/

/-- Whatever the node types are, a step that ends normally keeps the frame and
either leaves the connections alone or appends one unchecked connection between
the two end nodes of the edge. -/
theorem edgeStep_frame {st st1 : state} {w : weight} (h : edgeStep st w = some st1) :
    Frame st st1 ∧
    (st1.myGraph.connectedNodes = st.myGraph.connectedNodes ∨
      st1.myGraph.connectedNodes =
        st.myGraph.connectedNodes ++ [connectedNode.new w.fromNode w.toNode]) := by
  simp only [edgeStep] at h
  split_ifs at h <;> cases h
  all_goals first
    | exact ⟨frame_refl _, Or.inl rfl⟩
    | exact ⟨⟨by simp [state.accept, length_setGroup, length_setType, length_regroup],
        fun i => by simp [state.accept, nameAt_setGroup, nameAt_setType, nameAt_regroup],
        rfl, rfl, rfl, rfl⟩, Or.inr rfl⟩

theorem edgeStep_in_range {st st1 : state} {w : weight} (h : edgeStep st w = some st1) :
    w.fromNode < st.myGraph.nodes.length ∧ w.toNode < st.myGraph.nodes.length := by
  by_contra hc
  simp only [edgeStep] at h
  rw [if_neg hc] at h
  cases h

/-- The edge loop, when it ends normally, keeps the frame, and every connection
it has added is unchecked. -/
theorem cycleBuilder_frame (ws : List weight) {st st1 : state}
    (h : cycleBuilder st ws = some st1) :
    Frame st st1 ∧
    ((∀ c ∈ st.myGraph.connectedNodes, c.checked = false) →
      ∀ c ∈ st1.myGraph.connectedNodes, c.checked = false) := by
  induction ws generalizing st with
  | nil =>
    simp only [cycleBuilder] at h
    cases h
    exact ⟨frame_refl _, fun hf => hf⟩
  | cons w ws ih =>
    rw [cycleBuilder] at h
    cases hstep : edgeStep st w with
    | none => rw [hstep] at h; cases h
    | some st2 =>
      rw [hstep] at h
      obtain ⟨hfr, hcs⟩ := edgeStep_frame hstep
      obtain ⟨hfr2, hfresh2⟩ := ih h
      refine ⟨frame_trans hfr hfr2, fun hf => hfresh2 ?_⟩
      rcases hcs with hcs | hcs
      · rw [hcs]; exact hf
      · rw [hcs]; exact fresh_append_new _ _ _ hf

/-- After the edge loop of a run every node is still named by its index, the
node table has one entry per input row, and nothing is recorded in `pathTaken`. -/
theorem builder_frame (sort : List weight → List weight) (rows : List (List Int))
    (ws : List weight) {st1 : state} (h : cycleBuilder (initState sort rows) ws = some st1) :
    st1.myGraph.nodes.length = rows.length ∧
    (∀ i < st1.myGraph.nodes.length, nameAt st1.myGraph.nodes i = i) ∧
    st1.myGraph.numNodes = rows.length ∧ st1.myGraph.pathTaken = [] ∧
    st1.myGraph.matrix = (readGraph rows).matrix := by
  obtain ⟨hfr, _⟩ := cycleBuilder_frame ws h
  have hlen : st1.myGraph.nodes.length = rows.length := by
    rw [hfr.1, initState_nodes]; simp
  refine ⟨hlen, ?_, ?_, ?_, ?_⟩
  · intro i hi
    rw [hfr.2.1, initState_nodes]
    exact nameAt_new_nodes _ _ (by omega)
  · rw [hfr.2.2.2.2.1, initState_numNodes]
  · rw [hfr.2.2.2.2.2]
    exact (initState_connectedNodes sort rows).2
  · rw [hfr.2.2.1]
    rfl

/-! ## The closer on an arbitrary state -/

theorem head_le_of_pairwise (l : List Nat) (hs : l.Pairwise (fun x y => x < y)) (a : Nat)
    (ha : l.head? = some a) : ∀ i ∈ l, a ≤ i := by
  cases l with
  | nil => simp at ha
  | cons x l =>
    simp only [List.head?_cons, Option.some.injEq] at ha
    subst ha
    intro i hi
    rcases List.mem_cons.mp hi with rfl | hi
    · exact le_refl _
    · exact le_of_lt ((List.pairwise_cons.mp hs).1 i hi)

theorem le_getLast_of_pairwise (l : List Nat) (hs : l.Pairwise (fun x y => x < y)) (b : Nat)
    (hb : l.getLast? = some b) : ∀ i ∈ l, i ≤ b := by
  induction l with
  | nil => simp at hb
  | cons x l ih =>
    cases l with
    | nil =>
      simp only [List.getLast?_singleton, Option.some.injEq] at hb
      subst hb
      simp
    | cons y l =>
      rw [List.getLast?_cons_cons] at hb
      have h1 := ih (List.pairwise_cons.mp hs).2 hb
      have hyb : y ≤ b := h1 y (by simp)
      intro i hi
      rcases List.mem_cons.mp hi with rfl | hi
      · have := (List.pairwise_cons.mp hs).1 y (by simp)
        omega
      · exact h1 i hi

/-- The closer on a state whose nodes are named by their indices and that has a
leader: `nodeOne` is the leader of least index, `nodeTwo` the leader of greatest
index, and the closer pushes `Connection(nodeOne, nodeTwo)` and adds
`distance(nodeOne, nodeTwo)`, failing only when that lookup fails. -/
theorem cycleCloser_leaders (st1 : state)
    (hname : ∀ i < st1.myGraph.nodes.length, nameAt st1.myGraph.nodes i = i)
    (hex : ∃ i, typeAt st1.myGraph.nodes i = 1) :
    ∃ a b, a ≤ b ∧ b < st1.myGraph.nodes.length ∧
      typeAt st1.myGraph.nodes a = 1 ∧ typeAt st1.myGraph.nodes b = 1 ∧
      (∀ i, typeAt st1.myGraph.nodes i = 1 → a ≤ i ∧ i ≤ b) ∧
      leaderScan (none, none) st1.myGraph.nodes = (some a, some b) ∧
      cycleCloser st1 = (st1.myGraph.distance a b).map
        (fun d => (st1.close a b d, a)) := by
  obtain ⟨i0, hi0⟩ := hex
  have hrange : ∀ i, typeAt st1.myGraph.nodes i = 1 → i < st1.myGraph.nodes.length := by
    intro i hi
    by_contra hc
    rw [typeAt_of_le _ _ (by omega)] at hi
    omega
  have hmem : ∀ i, i ∈ leaderNames st1.myGraph.nodes ↔ typeAt st1.myGraph.nodes i = 1 := by
    intro i
    rw [leaderNames_eq _ hname, List.mem_filter, List.mem_range, decide_eq_true_eq]
    exact ⟨fun h => h.2, fun h => ⟨hrange i h, h⟩⟩
  have hsorted : (leaderNames st1.myGraph.nodes).Pairwise (fun x y => x < y) := by
    rw [leaderNames_eq _ hname]
    exact (List.pairwise_lt_range _).sublist (List.filter_sublist _)
  have hne : leaderNames st1.myGraph.nodes ≠ [] := by
    intro hc
    have := (hmem i0).mpr hi0
    rw [hc] at this
    simp at this
  obtain ⟨a, ha⟩ : ∃ a, (leaderNames st1.myGraph.nodes).head? = some a := by
    cases h : leaderNames st1.myGraph.nodes with
    | nil => exact absurd h hne
    | cons x l => exact ⟨x, rfl⟩
  obtain ⟨b, hb⟩ : ∃ b, (leaderNames st1.myGraph.nodes).getLast? = some b := by
    cases h : (leaderNames st1.myGraph.nodes).getLast? with
    | none => exact absurd (List.getLast?_eq_none_iff.mp h) hne
    | some b => exact ⟨b, rfl⟩
  have hTa : typeAt st1.myGraph.nodes a = 1 := (hmem a).mp (List.mem_of_mem_head? ha)
  have hTb : typeAt st1.myGraph.nodes b = 1 := (hmem b).mp (List.mem_of_mem_getLast? hb)
  have hscan : leaderScan (none, none) st1.myGraph.nodes = (some a, some b) := by
    rw [leaderScan_eq, ha, hb]
    rfl
  have hlo := head_le_of_pairwise _ hsorted a ha
  have hhi := le_getLast_of_pairwise _ hsorted b hb
  refine ⟨a, b, hlo b ((hmem b).mpr hTb), hrange b hTb, hTa, hTb,
    fun i hi => ⟨hlo i ((hmem i).mpr hi), hhi i ((hmem i).mpr hi)⟩, hscan, ?_⟩
  unfold cycleCloser
  rw [hscan]
  simp only []
  rw [if_pos ⟨hrange a hTa, hrange b hTb⟩]
  cases st1.myGraph.distance a b <;> rfl

/-! ## The retrace on an arbitrary state -/

/-- A scan only appends to `pathTaken`, and when some connection is eligible at
its start the first entry it appends is the name of the current node. -/
theorem retraceScan_path (ns : List node) (cs : List connectedNode) (wk : walker) :
    ∃ ext, (retraceScan ns wk cs).1.pathTaken = wk.pathTaken ++ ext ∧
      ((∃ c ∈ cs, eligible wk c) → ext.head? = some (nameAt ns wk.currentNode)) := by
  induction cs generalizing wk with
  | nil => exact ⟨[], by simp [retraceScan], by simp⟩
  | cons c cs ih =>
    rw [retraceScan_cons]
    by_cases he : eligible wk c
    · rw [if_pos he]
      obtain ⟨ext, h1, _⟩ := ih (hop ns wk c)
      refine ⟨nameAt ns wk.currentNode :: ext, ?_, fun _ => rfl⟩
      have hp : (hop ns wk c).pathTaken = wk.pathTaken ++ [nameAt ns wk.currentNode] := by
        unfold hop
        split <;> rfl
      simp only []
      rw [h1, hp, List.append_assoc]
      rfl
    · rw [if_neg he]
      obtain ⟨ext, h1, h2⟩ := ih wk
      refine ⟨ext, h1, ?_⟩
      rintro ⟨c1, hc1, hel⟩
      rcases List.mem_cons.mp hc1 with rfl | hc1
      · exact absurd hel he
      · exact h2 ⟨c1, hc1, hel⟩

theorem retraceLoop_path (ns : List node) (k : Nat) (cs : List connectedNode) (wk : walker) :
    ∃ ext, (retraceLoop ns k wk cs).1.pathTaken = wk.pathTaken ++ ext ∧
      (0 < k → (∃ c ∈ cs, eligible wk c) → ext.head? = some (nameAt ns wk.currentNode)) := by
  induction k generalizing wk cs with
  | zero => exact ⟨[], by simp [retraceLoop], by simp⟩
  | succ k ih =>
    rw [retraceLoop]
    obtain ⟨ext1, h1, h2⟩ := retraceScan_path ns cs wk
    obtain ⟨ext2, h3, _⟩ := ih (retraceScan ns wk cs).2 (retraceScan ns wk cs).1
    refine ⟨ext1 ++ ext2, ?_, ?_⟩
    · rw [h3, h1, List.append_assoc]
    · intro _ hel
      have := h2 hel
      cases ext1 with
      | nil => simp at this
      | cons x ext1 => simpa using this

/-- A scan that finds no eligible connection changes nothing. -/
theorem retraceScan_stuck (ns : List node) (cs : List connectedNode) (wk : walker)
    (h : ∀ c ∈ cs, ¬ eligible wk c) : retraceScan ns wk cs = (wk, cs) := by
  induction cs with
  | nil => rfl
  | cons c cs ih =>
    rw [retraceScan_cons, if_neg (h c (by simp)), ih (fun c1 hc1 => h c1 (by simp [hc1]))]

theorem retraceLoop_stuck (ns : List node) (k : Nat) (cs : List connectedNode) (wk : walker)
    (h : ∀ c ∈ cs, ¬ eligible wk c) : retraceLoop ns k wk cs = (wk, cs) := by
  induction k with
  | zero => rfl
  | succ k ih => rw [retraceLoop, retraceScan_stuck ns cs wk h]; exact ih

theorem retraceLoop_add (ns : List node) (k m : Nat) (cs : List connectedNode) (wk : walker) :
    retraceLoop ns (k + m) wk cs =
      retraceLoop ns m (retraceLoop ns k wk cs).1 (retraceLoop ns k wk cs).2 := by
  induction k generalizing wk cs with
  | zero => simp [retraceLoop]
  | succ k ih =>
    rw [Nat.add_right_comm, retraceLoop, retraceLoop, ih]

/-! ## The state/degree invariant -/

theorem touching_append_new (cs : List connectedNode) (l r v : Nat) :
    touching (cs ++ [connectedNode.new l r]) v =
      touching cs v + (if l = v ∨ r = v then 1 else 0) := by
  unfold touching
  rw [List.countP_append]
  simp [connectedNode.new, List.countP_cons]

theorem initState_degInv (sort : List weight → List weight) (rows : List (List Int)) :
    DegInv (initState sort rows) := by
  refine ⟨?_, ?_, ?_⟩
  · rw [(initState_connectedNodes sort rows).1]; simp
  · intro v
    rw [(initState_connectedNodes sort rows).1, initState_nodes, typeAt_new_nodes]
    rfl
  · intro v
    rw [initState_nodes, typeAt_new_nodes]
    omega

/-- One step on an edge that is not a self-loop keeps the state/degree invariant. -/
theorem edgeStep_degInv {st st1 : state} (h : DegInv st) (w : weight)
    (hne : w.fromNode ≠ w.toNode) (hstep : edgeStep st w = some st1) : DegInv st1 := by
  obtain ⟨hl, hr⟩ := edgeStep_in_range hstep
  obtain ⟨st2, hstep2, hfr, hcase⟩ := edgeStep_spec st w hl hr hne (h.le _) (h.le _)
  rw [hstep] at hstep2
  cases hstep2
  have hne' : w.toNode ≠ w.fromNode := fun hc => hne hc.symm
  have hloop : Accepted st st1 w →
      ∀ c ∈ st1.myGraph.connectedNodes, c.connectedLeftNode ≠ c.connectedRightNode := by
    intro hacc c hc
    rw [hacc.1, List.mem_append] at hc
    rcases hc with hc | hc
    · exact h.loopfree c hc
    · rw [List.mem_singleton] at hc
      rw [hc]
      exact hne
  rcases hcase with ⟨h0l, h0r, hacc, _, hT, _⟩ | ⟨h1l, h1r, _, hacc, _, hT, _⟩ |
    ⟨x, y, hxy, h1x, h0y, hacc, _, hT, _⟩ | ⟨_, heq⟩
  · refine ⟨hloop hacc, ?_, ?_⟩
    · intro v
      rw [hacc.1, touching_append_new, h.deg, hT]
      by_cases e1 : v = w.fromNode
      · rw [e1]; simp [h0l]
      · by_cases e2 : v = w.toNode
        · rw [e2]; simp [h0r]
        · simp [e1, e2, Ne.symm e1, Ne.symm e2]
    · intro v
      rw [hT]
      split
      · omega
      · exact h.le v
  · refine ⟨hloop hacc, ?_, ?_⟩
    · intro v
      rw [hacc.1, touching_append_new, h.deg, hT]
      by_cases e1 : v = w.fromNode
      · rw [e1]; simp [h1l]
      · by_cases e2 : v = w.toNode
        · rw [e2]; simp [h1r]
        · simp [e1, e2, Ne.symm e1, Ne.symm e2]
    · intro v
      rw [hT]
      split
      · omega
      · exact h.le v
  · refine ⟨hloop hacc, ?_, ?_⟩
    · intro v
      rw [hacc.1, touching_append_new, h.deg, hT]
      rcases hxy with ⟨rfl, rfl⟩ | ⟨rfl, rfl⟩
      · by_cases e1 : v = w.fromNode
        · rw [e1]; simp [h1x]
        · by_cases e2 : v = w.toNode
          · rw [e2]; simp [hne', h0y]
          · simp [e1, e2, Ne.symm e1, Ne.symm e2]
      · by_cases e1 : v = w.fromNode
        · rw [e1]; simp [hne, h0y]
        · by_cases e2 : v = w.toNode
          · rw [e2]; simp [h1x]
          · simp [e1, e2, Ne.symm e1, Ne.symm e2]
    · intro v
      rw [hT]
      split
      · omega
      · split
        · omega
        · exact h.le v
  · rw [heq]; exact h

/-- The edge loop over edges none of which is a self-loop keeps the state/degree
invariant. -/
theorem cycleBuilder_degInv (ws : List weight) {st st1 : state} (h : DegInv st)
    (hne : ∀ w ∈ ws, w.fromNode ≠ w.toNode) (hrun : cycleBuilder st ws = some st1) :
    DegInv st1 := by
  induction ws generalizing st with
  | nil =>
    simp only [cycleBuilder] at hrun
    cases hrun
    exact h
  | cons w ws ih =>
    rw [cycleBuilder] at hrun
    cases hstep : edgeStep st w with
    | none => rw [hstep] at hrun; cases hrun
    | some st2 =>
      rw [hstep] at hrun
      exact ih (edgeStep_degInv h w (hne w (by simp)) hstep)
        (fun w1 hw1 => hne w1 (by simp [hw1])) hrun

/-! ## Counting connections and hops -/

/-- The edge loop over edges none of which is a self-loop keeps the path
invariant, whatever the matrix holds. -/
theorem cycleBuilder_pathInv (ws : List weight) {st st1 : state} {ps : List (List Nat)}
    (h : PathInv st ps) (hne : ∀ w ∈ ws, w.fromNode ≠ w.toNode)
    (hrun : cycleBuilder st ws = some st1) : ∃ ps1, PathInv st1 ps1 := by
  induction ws generalizing st ps with
  | nil =>
    simp only [cycleBuilder] at hrun
    cases hrun
    exact ⟨ps, h⟩
  | cons w ws ih =>
    rw [cycleBuilder] at hrun
    cases hstep : edgeStep st w with
    | none => rw [hstep] at hrun; cases hrun
    | some st2 =>
      rw [hstep] at hrun
      obtain ⟨hl, hr⟩ := edgeStep_in_range hstep
      obtain ⟨st3, ps3, hstep3, _, hinv, _⟩ := edgeStep_inv h w hl hr (hne w (by simp))
      rw [hstep] at hstep3
      cases hstep3
      exact ih hinv (fun w1 hw1 => hne w1 (by simp [hw1])) hrun

theorem length_flatMap_hops (ps : List (List Nat)) (hp : ∀ p ∈ ps, p ≠ []) :
    (ps.flatMap hops).length + ps.length = ps.flatten.length := by
  induction ps with
  | nil => rfl
  | cons p ps ih =>
    have h1 := ih (fun q hq => hp q (by simp [hq]))
    have h2 : p.length ≠ 0 := fun hc => hp p (by simp) (List.length_eq_zero.mp hc)
    simp only [List.flatMap_cons, List.flatten_cons, List.length_append, List.length_cons,
      length_hops]
    omega

theorem length_le_of_nodup_bound (l : List Nat) (n : Nat) (hnd : l.Nodup)
    (hb : ∀ v ∈ l, v < n) : l.length ≤ n := by
  have hsub : l ⊆ List.range n := fun v hv => List.mem_range.mpr (hb v hv)
  have := (List.subperm_of_subset hnd hsub).length_le
  simpa using this

/-- Under the path invariant there are fewer connections than nodes, provided
there is a node at all. -/
theorem PathInv.length_connectedNodes_lt {st : state} {ps : List (List Nat)}
    (h : PathInv st ps) (hn : 0 < st.myGraph.nodes.length) :
    st.myGraph.connectedNodes.length < st.myGraph.nodes.length := by
  have hlen : st.myGraph.connectedNodes.length = (ps.flatMap hops).length := by
    rw [← h.edges.length_eq, List.length_map]
  have hne : ∀ p ∈ ps, p ≠ [] := by
    intro p hp hc
    obtain ⟨a, mid, b, hpe, _⟩ := h.good p hp
    rw [hc] at hpe
    cases hpe
  have h1 := length_flatMap_hops ps hne
  have h2 := length_le_of_nodup_bound _ _ h.nodup h.bound
  cases ps with
  | nil =>
    rw [hlen]
    exact hn
  | cons p ps =>
    rw [hlen]
    simp only [List.length_cons] at h1
    omega

/-- Every hop of a scan checks one connection that was unchecked. -/
theorem retraceScan_count (ns : List node) (cs : List connectedNode) (wk : walker) :
    (retraceScan ns wk cs).1.pathTaken.length + (openEnds (retraceScan ns wk cs).2).length =
      wk.pathTaken.length + (openEnds cs).length := by
  induction cs generalizing wk with
  | nil => simp [retraceScan]
  | cons c cs ih =>
    rw [retraceScan_cons]
    by_cases he : eligible wk c
    · rw [if_pos he]
      have h1 := ih (hop ns wk c)
      have hp : (hop ns wk c).pathTaken.length = wk.pathTaken.length + 1 := by
        unfold hop
        split <;> simp
      simp only []
      rw [openEnds_cons_checked _ _ rfl, openEnds_cons_unchecked c cs he.2, List.length_cons]
      omega
    · rw [if_neg he]
      have h1 := ih wk
      simp only []
      by_cases hc : c.checked = false
      · rw [openEnds_cons_unchecked c _ hc, openEnds_cons_unchecked c cs hc,
          List.length_cons, List.length_cons]
        omega
      · have hc2 : c.checked = true := by simpa using hc
        rw [openEnds_cons_checked c _ hc2, openEnds_cons_checked c cs hc2]
        exact h1

theorem retraceLoop_count (ns : List node) (k : Nat) (cs : List connectedNode) (wk : walker) :
    (retraceLoop ns k wk cs).1.pathTaken.length + (openEnds (retraceLoop ns k wk cs).2).length =
      wk.pathTaken.length + (openEnds cs).length := by
  induction k generalizing wk cs with
  | zero => rfl
  | succ k ih =>
    rw [retraceLoop, ih, retraceScan_count]

theorem length_openEnds_le (cs : List connectedNode) : (openEnds cs).length ≤ cs.length := by
  unfold openEnds
  rw [List.length_map]
  exact List.length_filter_le _ _

/-- The retrace records at most one node per connection, then the closing node. -/
theorem retrace_length_le (st : state) (a : Nat) :
    (retrace st a).myGraph.pathTaken.length ≤
      st.myGraph.pathTaken.length + st.myGraph.connectedNodes.length + 1 := by
  have h1 := retraceLoop_count st.myGraph.nodes st.myGraph.numNodes st.myGraph.connectedNodes
    ⟨a, st.myGraph.pathTaken⟩
  have h2 := length_openEnds_le st.myGraph.connectedNodes
  unfold retrace
  simp only [List.length_append, List.length_singleton]
  simp only [] at h1
  omega

/-- What the closer returns: the state with one connection from the returned
start node appended, nothing else changed but the total. -/
theorem cycleCloser_some {st1 st2 : state} {a : Nat} (h : cycleCloser st1 = some (st2, a)) :
    ∃ b d, st2 = st1.close a b d := by
  unfold cycleCloser at h
  split at h
  · split_ifs at h
    · split at h
      · cases h
        exact ⟨_, _, rfl⟩
      · cases h
  · cases h

/-! ## Chains of connections -/

theorem adjacent_symm (cs : List connectedNode) (x y : Nat) (h : Adjacent cs x y) :
    Adjacent cs y x := by
  obtain ⟨c, hc, h1⟩ := h
  exact ⟨c, hc, h1.symm⟩

theorem joined_symm (cs : List connectedNode) (x y : Nat) (h : Joined cs x y) :
    Joined cs y x :=
  Relation.ReflTransGen.symmetric (fun a b hab => adjacent_symm cs a b hab) h

theorem joined_trans {cs : List connectedNode} {x y z : Nat} (h1 : Joined cs x y)
    (h2 : Joined cs y z) : Joined cs x z :=
  Relation.ReflTransGen.trans h1 h2

theorem adjacent_append_new (cs : List connectedNode) (u v x y : Nat) :
    Adjacent (cs ++ [connectedNode.new u v]) x y ↔
      Adjacent cs x y ∨ (x = u ∧ y = v) ∨ (x = v ∧ y = u) := by
  unfold Adjacent
  constructor
  · rintro ⟨c, hc, h1⟩
    rw [List.mem_append, List.mem_singleton] at hc
    rcases hc with hc | hc
    · exact Or.inl ⟨c, hc, h1⟩
    · rw [hc] at h1
      simp only [connectedNode.new] at h1
      rcases h1 with ⟨h2, h3⟩ | ⟨h2, h3⟩
      · exact Or.inr (Or.inl ⟨h2.symm, h3.symm⟩)
      · exact Or.inr (Or.inr ⟨h3.symm, h2.symm⟩)
  · rintro (⟨c, hc, h1⟩ | ⟨rfl, rfl⟩ | ⟨rfl, rfl⟩)
    · exact ⟨c, by simp [hc], h1⟩
    · exact ⟨connectedNode.new x y, by simp, Or.inl ⟨rfl, rfl⟩⟩
    · exact ⟨connectedNode.new y x, by simp, Or.inr ⟨rfl, rfl⟩⟩

theorem joined_mono (cs : List connectedNode) (c : connectedNode) (x y : Nat)
    (h : Joined cs x y) : Joined (cs ++ [c]) x y := by
  apply Relation.ReflTransGen.mono _ h
  rintro a b ⟨c1, hc1, h1⟩
  exact ⟨c1, by simp [hc1], h1⟩

/-- What a new connection between `u` and `v` joins: what was joined before, and
every node joined to `u` with every node joined to `v`. -/
theorem joined_append_new (cs : List connectedNode) (u v x y : Nat) :
    Joined (cs ++ [connectedNode.new u v]) x y ↔
      Joined cs x y ∨ (Joined cs x u ∧ Joined cs v y) ∨ (Joined cs x v ∧ Joined cs u y) := by
  constructor
  · intro h
    induction h with
    | refl => exact Or.inl Relation.ReflTransGen.refl
    | tail _ hbc ih =>
      rw [adjacent_append_new] at hbc
      rcases hbc with hbc | ⟨rfl, rfl⟩ | ⟨rfl, rfl⟩
      · rcases ih with h1 | ⟨h1, h2⟩ | ⟨h1, h2⟩
        · exact Or.inl (h1.tail hbc)
        · exact Or.inr (Or.inl ⟨h1, h2.tail hbc⟩)
        · exact Or.inr (Or.inr ⟨h1, h2.tail hbc⟩)
      · rcases ih with h1 | ⟨h1, _⟩ | ⟨h1, _⟩
        · exact Or.inr (Or.inl ⟨h1, Relation.ReflTransGen.refl⟩)
        · exact Or.inr (Or.inl ⟨h1, Relation.ReflTransGen.refl⟩)
        · exact Or.inl h1
      · rcases ih with h1 | ⟨h1, _⟩ | ⟨h1, _⟩
        · exact Or.inr (Or.inr ⟨h1, Relation.ReflTransGen.refl⟩)
        · exact Or.inl h1
        · exact Or.inr (Or.inr ⟨h1, Relation.ReflTransGen.refl⟩)
  · have huv : Joined (cs ++ [connectedNode.new u v]) u v :=
      Relation.ReflTransGen.single ((adjacent_append_new cs u v u v).mpr (Or.inr (Or.inl ⟨rfl, rfl⟩)))
    rintro (h | ⟨h1, h2⟩ | ⟨h1, h2⟩)
    · exact joined_mono _ _ _ _ h
    · exact joined_trans (joined_trans (joined_mono _ _ _ _ h1) huv) (joined_mono _ _ _ _ h2)
    · exact joined_trans (joined_trans (joined_mono _ _ _ _ h1) (joined_symm _ _ _ huv))
        (joined_mono _ _ _ _ h2)

/-- A node that no connection touches is joined to itself only. -/
theorem joined_isolated (cs : List connectedNode) (u x : Nat)
    (h : ∀ c ∈ cs, c.connectedLeftNode ≠ u ∧ c.connectedRightNode ≠ u) :
    Joined cs u x ↔ u = x := by
  constructor
  · intro hj
    induction hj with
    | refl => rfl
    | tail _ hbc ih =>
      subst ih
      obtain ⟨c, hc, h1⟩ := hbc
      rcases h1 with ⟨h2, _⟩ | ⟨_, h2⟩
      · exact absurd h2 (h c hc).1
      · exact absurd h2 (h c hc).2
  · rintro rfl
    exact Relation.ReflTransGen.refl

/-! ## The group invariant -/

/-- The effect of one iteration of the edge loop on any edge between existing
nodes of types 0, 1 or 2, a self-loop included. -/
theorem edgeStep_spec_any (st : state) (w : weight)
    (hl : w.fromNode < st.myGraph.nodes.length) (hr : w.toNode < st.myGraph.nodes.length)
    (hTl : typeAt st.myGraph.nodes w.fromNode ≤ 2)
    (hTr : typeAt st.myGraph.nodes w.toNode ≤ 2) :
    ∃ st1, edgeStep st w = some st1 ∧ Frame st st1 ∧
      ((typeAt st.myGraph.nodes w.fromNode = 0 ∧ typeAt st.myGraph.nodes w.toNode = 0 ∧
          Accepted st st1 w ∧ st1.globalGroupNumber = st.globalGroupNumber + 1 ∧
          (∀ i, typeAt st1.myGraph.nodes i =
            if i = w.fromNode ∨ i = w.toNode then 1 else typeAt st.myGraph.nodes i) ∧
          (∀ i, groupAt st1.myGraph.nodes i =
            if i = w.fromNode ∨ i = w.toNode then st.globalGroupNumber
            else groupAt st.myGraph.nodes i)) ∨
       (typeAt st.myGraph.nodes w.fromNode = 1 ∧ typeAt st.myGraph.nodes w.toNode = 1 ∧
          groupAt st.myGraph.nodes w.fromNode ≠ groupAt st.myGraph.nodes w.toNode ∧
          Accepted st st1 w ∧ st1.globalGroupNumber = st.globalGroupNumber ∧
          (∀ i, typeAt st1.myGraph.nodes i =
            if i = w.fromNode ∨ i = w.toNode then 2 else typeAt st.myGraph.nodes i) ∧
          (∀ i, groupAt st1.myGraph.nodes i =
            if i < st.myGraph.nodes.length ∧ groupAt st.myGraph.nodes i =
                max (groupAt st.myGraph.nodes w.fromNode) (groupAt st.myGraph.nodes w.toNode)
            then min (groupAt st.myGraph.nodes w.fromNode) (groupAt st.myGraph.nodes w.toNode)
            else groupAt st.myGraph.nodes i)) ∨
       (∃ x y, ((x = w.fromNode ∧ y = w.toNode) ∨ (x = w.toNode ∧ y = w.fromNode)) ∧
          typeAt st.myGraph.nodes x = 1 ∧ typeAt st.myGraph.nodes y = 0 ∧
          Accepted st st1 w ∧ st1.globalGroupNumber = st.globalGroupNumber ∧
          (∀ i, typeAt st1.myGraph.nodes i =
            if i = x then 2 else if i = y then 1 else typeAt st.myGraph.nodes i) ∧
          (∀ i, groupAt st1.myGraph.nodes i =
            if i = y then groupAt st.myGraph.nodes x else groupAt st.myGraph.nodes i)) ∨
       ((typeAt st.myGraph.nodes w.fromNode = 2 ∨ typeAt st.myGraph.nodes w.toNode = 2 ∨
          (typeAt st.myGraph.nodes w.fromNode = 1 ∧ typeAt st.myGraph.nodes w.toNode = 1 ∧
            groupAt st.myGraph.nodes w.fromNode = groupAt st.myGraph.nodes w.toNode)) ∧
          st1 = st)) := by
  by_cases hne : w.fromNode = w.toNode
  · have hT : typeAt st.myGraph.nodes w.fromNode = 0 ∨
        typeAt st.myGraph.nodes w.fromNode = 1 ∨ typeAt st.myGraph.nodes w.fromNode = 2 := by
      omega
    rcases hT with h0 | h0 | h0
    · have h0r : typeAt st.myGraph.nodes w.toNode = 0 := by rw [← hne]; exact h0
      refine ⟨_, edgeStep_first_branch st w hl hr h0 h0r, ?_,
        Or.inl ⟨h0, h0r, ⟨rfl, rfl⟩, rfl, ?_, ?_⟩⟩
      · refine ⟨?_, ?_, rfl, rfl, rfl, rfl⟩
        · simp [state.accept, length_setGroup, length_setType]
        · intro i
          simp [state.accept, nameAt_setGroup, nameAt_setType]
      · intro i
        simp only [state.accept, typeAt_setGroup, typeAt_setType, length_setType, hl, hr,
          and_true]
        by_cases h2 : i = w.toNode <;> by_cases h3 : i = w.fromNode <;> simp [h2, h3]
      · intro i
        simp only [state.accept, groupAt_setGroup, groupAt_setType, length_setGroup,
          length_setType, hl, hr, and_true]
        by_cases h2 : i = w.toNode <;> by_cases h3 : i = w.fromNode <;> simp [h2, h3]
    · have h1r : typeAt st.myGraph.nodes w.toNode = 1 := by rw [← hne]; exact h0
      have hg : groupAt st.myGraph.nodes w.fromNode = groupAt st.myGraph.nodes w.toNode := by
        rw [← hne]
      refine ⟨st, ?_, frame_refl st, Or.inr (Or.inr (Or.inr ⟨Or.inr (Or.inr ⟨h0, h1r, hg⟩),
        rfl⟩))⟩
      apply edgeStep_other_branches st w hl hr
      right; left
      exact ⟨by simp [edgeBranch, h0, h1r], hg⟩
    · have h2r : typeAt st.myGraph.nodes w.toNode = 2 := by rw [← hne]; exact h0
      refine ⟨st, ?_, frame_refl st, Or.inr (Or.inr (Or.inr ⟨Or.inl h0, rfl⟩))⟩
      apply edgeStep_other_branches st w hl hr
      left
      simp [edgeBranch, h0, h2r]
  · exact edgeStep_spec st w hl hr hne hTl hTr

theorem joined_isolated_right (cs : List connectedNode) (u x : Nat)
    (h : ∀ c ∈ cs, c.connectedLeftNode ≠ u ∧ c.connectedRightNode ≠ u) :
    Joined cs x u ↔ x = u := by
  constructor
  · intro hj
    exact ((joined_isolated cs u x h).mp (joined_symm _ _ _ hj)).symm
  · rintro rfl
    exact Relation.ReflTransGen.refl

theorem lt_length_of_typeAt (ns : List node) (v : Nat) (h : typeAt ns v ≠ 0) :
    v < ns.length := by
  by_contra hc
  exact h (typeAt_of_le _ _ (by omega))

theorem initState_groupInv (sort : List weight → List weight) (rows : List (List Int)) :
    GroupInv (initState sort rows) := by
  have hT : ∀ v, typeAt (initState sort rows).myGraph.nodes v = 0 := by
    intro v
    rw [initState_nodes]
    exact typeAt_new_nodes _ _
  refine ⟨?_, ?_, ?_, ?_, le_refl 1⟩
  · intro v
    rw [hT]
    omega
  · intro v _
    refine ⟨?_, ?_⟩
    · rw [initState_nodes]
      exact groupAt_new_nodes _ _
    · rw [(initState_connectedNodes sort rows).1]
      simp
  · intro v hv
    exact absurd (hT v) hv
  · intro u _ hu
    exact absurd (hT u) hu

/-- One step of the edge loop keeps the group invariant: a new group starts
with a fresh id, a merge gives two joined chains one id, and a node that joins a
chain takes the id of the chain. -/
theorem edgeStep_groupInv {st st1 : state} (h : GroupInv st) (w : weight)
    (hstep : edgeStep st w = some st1) : GroupInv st1 := by
  obtain ⟨hl, hr⟩ := edgeStep_in_range hstep
  obtain ⟨st2, hstep2, hfr, hcase⟩ := edgeStep_spec_any st w hl hr (h.le _) (h.le _)
  rw [hstep] at hstep2
  cases hstep2
  rcases hcase with ⟨h0l, h0r, hacc, hggn, hT, hG⟩ | ⟨h1l, h1r, hg, hacc, hggn, hT, hG⟩ |
    ⟨x, y, hxy, h1x, h0y, hacc, hggn, hT, hG⟩ | ⟨_, heq⟩
  · -- both untouched
    have hisoL := (h.untouched _ h0l).2
    have hisoR := (h.untouched _ h0r).2
    have hJ : ∀ a b, Joined st1.myGraph.connectedNodes a b ↔
        Joined st.myGraph.connectedNodes a b ∨ (a = w.fromNode ∧ b = w.toNode) ∨
          (a = w.toNode ∧ b = w.fromNode) := by
      intro a b
      rw [hacc.1, joined_append_new, joined_isolated_right _ _ _ hisoL,
        joined_isolated_right _ _ _ hisoR, joined_isolated _ _ _ hisoL,
        joined_isolated _ _ _ hisoR]
      constructor
      · rintro (h1 | ⟨h1, h2⟩ | ⟨h1, h2⟩)
        · exact Or.inl h1
        · exact Or.inr (Or.inl ⟨h1, h2.symm⟩)
        · exact Or.inr (Or.inr ⟨h1, h2.symm⟩)
      · rintro (h1 | ⟨h1, h2⟩ | ⟨h1, h2⟩)
        · exact Or.inl h1
        · exact Or.inr (Or.inl ⟨h1, h2.symm⟩)
        · exact Or.inr (Or.inr ⟨h1, h2.symm⟩)
    have hold : ∀ a, ¬ (a = w.fromNode ∨ a = w.toNode) → typeAt st1.myGraph.nodes a ≠ 0 →
        typeAt st.myGraph.nodes a ≠ 0 := by
      intro a ha hta
      rw [hT, if_neg ha] at hta
      exact hta
    refine ⟨?_, ?_, ?_, ?_, by rw [hggn]; omega⟩
    · intro v
      rw [hT]
      split
      · omega
      · exact h.le v
    · intro v hv
      rw [hT] at hv
      have hv2 : ¬ (v = w.fromNode ∨ v = w.toNode) := by
        intro hc
        rw [if_pos hc] at hv
        omega
      rw [if_neg hv2] at hv
      refine ⟨by rw [hG, if_neg hv2]; exact (h.untouched v hv).1, ?_⟩
      intro c hc
      rw [hacc.1, List.mem_append, List.mem_singleton] at hc
      rcases hc with hc | hc
      · exact (h.untouched v hv).2 c hc
      · rw [hc]
        simp only [connectedNode.new]
        exact ⟨fun e => hv2 (Or.inl e.symm), fun e => hv2 (Or.inr e.symm)⟩
    · intro v hv
      rw [hG, hggn]
      by_cases hv2 : v = w.fromNode ∨ v = w.toNode
      · rw [if_pos hv2]
        have := h.counter
        omega
      · rw [if_neg hv2]
        have := h.touched v (hold v hv2 hv)
        omega
    · intro a b ha hb
      rw [hJ, hG a, hG b]
      by_cases ha2 : a = w.fromNode ∨ a = w.toNode
      · by_cases hb2 : b = w.fromNode ∨ b = w.toNode
        · rw [if_pos ha2, if_pos hb2]
          refine ⟨fun _ => ?_, fun _ => rfl⟩
          rcases ha2 with rfl | rfl <;> rcases hb2 with rfl | rfl
          · exact Or.inl Relation.ReflTransGen.refl
          · exact Or.inr (Or.inl ⟨rfl, rfl⟩)
          · exact Or.inr (Or.inr ⟨rfl, rfl⟩)
          · exact Or.inl Relation.ReflTransGen.refl
        · rw [if_pos ha2, if_neg hb2]
          have hbt := h.touched b (hold b hb2 hb)
          constructor
          · intro hc
            omega
          · rintro (h1 | ⟨_, h2⟩ | ⟨_, h2⟩)
            · exfalso
              rcases ha2 with rfl | rfl
              · exact hb2 (Or.inl ((joined_isolated _ _ _ hisoL).mp h1).symm)
              · exact hb2 (Or.inr ((joined_isolated _ _ _ hisoR).mp h1).symm)
            · exact absurd (Or.inr h2) hb2
            · exact absurd (Or.inl h2) hb2
      · by_cases hb2 : b = w.fromNode ∨ b = w.toNode
        · rw [if_neg ha2, if_pos hb2]
          have hat := h.touched a (hold a ha2 ha)
          constructor
          · intro hc
            omega
          · rintro (h1 | ⟨h2, _⟩ | ⟨h2, _⟩)
            · exfalso
              rcases hb2 with rfl | rfl
              · exact ha2 (Or.inl ((joined_isolated_right _ _ _ hisoL).mp h1))
              · exact ha2 (Or.inr ((joined_isolated_right _ _ _ hisoR).mp h1))
            · exact absurd (Or.inl h2) ha2
            · exact absurd (Or.inr h2) ha2
        · rw [if_neg ha2, if_neg hb2, h.conn a b (hold a ha2 ha) (hold b hb2 hb)]
          constructor
          · exact fun h1 => Or.inl h1
          · rintro (h1 | ⟨h2, _⟩ | ⟨h2, _⟩)
            · exact h1
            · exact absurd (Or.inl h2) ha2
            · exact absurd (Or.inr h2) ha2
  · -- two leaders of different groups
    have htl : typeAt st.myGraph.nodes w.fromNode ≠ 0 := by omega
    have htr : typeAt st.myGraph.nodes w.toNode ≠ 0 := by omega
    have hgl := h.touched _ htl
    have hgr := h.touched _ htr
    have hold : ∀ a, typeAt st1.myGraph.nodes a ≠ 0 → typeAt st.myGraph.nodes a ≠ 0 := by
      intro a hta
      rw [hT] at hta
      by_cases ha : a = w.fromNode ∨ a = w.toNode
      · rcases ha with rfl | rfl
        · exact htl
        · exact htr
      · rw [if_neg ha] at hta
        exact hta
    refine ⟨?_, ?_, ?_, ?_, by rw [hggn]; exact h.counter⟩
    · intro v
      rw [hT]
      split
      · omega
      · exact h.le v
    · intro v hv
      rw [hT] at hv
      have hv2 : ¬ (v = w.fromNode ∨ v = w.toNode) := by
        intro hc
        rw [if_pos hc] at hv
        omega
      rw [if_neg hv2] at hv
      have h0 := h.untouched v hv
      refine ⟨?_, ?_⟩
      · rw [hG, if_neg (by rw [h0.1]; omega)]
        exact h0.1
      · intro c hc
        rw [hacc.1, List.mem_append, List.mem_singleton] at hc
        rcases hc with hc | hc
        · exact h0.2 c hc
        · rw [hc]
          simp only [connectedNode.new]
          exact ⟨fun e => hv2 (Or.inl e.symm), fun e => hv2 (Or.inr e.symm)⟩
    · intro v hv
      have := h.touched v (hold v hv)
      rw [hG, hggn]
      split <;> omega
    · intro a b ha hb
      have ha1 := hold a ha
      have hb1 := hold b hb
      have hal := lt_length_of_typeAt _ _ ha1
      have hbl := lt_length_of_typeAt _ _ hb1
      rw [hacc.1, joined_append_new, ← h.conn a b ha1 hb1, ← h.conn a _ ha1 htl,
        ← h.conn _ b htr hb1, ← h.conn a _ ha1 htr, ← h.conn _ b htl hb1, hG a, hG b]
      simp only [hal, hbl, true_and]
      rcases Nat.lt_or_gt_of_ne hg with hlt | hlt
      · rw [max_eq_right (le_of_lt hlt), min_eq_left (le_of_lt hlt)]
        split <;> split <;> omega
      · rw [max_eq_left (le_of_lt hlt), min_eq_right (le_of_lt hlt)]
        split <;> split <;> omega
  · -- a leader and an untouched node
    have htx : typeAt st.myGraph.nodes x ≠ 0 := by omega
    have hxy' : x ≠ y := by
      intro hc
      rw [hc] at h1x
      omega
    have hiso := (h.untouched _ h0y).2
    have hJ : ∀ a b, Joined st1.myGraph.connectedNodes a b ↔
        Joined st.myGraph.connectedNodes a b ∨
          (Joined st.myGraph.connectedNodes a x ∧ y = b) ∨
          (a = y ∧ Joined st.myGraph.connectedNodes x b) := by
      intro a b
      rw [hacc.1, joined_append_new]
      rcases hxy with ⟨rfl, rfl⟩ | ⟨rfl, rfl⟩
      · rw [joined_isolated_right _ _ _ hiso, joined_isolated _ _ _ hiso]
      · rw [joined_isolated_right _ _ _ hiso, joined_isolated _ _ _ hiso]
        constructor
        · rintro (h1 | h1 | h1)
          · exact Or.inl h1
          · exact Or.inr (Or.inr h1)
          · exact Or.inr (Or.inl h1)
        · rintro (h1 | h1 | h1)
          · exact Or.inl h1
          · exact Or.inr (Or.inr h1)
          · exact Or.inr (Or.inl h1)
    have hold : ∀ a, a ≠ y → typeAt st1.myGraph.nodes a ≠ 0 →
        typeAt st.myGraph.nodes a ≠ 0 := by
      intro a ha hta
      rw [hT] at hta
      by_cases hax : a = x
      · rw [hax]; exact htx
      · rw [if_neg hax, if_neg ha] at hta
        exact hta
    refine ⟨?_, ?_, ?_, ?_, by rw [hggn]; exact h.counter⟩
    · intro v
      rw [hT]
      split
      · omega
      · split
        · omega
        · exact h.le v
    · intro v hv
      rw [hT] at hv
      have hvx : v ≠ x := by
        intro hc
        rw [if_pos hc] at hv
        omega
      rw [if_neg hvx] at hv
      have hvy : v ≠ y := by
        intro hc
        rw [if_pos hc] at hv
        omega
      rw [if_neg hvy] at hv
      have h0 := h.untouched v hv
      refine ⟨by rw [hG, if_neg hvy]; exact h0.1, ?_⟩
      intro c hc
      rw [hacc.1, List.mem_append, List.mem_singleton] at hc
      rcases hc with hc | hc
      · exact h0.2 c hc
      · rw [hc]
        simp only [connectedNode.new]
        rcases hxy with ⟨rfl, rfl⟩ | ⟨rfl, rfl⟩
        · exact ⟨fun e => hvx e.symm, fun e => hvy e.symm⟩
        · exact ⟨fun e => hvy e.symm, fun e => hvx e.symm⟩
    · intro v hv
      rw [hG, hggn]
      by_cases hvy : v = y
      · rw [if_pos hvy]
        exact h.touched x htx
      · rw [if_neg hvy]
        exact h.touched v (hold v hvy hv)
    · intro a b ha hb
      rw [hJ, hG a, hG b]
      by_cases hay : a = y
      · by_cases hby : b = y
        · rw [if_pos hay, if_pos hby, hay, hby]
          exact ⟨fun _ => Or.inl Relation.ReflTransGen.refl, fun _ => rfl⟩
        · rw [if_pos hay, if_neg hby, h.conn x b htx (hold b hby hb)]
          constructor
          · exact fun h1 => Or.inr (Or.inr ⟨hay, h1⟩)
          · rintro (h1 | ⟨_, h2⟩ | ⟨_, h2⟩)
            · rw [hay] at h1
              exact absurd ((joined_isolated _ _ _ hiso).mp h1).symm hby
            · exact absurd h2.symm hby
            · exact h2
      · by_cases hby : b = y
        · rw [if_neg hay, if_pos hby, h.conn a x (hold a hay ha) htx]
          constructor
          · exact fun h1 => Or.inr (Or.inl ⟨h1, hby.symm⟩)
          · rintro (h1 | ⟨h2, _⟩ | ⟨h2, _⟩)
            · rw [hby] at h1
              exact absurd ((joined_isolated_right _ _ _ hiso).mp h1) hay
            · exact h2
            · exact absurd h2 hay
        · rw [if_neg hay, if_neg hby, h.conn a b (hold a hay ha) (hold b hby hb)]
          constructor
          · exact fun h1 => Or.inl h1
          · rintro (h1 | ⟨_, h2⟩ | ⟨h2, _⟩)
            · exact h1
            · exact absurd h2.symm hby
            · exact absurd h2 hay
  · rw [heq]
    exact h

/-- The edge loop keeps the group invariant on every input. -/
theorem cycleBuilder_groupInv (ws : List weight) {st st1 : state} (h : GroupInv st)
    (hrun : cycleBuilder st ws = some st1) : GroupInv st1 := by
  induction ws generalizing st with
  | nil =>
    simp only [cycleBuilder] at hrun
    cases hrun
    exact h
  | cons w ws ih =>
    rw [cycleBuilder] at hrun
    cases hstep : edgeStep st w with
    | none => rw [hstep] at hrun; cases hrun
    | some st2 =>
      rw [hstep] at hrun
      exact ih (edgeStep_groupInv h w hstep) hrun

/-! ## Paths contain no cycle -/

theorem hops_append_sublist (p q : List Nat) : (hops p ++ hops q).Sublist (hops (p ++ q)) := by
  induction p with
  | nil => simp [hops]
  | cons x p ih =>
    cases p with
    | nil =>
      cases q with
      | nil => simp [hops]
      | cons y q =>
        simp only [hops, List.nil_append, List.singleton_append]
        exact List.sublist_cons_self _ _
    | cons y p =>
      simp only [hops, List.cons_append] at ih ⊢
      exact ih.cons₂ _

theorem flatMap_hops_sublist (ps : List (List Nat)) :
    (ps.flatMap hops).Sublist (hops ps.flatten) := by
  induction ps with
  | nil => simp [hops]
  | cons p ps ih =>
    simp only [List.flatMap_cons, List.flatten_cons]
    exact ((List.Sublist.refl (hops p)).append ih).trans (hops_append_sublist p ps.flatten)

theorem no_loop_in_hops (l : List Nat) (hnd : l.Nodup) (v : Nat) : s(v, v) ∉ hops l := by
  induction l with
  | nil => simp [hops]
  | cons a l ih =>
    cases l with
    | nil => simp [hops]
    | cons b l =>
      simp only [hops, List.mem_cons, not_or]
      refine ⟨?_, ih (List.nodup_cons.mp hnd).2⟩
      intro hc
      rw [Sym2.eq_iff] at hc
      have hab : a ≠ b := by
        intro e
        have := (List.nodup_cons.mp hnd).1
        rw [e] at this
        simp at this
      rcases hc with ⟨h1, h2⟩ | ⟨h1, h2⟩
      · exact hab (h1.symm.trans h2)
      · exact hab (h2.symm.trans h1)

/-- The hop that arrives at the last node of a walk touches that node. -/
theorem countP_hops_snoc (l : List Nat) (x : Nat) (hl : l ≠ []) :
    1 ≤ (hops (l ++ [x])).countP (fun e => decide (x ∈ e)) := by
  obtain ⟨p, y, rfl⟩ : ∃ p y, l = p ++ [y] := by
    rcases List.eq_nil_or_concat l with h | ⟨p, y, h⟩
    · exact absurd h hl
    · exact ⟨p, y, by simpa using h⟩
  rw [hops_snoc, List.countP_append]
  simp

/-- On a closed walk through at least two nodes, every node of the walk is
touched by at least two hops. -/
theorem countP_hops_closed (vs : List Nat) (x : Nat) (hx : x ∈ vs) (hlen : 2 ≤ vs.length) :
    2 ≤ (hops (vs ++ vs.take 1)).countP (fun e => decide (x ∈ e)) := by
  obtain ⟨pre, post, rfl⟩ := List.append_of_mem hx
  cases pre with
  | nil =>
    cases post with
    | nil => simp at hlen
    | cons y post =>
      have h1 := countP_hops_snoc (y :: post) x (by simp)
      have e1 : ([] ++ x :: y :: post) ++ ([] ++ x :: y :: post).take 1 =
          x :: y :: (post ++ [x]) := by simp
      have e2 : (y :: post) ++ [x] = y :: (post ++ [x]) := rfl
      rw [e2] at h1
      have hpos : decide (x ∈ s(x, y)) = true := by simp
      rw [e1, hops, List.countP_cons, if_pos hpos]
      omega
  | cons h pre =>
    have e1 : (h :: pre ++ x :: post) ++ (h :: pre ++ x :: post).take 1 =
        (h :: pre) ++ [x] ++ (post ++ [h]) := by simp
    obtain ⟨y, q, hq⟩ : ∃ y q, post ++ [h] = y :: q := by
      cases post with
      | nil => exact ⟨h, [], rfl⟩
      | cons y post => exact ⟨y, post ++ [h], rfl⟩
    have h1 := countP_hops_snoc (h :: pre) x (by simp)
    rw [e1, hq, hops_append_cons, List.countP_append, List.countP_cons]
    simp only [Sym2.mem_iff, true_or, decide_True, if_true]
    omega

/-- At most one hop of a simple walk touches its first node. -/
theorem countP_hops_head (x : Nat) (l : List Nat) (hx : x ∉ l) :
    (hops (x :: l)).countP (fun e => decide (x ∈ e)) ≤ 1 := by
  cases l with
  | nil => simp [hops]
  | cons y l =>
    have h0 : (hops (y :: l)).countP (fun e => decide (x ∈ e)) = 0 := by
      rw [List.countP_eq_zero]
      intro e he
      simp only [decide_eq_true_eq]
      intro hxe
      exact hx (mem_of_mem_hops _ e he x hxe)
    simp only [hops, List.countP_cons, h0]
    split <;> omega

/-- The hops of a simple walk contain no cycle. -/
theorem no_cycle_in_walk (l : List Nat) (hnd : l.Nodup) (vs : List Nat) :
    ¬ IsCycle (hops l) vs := by
  rintro ⟨hne, hvs, hsub⟩
  by_cases hlen : 2 ≤ vs.length
  · induction l with
    | nil =>
      have := hsub.length_le
      simp only [length_hops, List.length_append, List.length_take, List.length_nil] at this
      omega
    | cons x l ih =>
      by_cases hx : x ∈ vs
      · have h1 := countP_hops_closed vs x hx hlen
        have h2 := countP_hops_head x l (List.nodup_cons.mp hnd).1
        have h3 := hsub.countP_le (fun e => decide (x ∈ e))
        omega
      · apply ih (List.nodup_cons.mp hnd).2
        rw [List.subperm_ext_iff] at hsub ⊢
        intro e he
        have h1 := hsub e he
        have hxe : x ∉ e := by
          intro hc
          have h2 := mem_of_mem_hops _ e he x hc
          rw [List.mem_append] at h2
          rcases h2 with h2 | h2
          · exact hx h2
          · exact hx (List.mem_of_mem_take h2)
        cases l with
        | nil =>
          simp only [hops] at h1
          exact h1
        | cons y l =>
          simp only [hops] at h1
          rw [List.count_cons_of_ne] at h1
          · exact h1
          · intro hc
            apply hxe
            rw [hc]
            simp
  · obtain ⟨v, rfl⟩ : ∃ v, vs = [v] := by
      cases vs with
      | nil => exact absurd rfl hne
      | cons v vs =>
        cases vs with
        | nil => exact ⟨v, rfl⟩
        | cons u vs => simp at hlen
    have hmem : s(v, v) ∈ hops l := hsub.subset (by simp [hops])
    exact no_loop_in_hops l hnd v hmem

/-- Edges that are the hops of vertex-disjoint simple paths contain no cycle. -/
theorem no_cycle_in_paths (E : List (Sym2 Nat)) (ps : List (List Nat))
    (hnd : ps.flatten.Nodup) (hE : E.Perm (ps.flatMap hops)) (vs : List Nat) :
    ¬ IsCycle E vs := by
  rintro ⟨hne, hvs, hsub⟩
  apply no_cycle_in_walk ps.flatten hnd vs
  exact ⟨hne, hvs, (hsub.trans hE.subperm).trans (flatMap_hops_sublist ps).subperm⟩

/-! ## The leaders are the ends of the paths -/

theorem pathEnds_eq (a : Nat) (mid : List Nat) (b : Nat) :
    pathEnds (a :: (mid ++ [b])) = [a, b] := by
  unfold pathEnds
  have h1 : (a :: (mid ++ [b])).getLast? = some b := by
    have e : a :: (mid ++ [b]) = (a :: mid) ++ [b] := rfl
    rw [e, List.getLast?_append]
    rfl
  rw [h1]
  rfl

theorem flatMap_pathEnds_sublist (ns : List node) (ps : List (List Nat))
    (h : ∀ p ∈ ps, GoodPath ns p) : (ps.flatMap pathEnds).Sublist ps.flatten := by
  induction ps with
  | nil => simp
  | cons p ps ih =>
    obtain ⟨a, mid, b, rfl, _⟩ := h p (by simp)
    simp only [List.flatMap_cons, List.flatten_cons, pathEnds_eq]
    apply List.Sublist.append _ (ih (fun q hq => h q (by simp [hq])))
    exact (List.sublist_append_right mid [b]).cons₂ a

theorem length_flatMap_pathEnds (ns : List node) (ps : List (List Nat))
    (h : ∀ p ∈ ps, GoodPath ns p) : (ps.flatMap pathEnds).length = 2 * ps.length := by
  induction ps with
  | nil => rfl
  | cons p ps ih =>
    obtain ⟨a, mid, b, rfl, _⟩ := h p (by simp)
    simp only [List.flatMap_cons, List.length_append, pathEnds_eq, List.length_cons,
      List.length_nil, ih (fun q hq => h q (by simp [hq]))]
    omega

theorem PathInv.mem_pathEnds {st : state} {ps : List (List Nat)} (h : PathInv st ps) (i : Nat) :
    i ∈ ps.flatMap pathEnds ↔ typeAt st.myGraph.nodes i = 1 := by
  rw [List.mem_flatMap]
  constructor
  · rintro ⟨p, hp, hi⟩
    obtain ⟨a, mid, b, rfl, hTa, hTb, _, _⟩ := h.good p hp
    rw [pathEnds_eq] at hi
    simp only [List.mem_cons, List.mem_singleton, List.not_mem_nil, or_false] at hi
    rcases hi with rfl | rfl
    · exact hTa
    · exact hTb
  · intro hT
    have hmem := h.mem_of_type i (by omega)
    obtain ⟨p, hp, hip⟩ := List.mem_flatten.mp hmem
    refine ⟨p, hp, ?_⟩
    obtain ⟨a, mid, b, rfl, _, _, hTmid, _⟩ := h.good p hp
    rw [pathEnds_eq]
    simp only [List.mem_cons, List.mem_append, List.mem_singleton, List.not_mem_nil,
      or_false] at hip ⊢
    rcases hip with rfl | hm | rfl
    · exact Or.inl rfl
    · have := hTmid i hm
      omega
    · exact Or.inr rfl

/-- Under the path invariant there are twice as many leaders as paths. -/
theorem PathInv.leaders_count {st : state} {ps : List (List Nat)} (h : PathInv st ps) :
    ((List.range st.myGraph.nodes.length).filter
      (fun i => decide (typeAt st.myGraph.nodes i = 1))).length = 2 * ps.length := by
  rw [← length_flatMap_pathEnds _ ps h.good]
  apply List.Perm.length_eq
  rw [List.perm_ext_iff_of_nodup ((List.nodup_range _).filter _)
    (h.nodup.sublist (flatMap_pathEnds_sublist _ ps h.good))]
  intro i
  rw [h.mem_pathEnds, List.mem_filter, List.mem_range, decide_eq_true_eq]
  exact ⟨fun h1 => h1.2, fun h1 => ⟨lt_length_of_typeAt _ _ (by omega), h1⟩⟩

/-- Under the path invariant the leaders of the group of a touched node are the
two ends of the path the node is on. -/
theorem PathInv.group_leaders {st : state} {ps : List (List Nat)} (h : PathInv st ps) (v : Nat)
    (hv : typeAt st.myGraph.nodes v ≠ 0) :
    ∃ a b, a ≠ b ∧ ∀ i, (typeAt st.myGraph.nodes i = 1 ∧
      groupAt st.myGraph.nodes i = groupAt st.myGraph.nodes v) ↔ (i = a ∨ i = b) := by
  have hmem := h.mem_of_type v hv
  obtain ⟨p, hp, hvp⟩ := List.mem_flatten.mp hmem
  obtain ⟨rest, hperm⟩ := perm_cons_of_mem hp
  have h1 : PathInv st (p :: rest) := h.perm hperm
  obtain ⟨a, mid, b, rfl, hTa, hTb, hTmid, hG⟩ := h.good p hp
  have hnd : (a :: (mid ++ [b])).Nodup := by
    have := h1.nodup
    simp only [List.flatten_cons] at this
    exact (List.nodup_append.mp this).1
  have hab : a ≠ b := by
    intro hc
    simp [hc] at hnd
  have hgv : groupAt st.myGraph.nodes v = groupAt st.myGraph.nodes a := hG v hvp
  refine ⟨a, b, hab, ?_⟩
  intro i
  rw [hgv]
  constructor
  · rintro ⟨hT, hg⟩
    have hi := h.mem_of_type i (by omega)
    have hip := h.sep _ hp a (by simp) i hi hg.symm
    simp only [List.mem_cons, List.mem_append, List.mem_singleton, List.not_mem_nil,
      or_false] at hip
    rcases hip with rfl | hm | rfl
    · exact Or.inl rfl
    · have := hTmid i hm
      omega
    · exact Or.inr rfl
  · rintro (rfl | rfl)
    · exact ⟨hTa, rfl⟩
    · exact ⟨hTb, hG _ (by simp)⟩

/-! ## The edge list in closed form -/

theorem lineWeights_eq_filter (row : Nat) (xs : List Int) (c : Nat) :
    lineWeights row c xs =
      ((List.range xs.length).map (fun j => (⟨xs.getD j 0, row, c + j⟩ : weight))).filter
        (fun w => decide (w.value ≠ 0)) := by
  induction xs generalizing c with
  | nil => rfl
  | cons x xs ih =>
    rw [lineWeights, ih (c + 1), List.length_cons, List.range_succ_eq_map, List.map_cons,
      List.map_map, List.filter_cons]
    have hfun : ((fun j => (⟨(x :: xs).getD j 0, row, c + j⟩ : weight)) ∘ Nat.succ) =
        (fun j => (⟨xs.getD j 0, row, c + 1 + j⟩ : weight)) := by
      funext j
      simp only [Function.comp, Nat.succ_eq_add_one, List.getD_cons_succ]
      congr 1
      omega
    rw [hfun]
    simp only [List.getD_cons_zero, Nat.add_zero]
    by_cases hx : x ≠ 0
    · rw [if_pos hx, if_pos (by simpa using hx)]
    · rw [if_neg hx, if_neg (by simpa using hx)]

theorem rowsWeights_eq_filter (rows : List (List Int)) (index : Nat) :
    rowsWeights index rows =
      ((List.range rows.length).flatMap (fun i =>
        (List.range (rowAt rows i).length).map
          (fun j => (⟨(rowAt rows i).getD j 0, index + i, j⟩ : weight)))).filter
        (fun w => decide (w.value ≠ 0)) := by
  induction rows generalizing index with
  | nil => rfl
  | cons ln rest ih =>
    rw [rowsWeights, ih (index + 1), lineWeights_eq_filter, List.length_cons,
      List.range_succ_eq_map, List.flatMap_cons, List.filter_append, List.flatMap_map]
    congr 1
    · simp [rowAt]
    · congr 1
      apply List.flatMap_congr
      intro i _
      simp only [rowAt, List.getD_cons_succ, Nat.succ_eq_add_one]
      apply List.map_congr_left
      intro j _
      congr 1
      omega

/-! ## The retrace loop and the one-hop procedure -/

theorem oneHop_append (ns : List node) (wk : walker) (pre cs : List connectedNode)
    (hpre : ∀ c ∈ pre, ¬ eligible wk c) :
    oneHop ns wk (pre ++ cs) = (oneHop ns wk cs).map (fun r => (r.1, pre ++ r.2)) := by
  induction pre with
  | nil =>
    simp only [List.nil_append]
    cases oneHop ns wk cs <;> rfl
  | cons c pre ih =>
    rw [List.cons_append, oneHop, if_neg (hpre c (by simp)),
      ih (fun c1 hc1 => hpre c1 (by simp [hc1]))]
    cases oneHop ns wk cs <;> rfl

theorem oneHopWalk_add (ns : List node) (m1 m2 : Nat) (wk : walker) (cs : List connectedNode)
    (r : walker × List connectedNode) (h : oneHopWalk ns m1 wk cs = some r) :
    oneHopWalk ns (m1 + m2) wk cs = oneHopWalk ns m2 r.1 r.2 := by
  induction m1 generalizing wk cs with
  | zero =>
    simp only [oneHopWalk, Option.some.injEq] at h
    rw [← h, Nat.zero_add]
  | succ m1 ih =>
    rw [Nat.add_right_comm, oneHopWalk]
    rw [oneHopWalk] at h
    cases hh : oneHop ns wk cs with
    | none => rw [hh] at h; cases h
    | some r1 =>
      rw [hh] at h
      exact ih _ _ h

theorem oneHop_length (ns : List node) (wk : walker) (cs : List connectedNode)
    (r : walker × List connectedNode) (h : oneHop ns wk cs = some r) :
    r.1.pathTaken.length = wk.pathTaken.length + 1 := by
  induction cs generalizing r with
  | nil => cases h
  | cons c cs ih =>
    rw [oneHop] at h
    by_cases he : eligible wk c
    · rw [if_pos he] at h
      cases h
      unfold hop
      split <;> simp
    · rw [if_neg he] at h
      cases hh : oneHop ns wk cs with
      | none => rw [hh] at h; cases h
      | some r1 =>
        rw [hh] at h
        cases h
        exact ih r1 hh

theorem oneHopWalk_length (ns : List node) (m : Nat) (wk : walker) (cs : List connectedNode)
    (r : walker × List connectedNode) (h : oneHopWalk ns m wk cs = some r) :
    r.1.pathTaken.length = wk.pathTaken.length + m := by
  induction m generalizing wk cs with
  | zero =>
    simp only [oneHopWalk, Option.some.injEq] at h
    rw [← h]
    rfl
  | succ m ih =>
    rw [oneHopWalk] at h
    cases hh : oneHop ns wk cs with
    | none => rw [hh] at h; cases h
    | some r1 =>
      rw [hh] at h
      rw [ih _ _ h, oneHop_length ns wk cs r1 hh]
      omega

theorem countP_openEnds_pos (wk : walker) (l : List connectedNode)
    (h : ∃ c ∈ l, eligible wk c) :
    1 ≤ (openEnds l).countP (fun e => decide (wk.currentNode ∈ e)) := by
  obtain ⟨c, hc, he⟩ := h
  obtain ⟨pre, post, rfl⟩ := List.append_of_mem hc
  apply List.countP_pos_iff.mpr
  exact ⟨c.ends, ends_mem_openEnds pre post c he.2, by
    simpa using mem_ends_of_eligible wk c he⟩

/-- Under way on a cycle, at most one unchecked connection touches the current
node: when one lies in the first part of the list, none lies in the second. -/
theorem walkOn_unique (a : Nat) (rs : List Nat) (hnd : (a :: rs).Nodup) (wk : walker)
    (l1 l2 : List connectedNode) (hw : WalkOn a rs wk (l1 ++ l2))
    (h1 : ∃ c ∈ l1, eligible wk c) : ∀ c ∈ l2, ¬ eligible wk c := by
  intro c2 hc2 he2
  obtain ⟨hne, R, hR, hhead, hopen⟩ := hw
  have hnd2 : (rs ++ [a]).Nodup := by
    have : (rs ++ [a]).Perm (a :: rs) := List.perm_append_singleton a rs
    exact (this.nodup_iff).mpr hnd
  cases hpath : wk.pathTaken with
  | nil => exact absurd hpath hne
  | cons p0 path1 =>
    rw [hpath] at hR
    have hR2 : path1 ++ R = rs ++ [a] := by
      have : p0 :: (path1 ++ R) = a :: (rs ++ [a]) := hR
      exact (List.cons.inj this).2
    have hRnd : R.Nodup := by
      have hsub : R.Sublist (rs ++ [a]) := by
        rw [← hR2]
        exact List.sublist_append_right _ _
      exact hnd2.sublist hsub
    cases R with
    | nil => simp at hhead
    | cons cur R1 =>
      simp only [List.head?_cons, Option.some.injEq] at hhead
      subst hhead
      have hle := countP_hops_head wk.currentNode R1 (List.nodup_cons.mp hRnd).1
      have hc1 := countP_openEnds_pos wk l1 h1
      have hc2 := countP_openEnds_pos wk l2 ⟨c2, hc2, he2⟩
      have heq := hopen.countP_eq (fun e => decide (wk.currentNode ∈ e))
      rw [openEnds_append, List.countP_append] at heq
      omega

/-- On a cycle, what one scan of the retrace loop does is what some number of
iterations of the one-hop procedure do, provided nothing in the part of the list
already scanned is eligible. -/
theorem scan_simulates (ns : List node) (a : Nat) (rest : List Nat) (hnd : (a :: rest).Nodup)
    (hrest : rest ≠ []) (hname : ∀ v ∈ a :: rest, nameAt ns v = v)
    (cs pre : List connectedNode) (wk : walker) (h : Tracing a rest wk (pre ++ cs))
    (hpre : ∀ c ∈ pre, ¬ eligible wk c) :
    ∃ m, oneHopWalk ns m wk (pre ++ cs) =
      some ((retraceScan ns wk cs).1, pre ++ (retraceScan ns wk cs).2) := by
  have hndr : (a :: rest.reverse).Nodup := by
    have : (a :: rest.reverse).Perm (a :: rest) := (List.reverse_perm rest).cons a
    exact (this.nodup_iff).mpr hnd
  have hnamer : ∀ v ∈ a :: rest.reverse, nameAt ns v = v := by
    intro v hv
    apply hname
    simpa using hv
  induction cs generalizing pre wk with
  | nil => exact ⟨0, by simp [retraceScan, oneHopWalk]⟩
  | cons c cs ih =>
    rw [retraceScan_cons]
    by_cases he : eligible wk c
    · rw [if_pos he]
      have hhop : oneHop ns wk (pre ++ c :: cs) =
          some (hop ns wk c, pre ++ { c with checked := true } :: cs) := by
        rw [oneHop_append ns wk pre _ hpre, oneHop, if_pos he]
        rfl
      have hmove : WalkOn a rest (hop ns wk c) (pre ++ { c with checked := true } :: cs) ∨
          WalkOn a rest.reverse (hop ns wk c) (pre ++ { c with checked := true } :: cs) := by
        rcases h with ⟨hp, hc, hopen⟩ | hw | hw
        · exact tracing_first_hop ns a rest hnd hrest hname wk c pre cs hp hc hopen he
        · exact Or.inl (walkOn_hop ns a rest hnd hname wk c pre cs hw he)
        · exact Or.inr (walkOn_hop ns a rest.reverse hndr hnamer wk c pre cs hw he)
      have hassoc : pre ++ { c with checked := true } :: cs =
          (pre ++ [{ c with checked := true }]) ++ cs := by simp
      by_cases hex : ∃ c1 ∈ pre ++ [{ c with checked := true }], eligible (hop ns wk c) c1
      · have hnone : ∀ c2 ∈ cs, ¬ eligible (hop ns wk c) c2 := by
          rcases hmove with hw | hw
          · rw [hassoc] at hw
            exact walkOn_unique a rest hnd _ _ _ hw hex
          · rw [hassoc] at hw
            exact walkOn_unique a rest.reverse hndr _ _ _ hw hex
        rw [retraceScan_stuck ns cs _ hnone]
        refine ⟨1, ?_⟩
        rw [oneHopWalk, hhop]
        rfl
      · have hpre2 : ∀ c1 ∈ pre ++ [{ c with checked := true }],
            ¬ eligible (hop ns wk c) c1 := fun c1 hc1 hel => hex ⟨c1, hc1, hel⟩
        have hT2 : Tracing a rest (hop ns wk c)
            ((pre ++ [{ c with checked := true }]) ++ cs) := by
          rw [← hassoc]
          exact Or.inr hmove
        obtain ⟨m, hm⟩ := ih (pre ++ [{ c with checked := true }]) (hop ns wk c) hT2 hpre2
        refine ⟨m + 1, ?_⟩
        rw [oneHopWalk, hhop]
        simp only []
        rw [hassoc, hm]
        simp
    · rw [if_neg he]
      have hassoc : pre ++ c :: cs = (pre ++ [c]) ++ cs := by simp
      have hT2 : Tracing a rest wk ((pre ++ [c]) ++ cs) := by
        rw [← hassoc]
        exact h
      have hpre2 : ∀ c1 ∈ pre ++ [c], ¬ eligible wk c1 := by
        intro c1 hc1
        rw [List.mem_append, List.mem_singleton] at hc1
        rcases hc1 with hc1 | rfl
        · exact hpre c1 hc1
        · exact he
      obtain ⟨m, hm⟩ := ih (pre ++ [c]) wk hT2 hpre2
      refine ⟨m, ?_⟩
      rw [hassoc, hm]
      simp

/-- On a cycle, what `k` scans of the retrace loop do is what some number of
iterations of the one-hop procedure do. -/
theorem loop_simulates (ns : List node) (a : Nat) (rest : List Nat) (hnd : (a :: rest).Nodup)
    (hrest : rest ≠ []) (hname : ∀ v ∈ a :: rest, nameAt ns v = v) (k : Nat)
    (wk : walker) (cs : List connectedNode) (h : Tracing a rest wk cs) :
    ∃ m, oneHopWalk ns m wk cs = some (retraceLoop ns k wk cs) := by
  induction k generalizing wk cs with
  | zero => exact ⟨0, rfl⟩
  | succ k ih =>
    rw [retraceLoop]
    obtain ⟨m1, h1⟩ := scan_simulates ns a rest hnd hrest hname cs [] wk (by simpa using h)
      (by simp)
    simp only [List.nil_append] at h1
    have hT := tracing_scan ns a rest hnd hrest hname cs [] wk (by simpa using h)
    simp only [List.nil_append] at hT
    obtain ⟨m2, h2⟩ := ih _ _ hT
    refine ⟨m1 + m2, ?_⟩
    rw [oneHopWalk_add ns m1 m2 wk cs _ h1]
    exact h2

/-! ## The nearest-neighbour mode -/

theorem length_setTouched (ns : List node) (p : Nat) : (setTouched ns p).length = ns.length :=
  length_modifyNode _ _ _

theorem touchedAt_setTouched (ns : List node) (p i : Nat) :
    touchedAt (setTouched ns p) i = if i = p ∧ p < ns.length then true else touchedAt ns i := by
  unfold touchedAt setTouched
  rw [getElem?_modifyNode]
  by_cases hi : i = p
  · subst hi
    by_cases hl : i < ns.length
    · simp [hl, List.getElem?_eq_getElem hl]
    · simp [hl, List.getElem?_eq_none (Nat.le_of_not_lt hl)]
  · simp [hi]

/-- The inner loop finds the first candidate of minimum distance: either no
candidate is below the incoming `smallestWeight` and nothing changes, or the
result is a candidate `j` whose distance is below it, strictly below the
distance of every earlier candidate and at most that of every later one. -/
theorem nearestScan_spec (g : graph) (cur : Nat) (is : List Nat) (acc : Int × Option Nat)
    (hd : ∀ i ∈ is, ∃ d, g.distance cur i = some d) :
    ∃ acc1, nearestScan g cur is acc = some acc1 ∧
      ((acc1 = acc ∧ ∀ i ∈ is, cur ≠ i → touchedAt g.nodes i = false → acc.1 ≤ g.dist cur i) ∨
       (∃ l1 j l2, is = l1 ++ j :: l2 ∧ cur ≠ j ∧ touchedAt g.nodes j = false ∧
          acc1 = (g.dist cur j, some j) ∧ g.dist cur j < acc.1 ∧
          (∀ i ∈ l1, cur ≠ i → touchedAt g.nodes i = false → g.dist cur j < g.dist cur i) ∧
          (∀ i ∈ l2, cur ≠ i → touchedAt g.nodes i = false →
            g.dist cur j ≤ g.dist cur i))) := by
  induction is generalizing acc with
  | nil => exact ⟨acc, rfl, Or.inl ⟨rfl, by simp⟩⟩
  | cons i is ih =>
    have hd2 : ∀ x ∈ is, ∃ d, g.distance cur x = some d := fun x hx => hd x (by simp [hx])
    rw [nearestScan]
    by_cases hc : cur ≠ i ∧ touchedAt g.nodes i = false
    · rw [if_pos hc]
      obtain ⟨d, hdi⟩ := hd i (by simp)
      have hdist : g.dist cur i = d := dist_of_distance g cur i d hdi
      rw [hdi]
      simp only []
      by_cases hlt : d < acc.1
      · rw [if_pos hlt]
        obtain ⟨acc1, hrun, hcase⟩ := ih (d, some i) hd2
        refine ⟨acc1, hrun, Or.inr ?_⟩
        rcases hcase with ⟨heq, hall⟩ | ⟨l1, j, l2, hsplit, hj1, hj2, heq, hjlt, hbefore, hafter⟩
        · refine ⟨[], i, is, rfl, hc.1, hc.2, by rw [heq, hdist], by rw [hdist]; exact hlt,
            by simp, ?_⟩
          intro x hx h1 h2
          rw [hdist]
          exact hall x hx h1 h2
        · refine ⟨i :: l1, j, l2, by rw [hsplit]; rfl, hj1, hj2, heq, ?_, ?_, hafter⟩
          · exact lt_trans hjlt hlt
          · intro x hx h1 h2
            rcases List.mem_cons.mp hx with rfl | hx
            · rw [hdist]
              exact hjlt
            · exact hbefore x hx h1 h2
      · rw [if_neg hlt]
        obtain ⟨acc1, hrun, hcase⟩ := ih acc hd2
        refine ⟨acc1, hrun, ?_⟩
        rcases hcase with ⟨heq, hall⟩ | ⟨l1, j, l2, hsplit, hj1, hj2, heq, hjlt, hbefore, hafter⟩
        · left
          refine ⟨heq, ?_⟩
          intro x hx h1 h2
          rcases List.mem_cons.mp hx with rfl | hx
          · rw [hdist]
            exact not_lt.mp hlt
          · exact hall x hx h1 h2
        · right
          refine ⟨i :: l1, j, l2, by rw [hsplit]; rfl, hj1, hj2, heq, hjlt, ?_, hafter⟩
          intro x hx h1 h2
          rcases List.mem_cons.mp hx with rfl | hx
          · rw [hdist]
            exact lt_of_lt_of_le hjlt (not_lt.mp hlt)
          · exact hbefore x hx h1 h2
    · rw [if_neg hc]
      obtain ⟨acc1, hrun, hcase⟩ := ih acc hd2
      refine ⟨acc1, hrun, ?_⟩
      rcases hcase with ⟨heq, hall⟩ | ⟨l1, j, l2, hsplit, hj1, hj2, heq, hjlt, hbefore, hafter⟩
      · left
        refine ⟨heq, ?_⟩
        intro x hx h1 h2
        rcases List.mem_cons.mp hx with rfl | hx
        · exact absurd ⟨h1, h2⟩ hc
        · exact hall x hx h1 h2
      · right
        refine ⟨i :: l1, j, l2, by rw [hsplit]; rfl, hj1, hj2, heq, hjlt, ?_, hafter⟩
        intro x hx h1 h2
        rcases List.mem_cons.mp hx with rfl | hx
        · exact absurd ⟨h1, h2⟩ hc
        · exact hbefore x hx h1 h2

/-- In the list `0, 1, .., n-1` what stands before `j` is below `j` and what
stands after `j` is above it. -/
theorem range_split_lt (n : Nat) (l1 : List Nat) (j : Nat) (l2 : List Nat)
    (h : List.range n = l1 ++ j :: l2) :
    (∀ i ∈ l1, i < j) ∧ (∀ i ∈ l2, j < i) ∧ (∀ i, i < n → i ∈ l1 ∨ i = j ∨ i ∈ l2) ∧ j < n := by
  have hs : (l1 ++ j :: l2).Pairwise (fun x y => x < y) := by
    rw [← h]
    exact List.pairwise_lt_range n
  refine ⟨?_, ?_, ?_, ?_⟩
  · intro i hi
    exact (List.pairwise_append.mp hs).2.2 i hi j (by simp)
  · intro i hi
    exact (List.pairwise_cons.mp (List.pairwise_append.mp hs).2.1).1 i hi
  · intro i hi
    have : i ∈ l1 ++ j :: l2 := by
      rw [← h]
      exact List.mem_range.mpr hi
    simpa using this
  · apply List.mem_range.mp
    rw [h]
    simp

theorem exists_unvisited (n : Nat) (l : List Nat) (hlen : l.length < n) :
    ∃ i, i < n ∧ i ∉ l := by
  by_contra hc
  have hsub : List.range n ⊆ l := by
    intro i hi
    by_contra h1
    exact hc ⟨i, List.mem_range.mp hi, h1⟩
  have := (List.subperm_of_subset (List.nodup_range n) hsub).length_le
  simp at this
  omega

theorem walkLength_snoc (g : graph) (p : List Nat) (x y : Nat) :
    walkLength g (p ++ [x] ++ [y]) = walkLength g (p ++ [x]) + g.dist x y := by
  rw [walkLength_eq_walkLen, walkLength_eq_walkLen, walkLen_snoc]

theorem greedy_snoc (g : graph) (n : Nat) (pt : List Nat) (cur j : Nat)
    (hV : Greedy g n (pt ++ [cur])) (hj : j ∉ pt ++ [cur])
    (hmin : ∀ i < n, i ∉ pt ++ [cur] →
      g.dist cur j ≤ g.dist cur i ∧ (g.dist cur i = g.dist cur j → j ≤ i)) :
    Greedy g n (pt ++ [cur] ++ [j]) := by
  intro pre c nxt post heq
  rcases List.eq_nil_or_concat post with rfl | ⟨post1, z, rfl⟩
  · have e1 : pre ++ [c, nxt] = (pre ++ [c]) ++ [nxt] := by simp
    rw [e1] at heq
    obtain ⟨h1, h2⟩ := List.append_inj' heq rfl
    have h3 : nxt = j := by
      simp only [List.cons.injEq, and_true] at h2
      exact h2.symm
    obtain ⟨h4, h5⟩ := List.append_inj' h1 rfl
    have h6 : c = cur := by
      simp only [List.cons.injEq, and_true] at h5
      exact h5.symm
    rw [h3, h6, ← h4]
    exact ⟨hj, hmin⟩
  · have e1 : pre ++ c :: nxt :: post1.concat z = (pre ++ c :: nxt :: post1) ++ [z] := by simp
    rw [e1] at heq
    obtain ⟨h1, _⟩ := List.append_inj' heq rfl
    exact hV pre c nxt post1 h1

/-- The outer loop of the nearest-neighbour mode: while a node is unvisited every
iteration ends normally, moves to the nearest unvisited node and keeps the
invariant; after `k` iterations `k` more nodes are visited. -/
theorem nearestLoop_spec (g0 : graph) (n : Nat)
    (hdef : ∀ i j, i < n → j < n → ∃ d, g0.distance i j = some d)
    (hlt : ∀ i j, i < n → j < n → g0.dist i j < INT_MAX)
    (k : Nat) (s : nearestState) (h : NearInv g0 n s)
    (hk : (s.myGraph.pathTaken ++ [s.currentNodeIndex]).length + k = n) :
    ∃ s1, nearestLoop k s = some s1 ∧ NearInv g0 n s1 ∧
      (s1.myGraph.pathTaken ++ [s1.currentNodeIndex]).length = n := by
  induction k generalizing s with
  | zero => exact ⟨s, rfl, h, by simpa using hk⟩
  | succ k ih =>
    have hcurV : s.currentNodeIndex ∈ s.myGraph.pathTaken ++ [s.currentNodeIndex] := by simp
    have hcur : s.currentNodeIndex < n := h.bound _ hcurV
    have hdistEq : ∀ i, s.myGraph.dist s.currentNodeIndex i = g0.dist s.currentNodeIndex i :=
      fun i => dist_congr _ _ h.mat _ _
    have hd : ∀ i ∈ List.range s.myGraph.nodes.length,
        ∃ d, s.myGraph.distance s.currentNodeIndex i = some d := by
      intro i hi
      rw [distance_congr _ _ h.mat]
      rw [h.len] at hi
      exact hdef _ _ hcur (List.mem_range.mp hi)
    obtain ⟨acc1, hrun, hcase⟩ := nearestScan_spec s.myGraph s.currentNodeIndex
      (List.range s.myGraph.nodes.length) (INT_MAX, s.smallestNodeIndex) hd
    have hcand : ∀ i, i ∉ s.myGraph.pathTaken ++ [s.currentNodeIndex] →
        s.currentNodeIndex ≠ i ∧ touchedAt s.myGraph.nodes i = false := by
      intro i hi
      refine ⟨fun hc => hi (hc ▸ hcurV), ?_⟩
      cases ht : touchedAt s.myGraph.nodes i with
      | false => rfl
      | true => exact absurd ((h.touched i).mp ht) hi
    obtain ⟨u, hu, huV⟩ := exists_unvisited n (s.myGraph.pathTaken ++ [s.currentNodeIndex])
      (by omega)
    rcases hcase with ⟨_, hall⟩ | ⟨l1, j, l2, hsplit, hj1, hj2, heq, hjlt, hbefore, hafter⟩
    · exfalso
      have h1 := hall u (List.mem_range.mpr (by rw [h.len]; exact hu)) (hcand u huV).1
        (hcand u huV).2
      rw [hdistEq] at h1
      have h2 := hlt _ _ hcur hu
      simp only [] at h1
      omega
    · obtain ⟨hl1, hl2, hcls, hjn⟩ := range_split_lt _ l1 j l2 hsplit
      have hjV : j ∉ s.myGraph.pathTaken ++ [s.currentNodeIndex] := by
        intro hc
        have := (h.touched j).mpr hc
        rw [hj2] at this
        cases this
      have hmin : ∀ i < n, i ∉ s.myGraph.pathTaken ++ [s.currentNodeIndex] →
          g0.dist s.currentNodeIndex j ≤ g0.dist s.currentNodeIndex i ∧
            (g0.dist s.currentNodeIndex i = g0.dist s.currentNodeIndex j → j ≤ i) := by
        intro i hi hiV
        rw [← hdistEq, ← hdistEq]
        rcases hcls i (by rw [h.len]; exact hi) with h1 | h1 | h1
        · have := hbefore i h1 (hcand i hiV).1 (hcand i hiV).2
          exact ⟨le_of_lt this, fun hc => by omega⟩
        · rw [h1]
          exact ⟨le_refl _, fun _ => le_refl _⟩
        · have := hafter i h1 (hcand i hiV).1 (hcand i hiV).2
          exact ⟨this, fun _ => le_of_lt (hl2 i h1)⟩
      have hjlen : j < s.myGraph.nodes.length := hjn
      obtain ⟨dj, hdj⟩ := hd j (List.mem_range.mpr hjlen)
      have hstep : nearestLoop (k + 1) s = nearestLoop k
          { myGraph := { s.myGraph with
              pathTaken := s.myGraph.pathTaken ++ [s.currentNodeIndex]
              nodes := setTouched s.myGraph.nodes j }
            currentNodeIndex := j
            smallestNodeIndex := some j
            totalWeight := wrapInt (s.totalWeight + s.myGraph.dist s.currentNodeIndex j) } := by
        rw [nearestLoop, hrun, heq]
        simp only []
        rw [if_pos ⟨hjlen, by rw [hdj]; rfl⟩]
      rw [hstep]
      apply ih
      · refine ⟨?_, h.mat, ?_, ?_, ?_, ?_, ?_, ?_⟩
        · show (setTouched s.myGraph.nodes j).length = n
          rw [length_setTouched, h.len]
        · show (s.myGraph.pathTaken ++ [s.currentNodeIndex] ++ [j]).Nodup
          rw [List.nodup_append]
          refine ⟨h.nodup, by simp, ?_⟩
          intro x hx hx2
          rw [List.mem_singleton] at hx2
          rw [hx2] at hx
          exact hjV hx
        · show ∀ v ∈ s.myGraph.pathTaken ++ [s.currentNodeIndex] ++ [j], v < n
          intro v hv
          rw [List.mem_append, List.mem_singleton] at hv
          rcases hv with hv | rfl
          · exact h.bound v hv
          · rw [← h.len]
            exact hjlen
        · show (s.myGraph.pathTaken ++ [s.currentNodeIndex] ++ [j]).head? = some 0
          rw [List.head?_append_of_ne_nil _ (by simp)]
          exact h.start
        · show ∀ i, touchedAt (setTouched s.myGraph.nodes j) i = true ↔
            i ∈ s.myGraph.pathTaken ++ [s.currentNodeIndex] ++ [j]
          intro i
          rw [touchedAt_setTouched, List.mem_append, List.mem_singleton, ← h.touched i]
          by_cases hij : i = j
          · simp [hij, hjlen]
          · simp [hij]
        · show wrapInt (s.totalWeight + s.myGraph.dist s.currentNodeIndex j) =
            wrapInt (walkLength g0 (s.myGraph.pathTaken ++ [s.currentNodeIndex] ++ [j]))
          rw [walkLength_snoc, h.total, hdistEq, wrapInt_add_left]
        · exact greedy_snoc g0 n _ _ j h.greedy hjV hmin
      · show (s.myGraph.pathTaken ++ [s.currentNodeIndex] ++ [j]).length + k = n
        rw [List.length_append, List.length_singleton]
        omega

/-- The definition of a cycle is met once the closer has run: on the scenario
rows the four connections contain the cycle 2, 0, 1, 3, and a self-loop or two
parallel connections count as cycles too. -/
theorem isCycle_examples :
    IsCycle (closedState.myGraph.connectedNodes.map connectedNode.ends) [2, 0, 1, 3] ∧
    IsCycle [s(5, 5)] [5] ∧ IsCycle [s(1, 0), s(0, 1)] [0, 1] ∧
    ¬ IsCycle [s(1, 0)] [0, 1] := by
  refine ⟨⟨by decide, by decide, ?_⟩, ⟨by decide, by decide, ?_⟩, ⟨by decide, by decide, ?_⟩, ?_⟩
  · rw [List.subperm_ext_iff]
    decide
  · rw [List.subperm_ext_iff]
    decide
  · rw [List.subperm_ext_iff]
    decide
  · rintro ⟨_, _, h⟩
    rw [List.subperm_ext_iff] at h
    revert h
    decide

/-! ## Totals that fit in an `int` -/

theorem dist_nonneg (rows : List (List Int)) (h : NonNegative rows) (i j : Nat) :
    0 ≤ (readGraph rows).dist i j := by
  have key : ∀ r c, 0 ≤ (matAt (readGraph rows).matrix r c).getD 0 := by
    intro r c
    rw [readGraph_matAt]
    cases hx : (rowAt rows r)[c]? with
    | none => exact le_refl _
    | some x =>
      have hmem : x ∈ rowAt rows r := List.getElem?_mem hx
      unfold rowAt at hmem
      by_cases hr : r < rows.length
      · rw [List.getD_eq_getElem _ _ hr] at hmem
        exact h _ (List.getElem_mem hr) x hmem
      · rw [List.getD_eq_default _ _ (Nat.le_of_not_lt hr)] at hmem
        simp at hmem
  unfold graph.dist graph.distance
  by_cases hij : i < j
  · rw [if_pos hij]
    exact key j i
  · rw [if_neg hij]
    exact key i j

theorem connTotal_nonneg (g : graph) (hnn : ∀ i j, 0 ≤ g.dist i j) (cs : List connectedNode) :
    0 ≤ connTotal g cs := by
  unfold connTotal
  apply List.sum_nonneg
  intro x hx
  rw [List.mem_map] at hx
  obtain ⟨c, _, rfl⟩ := hx
  exact hnn _ _

/-- The run of the original algorithm on a well-formed input without negative
entries: when the length of the closed walk it reports is at most `INT_MAX`, no
addition overflows and the reported total is that length. -/
theorem original_total (sort : List weight → List weight) (hs : StdSort sort)
    (rows : List (List Int)) (hwf : WellFormed rows) (hn : 2 ≤ rows.length)
    (hnn : NonNegative rows) :
    ∃ st lo rest, original sort rows = some st ∧
      (lo :: rest).Perm (List.range rows.length) ∧
      st.myGraph.pathTaken = lo :: rest ++ [lo] ∧
      st.myGraph.numNodes = rows.length ∧
      st.myGraph.matrix = (readGraph rows).matrix ∧
      (walkLength st.myGraph (lo :: rest ++ [lo]) ≤ INT_MAX →
        st.globalTotalWeight = walkLength st.myGraph (lo :: rest ++ [lo])) := by
  obtain ⟨st1, st2, lo, rest, hrun, _, horig, hperm, hpt, hnum, ⟨hi, d, hd, htot, hsum⟩, hmat, _⟩ :=
    original_run sort hs rows hwf hn
  obtain ⟨_, _, _, _, hmat1⟩ := builder_frame sort rows _ hrun
  refine ⟨_, lo, rest, horig, hperm, hpt, hnum, hmat, ?_⟩
  intro hle
  have hnn1 : ∀ i j, 0 ≤ st1.myGraph.dist i j := by
    intro i j
    rw [dist_congr _ _ hmat1]
    exact dist_nonneg rows hnn i j
  have hc0 := connTotal_nonneg st1.myGraph hnn1 st1.myGraph.connectedNodes
  have hd0 : 0 ≤ d := by
    rw [← dist_of_distance _ _ _ d hd]
    exact hnn1 _ _
  have hmin : INT_MIN ≤ 0 := by decide
  rw [htot, wrapInt_of_range _ (by omega) (by omega),
    doubleToInt_of_range _ (by omega) (by omega), hsum]

/-- The function `findMinimumPath` on a matrix whose closed tours all have a length
in the range of `int`: the result is the minimum closed-tour length. -/
theorem findMinimumPath_min (M : Nat → Nat → Int) (s : Nat) (hs : s < BruteForce.numNodes)
    (hfit : ∀ σ, σ.Perm (List.range BruteForce.numNodes) →
      INT_MIN ≤ closedLen M σ ∧ closedLen M σ ≤ INT_MAX) :
    ∃ v, BruteForce.findMinimumPath M s = some v ∧
      (∃ σ, σ.Perm (List.range BruteForce.numNodes) ∧ closedLen M σ = v) ∧
      ∀ σ, σ.Perm (List.range BruteForce.numNodes) → v ≤ closedLen M σ := by
  obtain ⟨v, hv, hle, hmin, hcase⟩ := findMinimumPath_spec M s hs
  have hex : ∀ σ, σ.Perm (List.range BruteForce.numNodes) →
      wrapInt (closedLen M σ) = closedLen M σ :=
    fun σ hσ => wrapInt_of_range _ (hfit σ hσ).1 (hfit σ hσ).2
  have hmin2 : ∀ σ, σ.Perm (List.range BruteForce.numNodes) → v ≤ closedLen M σ := by
    intro σ hσ
    rw [← hex σ hσ]
    exact hmin σ hσ
  refine ⟨v, hv, ?_, hmin2⟩
  rcases hcase with h1 | ⟨σ, hσ, h2⟩
  · refine ⟨List.range BruteForce.numNodes, List.Perm.refl _, ?_⟩
    have ha := hmin2 _ (List.Perm.refl (List.range BruteForce.numNodes))
    have hb := (hfit _ (List.Perm.refl (List.range BruteForce.numNodes))).2
    omega
  · exact ⟨σ, hσ, by rw [← hex σ hσ]; exact h2⟩

theorem dist_le (rows : List (List Int)) (B : Int) (hB0 : 0 ≤ B)
    (h : ∀ row ∈ rows, ∀ x ∈ row, x ≤ B) (i j : Nat) : (readGraph rows).dist i j ≤ B := by
  have key : ∀ r c, (matAt (readGraph rows).matrix r c).getD 0 ≤ B := by
    intro r c
    rw [readGraph_matAt]
    cases hx : (rowAt rows r)[c]? with
    | none => exact hB0
    | some x =>
      have hmem : x ∈ rowAt rows r := List.getElem?_mem hx
      unfold rowAt at hmem
      by_cases hr : r < rows.length
      · rw [List.getD_eq_getElem _ _ hr] at hmem
        exact h _ (List.getElem_mem hr) x hmem
      · rw [List.getD_eq_default _ _ (Nat.le_of_not_lt hr)] at hmem
        simp at hmem
  unfold graph.dist graph.distance
  by_cases hij : i < j
  · rw [if_pos hij]
    exact key j i
  · rw [if_neg hij]
    exact key i j

theorem walkLen_le (d : Nat → Nat → Int) (B : Int) (hB0 : 0 ≤ B) (hB : ∀ a b, d a b ≤ B)
    (l : List Nat) : walkLen d l ≤ l.length * B := by
  induction l with
  | nil => simp [walkLen]
  | cons a l ih =>
    cases l with
    | nil =>
      simp only [walkLen, List.length_singleton, Nat.cast_one, one_mul]
      exact hB0
    | cons b l =>
      rw [walkLen]
      have h1 := hB a b
      have e : (((a :: b :: l).length : Nat) : Int) * B = B + ((b :: l).length : Nat) * B := by
        simp only [List.length_cons]
        push_cast
        ring
      rw [e]
      omega

/-- When no entry exceeds `B`, a closed tour through `n` nodes is at most
`(n + 1) * B` long. -/
theorem tourLength_le (rows : List (List Int)) (B : Int) (hB0 : 0 ≤ B)
    (h : ∀ row ∈ rows, ∀ x ∈ row, x ≤ B) (σ : List Nat) :
    tourLength (readGraph rows) σ ≤ (σ.length + 1) * B := by
  unfold tourLength closedLen
  have h1 := walkLen_le (readGraph rows).dist B hB0 (dist_le rows B hB0 h) (σ ++ σ.take 1)
  have h2 : ((σ ++ σ.take 1).length : Int) ≤ σ.length + 1 := by
    rw [List.length_append, List.length_take]
    push_cast
    omega
  calc walkLen (readGraph rows).dist (σ ++ σ.take 1)
      ≤ ((σ ++ σ.take 1).length : Int) * B := h1
    _ ≤ (σ.length + 1) * B := mul_le_mul_of_nonneg_right h2 hB0

/-- On the well-formed scenario matrix no closed tour is longer than `INT_MAX`. -/
theorem wellFormedRows_tours (σ : List Nat) (hσ : σ.Perm (List.range wellFormedRows.length)) :
    tourLength (readGraph wellFormedRows) σ ≤ INT_MAX := by
  have h := tourLength_le wellFormedRows 35 (by decide) (by decide) σ
  have hl : σ.length = 4 := by
    rw [hσ.length_eq]
    rfl
  rw [hl] at h
  unfold INT_MAX
  norm_num at h
  omega

/-- Every step of the edge loop leaves the running total in the range of `int`. -/
theorem edgeStep_total_range {st st1 : state} {w : weight} (h : edgeStep st w = some st1)
    (hr : INT_MIN ≤ st.globalTotalWeight ∧ st.globalTotalWeight ≤ INT_MAX) :
    INT_MIN ≤ st1.globalTotalWeight ∧ st1.globalTotalWeight ≤ INT_MAX := by
  simp only [edgeStep] at h
  split_ifs at h <;> cases h
  all_goals first
    | exact hr
    | exact wrapInt_range _

theorem cycleBuilder_total_range (ws : List weight) {st st1 : state}
    (h : cycleBuilder st ws = some st1)
    (hr : INT_MIN ≤ st.globalTotalWeight ∧ st.globalTotalWeight ≤ INT_MAX) :
    INT_MIN ≤ st1.globalTotalWeight ∧ st1.globalTotalWeight ≤ INT_MAX := by
  induction ws generalizing st with
  | nil =>
    simp only [cycleBuilder] at h
    cases h
    exact hr
  | cons w ws ih =>
    rw [cycleBuilder] at h
    cases hstep : edgeStep st w with
    | none => rw [hstep] at h; cases h
    | some st2 =>
      rw [hstep] at h
      exact ih h (edgeStep_total_range hstep hr)

/-- The running total of a run is in the range of `int` after the edge loop. -/
theorem builder_total_range (sort : List weight → List weight) (rows : List (List Int))
    (ws : List weight) {st1 : state} (h : cycleBuilder (initState sort rows) ws = some st1) :
    INT_MIN ≤ st1.globalTotalWeight ∧ st1.globalTotalWeight ≤ INT_MAX :=
  cycleBuilder_total_range ws h
    ⟨show INT_MIN ≤ (0 : Int) by decide, show (0 : Int) ≤ INT_MAX by decide⟩

/-- A closed tour of length exactly `INT_MAX` is never below the initial
`shortestDistance = INT_MAX`, so the strict comparison never stores it: on the
symmetric matrix `d(0,1) = 1`, `d(1,2) = 1`, `d(0,2) = 2147483645` the result
is the minimum, `INT_MAX`, and the stored order is still the initial zero
vector. -/
theorem bruteForce_sentinel_example :
    WellFormed intMaxRows ∧
    bruteForce intMaxRows = some (2147483647, [0, 0, 0]) ∧
    tourLength (readGraph intMaxRows) [0, 1, 2] = 2147483647 := by
  decide

/-! ## The library sort: reads and writes -/

theorem lt_length_of_getElem? {xs : List weight} {i : Nat} {a : weight} (h : xs[i]? = some a) :
    i < xs.length := by
  by_contra hc
  rw [List.getElem?_eq_none (Nat.le_of_not_lt hc)] at h
  cases h

theorem valAt_of_getElem? {xs : List weight} {i : Nat} {w : weight} (h : xs[i]? = some w) :
    valAt xs i = w.value := by
  unfold valAt
  rw [h]

theorem exists_getElem? (xs : List weight) (i : Nat) (h : i < xs.length) :
    ∃ w, xs[i]? = some w ∧ valAt xs i = w.value :=
  ⟨xs[i], List.getElem?_eq_getElem h, valAt_of_getElem? (List.getElem?_eq_getElem h)⟩

theorem valAt_set (xs : List weight) (i j : Nat) (w : weight) :
    valAt (xs.set i w) j = if i = j ∧ i < xs.length then w.value else valAt xs j := by
  unfold valAt
  by_cases hij : i = j
  · subst hij
    by_cases hi : i < xs.length
    · rw [List.getElem?_set_self hi, if_pos ⟨rfl, hi⟩]
    · rw [if_neg (fun h => hi h.2), List.getElem?_eq_none (by rw [List.length_set]; omega),
        List.getElem?_eq_none (by omega)]
  · rw [List.getElem?_set_ne hij, if_neg (fun h => hij h.1)]

theorem valAt_set_self (xs : List weight) (i : Nat) (w : weight) (h : i < xs.length) :
    valAt (xs.set i w) i = w.value := by
  rw [valAt_set, if_pos ⟨rfl, h⟩]

theorem valAt_set_ne (xs : List weight) (i j : Nat) (w : weight) (h : i ≠ j) :
    valAt (xs.set i w) j = valAt xs j := by
  rw [valAt_set, if_neg (fun hc => h hc.1)]

theorem storeAt_eq (xs : List weight) (i : Nat) (v : weight) (h : i < xs.length) :
    storeAt xs i v = some (xs.set i v) := by
  unfold storeAt
  rw [if_pos h]

theorem compAt_eq (xs : List weight) (i j : Nat) (hi : i < xs.length) (hj : j < xs.length) :
    compAt xs i j = some (decide (valAt xs i < valAt xs j)) := by
  unfold compAt valAt
  rw [List.getElem?_eq_getElem hi, List.getElem?_eq_getElem hj]

theorem iterSwap_eq (xs : List weight) (i j : Nat) (hi : i < xs.length) (hj : j < xs.length) :
    ∃ a b, xs[i]? = some a ∧ xs[j]? = some b ∧ iterSwap xs i j = some ((xs.set i b).set j a) := by
  refine ⟨xs[i], xs[j], List.getElem?_eq_getElem hi, List.getElem?_eq_getElem hj, ?_⟩
  unfold iterSwap
  rw [List.getElem?_eq_getElem hi, List.getElem?_eq_getElem hj]

theorem assignAt_eq (xs : List weight) (i j : Nat) (hi : i < xs.length) (hj : j < xs.length) :
    ∃ b, xs[j]? = some b ∧ assignAt xs i j = some (xs.set i b) := by
  refine ⟨xs[j], List.getElem?_eq_getElem hj, ?_⟩
  unfold assignAt
  rw [List.getElem?_eq_getElem hj]
  exact storeAt_eq xs i _ hi

theorem getElem?_middle (p : List weight) (a : weight) (s : List weight) :
    (p ++ a :: s)[p.length]? = some a := by
  induction p with
  | nil => simp
  | cons x p ih => simpa using ih

theorem set_middle (p : List weight) (a v : weight) (s : List weight) :
    (p ++ a :: s).set p.length v = p ++ v :: s := by
  induction p with
  | nil => rfl
  | cons x p ih => simp [ih]

/-! ## The library sort: rearrangements -/

theorem perm_cons_set (t : List weight) (j : Nat) (b x : weight) (h : t[j]? = some b) :
    (b :: t.set j x).Perm (x :: t) := by
  induction t generalizing j with
  | nil => simp at h
  | cons y t ih =>
    cases j with
    | zero =>
      simp only [List.getElem?_cons_zero, Option.some.injEq] at h
      subst h
      exact List.Perm.swap _ _ _
    | succ j =>
      simp only [List.getElem?_cons_succ] at h
      simp only [List.set_cons_succ]
      exact (List.Perm.swap _ _ _).trans (((ih j h).cons y).trans (List.Perm.swap _ _ _))

/-- Exchanging two elements of a list rearranges it. -/
theorem perm_set_set (xs : List weight) (i j : Nat) (a b : weight) (hi : xs[i]? = some a)
    (hj : xs[j]? = some b) : ((xs.set i b).set j a).Perm xs := by
  induction xs generalizing i j with
  | nil => simp at hi
  | cons x xs ih =>
    cases i with
    | zero =>
      simp only [List.getElem?_cons_zero, Option.some.injEq] at hi
      subst hi
      cases j with
      | zero =>
        simp only [List.getElem?_cons_zero, Option.some.injEq] at hj
        subst hj
        simp
      | succ j =>
        simp only [List.getElem?_cons_succ] at hj
        simp only [List.set_cons_zero, List.set_cons_succ]
        exact perm_cons_set xs j b x hj
    | succ i =>
      simp only [List.getElem?_cons_succ] at hi
      cases j with
      | zero =>
        simp only [List.getElem?_cons_zero, Option.some.injEq] at hj
        subst hj
        simp only [List.set_cons_zero, List.set_cons_succ]
        exact perm_cons_set xs i a x hi
      | succ j =>
        simp only [List.getElem?_cons_succ] at hj
        simp only [List.set_cons_succ]
        exact (ih i j hi hj).cons x

/-- Moving an element into a hole, which leaves the hole at its old place, and
filling the new hole with `v` rearranges the list with the old hole filled. -/
theorem perm_set_hole (xs : List weight) (i j : Nat) (c v : weight) (hi : i < xs.length)
    (hj : xs[j]? = some c) : ((xs.set i c).set j v).Perm (xs.set i v) := by
  by_cases hij : i = j
  · subst hij
    rw [List.set_set]
  · have h1 : (xs.set i v)[i]? = some v := by
      rw [List.getElem?_set_self hi]
    have h2 : (xs.set i v)[j]? = some c := by
      rw [List.getElem?_set_ne hij]
      exact hj
    have h3 := perm_set_set (xs.set i v) i j v c h1 h2
    rw [List.set_set] at h3
    exact h3

theorem set_of_getElem? (xs : List weight) (i : Nat) (a : weight) (h : xs[i]? = some a) :
    xs.set i a = xs := by
  induction xs generalizing i with
  | nil => rfl
  | cons x xs ih =>
    cases i with
    | zero =>
      simp only [List.getElem?_cons_zero, Option.some.injEq] at h
      subst h
      rfl
    | succ i =>
      simp only [List.getElem?_cons_succ] at h
      simp only [List.set_cons_succ, ih i h]

/-! ## The library sort: the insertion phase -/

theorem insertBehind_perm (val : weight) (d : List weight) :
    (insertBehind val d).Perm (val :: d) := by
  induction d with
  | nil => exact List.Perm.refl _
  | cons x r ih =>
    rw [insertBehind]
    split_ifs
    · exact (List.Perm.cons x ih).trans (List.Perm.swap val x r)
    · exact List.Perm.refl _

theorem insertBehind_all_larger (val : weight) (d : List weight)
    (h : ∀ w ∈ d, val.value < w.value) : insertBehind val d = d ++ [val] := by
  induction d with
  | nil => rfl
  | cons x r ih =>
    rw [insertBehind, if_pos (h x (List.mem_cons_self x r)),
      ih (fun w hw => h w (List.mem_cons_of_mem x hw))]
    rfl

theorem insertBehind_descending (val : weight) (d : List weight)
    (h : d.Pairwise (fun a b => b.value ≤ a.value)) :
    (insertBehind val d).Pairwise (fun a b => b.value ≤ a.value) := by
  induction d with
  | nil => exact List.pairwise_singleton _ _
  | cons x r ih =>
    rw [insertBehind]
    rw [List.pairwise_cons] at h
    split_ifs with hc
    · rw [List.pairwise_cons]
      refine ⟨?_, ih h.2⟩
      intro b hb
      rcases List.mem_cons.1 ((insertBehind_perm val r).mem_iff.1 hb) with hb1 | hb1
      · rw [hb1]; omega
      · exact h.1 b hb1
    · rw [List.pairwise_cons]
      refine ⟨?_, List.pairwise_cons.2 h⟩
      intro b hb
      rcases List.mem_cons.1 hb with hb1 | hb1
      · rw [hb1]; omega
      · have := h.1 b hb1
        omega

theorem filter_insertBehind (v : Int) (val : weight) (d : List weight) :
    (insertBehind val d).filter (fun w => decide (w.value = v)) =
      [val].filter (fun w => decide (w.value = v)) ++ d.filter (fun w => decide (w.value = v)) := by
  induction d with
  | nil => simp [insertBehind]
  | cons x r ih =>
    rw [insertBehind]
    split_ifs with hc
    · rw [List.filter_cons, ih]
      by_cases hx : x.value = v
      · have hv : ¬ val.value = v := by omega
        simp [List.filter_cons, hx, hv]
      · simp [List.filter_cons, hx]
    · by_cases hv : val.value = v <;> simp [List.filter_cons, hv]

/-- The insertion loop of the library, run on a vector whose part before the
iterator holds an element not larger than the value: the value goes behind the
last such element. -/
theorem linearInsert_eq (val : weight) (pre : List weight) (h : weight) (suf : List weight)
    (hg : ∃ w ∈ pre, ¬ val.value < w.value) :
    linearInsert val (pre ++ h :: suf) pre.length =
      some ((insertBehind val pre.reverse).reverse ++ suf) := by
  induction pre using List.reverseRecOn generalizing h suf with
  | nil =>
    obtain ⟨w, hw, _⟩ := hg
    cases hw
  | append_singleton p x ih =>
    have hlen : (p ++ [x]).length = p.length + 1 := by simp
    have hxs : p ++ [x] ++ h :: suf = p ++ x :: h :: suf := by simp
    rw [hlen, hxs, linearInsert, getElem?_middle]
    have hst : ∀ u, storeAt (p ++ x :: h :: suf) (p.length + 1) u = some (p ++ x :: u :: suf) := by
      intro u
      rw [storeAt_eq _ _ _ (by simp)]
      have := set_middle (p ++ [x]) h u suf
      rw [hlen, hxs] at this
      rw [this]
      simp
    simp only []
    rw [List.reverse_append, List.reverse_singleton, List.singleton_append, insertBehind]
    split_ifs with hc
    · rw [hst, Option.some_bind, ih x (x :: suf)]
      · simp
      · obtain ⟨w, hw, hw2⟩ := hg
        rcases List.mem_append.1 hw with hw1 | hw1
        · exact ⟨w, hw1, hw2⟩
        · rw [List.mem_singleton] at hw1
          rw [hw1] at hw2
          exact absurd hc hw2
    · rw [hst]
      simp

theorem insertionStep_eq (pre : List weight) (h : weight) (suf : List weight) (hne : pre ≠ [])
    (hs : pre.Pairwise (fun a b => a.value ≤ b.value)) :
    insertionStep 0 (pre ++ h :: suf) pre.length =
      some ((insertBehind h pre.reverse).reverse ++ suf) := by
  obtain ⟨x, p, rfl⟩ := List.exists_cons_of_ne_nil hne
  have h0 : ((x :: p) ++ h :: suf)[0]? = some x := by simp
  have hi := getElem?_middle (x :: p) h suf
  unfold insertionStep compAt
  rw [hi, h0]
  by_cases hc : h.value < x.value
  · simp only [hc, decide_True]
    rw [insertBehind_all_larger]
    · simp
    · intro w hw
      rw [List.mem_reverse] at hw
      rcases List.mem_cons.1 hw with hw1 | hw1
      · rw [hw1]; exact hc
      · have := (List.pairwise_cons.1 hs).1 w hw1
        omega
  · simp only [hc, decide_False]
    unfold unguardedLinearInsert
    rw [hi]
    exact linearInsert_eq h (x :: p) h suf ⟨x, List.mem_cons_self x p, hc⟩

theorem insertAll_append (pre a b : List weight) :
    insertAll pre (a ++ b) = insertAll (insertAll pre a) b := by
  induction a generalizing pre with
  | nil => rfl
  | cons x a ih => exact ih _

theorem insertAll_perm (pre rest : List weight) : (insertAll pre rest).Perm (pre ++ rest) := by
  induction rest generalizing pre with
  | nil => simp [insertAll]
  | cons x rest ih =>
    rw [insertAll]
    refine (ih _).trans ?_
    have h1 : ((insertBehind x pre.reverse).reverse).Perm (pre ++ [x]) :=
      (List.reverse_perm _).trans ((insertBehind_perm x pre.reverse).trans
        ((List.Perm.cons x (List.reverse_perm pre)).trans
          (List.perm_append_comm : ([x] ++ pre).Perm (pre ++ [x]))))
    have h2 := List.Perm.append_right rest h1
    simpa using h2

theorem insertAll_sorted (pre rest : List weight)
    (hs : pre.Pairwise (fun a b => a.value ≤ b.value)) :
    (insertAll pre rest).Pairwise (fun a b => a.value ≤ b.value) := by
  induction rest generalizing pre with
  | nil => exact hs
  | cons x rest ih =>
    rw [insertAll]
    apply ih
    rw [List.pairwise_reverse]
    apply insertBehind_descending
    rw [List.pairwise_reverse]
    exact hs

theorem insertAll_ofValue (v : Int) (pre rest : List weight) :
    ofValue v (insertAll pre rest) = ofValue v pre ++ ofValue v rest := by
  induction rest generalizing pre with
  | nil => simp [insertAll, ofValue]
  | cons x rest ih =>
    rw [insertAll, ih]
    unfold ofValue
    rw [List.filter_reverse, filter_insertBehind, List.reverse_append, List.filter_reverse,
      List.reverse_reverse]
    have hx : ([x].filter (fun w => decide (w.value = v))).reverse =
        [x].filter (fun w => decide (w.value = v)) := by
      by_cases h : x.value = v <;> simp [List.filter_cons, h]
    rw [hx, List.append_assoc]
    congr 1
    by_cases h : x.value = v <;> simp [List.filter_cons, h]

theorem insertionLoop_eq (mid pre suf : List weight) (hne : pre ≠ [])
    (hs : pre.Pairwise (fun a b => a.value ≤ b.value)) :
    insertionLoop 0 mid.length (pre ++ mid ++ suf) pre.length = some (insertAll pre mid ++ suf) := by
  induction mid generalizing pre with
  | nil => simp [insertionLoop, insertAll]
  | cons h m ih =>
    have hxs : pre ++ h :: m ++ suf = pre ++ h :: (m ++ suf) := by simp
    rw [List.length_cons, insertionLoop, hxs, insertionStep_eq pre h (m ++ suf) hne hs,
      Option.some_bind]
    have hp : ((insertBehind h pre.reverse).reverse).Perm (h :: pre) :=
      (List.reverse_perm _).trans ((insertBehind_perm h pre.reverse).trans
        (List.Perm.cons h (List.reverse_perm pre)))
    have hl : pre.length + 1 = ((insertBehind h pre.reverse).reverse).length := by
      rw [hp.length_eq]; rfl
    have := ih ((insertBehind h pre.reverse).reverse)
      (by intro hc; rw [hc] at hl; simp at hl)
      (by
        rw [List.pairwise_reverse]
        apply insertBehind_descending
        rw [List.pairwise_reverse]
        exact hs)
    rw [hl, ← List.append_assoc, this]
    rfl

theorem unguardedLoop_eq (mid pre suf : List weight)
    (hg : ∀ m1 v m2, mid = m1 ++ v :: m2 → ∃ w ∈ pre ++ m1, ¬ v.value < w.value) :
    unguardedLoop mid.length (pre ++ mid ++ suf) pre.length = some (insertAll pre mid ++ suf) := by
  induction mid generalizing pre with
  | nil => simp [unguardedLoop, insertAll]
  | cons h m ih =>
    have hxs : pre ++ h :: m ++ suf = pre ++ h :: (m ++ suf) := by simp
    have hg0 : ∃ w ∈ pre, ¬ h.value < w.value := by
      obtain ⟨w, hw, hw2⟩ := hg [] h m rfl
      exact ⟨w, by simpa using hw, hw2⟩
    rw [List.length_cons, unguardedLoop, hxs]
    unfold unguardedLinearInsert
    rw [getElem?_middle]
    simp only []
    rw [linearInsert_eq h pre h (m ++ suf) hg0, Option.some_bind]
    have hp : ((insertBehind h pre.reverse).reverse).Perm (h :: pre) :=
      (List.reverse_perm _).trans ((insertBehind_perm h pre.reverse).trans
        (List.Perm.cons h (List.reverse_perm pre)))
    have hl : pre.length + 1 = ((insertBehind h pre.reverse).reverse).length := by
      rw [hp.length_eq]; rfl
    have := ih ((insertBehind h pre.reverse).reverse) (by
      intro m1 v m2 hm
      obtain ⟨w, hw, hw2⟩ := hg (h :: m1) v m2 (by rw [hm]; rfl)
      refine ⟨w, ?_, hw2⟩
      rcases List.mem_append.1 hw with hw1 | hw1
      · exact List.mem_append_left _ (hp.mem_iff.2 (List.mem_cons_of_mem h hw1))
      · rcases List.mem_cons.1 hw1 with hw3 | hw3
        · exact List.mem_append_left _ (hp.mem_iff.2 (by rw [hw3]; exact List.mem_cons_self h pre))
        · exact List.mem_append_right _ hw3)
    rw [hl, ← List.append_assoc, this]
    rfl

theorem insertAll_nil_cons (z0 : weight) (rest : List weight) :
    insertAll [] (z0 :: rest) = insertAll [z0] rest := rfl

/-- The final insertion phase of the library sort, on a vector in which every
element from the 17th on has an element before it that is not larger: it is the
insertion sort from front to back. -/
theorem finalInsertionSort_eq (zs : List weight) (hne : zs ≠ [])
    (hg : ∀ i, 16 ≤ i → i < zs.length → ∃ j, j < i ∧ valAt zs j ≤ valAt zs i) :
    finalInsertionSort zs 0 zs.length = some (insertAll [] zs) := by
  obtain ⟨z0, rest, rfl⟩ := List.exists_cons_of_ne_nil hne
  rw [insertAll_nil_cons]
  unfold finalInsertionSort
  split_ifs with hc
  · rw [List.length_cons] at hc
    have hrest : rest = rest.take 15 ++ rest.drop 15 := (List.take_append_drop 15 rest).symm
    have hmid : (rest.take 15).length = 15 := by rw [List.length_take]; omega
    have h1 := insertionLoop_eq (rest.take 15) [z0] (rest.drop 15) (by simp)
      (List.pairwise_singleton _ _)
    rw [hmid] at h1
    have hzs : z0 :: rest = [z0] ++ rest.take 15 ++ rest.drop 15 := by
      rw [List.append_assoc, ← hrest]; rfl
    have hlen : (insertAll [z0] (rest.take 15)).length = 16 := by
      rw [(insertAll_perm _ _).length_eq]; simp [hmid]
    have hs1 : insertionSort (z0 :: rest) 0 (0 + 16) =
        some (insertAll [z0] (rest.take 15) ++ rest.drop 15) := by
      unfold insertionSort
      rw [if_neg (by omega), if_neg (by omega)]
      rw [hzs]
      exact h1
    rw [hs1, Option.some_bind]
    unfold unguardedInsertionSort
    rw [if_neg (by rw [List.length_cons]; omega)]
    have h2 := unguardedLoop_eq (rest.drop 15) (insertAll [z0] (rest.take 15)) [] (by
      intro m1 v m2 hm
      have hz : z0 :: rest = (z0 :: rest.take 15 ++ m1) ++ v :: m2 := by
        rw [List.append_assoc, ← hm]
        exact hzs
      have hl : (z0 :: rest.take 15 ++ m1).length = 16 + m1.length := by
        simp [hmid]; omega
      have hv : valAt (z0 :: rest) (16 + m1.length) = v.value := by
        apply valAt_of_getElem?
        rw [hz, ← hl]
        exact getElem?_middle _ v m2
      obtain ⟨j, hj, hjv⟩ := hg (16 + m1.length) (by omega) (by
        rw [hz, List.length_append, hl]; simp)
      obtain ⟨w, hw1, hw2⟩ := exists_getElem? (z0 :: rest) j (by
        rw [hz, List.length_append, hl]; omega)
      rw [hv, hw2] at hjv
      refine ⟨w, ?_, by omega⟩
      rw [hz, List.getElem?_append_left (by rw [hl]; exact hj)] at hw1
      have hmem : w ∈ z0 :: rest.take 15 ++ m1 := List.getElem?_mem hw1
      rcases List.mem_append.1 hmem with hw3 | hw3
      · exact List.mem_append_left _ ((insertAll_perm _ _).mem_iff.2 hw3)
      · exact List.mem_append_right _ hw3)
    rw [List.append_nil, List.append_nil, hlen] at h2
    have hcount : (z0 :: rest).length - (0 + 16) = (rest.drop 15).length := by
      rw [List.length_cons, List.length_drop]; omega
    rw [hcount, Nat.zero_add, h2, ← insertAll_append, ← hrest]
  · have h1 := insertionLoop_eq rest [z0] [] (by simp) (List.pairwise_singleton _ _)
    unfold insertionSort
    rw [if_neg (by rw [List.length_cons]; omega), if_neg (by rw [List.length_cons]; omega)]
    rw [List.append_nil, List.append_nil] at h1
    have : (z0 :: rest).length - (0 + 1) = rest.length := by rw [List.length_cons]; omega
    rw [this]
    exact h1

/-! ## The library sort: the partition -/

theorem valAt_congr {xs ys : List weight} {i : Nat} (h : ys[i]? = xs[i]?) :
    valAt ys i = valAt xs i := by
  unfold valAt
  rw [h]

theorem Within.refl (a b : Nat) (xs : List weight) : Within a b xs xs :=
  ⟨rfl, fun _ _ => rfl, List.Perm.refl _, fun i hi1 hi2 _ hw => ⟨i, hi1, hi2, hw⟩⟩

theorem Within.mono {a b a1 b1 : Nat} {xs ys : List weight} (h : Within a b xs ys)
    (ha : a1 ≤ a) (hb : b ≤ b1) : Within a1 b1 xs ys := by
  refine ⟨h.len, fun i hi => h.out i (by omega), h.perm, ?_⟩
  intro i hi1 hi2 w hw
  by_cases hin : a ≤ i ∧ i < b
  · obtain ⟨j, hj1, hj2, hj3⟩ := h.mem i hin.1 hin.2 w hw
    exact ⟨j, by omega, by omega, hj3⟩
  · rw [h.out i (by omega)] at hw
    exact ⟨i, hi1, hi2, hw⟩

theorem Within.trans {a b : Nat} {xs ys zs : List weight} (h1 : Within a b xs ys)
    (h2 : Within a b ys zs) : Within a b xs zs := by
  refine ⟨h2.len.trans h1.len, fun i hi => (h2.out i hi).trans (h1.out i hi),
    h2.perm.trans h1.perm, ?_⟩
  intro i hi1 hi2 w hw
  obtain ⟨j, hj1, hj2, hj3⟩ := h2.mem i hi1 hi2 w hw
  exact h1.mem j hj1 hj2 w hj3

theorem Within.valAt_out {a b : Nat} {xs ys : List weight} (h : Within a b xs ys) (i : Nat)
    (hi : i < a ∨ b ≤ i) : valAt ys i = valAt xs i :=
  valAt_congr (h.out i hi)

/-- A bound that holds for every element of the range holds after the move. -/
theorem Within.bound {a b : Nat} {xs ys : List weight} (h : Within a b xs ys)
    (hb : b ≤ xs.length) (Q : Int → Prop) (hq : ∀ i, a ≤ i → i < b → Q (valAt xs i)) :
    ∀ i, a ≤ i → i < b → Q (valAt ys i) := by
  intro i hi1 hi2
  obtain ⟨w, hw1, hw2⟩ := exists_getElem? ys i (by rw [h.len]; omega)
  obtain ⟨j, hj1, hj2, hj3⟩ := h.mem i hi1 hi2 w hw1
  rw [hw2, ← valAt_of_getElem? hj3]
  exact hq j hj1 hj2

theorem iterSwap_spec (xs : List weight) (r m : Nat) (a b : Nat) (hr : r < xs.length)
    (hm : m < xs.length) (hra : a ≤ r) (hrb : r < b) (hma : a ≤ m) (hmb : m < b) :
    ∃ ys, iterSwap xs r m = some ys ∧ Within a b xs ys ∧ valAt ys m = valAt xs r ∧
      (r ≠ m → valAt ys r = valAt xs m) ∧ ∀ k, k ≠ r → k ≠ m → valAt ys k = valAt xs k := by
  obtain ⟨x, y, hx, hy, hsw⟩ := iterSwap_eq xs r m hr hm
  refine ⟨_, hsw, ⟨by simp, ?_, perm_set_set xs r m x y hx hy, ?_⟩, ?_, ?_, ?_⟩
  · intro i hi
    rw [List.getElem?_set_ne (by omega), List.getElem?_set_ne (by omega)]
  · intro i hi1 hi2 w hw
    by_cases him : m = i
    · subst him
      rw [List.getElem?_set_self (by simpa using hm)] at hw
      exact ⟨r, hra, hrb, by rw [hx]; exact hw⟩
    · rw [List.getElem?_set_ne him] at hw
      by_cases hir : r = i
      · subst hir
        rw [List.getElem?_set_self hr] at hw
        exact ⟨m, hma, hmb, by rw [hy]; exact hw⟩
      · rw [List.getElem?_set_ne hir] at hw
        exact ⟨i, hi1, hi2, hw⟩
  · rw [valAt_set_self _ _ _ (by simpa using hm)]
    exact (valAt_of_getElem? hx).symm
  · intro hne
    rw [valAt_set_ne _ _ _ _ (Ne.symm hne), valAt_set_self _ _ _ hr]
    exact (valAt_of_getElem? hy).symm
  · intro k hk1 hk2
    rw [valAt_set_ne _ _ _ _ (Ne.symm hk2), valAt_set_ne _ _ _ _ (Ne.symm hk1)]

/-- The median of the three probes goes to the front: of the other two probes
one is not larger and one is not smaller than the new front element. -/
theorem moveMedianToFirst_spec (xs : List weight) (r a b c lo hi : Nat) (hr : r < xs.length)
    (ha : a < xs.length) (hb : b < xs.length) (hc : c < xs.length) (hra : r < a) (hab : a < b)
    (hbc : b < c) (hlo : lo ≤ r) (hhi : c < hi) :
    ∃ ys, moveMedianToFirst xs r a b c = some ys ∧ Within lo hi xs ys ∧
      (∃ j, r < j ∧ j < hi ∧ valAt ys r ≤ valAt ys j) ∧
      (∃ j, r < j ∧ j < hi ∧ valAt ys j ≤ valAt ys r) := by
  unfold moveMedianToFirst
  rw [compAt_eq xs a b ha hb, compAt_eq xs b c hb hc, compAt_eq xs a c ha hc]
  simp only [decide_eq_true_eq]
  have key : ∀ m j1 j2, m < xs.length → r < m → m < hi → r < j1 → j1 < hi → r < j2 → j2 < hi →
      j1 ≠ m → j2 ≠ m → valAt xs m ≤ valAt xs j1 → valAt xs j2 ≤ valAt xs m →
      ∃ ys, iterSwap xs r m = some ys ∧ Within lo hi xs ys ∧
        (∃ j, r < j ∧ j < hi ∧ valAt ys r ≤ valAt ys j) ∧
        (∃ j, r < j ∧ j < hi ∧ valAt ys j ≤ valAt ys r) := by
    intro m j1 j2 hm hrm hmh h1 h1h h2 h2h hn1 hn2 hv1 hv2
    obtain ⟨ys, hsw, hw, _, hvr, hvk⟩ := iterSwap_spec xs r m lo hi hr hm hlo (by omega)
      (by omega) hmh
    refine ⟨ys, hsw, hw, ⟨j1, h1, h1h, ?_⟩, ⟨j2, h2, h2h, ?_⟩⟩
    · rw [hvr (by omega), hvk j1 (by omega) hn1]
      exact hv1
    · rw [hvr (by omega), hvk j2 (by omega) hn2]
      exact hv2
  by_cases h1 : valAt xs a < valAt xs b
  · by_cases h2 : valAt xs b < valAt xs c
    · simp only [h1, h2, if_true]
      exact key b c a hb (by omega) (by omega) (by omega) (by omega) (by omega) (by omega)
        (by omega) (by omega) (by omega) (by omega)
    · by_cases h3 : valAt xs a < valAt xs c
      · simp only [h1, h2, h3, if_true, if_false]
        exact key c b a hc (by omega) (by omega) (by omega) (by omega) (by omega) (by omega)
          (by omega) (by omega) (by omega) (by omega)
      · simp only [h1, h2, h3, if_true, if_false]
        exact key a b c ha (by omega) (by omega) (by omega) (by omega) (by omega) (by omega)
          (by omega) (by omega) (by omega) (by omega)
  · by_cases h3 : valAt xs a < valAt xs c
    · simp only [h1, h3, if_true, if_false]
      exact key a c b ha (by omega) (by omega) (by omega) (by omega) (by omega) (by omega)
        (by omega) (by omega) (by omega) (by omega)
    · by_cases h2 : valAt xs b < valAt xs c
      · simp only [h1, h2, h3, if_true, if_false]
        exact key c a b hc (by omega) (by omega) (by omega) (by omega) (by omega) (by omega)
          (by omega) (by omega) (by omega) (by omega)
      · simp only [h1, h2, h3, if_true, if_false]
        exact key b a c hb (by omega) (by omega) (by omega) (by omega) (by omega) (by omega)
          (by omega) (by omega) (by omega) (by omega)

theorem scanForward_spec (xs : List weight) (pv fuel first j : Nat) (hpv : pv < xs.length)
    (hj1 : first ≤ j) (hj2 : j < xs.length) (hj3 : valAt xs pv ≤ valAt xs j)
    (hfuel : j - first < fuel) :
    ∃ r, scanForward xs pv fuel first = some r ∧ first ≤ r ∧ r ≤ j ∧
      (∀ i, first ≤ i → i < r → valAt xs i < valAt xs pv) ∧ valAt xs pv ≤ valAt xs r := by
  induction fuel generalizing first with
  | zero => omega
  | succ fuel ih =>
    rw [scanForward, compAt_eq xs first pv (by omega) hpv]
    by_cases hc : valAt xs first < valAt xs pv
    · simp only [hc, decide_True]
      have hne : first ≠ j := by
        intro h
        rw [h] at hc
        omega
      obtain ⟨r, hr1, hr2, hr3, hr4, hr5⟩ := ih (first + 1) (by omega) (by omega)
      refine ⟨r, hr1, by omega, hr3, ?_, hr5⟩
      intro i hi1 hi2
      by_cases hif : i = first
      · rw [hif]; exact hc
      · exact hr4 i (by omega) hi2
    · simp only [hc, decide_False]
      exact ⟨first, rfl, le_refl _, hj1, fun i h1 h2 => by omega, by omega⟩

theorem scanBackward_spec (xs : List weight) (pv fuel last j : Nat) (hpv : pv < xs.length)
    (hj1 : j ≤ last) (hl : last < xs.length) (hj3 : valAt xs j ≤ valAt xs pv)
    (hfuel : last - j < fuel) :
    ∃ r, scanBackward xs pv fuel last = some r ∧ j ≤ r ∧ r ≤ last ∧
      (∀ i, r < i → i ≤ last → valAt xs pv < valAt xs i) ∧ valAt xs r ≤ valAt xs pv := by
  induction fuel generalizing last with
  | zero => omega
  | succ fuel ih =>
    rw [scanBackward, compAt_eq xs pv last hpv hl]
    by_cases hc : valAt xs pv < valAt xs last
    · simp only [hc, decide_True]
      have hne : last ≠ j := by
        intro h
        rw [h] at hc
        omega
      have hprev : prev last = some (last - 1) := by
        unfold prev
        rw [if_neg (by omega)]
      rw [hprev, Option.some_bind]
      obtain ⟨r, hr1, hr2, hr3, hr4, hr5⟩ := ih (last - 1) (by omega) (by omega) (by omega)
      refine ⟨r, hr1, hr2, by omega, ?_, hr5⟩
      intro i hi1 hi2
      by_cases hif : i = last
      · rw [hif]; exact hc
      · exact hr4 i hi1 (by omega)
    · simp only [hc, decide_False]
      exact ⟨last, rfl, hj1, le_refl _, fun i h1 h2 => by omega, by omega⟩

/-- The partition loop of the library stays inside the range it is given, as
long as an element not smaller than the pivot lies ahead of `first` and an
element not larger than the pivot lies before `last`; it leaves the elements
not larger than the pivot before the returned iterator and the elements not
smaller from it on. -/
theorem unguardedPartition_spec (pv hi fuel : Nat) (xs : List weight) (first last : Nat)
    (hpf : pv < first) (hfl : first ≤ last) (hlh : last ≤ hi) (hh : hi ≤ xs.length)
    (hfuel : last - first < fuel)
    (hA : ∀ i, pv < i → i < first → valAt xs i ≤ valAt xs pv)
    (hB : ∀ i, last ≤ i → i < hi → valAt xs pv ≤ valAt xs i)
    (hC : ∃ j, first ≤ j ∧ j < hi ∧ valAt xs pv ≤ valAt xs j)
    (hD : ∃ j, pv < j ∧ j < last ∧ valAt xs j ≤ valAt xs pv) :
    ∃ ys c, unguardedPartition pv fuel xs first last = some (ys, c) ∧
      Within (pv + 1) hi xs ys ∧ pv < c ∧ c < hi ∧
      (∀ i, pv < i → i < c → valAt ys i ≤ valAt ys pv) ∧
      (∀ i, c ≤ i → i < hi → valAt ys pv ≤ valAt ys i) := by
  induction fuel generalizing xs first last with
  | zero => omega
  | succ fuel ih =>
    obtain ⟨j, hj1, hj2, hj3⟩ := hC
    obtain ⟨k, hk1, hk2, hk3⟩ := hD
    obtain ⟨f1, hf0, hf1, hf2, hf3, hf4⟩ := scanForward_spec xs pv xs.length first j (by omega)
      hj1 (by omega) hj3 (by omega)
    have hprev : prev last = some (last - 1) := by
      unfold prev
      rw [if_neg (by omega)]
    obtain ⟨l1, hl0, hl1, hl2, hl3, hl4⟩ := scanBackward_spec xs pv xs.length (last - 1) k
      (by omega) (by omega) (by omega) hk3 (by omega)
    rw [unguardedPartition]
    simp only [hf0, hprev, hl0, Option.bind_eq_bind, Option.some_bind]
    by_cases hc : f1 < l1
    · rw [if_pos hc]
      obtain ⟨ys, hsw, hw, hvl, hvf, hvk⟩ := iterSwap_spec xs f1 l1 (pv + 1) hi (by omega)
        (by omega) (by omega) (by omega) (by omega) (by omega)
      rw [hsw, Option.some_bind]
      have hpv : valAt ys pv = valAt xs pv := hvk pv (by omega) (by omega)
      obtain ⟨zs, c, hz1, hz2, hz3, hz4, hz5, hz6⟩ := ih ys (f1 + 1) l1 (by omega) (by omega)
        (by omega) (by rw [hw.len]; exact hh) (by omega)
        (by
          intro i hi1 hi2
          rw [hpv]
          by_cases hif : i = f1
          · rw [hif, hvf (by omega)]; exact hl4
          · rw [hvk i hif (by omega)]
            by_cases hlt : i < first
            · exact hA i hi1 hlt
            · exact le_of_lt (hf3 i (by omega) (by omega)))
        (by
          intro i hi1 hi2
          rw [hpv]
          by_cases hil : i = l1
          · rw [hil, hvl]; exact hf4
          · rw [hvk i (by omega) hil]
            by_cases hlt : last ≤ i
            · exact hB i hlt hi2
            · exact le_of_lt (hl3 i (by omega) (by omega)))
        ⟨l1, by omega, by omega, by rw [hpv, hvl]; exact hf4⟩
        ⟨f1, by omega, hc, by rw [hpv, hvf (by omega)]; exact hl4⟩
      exact ⟨zs, c, hz1, hw.trans hz2, hz3, hz4, hz5, hz6⟩
    · rw [if_neg hc]
      refine ⟨xs, f1, rfl, Within.refl _ _ _, by omega, by omega, ?_, ?_⟩
      · intro i hi1 hi2
        by_cases hlt : i < first
        · exact hA i hi1 hlt
        · exact le_of_lt (hf3 i (by omega) hi2)
      · intro i hi1 hi2
        by_cases hlt : last ≤ i
        · exact hB i hlt hi2
        · by_cases hil : i = l1
          · have : f1 = l1 := by omega
            rw [hil, ← this]; exact hf4
          · exact le_of_lt (hl3 i (by omega) (by omega))

/-- The partition step of the quicksort phase, on a range of more than 16
elements. -/
theorem unguardedPartitionPivot_spec (xs : List weight) (lo hi : Nat) (h16 : 16 < hi - lo)
    (hh : hi ≤ xs.length) :
    ∃ ys c P, unguardedPartitionPivot xs lo hi = some (ys, c) ∧ Within lo hi xs ys ∧
      lo < c ∧ c < hi ∧ (∀ i, lo ≤ i → i < c → valAt ys i ≤ P) ∧
      (∀ i, c ≤ i → i < hi → P ≤ valAt ys i) := by
  have hprev : prev hi = some (hi - 1) := by
    unfold prev
    rw [if_neg (by omega)]
  obtain ⟨ys, hm1, hm2, ⟨j, hj1, hj2, hj3⟩, ⟨k, hk1, hk2, hk3⟩⟩ :=
    moveMedianToFirst_spec xs lo (lo + 1) (lo + (hi - lo) / 2) (hi - 1) lo hi (by omega)
      (by omega) (by omega) (by omega) (by omega) (by omega) (by omega) (le_refl _) (by omega)
  obtain ⟨zs, c, hz1, hz2, hz3, hz4, hz5, hz6⟩ := unguardedPartition_spec lo hi ys.length ys
    (lo + 1) hi (by omega) (by omega) (le_refl _) (by rw [hm2.len]; exact hh)
    (by rw [hm2.len]; omega) (fun i h1 h2 => by omega) (fun i h1 h2 => by omega)
    ⟨j, by omega, hj2, hj3⟩ ⟨k, hk1, hk2, hk3⟩
  unfold unguardedPartitionPivot
  simp only [hprev, hm1, Option.bind_eq_bind, Option.some_bind]
  refine ⟨zs, c, valAt zs lo, hz1, hm2.trans (hz2.mono (by omega) (le_refl _)), hz3, hz4, ?_, hz6⟩
  intro i hi1 hi2
  by_cases hil : i = lo
  · rw [hil]
  · exact hz5 i (by omega) hi2

/-! ## The library sort: the heap routines -/

theorem Below.le {top h : Nat} (hb : Below top h) : top ≤ h := by
  induction hb with
  | refl => exact le_refl _
  | child h c _ hc0 hch ih => omega

theorem Below.parent {top h : Nat} (hb : Below top h) (hlt : top < h) :
    Below top ((h - 1) / 2) := by
  cases hb with
  | refl => omega
  | child h0 c hb0 hc0 hch =>
    rw [hch]
    exact hb0

theorem heapMove_refl (first len : Nat) (value : weight) (xs : List weight) :
    HeapMove first len value xs xs :=
  ⟨rfl, fun _ _ => rfl, fun i hi _ hw => Or.inr ⟨i, hi, hw⟩⟩

theorem heapMove_trans {first len : Nat} {value : weight} {xs ys zs : List weight}
    (h1 : HeapMove first len value xs ys) (h2 : HeapMove first len value ys zs) :
    HeapMove first len value xs zs := by
  refine ⟨h2.size.trans h1.size, fun i hi => (h2.out i hi).trans (h1.out i hi), ?_⟩
  intro i hi w hw
  rcases h2.mem i hi w hw with h | ⟨j, hj1, hj2⟩
  · exact Or.inl h
  · exact h1.mem j hj1 w hj2

/-- A store of an element of the part into the part. -/
theorem HeapMove.store (first len : Nat) (value : weight) (xs : List weight) (h : Nat)
    (w : weight) (hh : h < len) (hw : w = value ∨ ∃ j, j < len ∧ xs[first + j]? = some w) :
    HeapMove first len value xs (xs.set (first + h) w) := by
  refine ⟨by simp, fun i hi => by rw [List.getElem?_set_ne (by omega)], ?_⟩
  intro i hi u hu
  by_cases hih : first + h = first + i
  · have hl : first + i < xs.length := by simpa using lt_length_of_getElem? hu
    rw [hih, List.getElem?_set_self hl] at hu
    cases hu
    exact hw
  · rw [List.getElem?_set_ne hih] at hu
    exact Or.inr ⟨i, hi, hu⟩

theorem valAt_set_add (xs : List weight) (first h k : Nat) (w : weight)
    (hh : first + h < xs.length) :
    valAt (xs.set (first + h) w) (first + k) = if k = h then w.value else valAt xs (first + k) := by
  rw [valAt_set]
  by_cases hk : k = h
  · rw [if_pos ⟨by omega, hh⟩, if_pos hk]
  · rw [if_neg (fun hc => hk (by omega)), if_neg hk]

/-- The largest child moves up into the hole: the heap order, but for the
children of the new hole, is kept. -/
theorem sift_step (xs : List weight) (first len top h c : Nat) (w : weight)
    (hlen : first + len ≤ xs.length) (hh : h < len) (hc0 : 0 < c) (hcl : c < len)
    (hch : (c - 1) / 2 = h) (hw : xs[first + c]? = some w)
    (hmax : ∀ d, 0 < d → d < len → (d - 1) / 2 = h →
      valAt xs (first + d) ≤ valAt xs (first + c))
    (hI : HeapBut xs first len top h) (hI2 : OverHole xs first len top h) :
    HeapBut (xs.set (first + h) w) first len top c ∧
      OverHole (xs.set (first + h) w) first len top c := by
  have hwv : w.value = valAt xs (first + c) := (valAt_of_getElem? hw).symm
  have hv := fun k => valAt_set_add xs first h k w (by omega)
  unfold HeapBut OverHole at *
  constructor
  · intro i hi0 hil htop hne
    rw [hv, hv, hwv]
    by_cases hp : (i - 1) / 2 = h
    · rw [if_pos hp, if_neg (by omega)]
      exact hmax i hi0 hil hp
    · rw [if_neg hp]
      by_cases hih : i = h
      · rw [if_pos hih, hih]
        exact hI2 (by omega) c hc0 hcl hch
      · rw [if_neg hih]
        exact hI i hi0 hil htop hp
  · intro htc g hg0 hgl hgc
    rw [hv, hv, if_neg (by omega), if_pos hch, hwv]
    have := hI g hg0 hgl (by omega) (by omega)
    rw [hgc] at this
    exact this

/-- The parent moves down into the hole: the heap order, but for the children
of the new hole, is kept, and no child of the new hole is larger than `value`. -/
theorem push_step (xs : List weight) (first len top h : Nat) (p value : weight)
    (hlen : first + len ≤ xs.length) (hh : h < len) (hb : Below top h) (hth : top < h)
    (hp : xs[first + (h - 1) / 2]? = some p) (hlt : p.value < value.value)
    (hI : HeapBut xs first len top h) (hI2 : OverHole xs first len top h) :
    HeapBut (xs.set (first + h) p) first len top ((h - 1) / 2) ∧
      OverHole (xs.set (first + h) p) first len top ((h - 1) / 2) ∧
      ∀ c, 0 < c → c < len → (c - 1) / 2 = (h - 1) / 2 →
        valAt (xs.set (first + h) p) (first + c) ≤ value.value := by
  have hpv : p.value = valAt xs (first + (h - 1) / 2) := (valAt_of_getElem? hp).symm
  have hv := fun k => valAt_set_add xs first h k p (by omega)
  have hq := (hb.parent hth).le
  unfold HeapBut OverHole at *
  have hedge : ∀ g, 0 < g → g < len → (g - 1) / 2 = (h - 1) / 2 → g ≠ h →
      valAt xs (first + g) ≤ valAt xs (first + (h - 1) / 2) := by
    intro g hg0 hgl hgq hgh
    have := hI g hg0 hgl (by omega) (by omega)
    rw [hgq] at this
    exact this
  refine ⟨?_, ?_, ?_⟩
  · intro i hi0 hil htop hne
    rw [hv, hv]
    by_cases hih : i = h
    · omega
    · rw [if_neg hih]
      by_cases hph : (i - 1) / 2 = h
      · rw [if_pos hph, hpv]
        exact hI2 hth i hi0 hil hph
      · rw [if_neg hph]
        exact hI i hi0 hil htop hph
  · intro htq g hg0 hgl hgq
    have hqq := ((hb.parent hth).parent htq).le
    have hup : valAt xs (first + (h - 1) / 2) ≤ valAt xs (first + ((h - 1) / 2 - 1) / 2) :=
      hI ((h - 1) / 2) (by omega) (by omega) hqq (by omega)
    have h2 : valAt (xs.set (first + h) p) (first + ((h - 1) / 2 - 1) / 2) =
        valAt xs (first + ((h - 1) / 2 - 1) / 2) := by
      rw [hv, if_neg (by omega)]
    rw [h2, hv]
    by_cases hgh : g = h
    · rw [if_pos hgh, hpv]
      exact hup
    · rw [if_neg hgh]
      exact le_trans (hedge g hg0 hgl hgq hgh) hup
  · intro g hg0 hgl hgq
    rw [hv]
    by_cases hgh : g = h
    · rw [if_pos hgh]
      omega
    · rw [if_neg hgh]
      have := hedge g hg0 hgl hgq hgh
      omega

/-- The final store of `__push_heap` restores the heap order. -/
theorem fill_step (xs : List weight) (first len top h : Nat) (value : weight)
    (hlen : first + len ≤ xs.length) (hh : h < len) (hb : Below top h)
    (hstop : top < h → value.value ≤ valAt xs (first + (h - 1) / 2))
    (hI : HeapBut xs first len top h)
    (hJ : ∀ c, 0 < c → c < len → (c - 1) / 2 = h → valAt xs (first + c) ≤ value.value) :
    HeapFrom (xs.set (first + h) value) first len top := by
  have hv := fun k => valAt_set_add xs first h k value (by omega)
  have hle := hb.le
  unfold HeapBut HeapFrom at *
  intro i hi0 hil htop
  rw [hv, hv]
  by_cases hih : i = h
  · rw [if_pos hih, if_neg (by omega), hih]
    exact hstop (by omega)
  · rw [if_neg hih]
    by_cases hph : (i - 1) / 2 = h
    · rw [if_pos hph]
      exact hJ i hi0 hil hph
    · rw [if_neg hph]
      exact hI i hi0 hil htop hph

theorem pushHeap_spec (first len top : Nat) (value : weight) (fuel : Nat) (xs : List weight)
    (h : Nat) (hlen : first + len ≤ xs.length) (hh : h < len) (hb : Below top h)
    (hfuel : h < fuel) (hI : HeapBut xs first len top h) (hI2 : OverHole xs first len top h)
    (hJ : ∀ c, 0 < c → c < len → (c - 1) / 2 = h → valAt xs (first + c) ≤ value.value) :
    ∃ ys, pushHeap first top value fuel xs h = some ys ∧ HeapMove first len value xs ys ∧
      ys.Perm (xs.set (first + h) value) ∧ HeapFrom ys first len top := by
  induction fuel generalizing xs h with
  | zero => omega
  | succ fuel ih =>
    rw [pushHeap]
    have hfin : ∀ (hstop : top < h → value.value ≤ valAt xs (first + (h - 1) / 2)),
        ∃ ys, storeAt xs (first + h) value = some ys ∧ HeapMove first len value xs ys ∧
          ys.Perm (xs.set (first + h) value) ∧ HeapFrom ys first len top := by
      intro hstop
      exact ⟨_, storeAt_eq xs _ value (by omega),
        HeapMove.store first len value xs h value hh (Or.inl rfl), List.Perm.refl _,
        fill_step xs first len top h value hlen hh hb hstop hI hJ⟩
    by_cases hth : top < h
    · rw [if_pos hth]
      obtain ⟨p, hp1, hp2⟩ := exists_getElem? xs (first + (h - 1) / 2) (by omega)
      rw [hp1]
      simp only []
      by_cases hlt : p.value < value.value
      · rw [if_pos hlt, storeAt_eq xs _ p (by omega), Option.some_bind]
        obtain ⟨s1, s2, s3⟩ := push_step xs first len top h p value hlen hh hb hth hp1 hlt hI hI2
        obtain ⟨ys, hy1, hy2, hy3, hy4⟩ := ih (xs.set (first + h) p) ((h - 1) / 2)
          (by rw [List.length_set]; exact hlen) (by omega) (hb.parent hth) (by omega) s1 s2 s3
        refine ⟨ys, hy1, heapMove_trans (HeapMove.store first len value xs h p hh
          (Or.inr ⟨(h - 1) / 2, by omega, hp1⟩)) hy2, ?_, hy4⟩
        exact hy3.trans (perm_set_hole xs _ _ p value (by omega) hp1)
      · rw [if_neg hlt]
        exact hfin (fun _ => by omega)
    · rw [if_neg hth]
      exact hfin (fun hc => absurd hc hth)

theorem siftHole_spec (first len top : Nat) (value : weight) (fuel : Nat) (xs : List weight)
    (h : Nat) (hlen : first + len ≤ xs.length) (hh : h < len) (hb : Below top h)
    (hfuel : len - h ≤ fuel) (hI : HeapBut xs first len top h)
    (hI2 : OverHole xs first len top h) :
    ∃ ys h1, siftHole first len fuel xs h = some (ys, h1) ∧ h1 < len ∧ Below top h1 ∧
      ¬ h1 < (len - 1) / 2 ∧ HeapMove first len value xs ys ∧
      (∀ v, (ys.set (first + h1) v).Perm (xs.set (first + h) v)) ∧
      HeapBut ys first len top h1 ∧ OverHole ys first len top h1 := by
  induction fuel generalizing xs h with
  | zero => omega
  | succ fuel ih =>
    rw [siftHole]
    by_cases hc : h < (len - 1) / 2
    · rw [if_pos hc, compAt_eq xs _ _ (by omega) (by omega)]
      simp only []
      have step : ∀ child, 0 < child → child < len → (child - 1) / 2 = h →
          (∀ d, 0 < d → d < len → (d - 1) / 2 = h →
            valAt xs (first + d) ≤ valAt xs (first + child)) →
          ∃ ys h1, (assignAt xs (first + h) (first + child)).bind
              (fun xs1 => siftHole first len fuel xs1 child) = some (ys, h1) ∧ h1 < len ∧
            Below top h1 ∧ ¬ h1 < (len - 1) / 2 ∧ HeapMove first len value xs ys ∧
            (∀ v, (ys.set (first + h1) v).Perm (xs.set (first + h) v)) ∧
            HeapBut ys first len top h1 ∧ OverHole ys first len top h1 := by
        intro child hc0 hcl hch hmax
        obtain ⟨w, hw1, hw2⟩ := assignAt_eq xs (first + h) (first + child) (by omega) (by omega)
        obtain ⟨s1, s2⟩ := sift_step xs first len top h child w hlen hh hc0 hcl hch hw1 hmax hI hI2
        obtain ⟨ys, h1, e1, e2, e3, e4, e5, e6, e7, e8⟩ := ih (xs.set (first + h) w) child
          (by rw [List.length_set]; exact hlen) hcl (Below.child h child hb hc0 hch) (by omega)
          s1 s2
        rw [hw2, Option.some_bind]
        refine ⟨ys, h1, e1, e2, e3, e4, heapMove_trans (HeapMove.store first len value xs h w hh
          (Or.inr ⟨child, hcl, hw1⟩)) e5, ?_, e7, e8⟩
        intro v
        exact (e6 v).trans (perm_set_hole xs _ _ w v (by omega) hw1)
      have hkids : ∀ d, 0 < d → (d - 1) / 2 = h → d = 2 * (h + 1) - 1 ∨ d = 2 * (h + 1) := by
        intro d hd0 hd
        omega
      by_cases hcmp : valAt xs (first + 2 * (h + 1)) < valAt xs (first + (2 * (h + 1) - 1))
      · simp only [hcmp, decide_True, if_true]
        refine step (2 * (h + 1) - 1) (by omega) (by omega) (by omega) ?_
        intro d hd0 hdl hd
        rcases hkids d hd0 hd with rfl | rfl
        · exact le_refl _
        · exact le_of_lt hcmp
      · simp only [hcmp, decide_False, Bool.false_eq_true, if_false]
        refine step (2 * (h + 1)) (by omega) (by omega) (by omega) ?_
        intro d hd0 hdl hd
        rcases hkids d hd0 hd with rfl | rfl
        · omega
        · exact le_refl _
    · rw [if_neg hc]
      exact ⟨xs, h, rfl, hh, hb, hc, heapMove_refl _ _ _ _, fun _ => List.Perm.refl _, hI, hI2⟩

theorem lastChild_spec (first len top : Nat) (value : weight) (xs : List weight) (h : Nat)
    (hlen : first + len ≤ xs.length) (hh : h < len) (hb : Below top h)
    (hend : ¬ h < (len - 1) / 2) (hI : HeapBut xs first len top h)
    (hI2 : OverHole xs first len top h) :
    ∃ ys h1, lastChild first len (xs, h) = some (ys, h1) ∧ h1 < len ∧ Below top h1 ∧
      (∀ c, 0 < c → c < len → (c - 1) / 2 ≠ h1) ∧ HeapMove first len value xs ys ∧
      (∀ v, (ys.set (first + h1) v).Perm (xs.set (first + h) v)) ∧
      HeapBut ys first len top h1 ∧ OverHole ys first len top h1 := by
  unfold lastChild
  by_cases hc : len % 2 = 0 ∧ 2 ≤ len ∧ h = (len - 2) / 2
  · rw [if_pos hc]
    simp only []
    obtain ⟨w, hw1, hw2⟩ := assignAt_eq xs (first + h) (first + (2 * (h + 1) - 1)) (by omega)
      (by omega)
    obtain ⟨s1, s2⟩ := sift_step xs first len top h (2 * (h + 1) - 1) w hlen hh (by omega)
      (by omega) (by omega) hw1 (by
        intro d hd0 hdl hd
        have : d = 2 * (h + 1) - 1 := by omega
        rw [this]) hI hI2
    rw [hw2, Option.map_some']
    refine ⟨_, _, rfl, by omega, Below.child h _ hb (by omega) (by omega), ?_,
      HeapMove.store first len value xs h w hh (Or.inr ⟨2 * (h + 1) - 1, by omega, hw1⟩), ?_,
      s1, s2⟩
    · intro c hc0 hcl
      omega
    · intro v
      exact perm_set_hole xs _ _ w v (by omega) hw1
  · rw [if_neg hc]
    refine ⟨xs, h, rfl, hh, hb, ?_, heapMove_refl _ _ _ _, fun _ => List.Perm.refl _, hI, hI2⟩
    intro c hc0 hcl
    omega

/-- The routine `__adjust_heap` on a part whose nodes below `hole` are in heap
order: it stays inside the part, puts `value` in place of the element at the
hole, and leaves the nodes from `hole` on in heap order. -/
theorem adjustHeap_spec (xs : List weight) (first hole len : Nat) (value : weight)
    (hlen : first + len ≤ xs.length) (hh : hole < len)
    (hheap : HeapFrom xs first len (hole + 1)) :
    ∃ ys, adjustHeap xs first hole len value = some ys ∧ HeapMove first len value xs ys ∧
      ys.Perm (xs.set (first + hole) value) ∧ HeapFrom ys first len hole := by
  obtain ⟨y1, h1, a1, a2, a3, a4, a5, a6, a7, a8⟩ := siftHole_spec first len hole value
    (len + 1) xs hole hlen hh Below.refl (by omega)
    (fun i hi0 hil htop hne => hheap i hi0 hil (by omega)) (fun hc => by omega)
  obtain ⟨y2, h2, b1, b2, b3, b4, b5, b6, b7, b8⟩ := lastChild_spec first len hole value y1 h1
    (by rw [a5.size]; exact hlen) a2 a3 a4 a7 a8
  obtain ⟨y3, c1, c2, c3, c4⟩ := pushHeap_spec first len hole value (len + 1) y2 h2
    (by rw [b5.size, a5.size]; exact hlen) b2 b3 (by omega) b7 b8
    (fun c hc0 hcl hch => absurd hch (b4 c hc0 hcl))
  unfold adjustHeap
  simp only [a1, b1, c1, Option.bind_eq_bind, Option.some_bind]
  exact ⟨y3, rfl, heapMove_trans (heapMove_trans a5 b5) c2, c3.trans ((b6 value).trans (a6 value)), c4⟩

theorem HeapFrom.root_max {xs : List weight} {first len : Nat} (h : HeapFrom xs first len 0)
    (i : Nat) (hi : i < len) : valAt xs (first + i) ≤ valAt xs first := by
  induction i using Nat.strong_induction_on with
  | _ i ih =>
    by_cases h0 : i = 0
    · rw [h0]; exact le_refl _
    · exact le_trans (h i (by omega) hi (Nat.zero_le _)) (ih ((i - 1) / 2) (by omega) (by omega))

/-- A heap move that stores an element of the part is a move inside the part. -/
theorem HeapMove.within {first len : Nat} {value : weight} {xs ys : List weight}
    (h : HeapMove first len value xs ys) (hv : ∃ j, j < len ∧ xs[first + j]? = some value)
    (hp : ys.Perm xs) : Within first (first + len) xs ys := by
  refine ⟨h.size, h.out, hp, ?_⟩
  intro i hi1 hi2 w hw
  have hi : i = first + (i - first) := by omega
  rw [hi] at hw
  rcases h.mem (i - first) (by omega) w hw with hwv | ⟨j, hj1, hj2⟩
  · obtain ⟨j, hj1, hj2⟩ := hv
    exact ⟨first + j, by omega, by omega, by rw [hwv]; exact hj2⟩
  · exact ⟨first + j, by omega, by omega, hj2⟩

/-- The routine `__pop_heap(first, last, last)` on a heap that also holds the
element at `last`: the largest element goes to `last` and the rest is a heap. -/
theorem popHeap_spec (xs : List weight) (first last : Nat) (hfl : first < last)
    (hl : last < xs.length) (hheap : HeapFrom xs first (last - first + 1) 0) :
    ∃ ys, popHeap xs first last last = some ys ∧ Within first (last + 1) xs ys ∧
      HeapFrom ys first (last - first) 0 ∧ valAt ys last = valAt xs first := by
  obtain ⟨value, hv1, hv2⟩ := exists_getElem? xs last hl
  obtain ⟨f, hf1, hf2⟩ := assignAt_eq xs last first hl (by omega)
  have hx1 : ∀ i, i ≠ last → (xs.set last f)[i]? = xs[i]? := fun i hi =>
    List.getElem?_set_ne (Ne.symm hi)
  obtain ⟨ys, hy1, hy2, hy3, hy4⟩ := adjustHeap_spec (xs.set last f) first 0 (last - first) value
    (by rw [List.length_set]; omega) (by omega) (by
      intro i hi0 hil htop
      rw [valAt_congr (hx1 (first + i) (by omega)),
        valAt_congr (hx1 (first + (i - 1) / 2) (by omega))]
      exact hheap i hi0 (by omega) (Nat.zero_le _))
  unfold popHeap
  simp only [hv1, hf2, hy1, Option.bind_eq_bind, Option.some_bind]
  have hylast : ys[last]? = some f := by
    rw [hy2.out last (by omega), List.getElem?_set_self hl]
  refine ⟨ys, rfl, ⟨by rw [hy2.size, List.length_set], ?_, ?_, ?_⟩, hy4, ?_⟩
  · intro i hi
    rw [hy2.out i (by omega), hx1 i (by omega)]
  · exact hy3.trans (perm_set_set xs last (first + 0) value f hv1 hf1)
  · intro i hi1 hi2 w hw
    by_cases hil : i = last
    · rw [hil, hylast] at hw
      exact ⟨first, le_refl _, by omega, by rw [hf1]; exact hw⟩
    · have hi : i = first + (i - first) := by omega
      rw [hi] at hw
      rcases hy2.mem (i - first) (by omega) w hw with hwv | ⟨j, hj1, hj2⟩
      · exact ⟨last, by omega, by omega, by rw [hwv]; exact hv1⟩
      · rw [hx1 (first + j) (by omega)] at hj2
        exact ⟨first + j, by omega, by omega, hj2⟩
  · rw [valAt_of_getElem? hylast, valAt_of_getElem? hf1]

/-- The routine `__sort_heap` on a heap of `n` elements below a part that is in
order and not smaller: the whole range ends in ascending order. -/
theorem sortHeap_spec (first hi n : Nat) (xs : List weight) (hn : first + n ≤ hi)
    (hh : hi ≤ xs.length) (hheap : HeapFrom xs first n 0)
    (hup : ∀ i j, first + n ≤ i → i ≤ j → j < hi → valAt xs i ≤ valAt xs j)
    (hsep : ∀ i j, first ≤ i → i < first + n → first + n ≤ j → j < hi →
      valAt xs i ≤ valAt xs j) :
    ∃ ys, sortHeap first n xs = some ys ∧ Within first hi xs ys ∧
      ∀ i j, first ≤ i → i ≤ j → j < hi → valAt ys i ≤ valAt ys j := by
  induction n generalizing xs with
  | zero =>
    exact ⟨xs, rfl, Within.refl _ _ _, fun i j h1 h2 h3 => hup i j (by omega) h2 h3⟩
  | succ n ih =>
    rw [sortHeap]
    by_cases h1 : 1 < n + 1
    · rw [if_pos h1]
      have e1 : first + n - first + 1 = n + 1 := by omega
      have e2 : first + n - first = n := by omega
      obtain ⟨ys1, hp1, hw, hheap1, hroot⟩ := popHeap_spec xs first (first + n) (by omega)
        (by omega) (by rw [e1]; exact hheap)
      rw [e2] at hheap1
      have hrm : ∀ k, first ≤ k → k < first + n + 1 → valAt xs k ≤ valAt xs first := by
        intro k hk1 hk2
        have := hheap.root_max (k - first) (by omega)
        rw [show first + (k - first) = k by omega] at this
        exact this
      have hb1 := hw.bound (by omega) (fun x => x ≤ valAt xs first) hrm
      obtain ⟨ys, hy1, hy2, hy3⟩ := ih ys1 (by omega) (by rw [hw.len]; exact hh) hheap1
        (by
          intro i j hi hij hj
          by_cases hin : i = first + n
          · by_cases hji : j = i
            · rw [hji]
            · rw [hin, hroot, hw.valAt_out j (Or.inr (by omega))]
              exact hsep first j (le_refl _) (by omega) (by omega) hj
          · rw [hw.valAt_out i (Or.inr (by omega)), hw.valAt_out j (Or.inr (by omega))]
            exact hup i j (by omega) hij hj)
        (by
          intro i j hi1 hi2 hj1 hj2
          by_cases hjn : j = first + n
          · rw [hjn, hroot]
            exact hb1 i hi1 (by omega)
          · rw [hw.valAt_out j (Or.inr (by omega))]
            exact hw.bound (by omega) (fun x => x ≤ valAt xs j)
              (fun k hk1 hk2 => hsep k j hk1 (by omega) (by omega) hj2) i hi1 (by omega))
      rw [hp1, Option.some_bind]
      exact ⟨ys, hy1, (hw.mono (le_refl _) (by omega)).trans hy2, hy3⟩
    · rw [if_neg h1]
      refine ⟨xs, rfl, Within.refl _ _ _, ?_⟩
      intro i j hi hij hj
      by_cases hif : i = first
      · by_cases hji : j = i
        · rw [hji]
        · exact hsep i j hi (by omega) (by omega) hj
      · exact hup i j (by omega) hij hj

theorem makeHeapLoop_spec (first len parent : Nat) (xs : List weight)
    (hlen : first + len ≤ xs.length) (hp : parent < len)
    (hheap : HeapFrom xs first len (parent + 1)) :
    ∃ ys, makeHeapLoop first len parent xs = some ys ∧ Within first (first + len) xs ys ∧
      HeapFrom ys first len 0 := by
  induction parent generalizing xs with
  | zero =>
    obtain ⟨value, hv1, _⟩ := exists_getElem? xs first (by omega)
    obtain ⟨ys, hy1, hy2, hy3, hy4⟩ := adjustHeap_spec xs first 0 len value hlen hp hheap
    rw [makeHeapLoop]
    simp only [hv1, hy1, Option.bind_eq_bind, Option.some_bind]
    rw [Nat.add_zero, set_of_getElem? xs first value hv1] at hy3
    exact ⟨ys, rfl, hy2.within ⟨0, hp, hv1⟩ hy3, hy4⟩
  | succ parent ih =>
    obtain ⟨value, hv1, _⟩ := exists_getElem? xs (first + (parent + 1)) (by omega)
    obtain ⟨ys, hy1, hy2, hy3, hy4⟩ := adjustHeap_spec xs first (parent + 1) len value hlen hp
      hheap
    rw [set_of_getElem? xs _ value hv1] at hy3
    have hw := hy2.within ⟨parent + 1, hp, hv1⟩ hy3
    obtain ⟨zs, hz1, hz2, hz3⟩ := ih ys (by rw [hw.len]; exact hlen) (by omega) hy4
    rw [makeHeapLoop]
    simp only [hv1, hy1, hz1, Option.bind_eq_bind, Option.some_bind]
    exact ⟨zs, rfl, hw.trans hz2, hz3⟩

theorem makeHeap_spec (xs : List weight) (first last : Nat) (hl : last ≤ xs.length) :
    ∃ ys, makeHeap xs first last = some ys ∧ Within first last xs ys ∧
      HeapFrom ys first (last - first) 0 := by
  unfold makeHeap
  by_cases hc : last - first < 2
  · rw [if_pos hc]
    exact ⟨xs, rfl, Within.refl _ _ _, fun i hi0 hil _ => by omega⟩
  · rw [if_neg hc]
    obtain ⟨ys, hy1, hy2, hy3⟩ := makeHeapLoop_spec first (last - first)
      ((last - first - 2) / 2) xs (by omega) (by omega) (fun i hi0 hil htop => by omega)
    exact ⟨ys, hy1, hy2.mono (le_refl _) (by omega), hy3⟩

/-- The heapsort fallback `__partial_sort(first, last, last)` stays inside the
range and leaves it in ascending order. -/
theorem partialSort_spec (xs : List weight) (first last : Nat) (hfl : first ≤ last)
    (hl : last ≤ xs.length) :
    ∃ ys, partialSort xs first last last = some ys ∧ Within first last xs ys ∧
      ∀ i j, first ≤ i → i ≤ j → j < last → valAt ys i ≤ valAt ys j := by
  obtain ⟨ys, hy1, hy2, hy3⟩ := makeHeap_spec xs first last hl
  obtain ⟨zs, hz1, hz2, hz3⟩ := sortHeap_spec first last (last - first) ys (by omega)
    (by rw [hy2.len]; exact hl) hy3 (fun i j h1 h2 h3 => by omega)
    (fun i j h1 h2 h3 h4 => by omega)
  unfold partialSort heapSelect
  simp only [hy1, Nat.sub_self, selectLoop, hz1, Option.bind_eq_bind, Option.some_bind]
  exact ⟨zs, rfl, hy2.trans hz2, hz3⟩

/-- The quicksort phase of the library sort stays inside the range on every
vector; it rearranges the range, and the range it leaves is guarded. -/
theorem introsortLoop_spec (depth : Nat) (xs : List weight) (lo hi : Nat)
    (hh : hi ≤ xs.length) :
    ∃ ys, introsortLoop depth xs lo hi = some ys ∧ Within lo hi xs ys ∧ Guarded ys lo hi ∧
      (hi - lo ≤ 16 → ys = xs) := by
  induction depth generalizing xs lo hi with
  | zero =>
    rw [introsortLoop]
    by_cases hc : 16 < hi - lo
    · rw [if_pos hc]
      obtain ⟨ys, hy1, hy2, hy3⟩ := partialSort_spec xs lo hi (by omega) hh
      refine ⟨ys, hy1, hy2, ?_, fun h => by omega⟩
      intro i hi1 hi2
      exact ⟨i - 1, by omega, by omega, hy3 (i - 1) i (by omega) (by omega) hi2⟩
    · rw [if_neg hc]
      exact ⟨xs, rfl, Within.refl _ _ _, fun i h1 h2 => by omega, fun _ => rfl⟩
  | succ depth ih =>
    rw [introsortLoop]
    by_cases hc : 16 < hi - lo
    · rw [if_pos hc]
      obtain ⟨r1, c, P, hp1, hp2, hp3, hp4, hp5, hp6⟩ := unguardedPartitionPivot_spec xs lo hi
        hc hh
      obtain ⟨ys1, ha1, ha2, _, _⟩ := ih r1 c hi (by rw [hp2.len]; exact hh)
      obtain ⟨ys2, hb1, hb2, hb3, _⟩ := ih ys1 lo c (by rw [ha2.len, hp2.len]; omega)
      simp only [hp1, ha1, hb1, Option.bind_eq_bind, Option.some_bind]
      refine ⟨ys2, rfl, (hp2.trans (ha2.mono (by omega) (le_refl _))).trans
        (hb2.mono (le_refl _) (by omega)), ?_, fun h => by omega⟩
      have hleft : ∀ i, lo ≤ i → i < c → valAt ys2 i ≤ P :=
        hb2.bound (by rw [ha2.len, hp2.len]; omega) (fun x => x ≤ P) (by
          intro i hi1 hi2
          rw [ha2.valAt_out i (Or.inl hi2)]
          exact hp5 i hi1 hi2)
      have hright : ∀ i, c ≤ i → i < hi → P ≤ valAt ys2 i := by
        intro i hi1 hi2
        rw [hb2.valAt_out i (Or.inr hi1)]
        exact ha2.bound (by rw [hp2.len]; exact hh) (fun x => P ≤ x) hp6 i hi1 hi2
      intro i hi1 hi2
      by_cases hic : i < c
      · obtain ⟨j, hj1, hj2, hj3⟩ := hb3 i hi1 hic
        exact ⟨j, hj1, hj2, hj3⟩
      · exact ⟨lo, le_refl _, by omega,
          le_trans (hleft lo (le_refl _) hp3) (hright i (by omega) hi2)⟩
    · rw [if_neg hc]
      exact ⟨xs, rfl, Within.refl _ _ _, fun i h1 h2 => by omega, fun _ => rfl⟩

/-- The library sort returns on every vector: its result is the insertion sort
from front to back of a rearrangement of the vector, which is the vector itself
when it has at most 16 elements. -/
theorem stdSort_eq (xs : List weight) :
    ∃ zs, zs.Perm xs ∧ (xs.length ≤ 16 → zs = xs) ∧ stdSort xs = some (insertAll [] zs) := by
  unfold stdSort
  by_cases hc : xs.length = 0
  · rw [if_pos hc]
    have : xs = [] := List.length_eq_zero.1 hc
    subst this
    exact ⟨[], List.Perm.refl _, fun _ => rfl, rfl⟩
  · rw [if_neg hc]
    obtain ⟨zs, hz1, hz2, hz3, hz4⟩ := introsortLoop_spec (lg xs.length xs.length * 2) xs 0
      xs.length (le_refl _)
    have hlen := hz2.len
    rw [hz1, Option.some_bind, ← hz2.len]
    refine ⟨zs, hz2.perm, fun h => hz4 (by omega), ?_⟩
    apply finalInsertionSort_eq
    · intro h
      rw [h] at hz2
      exact hc hz2.len.symm
    · intro i hi1 hi2
      obtain ⟨j, _, hj2, hj3⟩ := hz3 i (by omega) (by rw [← hz2.len]; exact hi2)
      exact ⟨j, hj2, hj3⟩

theorem stdSort_total (xs : List weight) :
    ∃ ys, stdSort xs = some ys ∧ ys.Perm xs ∧ ys.Pairwise (fun a b => a.value ≤ b.value) := by
  obtain ⟨zs, hz1, _, hz3⟩ := stdSort_eq xs
  refine ⟨_, hz3, ?_, insertAll_sorted [] zs List.Pairwise.nil⟩
  exact ((insertAll_perm [] zs).trans (by simp)).trans hz1

theorem stdSort_librarySort (xs : List weight) : stdSort xs = some (librarySort xs) := by
  obtain ⟨ys, hy, _, _⟩ := stdSort_total xs
  unfold librarySort
  rw [hy]

theorem librarySort_std : StdSort librarySort := by
  intro l
  obtain ⟨ys, hy, hp, hs⟩ := stdSort_total l
  have : librarySort l = ys := by
    unfold librarySort
    rw [hy]
  rw [this]
  exact ⟨hp, hs.imp (fun h => by omega)⟩

/-- With at most 16 elements the library sort is the insertion sort from front
to back, which keeps elements of equal value in their order. -/
theorem stdSort_small (xs : List weight) (h : xs.length ≤ 16) :
    stdSort xs = some (insertAll [] xs) ∧ ∀ v, ofValue v (insertAll [] xs) = ofValue v xs := by
  obtain ⟨zs, _, hz2, hz3⟩ := stdSort_eq xs
  rw [hz2 h] at hz3
  refine ⟨hz3, fun v => ?_⟩
  rw [insertAll_ofValue]
  rfl

/-! ## Claims C7 - C10 -/

/-- C9. The distance lookup is symmetric: `distance(i, j) = distance(j, i)` for
all node ids (both lookups succeed together or fail together), and for `i ≠ j`
both are the stored entry `matrix[max(i,j)][min(i,j)]`. -/
theorem distance_symmetric (g : graph) (i j : Nat) :
    g.distance i j = g.distance j i ∧
    (i ≠ j → g.distance i j = matAt g.matrix (max i j) (min i j) ∧
      g.distance j i = matAt g.matrix (max i j) (min i j)) := by
  unfold graph.distance
  rcases Nat.lt_trichotomy i j with h | h | h
  · rw [if_pos h, if_neg (by omega), max_eq_right (by omega), min_eq_left (by omega)]
    exact ⟨rfl, fun _ => ⟨rfl, rfl⟩⟩
  · subst h
    exact ⟨rfl, fun hne => absurd rfl hne⟩
  · rw [if_pos h, if_neg (by omega), max_eq_left (by omega), min_eq_right (by omega)]
    exact ⟨rfl, fun _ => ⟨rfl, rfl⟩⟩

/-- C10, as stated, fails: `distance(i, i)` is the stored diagonal entry.  On the
lower-triangular rows `[5]`, `[10, 7]` the lookup `distance(0, 0)` returns 5, and
on the scenario rows `[]`, `[10]`, `[15, 35]`, `[20, 25, 30]`, which store no
diagonal, `distance(0, 0)` throws. -/
theorem distance_self_counterexample :
    LowerTriangular [[5], [10, 7]] ∧
    0 < (readGraph [[5], [10, 7]]).numNodes ∧
    (readGraph [[5], [10, 7]]).distance 0 0 = some 5 ∧
    0 < (readGraph scenarioRows).numNodes ∧
    (readGraph scenarioRows).distance 0 0 = none := by
  decide

/-- C10, amended. When every input row stores a zero at its diagonal position,
`distance(i, i)` returns 0 for every node id `i` in `[0, numNodes)`. -/
theorem distance_self_zero (rows : List (List Int)) (hz : ZeroDiagonal rows) (i : Nat)
    (hi : i < (readGraph rows).numNodes) : (readGraph rows).distance i i = some 0 := by
  rw [readGraph_numNodes] at hi
  unfold graph.distance
  rw [if_neg (Nat.lt_irrefl i), readGraph_matAt]
  exact hz i hi

theorem distance_self_zero_witness :
    ZeroDiagonal [[0], [10, 0], [15, 35, 0]] ∧
    (readGraph [[0], [10, 0], [15, 35, 0]]).distance 2 2 = some 0 :=
  ⟨by decide, distance_self_zero [[0], [10, 0], [15, 35, 0]] (by decide) 2 (by decide)⟩

/-- C8, as stated, fails: the edge read from row 1, column 0 of the scenario
matrix is the triple `(10, from = 1, to = 0)`, whose `from` is not below its `to`. -/
theorem weights_from_lt_to_counterexample :
    WellFormed [[0], [10, 0]] ∧
    (readGraph [[0], [10, 0]]).weights = [⟨10, 1, 0⟩] ∧
    ∃ w ∈ (readGraph [[0], [10, 0]]).weights, ¬ w.fromNode < w.toNode := by
  decide

/-- C8, amended. For every lower-triangular input with zero diagonal, every
triple of the weights list has `to < from < numNodes`, a non-zero value, and
`value = distance(from, to)`; and for each pair `j < i` of nodes whose stored
distance `v` is non-zero the list holds the triple `(v, i, j)` exactly once. -/
theorem weights_contents (rows : List (List Int)) (hlt : LowerTriangular rows)
    (hz : ZeroDiagonal rows) :
    (∀ w ∈ (readGraph rows).weights,
      w.toNode < w.fromNode ∧ w.fromNode < (readGraph rows).numNodes ∧ w.value ≠ 0 ∧
        (readGraph rows).distance w.fromNode w.toNode = some w.value) ∧
    (∀ i j v, j < i → (readGraph rows).distance i j = some v → v ≠ 0 →
      (readGraph rows).weights.count ⟨v, i, j⟩ = 1) := by
  constructor
  · intro w hw
    rw [readGraph_numNodes]
    exact weights_sound rows hlt hz w hw
  · intro i j v hji hd hv
    unfold graph.distance at hd
    rw [if_neg (by omega), readGraph_matAt] at hd
    exact weights_complete rows i j v hd hv

theorem weights_contents_witness :
    LowerTriangular [[0], [10, 0], [15, 0, 0]] ∧ ZeroDiagonal [[0], [10, 0], [15, 0, 0]] ∧
    ((∀ w ∈ (readGraph [[0], [10, 0], [15, 0, 0]]).weights,
      w.toNode < w.fromNode ∧ w.fromNode < (readGraph [[0], [10, 0], [15, 0, 0]]).numNodes ∧
        w.value ≠ 0 ∧
        (readGraph [[0], [10, 0], [15, 0, 0]]).distance w.fromNode w.toNode = some w.value) ∧
    (∀ i j v, j < i → (readGraph [[0], [10, 0], [15, 0, 0]]).distance i j = some v → v ≠ 0 →
      (readGraph [[0], [10, 0], [15, 0, 0]]).weights.count ⟨v, i, j⟩ = 1)) :=
  ⟨by decide, by decide, weights_contents [[0], [10, 0], [15, 0, 0]] (by decide) (by decide)⟩

set_option maxRecDepth 20000 in
/-- C7, as stated, fails: `std::sort` does not keep equal values in discovery
order.  In the seven-node matrix `tieRows` the distance 2 is discovered at row 6,
column 2 and then at row 6, column 4; the library sort, run on the 21 weights,
leaves the weight `(2,6,4)` before the weight `(2,6,2)`, and the edge loop
accepts the edge between 6 and 4 and rejects the edge between 6 and 2, the one
discovered first.  The program prints the tour 0 2 3 5 6 4 1 0 of weight 47; with
the equal weights in discovery order it would print 1 4 0 3 5 6 2 1 of weight 50. -/
theorem sortWeghts_unstable_counterexample :
    WellFormed tieRows ∧
    ofValue 2 (readGraph tieRows).weights = [⟨2, 6, 2⟩, ⟨2, 6, 4⟩] ∧
    (stdSort (readGraph tieRows).weights).map (ofValue 2) = some [⟨2, 6, 4⟩, ⟨2, 6, 2⟩] ∧
    (edgeTrace (initState librarySort tieRows)
        (initState librarySort tieRows).myGraph.weights).filter
      (fun p => decide (p.1.value = 2)) = [(⟨2, 6, 4⟩, true), (⟨2, 6, 2⟩, false)] ∧
    (original librarySort tieRows).map (fun st => (printed st, st.globalTotalWeight)) =
      some ([0, 2, 3, 5, 6, 4, 1, 0], 47) ∧
    (original insertionSortWeights tieRows).map (fun st => (printed st, st.globalTotalWeight)) =
      some ([1, 4, 0, 3, 5, 6, 2, 1], 50) :=
  ⟨by decide, by decide, by decide, by decide, by decide, by decide⟩

/-- C7, amended. After `sortWeghts`, which runs `std::sort` of the library, the
weights list is a permutation of the list built by `addWeight` and is ascending
by value; when the list has at most 16 weights, any two weights of equal value
appear in the same relative order as they were discovered (the sort is then an
insertion sort that moves a weight only past larger ones), and when no two
weights have the same value the order is fully determined.  The edge loop takes
the weights in the order of this list. -/
theorem sortWeghts_sorted_perm (g : graph) (rows : List (List Int)) :
    ∃ ys, stdSort g.weights = some ys ∧ (g.sortWeghts librarySort).weights = ys ∧
      ys.Perm g.weights ∧ ys.Pairwise (fun a b => a.value ≤ b.value) ∧
      (g.weights.length ≤ 16 → ys = insertAll [] g.weights ∧
        ∀ v, ofValue v ys = ofValue v g.weights) ∧
      ((g.weights.map weight.value).Nodup → ys = insertionSortWeights g.weights) ∧
      (g = readGraph rows → (initState librarySort rows).myGraph.weights = ys) := by
  refine ⟨librarySort g.weights, stdSort_librarySort g.weights, rfl,
    (librarySort_std g.weights).1, (librarySort_std g.weights).2.imp (fun h => not_lt.mp h),
    ?_, sort_unique librarySort librarySort_std g.weights, ?_⟩
  · intro h16
    have h1 := stdSort_librarySort g.weights
    rw [(stdSort_small g.weights h16).1] at h1
    have h2 : librarySort g.weights = insertAll [] g.weights := (Option.some.inj h1).symm
    rw [h2]
    exact ⟨rfl, (stdSort_small g.weights h16).2⟩
  · intro hg
    rw [hg]
    rfl

theorem sortWeghts_sorted_perm_witness :
    (readGraph [[0], [5, 0], [5, 1, 0]]).weights = [⟨5, 1, 0⟩, ⟨5, 2, 0⟩, ⟨1, 2, 1⟩] ∧
    stdSort (readGraph [[0], [5, 0], [5, 1, 0]]).weights =
      some [⟨1, 2, 1⟩, ⟨5, 1, 0⟩, ⟨5, 2, 0⟩] ∧
    ∃ ys, stdSort (readGraph [[0], [5, 0], [5, 1, 0]]).weights = some ys ∧
      ((readGraph [[0], [5, 0], [5, 1, 0]]).sortWeghts librarySort).weights = ys ∧
      ys.Perm (readGraph [[0], [5, 0], [5, 1, 0]]).weights ∧
      ys.Pairwise (fun a b => a.value ≤ b.value) ∧
      ((readGraph [[0], [5, 0], [5, 1, 0]]).weights.length ≤ 16 →
        ys = insertAll [] (readGraph [[0], [5, 0], [5, 1, 0]]).weights ∧
        ∀ v, ofValue v ys = ofValue v (readGraph [[0], [5, 0], [5, 1, 0]]).weights) ∧
      (((readGraph [[0], [5, 0], [5, 1, 0]]).weights.map weight.value).Nodup →
        ys = insertionSortWeights (readGraph [[0], [5, 0], [5, 1, 0]]).weights) ∧
      (readGraph [[0], [5, 0], [5, 1, 0]] = readGraph [[0], [5, 0], [5, 1, 0]] →
        (initState librarySort [[0], [5, 0], [5, 1, 0]]).myGraph.weights = ys) :=
  ⟨by decide, by decide,
    sortWeghts_sorted_perm (readGraph [[0], [5, 0], [5, 1, 0]]) [[0], [5, 0], [5, 1, 0]]⟩

/-! ## Claim C4: the concrete scenario -/

theorem scenario_sorted (sort : List weight → List weight) (hs : StdSort sort) :
    sort (readGraph scenarioRows).weights = insertionSortWeights (readGraph scenarioRows).weights :=
  sort_unique sort hs _ (by decide)

/-- C4. On the rows `[]`, `[10]`, `[15,35]`, `[20,25,30]`, with any conforming
sort, the edge loop accepts `(1,0,10)`, `(2,0,15)`, `(3,1,25)` in that order and
rejects `(3,0,20)`, `(3,2,30)`, `(2,1,35)`; the closer appends `Connection(2,3)`
of distance 30 and retracing starts at node 2; the produced sequence is
`2,0,1,3,2` and the reported total is 80. -/
theorem scenario_run (sort : List weight → List weight) (hs : StdSort sort) :
    edgeTrace (initState sort scenarioRows) (initState sort scenarioRows).myGraph.weights =
      [(⟨10, 1, 0⟩, true), (⟨15, 2, 0⟩, true), (⟨20, 3, 0⟩, false),
       (⟨25, 3, 1⟩, true), (⟨30, 3, 2⟩, false), (⟨35, 2, 1⟩, false)] ∧
    (cycleBuilder (initState sort scenarioRows)
        (initState sort scenarioRows).myGraph.weights).map
      (fun st1 => (st1.myGraph.connectedNodes, st1.globalTotalWeight, st1.myGraph.distance 2 3)) =
      some ([⟨1, 0, false⟩, ⟨2, 0, false⟩, ⟨3, 1, false⟩], 50, some 30) ∧
    ((cycleBuilder (initState sort scenarioRows)
        (initState sort scenarioRows).myGraph.weights).bind cycleCloser).map
      (fun r => (r.1.myGraph.connectedNodes, r.1.globalTotalWeight, r.2)) =
      some ([⟨1, 0, false⟩, ⟨2, 0, false⟩, ⟨3, 1, false⟩, ⟨2, 3, false⟩], 80, 2) ∧
    (original sort scenarioRows).map
      (fun st => (st.myGraph.pathTaken, printed st, st.globalTotalWeight)) =
      some ([2, 0, 1, 3, 2], [2, 0, 1, 3, 2], 80) := by
  rw [initState_congr sort insertionSortWeights scenarioRows (scenario_sorted sort hs),
    original_congr sort insertionSortWeights scenarioRows (scenario_sorted sort hs)]
  decide

theorem scenario_run_witness :
    StdSort insertionSortWeights ∧
    (original insertionSortWeights scenarioRows).map
      (fun st => (st.myGraph.pathTaken, printed st, st.globalTotalWeight)) =
      some ([2, 0, 1, 3, 2], [2, 0, 1, 3, 2], 80) :=
  ⟨insertionSortWeights_std, (scenario_run insertionSortWeights insertionSortWeights_std).2.2.2⟩

/-! ## Claims C1, C2, C5: validity, accounting and the degree bound -/

/-- C1. Validity of the original algorithm: for every well-formed
lower-triangular distance matrix with at least two nodes (and every conforming
sort) the run ends normally, `pathTaken` has length `numNodes + 1`, its first
`numNodes` entries are a permutation of the node ids `0 .. numNodes-1`, and its
last entry equals its first entry. -/
theorem original_validity (sort : List weight → List weight) (hs : StdSort sort)
    (rows : List (List Int)) (hwf : WellFormed rows) (hn : 2 ≤ rows.length) :
    ∃ st, original sort rows = some st ∧
      st.myGraph.numNodes = rows.length ∧
      st.myGraph.pathTaken.length = st.myGraph.numNodes + 1 ∧
      (st.myGraph.pathTaken.take st.myGraph.numNodes).Perm (List.range st.myGraph.numNodes) ∧
      st.myGraph.pathTaken.getLast? = st.myGraph.pathTaken.head? ∧
      printed st = st.myGraph.pathTaken := by
  obtain ⟨st1, st2, lo, rest, _, _, horig, hperm, hpt, hnum, _⟩ :=
    original_run sort hs rows hwf hn
  have hlen : (lo :: rest).length = rows.length := by
    rw [hperm.length_eq]; simp
  have hlen2 : (retrace st2 lo).myGraph.pathTaken.length = rows.length + 1 := by
    rw [hpt, List.length_append, hlen]; rfl
  refine ⟨_, horig, hnum, by rw [hnum, hlen2], ?_, ?_, ?_⟩
  · rw [hnum, hpt, ← hlen, List.take_left]
    rw [hlen]
    exact hperm
  · rw [hpt]
    show ((lo :: rest) ++ [lo]).getLast? = some lo
    rw [List.getLast?_append]
    rfl
  · unfold printed
    rw [List.take_of_length_le]
    rw [hlen2, hnum]

theorem original_validity_witness :
    StdSort insertionSortWeights ∧ WellFormed wellFormedRows ∧
    ∃ st, original insertionSortWeights wellFormedRows = some st ∧
      st.myGraph.numNodes = wellFormedRows.length ∧
      st.myGraph.pathTaken.length = st.myGraph.numNodes + 1 ∧
      (st.myGraph.pathTaken.take st.myGraph.numNodes).Perm (List.range st.myGraph.numNodes) ∧
      st.myGraph.pathTaken.getLast? = st.myGraph.pathTaken.head? ∧
      printed st = st.myGraph.pathTaken :=
  ⟨insertionSortWeights_std, by decide,
    original_validity insertionSortWeights insertionSortWeights_std wellFormedRows
      (by decide) (by decide)⟩

/-- C2, as stated, fails: `globalTotalWeight` is a 32-bit `int`.  On the
well-formed matrix whose three distances are all `INT_MAX` the run reports the
sequence `1,0,2,1` with total 2147483645 (the second accepted edge makes the
`int` wrap around to -2), while the sum of `distance(seq[i], seq[i+1])` over the
sequence is 6442450941. -/
theorem original_accounting_counterexample :
    WellFormed intMaxEdgeRows ∧
    (original librarySort intMaxEdgeRows).map
      (fun st => (st.myGraph.numNodes, st.myGraph.pathTaken, st.globalTotalWeight,
        tourSum st.myGraph st.myGraph.pathTaken st.myGraph.numNodes)) =
      some (3, [1, 0, 2, 1], 2147483645, 6442450941) := by
  decide

/-- C2, amended. Accounting of the original algorithm: for every well-formed
distance matrix with at least two nodes and no negative entry the run ends
normally, `pathTaken` has `numNodes + 1` entries, each lookup
`distance(seq[i], seq[i+1])`, `i = 0 .. numNodes-1`, over `seq = pathTaken` has a
value, and whenever the sum of these distances is at most `INT_MAX` the reported
total `globalTotalWeight` is that sum. -/
theorem original_accounting (sort : List weight → List weight) (hs : StdSort sort)
    (rows : List (List Int)) (hwf : WellFormed rows) (hn : 2 ≤ rows.length)
    (hnn : NonNegative rows) :
    ∃ st, original sort rows = some st ∧
      st.myGraph.pathTaken.length = st.myGraph.numNodes + 1 ∧
      (∀ i < st.myGraph.numNodes,
        ∃ d, st.myGraph.distance (st.myGraph.pathTaken.getD i 0)
          (st.myGraph.pathTaken.getD (i + 1) 0) = some d) ∧
      (tourSum st.myGraph st.myGraph.pathTaken st.myGraph.numNodes ≤ INT_MAX →
        st.globalTotalWeight =
          tourSum st.myGraph st.myGraph.pathTaken st.myGraph.numNodes) := by
  obtain ⟨st, lo, rest, horig, hperm, hpt, hnum, hmat, htot⟩ :=
    original_total sort hs rows hwf hn hnn
  have hlen : (lo :: rest).length = rows.length := by
    rw [hperm.length_eq]; simp
  have hlen2 : st.myGraph.pathTaken.length = rows.length + 1 := by
    rw [hpt, List.length_append, hlen]; rfl
  have hsum : tourSum st.myGraph st.myGraph.pathTaken st.myGraph.numNodes =
      walkLength st.myGraph (lo :: rest ++ [lo]) := by
    rw [tourSum_eq_walkLength _ _ _ (by rw [hlen2, hnum]), hpt]
  refine ⟨st, horig, by rw [hlen2, hnum], ?_, ?_⟩
  · intro i hi
    rw [hnum] at hi
    have hmem : ∀ k, k < rows.length + 1 → st.myGraph.pathTaken.getD k 0 < rows.length := by
      intro k hk
      have hk2 : k < st.myGraph.pathTaken.length := by rw [hlen2]; exact hk
      rw [List.getD_eq_getElem _ _ hk2]
      have hall : ∀ x ∈ st.myGraph.pathTaken, x < rows.length := by
        intro x hx
        rw [hpt] at hx
        have hin : x ∈ lo :: rest := by
          simp only [List.mem_append, List.mem_singleton, List.mem_cons] at hx ⊢
          tauto
        exact List.mem_range.mp (hperm.subset hin)
      exact hall _ (List.getElem_mem hk2)
    rw [distance_congr _ _ hmat]
    exact distance_defined rows hwf.1 _ _ (hmem i (by omega)) (hmem (i + 1) (by omega))
  · rw [hsum]
    exact htot

theorem original_accounting_witness :
    StdSort insertionSortWeights ∧ WellFormed wellFormedRows ∧ NonNegative wellFormedRows ∧
    (original insertionSortWeights wellFormedRows).map
      (fun st => (st.myGraph.pathTaken, st.globalTotalWeight)) = some ([2, 0, 1, 3, 2], 80) ∧
    ∃ st, original insertionSortWeights wellFormedRows = some st ∧
      st.myGraph.pathTaken.length = st.myGraph.numNodes + 1 ∧
      (∀ i < st.myGraph.numNodes,
        ∃ d, st.myGraph.distance (st.myGraph.pathTaken.getD i 0)
          (st.myGraph.pathTaken.getD (i + 1) 0) = some d) ∧
      (tourSum st.myGraph st.myGraph.pathTaken st.myGraph.numNodes ≤ INT_MAX →
        st.globalTotalWeight =
          tourSum st.myGraph st.myGraph.pathTaken st.myGraph.numNodes) :=
  ⟨insertionSortWeights_std, by decide, by decide, by decide,
    original_accounting insertionSortWeights insertionSortWeights_std wellFormedRows
      (by decide) (by decide) (by decide)⟩

/-- C5. Degree bound: for every well-formed distance matrix with at least two
nodes, after the edge loop and the cycle closer have run (and likewise at the
end of the run) no node is an endpoint of more than 2 entries of
`connectedNodes`; every node in `[0, numNodes)` is an endpoint of exactly 2. -/
theorem degree_bound (sort : List weight → List weight) (hs : StdSort sort)
    (rows : List (List Int)) (hwf : WellFormed rows) (hn : 2 ≤ rows.length) :
    ∃ st1 st2 a st,
      cycleBuilder (initState sort rows) (initState sort rows).myGraph.weights = some st1 ∧
      cycleCloser st1 = some (st2, a) ∧ original sort rows = some st ∧
      (∀ v, degree st2.myGraph.connectedNodes v ≤ 2) ∧
      (∀ v, degree st.myGraph.connectedNodes v ≤ 2) ∧
      (∀ v < rows.length, degree st2.myGraph.connectedNodes v = 2) := by
  obtain ⟨st1, st2, lo, rest, hrun, hclose, horig, _, _, _, _, _, hdeg2, hdeg3⟩ :=
    original_run sort hs rows hwf hn
  have hle : ∀ v, degree st2.myGraph.connectedNodes v ≤ 2 := by
    intro v
    rw [hdeg2]
    split <;> omega
  refine ⟨st1, st2, lo, _, hrun, hclose, horig, hle, ?_, ?_⟩
  · intro v
    rw [hdeg3]
    exact hle v
  · intro v hv
    rw [hdeg2, if_pos hv]

theorem degree_bound_witness :
    StdSort insertionSortWeights ∧ WellFormed wellFormedRows ∧
    ∃ st1 st2 a st,
      cycleBuilder (initState insertionSortWeights wellFormedRows)
        (initState insertionSortWeights wellFormedRows).myGraph.weights = some st1 ∧
      cycleCloser st1 = some (st2, a) ∧ original insertionSortWeights wellFormedRows = some st ∧
      (∀ v, degree st2.myGraph.connectedNodes v ≤ 2) ∧
      (∀ v, degree st.myGraph.connectedNodes v ≤ 2) ∧
      (∀ v < wellFormedRows.length, degree st2.myGraph.connectedNodes v = 2) :=
  ⟨insertionSortWeights_std, by decide,
    degree_bound insertionSortWeights insertionSortWeights_std wellFormedRows
      (by decide) (by decide)⟩

/-! ## Claims C3 and C6: the brute-force search -/

/-- C3, as stated, fails: both totals are 32-bit `int`s.  On the well-formed
matrix `d(0,1) = d(0,2) = 1`, `d(1,2) = INT_MAX` every closed tour has length
2147483649.  The original algorithm accepts the two edges of length 1 and closes
with `distance(1, 2)`; the sum 2147483649 is outside the range of `int` and its
conversion gives `INT_MIN`, the reported total.  The brute-force search adds
`INT_MAX` to 1, which converts to `INT_MIN`, and then 1 more: its
`shortestDistance` is -2147483647, above the total of the original algorithm. -/
theorem original_ge_bruteForce_counterexample :
    WellFormed longEdgeRows ∧
    (original librarySort longEdgeRows).map
      (fun st => (st.myGraph.pathTaken, st.globalTotalWeight)) =
      some ([1, 0, 2, 1], -2147483648) ∧
    bruteForce longEdgeRows = some (-2147483647, [0, 1, 2]) ∧
    ([[0, 1, 2], [0, 2, 1], [1, 0, 2], [1, 2, 0], [2, 0, 1], [2, 1, 0]].map
      (tourLength (readGraph longEdgeRows))) =
      [2147483649, 2147483649, 2147483649, 2147483649, 2147483649, 2147483649] ∧
    ¬ ((-2147483647 : Int) ≤ -2147483648) := by
  decide

/-- C3, amended. Lower bound: for every well-formed distance matrix with at
least two nodes and no negative entry, both the original algorithm and the
brute-force search end normally, and whenever the length of the tour of the
original algorithm (the sum of the distances along `pathTaken`) is at most
`INT_MAX`, the total reported by the original algorithm is at least
`shortestDistance` computed by the brute-force permutation search on the same
matrix. -/
theorem original_ge_bruteForce (sort : List weight → List weight) (hs : StdSort sort)
    (rows : List (List Int)) (hwf : WellFormed rows) (hn : 2 ≤ rows.length)
    (hnn : NonNegative rows) :
    ∃ st shortestDistance pathTaken, original sort rows = some st ∧
      bruteForce rows = some (shortestDistance, pathTaken) ∧
      (tourSum st.myGraph st.myGraph.pathTaken st.myGraph.numNodes ≤ INT_MAX →
        shortestDistance ≤ st.globalTotalWeight) := by
  obtain ⟨st, lo, rest, horig, hperm, hpt, hnum, hmat, htot⟩ :=
    original_total sort hs rows hwf hn hnn
  have hcov := coversLowerTriangle_of_lowerTriangular rows hwf.1
  obtain ⟨s, path, hbrute, _, hvis⟩ := bruteForce_le rows hcov hn
  refine ⟨st, s, path, horig, hbrute, ?_⟩
  intro hle
  have hlen : (lo :: rest).length = rows.length := by
    rw [hperm.length_eq]; simp
  have hlen2 : st.myGraph.pathTaken.length = rows.length + 1 := by
    rw [hpt, List.length_append, hlen]; rfl
  rw [tourSum_eq_walkLength _ _ _ (by rw [hlen2, hnum]), hpt] at hle
  rw [htot hle]
  rw [walkLength_congr _ _ hmat, walkLength_eq_walkLen, ← closedLen_cons] at hle ⊢
  obtain ⟨m, hm⟩ : ∃ m, rows.length = m + 1 := ⟨rows.length - 1, by omega⟩
  have hrange : List.range rows.length = 0 :: (List.range m).map Nat.succ := by
    rw [hm, List.range_succ_eq_map]
  obtain ⟨q, hq, hrot⟩ := rotate_to_front (readGraph rows).dist ((List.range m).map Nat.succ) 0
    (lo :: rest) (hrange ▸ hperm)
  have hqperm : (0 :: q).Perm (List.range rows.length) := by
    rw [hrange]; exact hq.cons 0
  obtain ⟨c, hc, hsc⟩ := hvis (0 :: q) hqperm rfl
  have hnd : (0 :: q).Nodup := (hqperm.nodup_iff).mpr (List.nodup_range _)
  have hbound : ∀ v ∈ 0 :: q, v < rows.length :=
    fun v hv => List.mem_range.mp (hqperm.subset hv)
  rw [hrot] at hle ⊢
  cases q with
  | nil =>
    have := hq.length_eq
    simp at this
    omega
  | cons y l =>
    rw [currentPathDistance_eq _ 0 y l hnd
      (fun a ha b hb hab => distance_defined_ne rows hcov a b (hbound a ha) (hbound b hb) hab)
      (dist_nonneg rows hnn) hle] at hc
    cases hc
    exact hsc

theorem original_ge_bruteForce_witness :
    StdSort insertionSortWeights ∧ WellFormed wellFormedRows ∧ NonNegative wellFormedRows ∧
    (original insertionSortWeights wellFormedRows).map (fun st => st.globalTotalWeight) =
      some 80 ∧
    bruteForce wellFormedRows = some (80, [0, 1, 3, 2]) ∧
    ∃ st shortestDistance pathTaken, original insertionSortWeights wellFormedRows = some st ∧
      bruteForce wellFormedRows = some (shortestDistance, pathTaken) ∧
      (tourSum st.myGraph st.myGraph.pathTaken st.myGraph.numNodes ≤ INT_MAX →
        shortestDistance ≤ st.globalTotalWeight) :=
  ⟨insertionSortWeights_std, by decide, by decide, by decide, by decide,
    original_ge_bruteForce insertionSortWeights insertionSortWeights_std wellFormedRows
      (by decide) (by decide) (by decide)⟩

/-- C6, as stated, fails: the tour lengths are summed in a 32-bit `int`.  On the
symmetric matrix whose three distances are all `2^30` every closed tour has
length 3221225472, but the sum of the first two distances, `2^31`, is outside
the range of `int`: the search reports -1073741824 with the order `0,1,2`,
which is not the minimum closed-tour length. -/
theorem bruteForce_overflow_counterexample :
    WellFormed halfRangeRows ∧
    bruteForce halfRangeRows = some (-1073741824, [0, 1, 2]) ∧
    ([[0, 1, 2], [0, 2, 1], [1, 0, 2], [1, 2, 0], [2, 0, 1], [2, 1, 0]].map
      (tourLength (readGraph halfRangeRows))) =
      [3221225472, 3221225472, 3221225472, 3221225472, 3221225472, 3221225472] := by
  decide

/-- C6, amended. For every symmetric (lower-triangular) distance matrix with at
least two nodes and no negative entry in which no closed tour is longer than
`INT_MAX`, the brute-force search ends normally and its result equals the
minimum, over all orderings of the nodes, of the closed-tour length; when that
minimum is below `INT_MAX` the stored order is the lexicographically first
ordering starting at node 0 that attains it.  `findMinimumPath` returns the
same value for every starting node, and that value is the minimum closed-tour
length when every closed tour of its matrix has a length in the range of `int`.
On the scenario matrix the result is 80 with order `0,1,3,2` (printed with the
closing `0`), and `findMinimumPath` returns 80. -/
theorem bruteForce_exact (rows : List (List Int)) (hc : CoversLowerTriangle rows)
    (hn : 2 ≤ rows.length) (hnn : NonNegative rows)
    (hfit : ∀ σ, σ.Perm (List.range rows.length) →
      tourLength (readGraph rows) σ ≤ INT_MAX) :
    (∃ s path, bruteForce rows = some (s, path) ∧
      (∃ σ, σ.Perm (List.range rows.length) ∧ tourLength (readGraph rows) σ = s) ∧
      (∀ σ, σ.Perm (List.range rows.length) → s ≤ tourLength (readGraph rows) σ) ∧
      (s < INT_MAX →
        path.Perm (List.range rows.length) ∧ path.head? = some 0 ∧
        tourLength (readGraph rows) path = s ∧
        ∀ σ, σ.Perm (List.range rows.length) → σ.head? = some 0 →
          tourLength (readGraph rows) σ = s → σ = path ∨ lexLt path σ)) ∧
    (∀ (myGraph : Nat → Nat → Int) (s1 s2 : Nat), s1 < BruteForce.numNodes →
      s2 < BruteForce.numNodes →
      BruteForce.findMinimumPath myGraph s1 = BruteForce.findMinimumPath myGraph s2) ∧
    (∀ (myGraph : Nat → Nat → Int) (s1 : Nat), s1 < BruteForce.numNodes →
      (∀ σ, σ.Perm (List.range BruteForce.numNodes) →
        INT_MIN ≤ closedLen myGraph σ ∧ closedLen myGraph σ ≤ INT_MAX) →
      ∃ v, BruteForce.findMinimumPath myGraph s1 = some v ∧
        (∃ σ, σ.Perm (List.range BruteForce.numNodes) ∧ closedLen myGraph σ = v) ∧
        ∀ σ, σ.Perm (List.range BruteForce.numNodes) → v ≤ closedLen myGraph σ) ∧
    bruteForce scenarioRows = some (80, [0, 1, 3, 2]) ∧
    [0, 1, 3, 2] ++ ([0, 1, 3, 2] : List Nat).take 1 = [0, 1, 3, 2, 0] ∧
    BruteForce.findMinimumPath BruteForce.mainGraph 0 = some 80 := by
  refine ⟨?_, findMinimumPath_same, findMinimumPath_min, by decide, by decide, by decide⟩
  obtain ⟨s, path, hbrute, _, hmin, hcase⟩ :=
    bruteForce_spec rows hc hn (dist_nonneg rows hnn) hfit
  refine ⟨s, path, hbrute, ?_, hmin, ?_⟩
  · rcases hcase with ⟨h1, _, hall⟩ | ⟨_, h2, _, h4, _⟩
    · refine ⟨List.range rows.length, List.Perm.refl _, ?_⟩
      have ha := hall _ (List.Perm.refl (List.range rows.length))
      have hb := hfit _ (List.Perm.refl (List.range rows.length))
      omega
    · exact ⟨path, h2, h4⟩
  · intro hlt
    rcases hcase with ⟨h1, _, _⟩ | ⟨_, h2, h3, h4, h5⟩
    · omega
    · exact ⟨h2, h3, h4, h5⟩

theorem bruteForce_exact_witness :
    CoversLowerTriangle wellFormedRows ∧ NonNegative wellFormedRows ∧
    bruteForce wellFormedRows = some (80, [0, 1, 3, 2]) ∧
    ∃ s path, bruteForce wellFormedRows = some (s, path) ∧
      (∃ σ, σ.Perm (List.range wellFormedRows.length) ∧
        tourLength (readGraph wellFormedRows) σ = s) ∧
      (∀ σ, σ.Perm (List.range wellFormedRows.length) →
        s ≤ tourLength (readGraph wellFormedRows) σ) ∧
      (s < INT_MAX →
        path.Perm (List.range wellFormedRows.length) ∧ path.head? = some 0 ∧
        tourLength (readGraph wellFormedRows) path = s ∧
        ∀ σ, σ.Perm (List.range wellFormedRows.length) → σ.head? = some 0 →
          tourLength (readGraph wellFormedRows) σ = s → σ = path ∨ lexLt path σ) :=
  ⟨by decide, by decide, by decide,
    (bruteForce_exact wellFormedRows (by decide) (by decide) (by decide)
      wellFormedRows_tours).1⟩

/-! ## Claims C13 - C16: the branches of the edge loop -/

/-- C13. Untouched-Untouched step: when an edge `(u, v, w)` between two distinct
existing nodes is processed while both are untouched (type 0), the step ends
normally, a `Connection(u, v)` is appended, `w` is added to the running total
(an addition of two `int`s), both nodes become leaders (type 1) with group `g`,
the value of the group
counter before the step, the counter becomes `g + 1`, and every other node is
left exactly as it was. -/
theorem step_untouched_untouched (st : state) (w : weight)
    (hl : w.fromNode < st.myGraph.nodes.length) (hr : w.toNode < st.myGraph.nodes.length)
    (hne : w.fromNode ≠ w.toNode)
    (h0l : typeAt st.myGraph.nodes w.fromNode = 0)
    (h0r : typeAt st.myGraph.nodes w.toNode = 0) :
    ∃ st1, edgeStep st w = some st1 ∧
      st1.myGraph.connectedNodes =
        st.myGraph.connectedNodes ++ [connectedNode.new w.fromNode w.toNode] ∧
      st1.globalTotalWeight = wrapInt (st.globalTotalWeight + w.value) ∧
      typeAt st1.myGraph.nodes w.fromNode = 1 ∧ typeAt st1.myGraph.nodes w.toNode = 1 ∧
      groupAt st1.myGraph.nodes w.fromNode = st.globalGroupNumber ∧
      groupAt st1.myGraph.nodes w.toNode = st.globalGroupNumber ∧
      st1.globalGroupNumber = st.globalGroupNumber + 1 ∧
      st1.myGraph.nodes.length = st.myGraph.nodes.length ∧
      ∀ i, i ≠ w.fromNode → i ≠ w.toNode → st1.myGraph.nodes[i]? = st.myGraph.nodes[i]? := by
  have hne' : w.toNode ≠ w.fromNode := fun h => hne h.symm
  refine ⟨_, edgeStep_first_branch st w hl hr h0l h0r, rfl, rfl, ?_, ?_, ?_, ?_, rfl, ?_, ?_⟩
  · simp [state.accept, typeAt_setGroup, typeAt_setType, hl]
  · simp [state.accept, typeAt_setGroup, typeAt_setType, length_setType, hl, hr]
  · simp [state.accept, groupAt_setGroup, groupAt_setType, length_setGroup, length_setType, hl,
      hne]
  · simp [state.accept, groupAt_setGroup, groupAt_setType, length_setGroup, length_setType, hr]
  · simp [state.accept, length_setGroup, length_setType]
  · intro i h1 h2
    simp only [state.accept]
    rw [getElem?_setGroup_ne _ _ _ _ h2, getElem?_setGroup_ne _ _ _ _ h1,
      getElem?_setType_ne _ _ _ _ h2, getElem?_setType_ne _ _ _ _ h1]

theorem step_untouched_untouched_witness :
    ∃ st1, edgeStep (initState insertionSortWeights wellFormedRows) ⟨10, 1, 0⟩ = some st1 ∧
      st1.myGraph.connectedNodes =
        (initState insertionSortWeights wellFormedRows).myGraph.connectedNodes ++
          [connectedNode.new 1 0] ∧
      st1.globalTotalWeight =
        wrapInt ((initState insertionSortWeights wellFormedRows).globalTotalWeight + 10) ∧
      typeAt st1.myGraph.nodes 1 = 1 ∧ typeAt st1.myGraph.nodes 0 = 1 ∧
      groupAt st1.myGraph.nodes 1 = 1 ∧ groupAt st1.myGraph.nodes 0 = 1 ∧
      st1.globalGroupNumber = 1 + 1 ∧
      st1.myGraph.nodes.length = (initState insertionSortWeights wellFormedRows).myGraph.nodes.length ∧
      ∀ i, i ≠ 1 → i ≠ 0 → st1.myGraph.nodes[i]? =
        (initState insertionSortWeights wellFormedRows).myGraph.nodes[i]? :=
  step_untouched_untouched (initState insertionSortWeights wellFormedRows) ⟨10, 1, 0⟩
    (by decide) (by decide) (by decide) (by decide) (by decide)

/-- C14. Leader-Leader merge step: when an edge `(u, v, w)` is processed while
both end nodes are leaders (type 1) of different groups, the step ends normally,
a `Connection(u, v)` is appended, `w` is added to the total (an addition of two
`int`s) and both nodes become inside (type 2); with `keep` the smaller and `drop` the larger of the two group
ids, afterwards every node whose group was `drop` has group `keep`, no node has
group `drop`, every node whose group was not `drop` keeps its group, and so no
node's group id increases.  Types of other nodes and the group counter are
unchanged. -/
theorem step_leader_merge (st : state) (w : weight)
    (hl : w.fromNode < st.myGraph.nodes.length) (hr : w.toNode < st.myGraph.nodes.length)
    (h1l : typeAt st.myGraph.nodes w.fromNode = 1)
    (h1r : typeAt st.myGraph.nodes w.toNode = 1)
    (hg : groupAt st.myGraph.nodes w.fromNode ≠ groupAt st.myGraph.nodes w.toNode) :
    ∃ st1, edgeStep st w = some st1 ∧
      st1.myGraph.connectedNodes =
        st.myGraph.connectedNodes ++ [connectedNode.new w.fromNode w.toNode] ∧
      st1.globalTotalWeight = wrapInt (st.globalTotalWeight + w.value) ∧
      typeAt st1.myGraph.nodes w.fromNode = 2 ∧ typeAt st1.myGraph.nodes w.toNode = 2 ∧
      (∀ i, i ≠ w.fromNode → i ≠ w.toNode →
        typeAt st1.myGraph.nodes i = typeAt st.myGraph.nodes i) ∧
      st1.globalGroupNumber = st.globalGroupNumber ∧
      st1.myGraph.nodes.length = st.myGraph.nodes.length ∧
      (∀ i < st.myGraph.nodes.length,
        groupAt st.myGraph.nodes i =
            max (groupAt st.myGraph.nodes w.fromNode) (groupAt st.myGraph.nodes w.toNode) →
          groupAt st1.myGraph.nodes i =
            min (groupAt st.myGraph.nodes w.fromNode) (groupAt st.myGraph.nodes w.toNode)) ∧
      (∀ i < st.myGraph.nodes.length, groupAt st1.myGraph.nodes i ≠
        max (groupAt st.myGraph.nodes w.fromNode) (groupAt st.myGraph.nodes w.toNode)) ∧
      (∀ i, groupAt st.myGraph.nodes i ≠
          max (groupAt st.myGraph.nodes w.fromNode) (groupAt st.myGraph.nodes w.toNode) →
        groupAt st1.myGraph.nodes i = groupAt st.myGraph.nodes i) ∧
      (∀ i, groupAt st1.myGraph.nodes i ≤ groupAt st.myGraph.nodes i) := by
  have hne : w.fromNode ≠ w.toNode := by
    intro hc
    rw [hc] at hg
    exact hg rfl
  obtain ⟨st1, hstep, hfr, hcase⟩ := edgeStep_spec st w hl hr hne (by omega) (by omega)
  rcases hcase with ⟨h0l, _⟩ | ⟨_, _, _, hacc, hggn, hT, hG⟩ | ⟨x, y, hxy, h1x, h0y, _⟩ |
    ⟨hset, _⟩
  · omega
  · refine ⟨st1, hstep, hacc.1, hacc.2, ?_, ?_, ?_, hggn, hfr.1, ?_, ?_, ?_, ?_⟩
    · rw [hT]; simp
    · rw [hT]; simp
    · intro i h1 h2
      rw [hT, if_neg (by tauto)]
    · intro i hi hd
      rw [hG, if_pos ⟨hi, hd⟩]
    · intro i hi
      rw [hG]
      by_cases hd : groupAt st.myGraph.nodes i =
          max (groupAt st.myGraph.nodes w.fromNode) (groupAt st.myGraph.nodes w.toNode)
      · rw [if_pos ⟨hi, hd⟩]
        omega
      · rw [if_neg (by tauto)]
        exact hd
    · intro i hd
      rw [hG, if_neg (by tauto)]
    · intro i
      rw [hG]
      split
      · omega
      · exact le_refl _
  · rcases hxy with ⟨rfl, rfl⟩ | ⟨rfl, rfl⟩ <;> omega
  · rcases hset with h | h | ⟨_, _, h⟩
    · omega
    · omega
    · exact absurd h hg

theorem step_leader_merge_witness :
    cycleBuilder (initState insertionSortWeights mergeRows)
      ((initState insertionSortWeights mergeRows).myGraph.weights.take 2) = some mergeState ∧
    ∃ st1, edgeStep mergeState ⟨5, 3, 1⟩ = some st1 ∧
      st1.myGraph.connectedNodes =
        mergeState.myGraph.connectedNodes ++ [connectedNode.new 3 1] ∧
      st1.globalTotalWeight = wrapInt (mergeState.globalTotalWeight + 5) ∧
      typeAt st1.myGraph.nodes 3 = 2 ∧ typeAt st1.myGraph.nodes 1 = 2 :=
  ⟨by decide,
    (step_leader_merge mergeState ⟨5, 3, 1⟩ (by decide) (by decide) (by decide) (by decide)
      (by decide)).imp (fun _ h => ⟨h.1, h.2.1, h.2.2.1, h.2.2.2.1, h.2.2.2.2.1⟩)⟩

/-- C15. Leader-Untouched step and exhaustiveness of the branch chain: for end
nodes whose types are 0 (untouched), 1 (leader) or 2 (inside), the final `else`
branch of the edge loop is taken exactly when one end node is a leader and the
other is untouched, in either orientation; in that case, with `x` the leader and
`y` the untouched node, the step ends normally, a `Connection(u, v)` is appended,
`w` is added to the total (an addition of two `int`s), `x` becomes inside and
keeps its group, `y` becomes a
leader with the group of `x`, the group counter is unchanged and every other
node is left exactly as it was. -/
theorem step_leader_untouched (st : state) (w : weight)
    (hl : w.fromNode < st.myGraph.nodes.length) (hr : w.toNode < st.myGraph.nodes.length)
    (hTl : typeAt st.myGraph.nodes w.fromNode ≤ 2)
    (hTr : typeAt st.myGraph.nodes w.toNode ≤ 2) :
    (edgeBranch st.myGraph.nodes w.fromNode w.toNode = 6 ↔
      (typeAt st.myGraph.nodes w.fromNode = 1 ∧ typeAt st.myGraph.nodes w.toNode = 0) ∨
      (typeAt st.myGraph.nodes w.fromNode = 0 ∧ typeAt st.myGraph.nodes w.toNode = 1)) ∧
    ∀ x y, (x = w.fromNode ∧ y = w.toNode) ∨ (x = w.toNode ∧ y = w.fromNode) →
      typeAt st.myGraph.nodes x = 1 → typeAt st.myGraph.nodes y = 0 →
      ∃ st1, edgeStep st w = some st1 ∧
        st1.myGraph.connectedNodes =
          st.myGraph.connectedNodes ++ [connectedNode.new w.fromNode w.toNode] ∧
        st1.globalTotalWeight = wrapInt (st.globalTotalWeight + w.value) ∧
        typeAt st1.myGraph.nodes x = 2 ∧
        groupAt st1.myGraph.nodes x = groupAt st.myGraph.nodes x ∧
        typeAt st1.myGraph.nodes y = 1 ∧
        groupAt st1.myGraph.nodes y = groupAt st.myGraph.nodes x ∧
        st1.globalGroupNumber = st.globalGroupNumber ∧
        st1.myGraph.nodes.length = st.myGraph.nodes.length ∧
        ∀ i, i ≠ x → i ≠ y → st1.myGraph.nodes[i]? = st.myGraph.nodes[i]? := by
  have hbranch : edgeBranch st.myGraph.nodes w.fromNode w.toNode = 6 ↔
      (typeAt st.myGraph.nodes w.fromNode = 1 ∧ typeAt st.myGraph.nodes w.toNode = 0) ∨
      (typeAt st.myGraph.nodes w.fromNode = 0 ∧ typeAt st.myGraph.nodes w.toNode = 1) := by
    have hTl' : typeAt st.myGraph.nodes w.fromNode = 0 ∨ typeAt st.myGraph.nodes w.fromNode = 1 ∨
        typeAt st.myGraph.nodes w.fromNode = 2 := by omega
    have hTr' : typeAt st.myGraph.nodes w.toNode = 0 ∨ typeAt st.myGraph.nodes w.toNode = 1 ∨
        typeAt st.myGraph.nodes w.toNode = 2 := by omega
    unfold edgeBranch
    rcases hTl' with h0 | h0 | h0 <;> rcases hTr' with h1 | h1 | h1 <;> simp [h0, h1]
  refine ⟨hbranch, ?_⟩
  intro x y hxy h1x h0y
  have hb : edgeBranch st.myGraph.nodes w.fromNode w.toNode = 6 := by
    rw [hbranch]
    rcases hxy with ⟨rfl, rfl⟩ | ⟨rfl, rfl⟩
    · exact Or.inl ⟨h1x, h0y⟩
    · exact Or.inr ⟨h0y, h1x⟩
  have hxy' : x ≠ y := by
    intro hc
    rw [hc] at h1x
    omega
  refine ⟨_, edgeStep_final_branch st w hl hr hb, rfl, rfl, ?_⟩
  rcases hxy with ⟨rfl, rfl⟩ | ⟨rfl, rfl⟩
  · rw [if_pos h1x]
    refine ⟨?_, ?_, ?_, ?_, rfl, ?_, ?_⟩
    · simp [state.accept, typeAt_setGroup, typeAt_setType, length_setType, hl, hxy']
    · simp [state.accept, groupAt_setGroup, groupAt_setType, length_setType, hxy']
    · simp [state.accept, typeAt_setGroup, typeAt_setType, length_setType, hr]
    · simp [state.accept, groupAt_setGroup, groupAt_setType, length_setType, hr]
    · simp [state.accept, length_setGroup, length_setType]
    · intro i h1 h2
      simp only [state.accept]
      rw [getElem?_setGroup_ne _ _ _ _ h2, getElem?_setType_ne _ _ _ _ h2,
        getElem?_setType_ne _ _ _ _ h1]
  · have hnl : ¬ typeAt st.myGraph.nodes w.fromNode = 1 := by omega
    rw [if_neg hnl]
    refine ⟨?_, ?_, ?_, ?_, rfl, ?_, ?_⟩
    · simp [state.accept, typeAt_setGroup, typeAt_setType, length_setType, hr, hxy']
    · simp [state.accept, groupAt_setGroup, groupAt_setType, length_setType, hxy']
    · simp [state.accept, typeAt_setGroup, typeAt_setType, length_setType, hl]
    · simp [state.accept, groupAt_setGroup, groupAt_setType, length_setType, hl]
    · simp [state.accept, length_setGroup, length_setType]
    · intro i h1 h2
      simp only [state.accept]
      rw [getElem?_setGroup_ne _ _ _ _ h2, getElem?_setType_ne _ _ _ _ h2,
        getElem?_setType_ne _ _ _ _ h1]

theorem step_leader_untouched_witness :
    edgeBranch [⟨0, 1, 1, false⟩, ⟨1, 1, 1, false⟩, ⟨2, 0, 0, false⟩] 2 0 = 6 ∧
    ∃ st1, edgeStep ⟨⟨3, [], [], [⟨0, 1, 1, false⟩, ⟨1, 1, 1, false⟩, ⟨2, 0, 0, false⟩],
        [⟨1, 0, false⟩], []⟩, 2, 10⟩ ⟨15, 2, 0⟩ = some st1 ∧
      st1.myGraph.connectedNodes = [⟨1, 0, false⟩] ++ [connectedNode.new 2 0] ∧
      st1.globalTotalWeight = wrapInt (10 + 15) :=
  ⟨((step_leader_untouched ⟨⟨3, [], [], [⟨0, 1, 1, false⟩, ⟨1, 1, 1, false⟩, ⟨2, 0, 0, false⟩],
        [⟨1, 0, false⟩], []⟩, 2, 10⟩ ⟨15, 2, 0⟩ (by decide) (by decide) (by decide)
        (by decide)).1).mpr (by decide),
    ((step_leader_untouched ⟨⟨3, [], [], [⟨0, 1, 1, false⟩, ⟨1, 1, 1, false⟩, ⟨2, 0, 0, false⟩],
        [⟨1, 0, false⟩], []⟩, 2, 10⟩ ⟨15, 2, 0⟩ (by decide) (by decide) (by decide)
        (by decide)).2 0 2 (by decide) (by decide) (by decide)).imp
      (fun _ h => ⟨h.1, h.2.1, h.2.2.1⟩)⟩

/-- C16. Rejection leaves the state unchanged: when an edge between existing
nodes (of types 0, 1 or 2) is processed while either end node is inside
(type 2), or while both end nodes are leaders (type 1) of the same group, the
step ends normally with the whole state unchanged: no connection is appended,
and the running total, the group counter and the type and group of every node
are as before. -/
theorem step_reject (st : state) (w : weight)
    (hl : w.fromNode < st.myGraph.nodes.length) (hr : w.toNode < st.myGraph.nodes.length)
    (hTl : typeAt st.myGraph.nodes w.fromNode ≤ 2)
    (hTr : typeAt st.myGraph.nodes w.toNode ≤ 2)
    (hrej : typeAt st.myGraph.nodes w.fromNode = 2 ∨ typeAt st.myGraph.nodes w.toNode = 2 ∨
      (typeAt st.myGraph.nodes w.fromNode = 1 ∧ typeAt st.myGraph.nodes w.toNode = 1 ∧
        groupAt st.myGraph.nodes w.fromNode = groupAt st.myGraph.nodes w.toNode)) :
    edgeStep st w = some st ∧
    ∀ st1, edgeStep st w = some st1 →
      st1.myGraph.connectedNodes = st.myGraph.connectedNodes ∧
      st1.globalTotalWeight = st.globalTotalWeight ∧
      st1.globalGroupNumber = st.globalGroupNumber ∧
      st1.myGraph.nodes = st.myGraph.nodes := by
  have hstep : edgeStep st w = some st := by
    apply edgeStep_other_branches st w hl hr
    have hTl' : typeAt st.myGraph.nodes w.fromNode = 0 ∨ typeAt st.myGraph.nodes w.fromNode = 1 ∨
        typeAt st.myGraph.nodes w.fromNode = 2 := by omega
    have hTr' : typeAt st.myGraph.nodes w.toNode = 0 ∨ typeAt st.myGraph.nodes w.toNode = 1 ∨
        typeAt st.myGraph.nodes w.toNode = 2 := by omega
    unfold edgeBranch
    rcases hTl' with h0 | h0 | h0 <;> rcases hTr' with h1 | h1 | h1 <;>
      simp [h0, h1] at hrej ⊢
    exact hrej
  refine ⟨hstep, ?_⟩
  intro st1 h1
  rw [hstep] at h1
  cases h1
  exact ⟨rfl, rfl, rfl, rfl⟩

theorem step_reject_witness :
    edgeStep ⟨⟨3, [], [], [⟨0, 2, 1, false⟩, ⟨1, 1, 1, false⟩, ⟨2, 1, 1, false⟩],
        [⟨1, 0, false⟩, ⟨2, 0, false⟩], []⟩, 2, 25⟩ ⟨35, 2, 1⟩ =
      some ⟨⟨3, [], [], [⟨0, 2, 1, false⟩, ⟨1, 1, 1, false⟩, ⟨2, 1, 1, false⟩],
        [⟨1, 0, false⟩, ⟨2, 0, false⟩], []⟩, 2, 25⟩ :=
  (step_reject ⟨⟨3, [], [], [⟨0, 2, 1, false⟩, ⟨1, 1, 1, false⟩, ⟨2, 1, 1, false⟩],
      [⟨1, 0, false⟩, ⟨2, 0, false⟩], []⟩, 2, 25⟩ ⟨35, 2, 1⟩
    (by decide) (by decide) (by decide) (by decide) (by decide)).1

/-! ## Claims C17 and C18: the cycle closer -/

/-- C17. CycleCloser endpoint choice: whenever at least one leader exists after
the edge loop of a run, `a` (`nodeOne`) is the leader with the smallest node id
and `b` (`nodeTwo`) the leader with the largest node id; whatever the groups of
the two nodes, where the lookup `distance(a, b)` has a value `d` (it has one for
every lower-triangular input) the closer ends normally, appends exactly one
connection, `Connection(a, b)`, adds `d` to the total (the `double` sum
converted back to `int`) and leaves the nodes as they are, and the path retrace
starts at `a`: the sequence `pathTaken` it builds
begins and ends with `a`; the printed sequence (the first `numNodes + 1` entries
of `pathTaken`) begins with `a`, and when the edge list has no self-loop it is
the whole of `pathTaken`. -/
theorem cycleCloser_endpoints (sort : List weight → List weight) (hs : StdSort sort)
    (rows : List (List Int)) (st1 : state)
    (hrun : cycleBuilder (initState sort rows) (initState sort rows).myGraph.weights = some st1)
    (hex : ∃ i, typeAt st1.myGraph.nodes i = 1) :
    ∃ a b, a ≤ b ∧ b < st1.myGraph.numNodes ∧
      typeAt st1.myGraph.nodes a = 1 ∧ typeAt st1.myGraph.nodes b = 1 ∧
      (∀ i, typeAt st1.myGraph.nodes i = 1 → a ≤ i ∧ i ≤ b) ∧
      leaderScan (none, none) st1.myGraph.nodes = (some a, some b) ∧
      (LowerTriangular rows → ∃ d, st1.myGraph.distance a b = some d) ∧
      ∀ d, st1.myGraph.distance a b = some d →
        ∃ st2, cycleCloser st1 = some (st2, a) ∧
          st2.myGraph.connectedNodes =
            st1.myGraph.connectedNodes ++ [connectedNode.new a b] ∧
          st2.globalTotalWeight = doubleToInt (st1.globalTotalWeight + d) ∧
          st2.myGraph.nodes = st1.myGraph.nodes ∧
          originalCore sort rows = some (retrace st2 a) ∧
          (retrace st2 a).myGraph.pathTaken.head? = some a ∧
          (retrace st2 a).myGraph.pathTaken.getLast? = some a ∧
          (printed (retrace st2 a)).head? = some a ∧
          ((∀ w ∈ (readGraph rows).weights, w.fromNode ≠ w.toNode) →
            printed (retrace st2 a) = (retrace st2 a).myGraph.pathTaken) := by
  obtain ⟨hlen, hname, hnum, hpath, hmat⟩ := builder_frame sort rows _ hrun
  obtain ⟨a, b, hab, hb, hTa, hTb, hmin, hscan, hclose⟩ := cycleCloser_leaders st1 hname hex
  have ha : a < st1.myGraph.nodes.length := by omega
  refine ⟨a, b, hab, by omega, hTa, hTb, hmin, hscan, ?_, ?_⟩
  · intro hlt
    rw [distance_congr _ _ hmat]
    exact distance_defined rows hlt a b (by omega) (by omega)
  · intro d hd
    rw [hd] at hclose
    have hclose : cycleCloser st1 = some (st1.close a b d, a) := hclose
    refine ⟨st1.close a b d, hclose, rfl, rfl, rfl, ?_, ?_⟩
    · unfold originalCore
      simp only []
      rw [hrun]
      simp only []
      rw [hclose]
    · have hna : nameAt st1.myGraph.nodes a = a := hname a ha
      obtain ⟨ext, h1, h2⟩ := retraceLoop_path st1.myGraph.nodes st1.myGraph.numNodes
        (st1.myGraph.connectedNodes ++ [connectedNode.new a b]) ⟨a, []⟩
      have hel : ∃ c ∈ st1.myGraph.connectedNodes ++ [connectedNode.new a b],
          eligible ⟨a, []⟩ c :=
        ⟨connectedNode.new a b, by simp, Or.inl rfl, rfl⟩
      have h3 := h2 (by omega) hel
      have hpt : (retrace (st1.close a b d) a).myGraph.pathTaken =
          ext ++ [a] := by
        unfold retrace
        simp only [state.close, hpath]
        rw [h1, hna]
        rfl
      have hhead : (ext ++ [a]).head? = some a := by
        cases ext with
        | nil => simp at h3
        | cons x ext =>
          simp only [List.head?_cons, Option.some.injEq] at h3
          rw [h3, hna]
          rfl
      have hlast : (ext ++ [a]).getLast? = some a := by
        rw [List.getLast?_append]
        rfl
      refine ⟨by rw [hpt]; exact hhead, by rw [hpt]; exact hlast, ?_, ?_⟩
      · unfold printed
        rw [hpt, List.head?_take, if_neg (by omega)]
        exact hhead
      · intro hno
        have hne : ∀ w ∈ (initState sort rows).myGraph.weights, w.fromNode ≠ w.toNode := by
          intro w hw
          rw [initState_weights] at hw
          exact hno w ((hs _).1.subset hw)
        obtain ⟨ps1, hinv⟩ := cycleBuilder_pathInv _ (initState_pathInv sort rows) hne hrun
        have hcnt := hinv.length_connectedNodes_lt (by omega)
        have hle := retrace_length_le (st1.close a b d) a
        have hn2 : (retrace (st1.close a b d) a).myGraph.numNodes =
            st1.myGraph.numNodes := rfl
        have hc2 : (st1.close a b d).myGraph.connectedNodes.length =
            st1.myGraph.connectedNodes.length + 1 := by
          simp [state.close]
        have hp2 : (st1.close a b d).myGraph.pathTaken.length = 0 := by
          simp [state.close, hpath]
        unfold printed
        rw [List.take_of_length_le]
        rw [hn2]
        omega

theorem cycleCloser_endpoints_witness :
    StdSort insertionSortWeights ∧
    ∃ st1, cycleBuilder (initState insertionSortWeights twoPathRows)
        (initState insertionSortWeights twoPathRows).myGraph.weights = some st1 ∧
      (st1.myGraph.nodes.map (fun n => (n.nodeType, n.nodeGroup)) =
        [(1, 1), (1, 1), (1, 2), (1, 2)]) ∧
      ∃ a b, a ≤ b ∧ b < st1.myGraph.numNodes ∧
        typeAt st1.myGraph.nodes a = 1 ∧ typeAt st1.myGraph.nodes b = 1 ∧
        (∀ i, typeAt st1.myGraph.nodes i = 1 → a ≤ i ∧ i ≤ b) ∧
        leaderScan (none, none) st1.myGraph.nodes = (some a, some b) :=
  ⟨insertionSortWeights_std, _, rfl, by decide,
    (cycleCloser_endpoints insertionSortWeights insertionSortWeights_std twoPathRows _ rfl
      ⟨0, by decide⟩).imp (fun _ h => h.imp (fun _ h2 =>
        ⟨h2.1, h2.2.1, h2.2.2.1, h2.2.2.2.1, h2.2.2.2.2.1, h2.2.2.2.2.2.1⟩))⟩

/-- C18, as stated, fails: the closer has no guard for `nodeOne = nodeTwo`.  On the
rows `[1]`, `[5, 0]` the edge loop ends with node 1 as the only leader, and the
closer appends `Connection(1, 1)` all the same (the total stays 6 because the
stored `distance(1, 1)` is 0).  On the single row `[5]` node 0 is the only
leader, the closer appends `Connection(0, 0)` and the total goes from 5 to 10.
On the single row `[-2147483648]` the total before the closer is `INT_MIN`; the
sum with `distance(0, 0) = INT_MIN` is outside the range of `int`, its conversion
gives `INT_MIN`, and the total is unchanged although the entry is not 0. -/
theorem cycleCloser_single_leader_counterexample :
    (cycleBuilder (initState insertionSortWeights oneLeaderRows)
        (initState insertionSortWeights oneLeaderRows).myGraph.weights).map
      (fun st1 => (st1.myGraph.nodes.map node.nodeType, leaderNames st1.myGraph.nodes)) =
      some ([2, 1], [1]) ∧
    (cycleBuilder (initState insertionSortWeights oneLeaderRows)
        (initState insertionSortWeights oneLeaderRows).myGraph.weights).map
      (fun st1 => (st1.myGraph.connectedNodes, st1.globalTotalWeight)) =
      some ([⟨0, 0, false⟩, ⟨1, 0, false⟩], 6) ∧
    ((cycleBuilder (initState insertionSortWeights oneLeaderRows)
        (initState insertionSortWeights oneLeaderRows).myGraph.weights).bind cycleCloser).map
      (fun r => (r.1.myGraph.connectedNodes, r.1.globalTotalWeight, r.2)) =
      some ([⟨0, 0, false⟩, ⟨1, 0, false⟩, ⟨1, 1, false⟩], 6, 1) ∧
    (cycleBuilder (initState insertionSortWeights selfLoopRows)
        (initState insertionSortWeights selfLoopRows).myGraph.weights).map
      (fun st1 => (st1.myGraph.nodes.map node.nodeType, leaderNames st1.myGraph.nodes)) =
      some ([1], [0]) ∧
    (cycleBuilder (initState insertionSortWeights selfLoopRows)
        (initState insertionSortWeights selfLoopRows).myGraph.weights).map
      (fun st1 => (st1.myGraph.connectedNodes, st1.globalTotalWeight)) =
      some ([⟨0, 0, false⟩], 5) ∧
    ((cycleBuilder (initState insertionSortWeights selfLoopRows)
        (initState insertionSortWeights selfLoopRows).myGraph.weights).bind cycleCloser).map
      (fun r => (r.1.myGraph.connectedNodes, r.1.globalTotalWeight, r.2)) =
      some ([⟨0, 0, false⟩, ⟨0, 0, false⟩], 10, 0) ∧
    (cycleBuilder (initState insertionSortWeights minEntryRows)
        (initState insertionSortWeights minEntryRows).myGraph.weights).map
      (fun st1 => (leaderNames st1.myGraph.nodes, st1.myGraph.distance 0 0,
        st1.globalTotalWeight)) =
      some ([0], some (-2147483648), -2147483648) ∧
    ((cycleBuilder (initState insertionSortWeights minEntryRows)
        (initState insertionSortWeights minEntryRows).myGraph.weights).bind cycleCloser).map
      (fun r => (r.1.myGraph.connectedNodes, r.1.globalTotalWeight, r.2)) =
      some ([⟨0, 0, false⟩, ⟨0, 0, false⟩], -2147483648, 0) := by
  decide

/-- C18, amended. When exactly one node `a` is a leader after the edge loop of a
run, the scan gives `nodeOne = nodeTwo = a`, and where the lookup
`distance(a, a)` has a value `d` (the entry stored at the diagonal position of
row `a`; it has one for every lower-triangular input) the closer ends normally,
appends the closing `Connection(a, a)` and adds `d` to the total (the `double`
sum converted back to `int`); the total before the closer is in the range of
`int`, and when the sum is too, the new total is that sum and is therefore
unchanged exactly when `d = 0`. -/
theorem cycleCloser_single_leader (sort : List weight → List weight) (rows : List (List Int))
    (st1 : state)
    (hrun : cycleBuilder (initState sort rows) (initState sort rows).myGraph.weights = some st1)
    (a : Nat) (hTa : typeAt st1.myGraph.nodes a = 1)
    (huniq : ∀ i, typeAt st1.myGraph.nodes i = 1 → i = a) :
    leaderScan (none, none) st1.myGraph.nodes = (some a, some a) ∧
    st1.myGraph.distance a a = (rowAt rows a)[a]? ∧
    (LowerTriangular rows → ∃ d, st1.myGraph.distance a a = some d) ∧
    ∀ d, st1.myGraph.distance a a = some d →
      ∃ st2, cycleCloser st1 = some (st2, a) ∧
        st2.myGraph.connectedNodes =
          st1.myGraph.connectedNodes ++ [connectedNode.new a a] ∧
        st2.globalTotalWeight = doubleToInt (st1.globalTotalWeight + d) ∧
        INT_MIN ≤ st1.globalTotalWeight ∧ st1.globalTotalWeight ≤ INT_MAX ∧
        (INT_MIN ≤ st1.globalTotalWeight + d → st1.globalTotalWeight + d ≤ INT_MAX →
          st2.globalTotalWeight = st1.globalTotalWeight + d ∧
          (st2.globalTotalWeight = st1.globalTotalWeight ↔ d = 0)) ∧
        st2.myGraph.nodes = st1.myGraph.nodes := by
  obtain ⟨hlen, hname, hnum, hpath, hmat⟩ := builder_frame sort rows _ hrun
  obtain ⟨a1, b1, hab, hb, hTa1, hTb1, hmin, hscan, hclose⟩ :=
    cycleCloser_leaders st1 hname ⟨a, hTa⟩
  have ha1 : a1 = a := huniq a1 hTa1
  have hb1 : b1 = a := huniq b1 hTb1
  rw [ha1, hb1] at hscan hclose
  refine ⟨hscan, ?_, ?_, ?_⟩
  · rw [distance_congr _ _ hmat]
    unfold graph.distance
    rw [if_neg (Nat.lt_irrefl _), readGraph_matAt]
  · intro hlt
    rw [distance_congr _ _ hmat]
    exact distance_defined rows hlt _ _ (by omega) (by omega)
  · intro d hd
    rw [hd] at hclose
    obtain ⟨hr1, hr2⟩ := builder_total_range sort rows _ hrun
    refine ⟨st1.close a a d, hclose, rfl, rfl, hr1, hr2, ?_, rfl⟩
    intro h1 h2
    have he : (st1.close a a d).globalTotalWeight = st1.globalTotalWeight + d :=
      doubleToInt_of_range _ h1 h2
    refine ⟨he, ?_⟩
    rw [he]
    constructor <;> intro h <;> omega

theorem cycleCloser_single_leader_witness :
    ∃ st1, cycleBuilder (initState insertionSortWeights oneLeaderRows)
        (initState insertionSortWeights oneLeaderRows).myGraph.weights = some st1 ∧
      typeAt st1.myGraph.nodes 1 = 1 ∧
      leaderScan (none, none) st1.myGraph.nodes = (some 1, some 1) ∧
      st1.myGraph.distance 1 1 = (rowAt oneLeaderRows 1)[1]? :=
  ⟨_, rfl, by decide,
    And.elim (fun h1 h2 => ⟨h1, h2.1⟩)
      (cycleCloser_single_leader insertionSortWeights oneLeaderRows _ rfl 1 (by decide) (by
        intro i hi
        by_contra hc
        have h2 : i = 0 ∨ 2 ≤ i := by omega
        rcases h2 with rfl | h2
        · revert hi; decide
        · rw [typeAt_of_le _ _ (by simpa using h2)] at hi
          omega))⟩

/-! ## Claims C19 and C20: the invariants of the edge loop -/

/-- C19. State/degree invariant: for every input whose edge list contains no
self-loop (`fromNode ≠ toNode` for every weight), after each step of the edge
loop (after its first `k` iterations, for every `k`) every node has type 0, 1 or
2, every untouched node (type 0) is an endpoint of exactly 0 accepted
connections, every leader (type 1) of exactly 1, and every inside node (type 2)
of exactly 2. -/
theorem state_degree_invariant (sort : List weight → List weight) (hs : StdSort sort)
    (rows : List (List Int))
    (hno : ∀ w ∈ (readGraph rows).weights, w.fromNode ≠ w.toNode)
    (k : Nat) (st : state)
    (hrun : cycleBuilder (initState sort rows)
      ((initState sort rows).myGraph.weights.take k) = some st) (v : Nat) :
    typeAt st.myGraph.nodes v ≤ 2 ∧
    (typeAt st.myGraph.nodes v = 0 → touching st.myGraph.connectedNodes v = 0) ∧
    (typeAt st.myGraph.nodes v = 1 → touching st.myGraph.connectedNodes v = 1) ∧
    (typeAt st.myGraph.nodes v = 2 → touching st.myGraph.connectedNodes v = 2) := by
  have hne : ∀ w ∈ (initState sort rows).myGraph.weights.take k, w.fromNode ≠ w.toNode := by
    intro w hw
    have hw2 := List.mem_of_mem_take hw
    rw [initState_weights] at hw2
    exact hno w ((hs _).1.subset hw2)
  have hinv := cycleBuilder_degInv _ (initState_degInv sort rows) hne hrun
  refine ⟨hinv.le v, ?_, ?_, ?_⟩ <;> intro hT <;> rw [hinv.deg, hT]

theorem state_degree_invariant_witness :
    StdSort insertionSortWeights ∧
    (∀ w ∈ (readGraph wellFormedRows).weights, w.fromNode ≠ w.toNode) ∧
    ∃ st, cycleBuilder (initState insertionSortWeights wellFormedRows)
        ((initState insertionSortWeights wellFormedRows).myGraph.weights.take 2) = some st ∧
      typeAt st.myGraph.nodes 0 = 2 ∧
      (typeAt st.myGraph.nodes 0 = 2 → touching st.myGraph.connectedNodes 0 = 2) :=
  ⟨insertionSortWeights_std, by decide, _, rfl, by decide,
    (state_degree_invariant insertionSortWeights insertionSortWeights_std wellFormedRows
      (by decide) 2 _ rfl 0).2.2.2⟩

/-- C20. Two endpoints remain: for every well-formed distance matrix with at
least two nodes (non-zero distance between every two distinct nodes), the edge
loop over all sorted edges ends normally, and afterwards exactly two nodes, `a`
and `b`, are leaders (type 1), no node is untouched (every other node is inside,
type 2), and all nodes carry one group id. -/
theorem two_leaders_remain (sort : List weight → List weight) (hs : StdSort sort)
    (rows : List (List Int)) (hwf : WellFormed rows) (hn : 2 ≤ rows.length) :
    ∃ st1, cycleBuilder (initState sort rows) (initState sort rows).myGraph.weights = some st1 ∧
      st1.myGraph.nodes.length = rows.length ∧
      (∃ a b, a ≠ b ∧ a < rows.length ∧ b < rows.length ∧
        ∀ i < rows.length, (typeAt st1.myGraph.nodes i = 1 ↔ i = a ∨ i = b) ∧
          (i ≠ a → i ≠ b → typeAt st1.myGraph.nodes i = 2)) ∧
      (leaderNames st1.myGraph.nodes).length = 2 ∧
      (∀ i < rows.length, typeAt st1.myGraph.nodes i ≠ 0) ∧
      ∃ g, ∀ i < rows.length, groupAt st1.myGraph.nodes i = g := by
  obtain ⟨st1, a, mid, b, hrun, hfr, _, hp, hperm⟩ := builder_single_path sort hs rows hwf hn
  have hlen : st1.myGraph.nodes.length = rows.length := by
    rw [hfr.1, initState_nodes]; simp
  obtain ⟨hTa, hTb, hTmid, hG⟩ := (goodPath_iff _ a mid b).mp (hp.good _ (by simp))
  have hnd : (a :: (mid ++ [b])).Nodup := by
    have := hp.nodup
    simpa using this
  have hab : a ≠ b := by
    intro hc
    simp [hc] at hnd
  have hmem : ∀ i < rows.length, i = a ∨ i ∈ mid ∨ i = b := by
    intro i hi
    have := hperm.symm.subset (List.mem_range.mpr hi)
    simpa using this
  have hbnd : ∀ i ∈ a :: (mid ++ [b]), i < rows.length := fun i hi =>
    List.mem_range.mp (hperm.subset hi)
  have hamid : a ∉ mid := by
    intro hc
    have := hTmid a hc
    omega
  have hbmid : b ∉ mid := by
    intro hc
    have := hTmid b hc
    omega
  have hcls : ∀ i < rows.length, (typeAt st1.myGraph.nodes i = 1 ↔ i = a ∨ i = b) ∧
      (i ≠ a → i ≠ b → typeAt st1.myGraph.nodes i = 2) := by
    intro i hi
    rcases hmem i hi with rfl | hm | rfl
    · exact ⟨⟨fun _ => Or.inl rfl, fun _ => hTa⟩, fun h => absurd rfl h⟩
    · have h2 := hTmid i hm
      refine ⟨⟨fun h => by omega, ?_⟩, fun _ _ => h2⟩
      rintro (rfl | rfl)
      · exact absurd hm hamid
      · exact absurd hm hbmid
    · exact ⟨⟨fun _ => Or.inr rfl, fun _ => hTb⟩, fun _ h => absurd rfl h⟩
  have hname : ∀ i < st1.myGraph.nodes.length, nameAt st1.myGraph.nodes i = i := by
    intro i hi
    rw [hfr.2.1, initState_nodes]
    exact nameAt_new_nodes _ _ (by omega)
  refine ⟨st1, hrun, hlen, ⟨a, b, hab, hbnd a (by simp), hbnd b (by simp), hcls⟩, ?_, ?_,
    groupAt st1.myGraph.nodes a, ?_⟩
  · rw [leaderNames_eq _ hname, hlen]
    have hf : ∀ i, i < rows.length →
        (decide (typeAt st1.myGraph.nodes i = 1) = true ↔ i = a ∨ i = b) := by
      intro i hi
      rw [decide_eq_true_eq]
      exact (hcls i hi).1
    rcases Nat.lt_or_gt_of_ne hab with hlt | hlt
    · rw [filter_range_pair _ a b _ hlt (hbnd b (by simp)) hf]
      rfl
    · rw [filter_range_pair _ b a _ hlt (hbnd a (by simp)) (fun i hi => by
        rw [hf i hi]; exact Or.comm)]
      rfl
  · intro i hi
    rcases hmem i hi with rfl | hm | rfl
    · omega
    · have := hTmid i hm
      omega
    · omega
  · intro i hi
    apply hG
    rcases hmem i hi with rfl | hm | rfl <;> simp [*]

theorem two_leaders_remain_witness :
    StdSort insertionSortWeights ∧ WellFormed wellFormedRows ∧
    ∃ st1, cycleBuilder (initState insertionSortWeights wellFormedRows)
        (initState insertionSortWeights wellFormedRows).myGraph.weights = some st1 ∧
      (leaderNames st1.myGraph.nodes).length = 2 ∧
      (∀ i < wellFormedRows.length, typeAt st1.myGraph.nodes i ≠ 0) ∧
      ∃ g, ∀ i < wellFormedRows.length, groupAt st1.myGraph.nodes i = g :=
  ⟨insertionSortWeights_std, by decide,
    (two_leaders_remain insertionSortWeights insertionSortWeights_std wellFormedRows
      (by decide) (by decide)).imp (fun _ h => ⟨h.1, h.2.2.2.1, h.2.2.2.2⟩)⟩

/-! ## Claims C11 and C12: failures -/

/-- C11, as stated, fails: nothing checks the shape of the input.  Every row `i`
of the scenario rows `[]`, `[10]`, `[15, 35]`, `[20, 25, 30]` has fewer than
`i + 1` entries, yet the graph is built, the edge loop accepts three edges and
the run ends normally with the sequence `2,0,1,3,2`; and the input of the single
row `[5]`, with fewer than 2 rows, is built and run to the end as well, printing
`0 0` with total 10. -/
theorem malformed_input_counterexample :
    (∀ i < scenarioRows.length, (rowAt scenarioRows i).length < i + 1) ∧
    (readGraph scenarioRows).numNodes = 4 ∧
    (cycleBuilder (initState insertionSortWeights scenarioRows)
        (initState insertionSortWeights scenarioRows).myGraph.weights).map
      (fun st1 => st1.myGraph.connectedNodes) =
      some [⟨1, 0, false⟩, ⟨2, 0, false⟩, ⟨3, 1, false⟩] ∧
    (original insertionSortWeights scenarioRows).map printed = some [2, 0, 1, 3, 2] ∧
    selfLoopRows.length < 2 ∧
    (readGraph selfLoopRows).numNodes = 1 ∧
    (original insertionSortWeights selfLoopRows).map
      (fun st => (printed st, st.globalTotalWeight)) = some ([0, 0], 10) := by
  decide

/-- C11, amended. No input is rejected when the graph is built and there is no
`MalformedInput` condition: for every list of rows (rows with fewer than `i + 1`
entries and fewer than 2 rows included) the reader yields a graph with
`numNodes` the number of rows, one untouched node of group 0 per row, the rows
stored as given, the non-zero entries as the edge list and no connection; and
the run on a well-formed matrix with at least 2 rows ends normally. -/
theorem readGraph_never_rejects (sort : List weight → List weight) (hs : StdSort sort)
    (rows : List (List Int)) :
    (readGraph rows).numNodes = rows.length ∧
    (readGraph rows).nodes = (List.range rows.length).map node.new ∧
    (∀ i, rowAt (readGraph rows).matrix i = rowAt rows i) ∧
    (readGraph rows).weights = rowsWeights 0 rows ∧
    (readGraph rows).connectedNodes = [] ∧
    (WellFormed rows → 2 ≤ rows.length → ∃ st, original sort rows = some st) := by
  refine ⟨readGraph_numNodes rows, readGraph_nodes rows, readGraph_rowAt rows,
    readGraph_weights rows, (readGraph_connectedNodes rows).1, ?_⟩
  intro hwf hn
  obtain ⟨_, _, _, _, _, _, horig, _⟩ := original_run sort hs rows hwf hn
  exact ⟨_, horig⟩

theorem readGraph_never_rejects_witness :
    StdSort insertionSortWeights ∧
    (∃ i < shortRows.length, (rowAt shortRows i).length < i + 1) ∧
    (readGraph shortRows).numNodes = shortRows.length ∧
    (readGraph shortRows).nodes = (List.range shortRows.length).map node.new ∧
    (readGraph shortRows).weights = rowsWeights 0 shortRows ∧
    (readGraph shortRows).connectedNodes = [] :=
  ⟨insertionSortWeights_std, ⟨0, by decide, by decide⟩,
    And.elim (fun h1 h2 => ⟨h1, h2.1, h2.2.2.1, h2.2.2.2.1⟩)
      (readGraph_never_rejects insertionSortWeights insertionSortWeights_std shortRows)⟩

/-- C12. Internal consistency error: `pathTaken` is empty when the retrace of a
run starts at `a`, so its length counts the hops made.  If at the start of an
iteration `k < numNodes` of the retrace loop fewer than `numNodes` hops have been
made and no unchecked connection touches the current node, then the retrace
ends with at most `numNodes` entries in `pathTaken` (the closing entry
included), the output loop `pathTaken.at(i)`, `i = 0 .. numNodes`, throws, and
the run fails instead of producing the node sequence. -/
theorem retrace_stuck_fails (sort : List weight → List weight) (rows : List (List Int))
    (st1 st2 : state) (a : Nat)
    (hrun : cycleBuilder (initState sort rows) (initState sort rows).myGraph.weights = some st1)
    (hclose : cycleCloser st1 = some (st2, a))
    (k : Nat) (hk : k < st2.myGraph.numNodes)
    (hhops : (retraceLoop st2.myGraph.nodes k ⟨a, st2.myGraph.pathTaken⟩
      st2.myGraph.connectedNodes).1.pathTaken.length < st2.myGraph.numNodes)
    (hstuck : ∀ c ∈ (retraceLoop st2.myGraph.nodes k ⟨a, st2.myGraph.pathTaken⟩
        st2.myGraph.connectedNodes).2,
      ¬ eligible (retraceLoop st2.myGraph.nodes k ⟨a, st2.myGraph.pathTaken⟩
        st2.myGraph.connectedNodes).1 c) :
    st2.myGraph.pathTaken = [] ∧
    originalCore sort rows = some (retrace st2 a) ∧
    (retrace st2 a).myGraph.pathTaken.length ≤ (retrace st2 a).myGraph.numNodes ∧
    original sort rows = none := by
  obtain ⟨_, _, _, hpath, _⟩ := builder_frame sort rows _ hrun
  obtain ⟨b, d, hst2⟩ := cycleCloser_some hclose
  have hcore : originalCore sort rows = some (retrace st2 a) := by
    unfold originalCore
    simp only []
    rw [hrun]
    simp only []
    rw [hclose]
  have hsplit : st2.myGraph.numNodes = k + (st2.myGraph.numNodes - k) := by omega
  have hloop : retraceLoop st2.myGraph.nodes st2.myGraph.numNodes ⟨a, st2.myGraph.pathTaken⟩
      st2.myGraph.connectedNodes =
      retraceLoop st2.myGraph.nodes k ⟨a, st2.myGraph.pathTaken⟩ st2.myGraph.connectedNodes := by
    conv_lhs => rw [hsplit]
    rw [retraceLoop_add, retraceLoop_stuck _ _ _ _ hstuck]
  have hlen : (retrace st2 a).myGraph.pathTaken.length ≤ (retrace st2 a).myGraph.numNodes := by
    unfold retrace
    simp only [List.length_append, List.length_singleton]
    rw [hloop]
    omega
  refine ⟨by rw [hst2]; exact hpath, hcore, hlen, ?_⟩
  unfold original
  rw [hcore]
  simp only []
  rw [if_neg (by omega)]

theorem retrace_stuck_fails_witness :
    ∃ st1 st2 a, cycleBuilder (initState insertionSortWeights twoPathRows)
        (initState insertionSortWeights twoPathRows).myGraph.weights = some st1 ∧
      cycleCloser st1 = some (st2, a) ∧
      st2.myGraph.connectedNodes = [⟨1, 0, false⟩, ⟨3, 2, false⟩, ⟨0, 3, false⟩] ∧
      retraceLoop st2.myGraph.nodes 1 ⟨a, st2.myGraph.pathTaken⟩ st2.myGraph.connectedNodes =
        (⟨1, [0]⟩, [⟨1, 0, true⟩, ⟨3, 2, false⟩, ⟨0, 3, false⟩]) ∧
      original insertionSortWeights twoPathRows = none :=
  ⟨_, _, _, rfl, rfl, by decide, by decide,
    (retrace_stuck_fails insertionSortWeights twoPathRows _ _ _ rfl rfl 1 (by decide)
      (by decide) (by decide)).2.2.2⟩

/-! ## Claim C21: the number of connections -/

/-- C21. Connection count: for every well-formed distance matrix with at least
two nodes the edge loop and the closer end normally, `connectedNodes` has exactly
`numNodes - 1` entries when the edge loop ends and exactly `numNodes` entries
after the closer. -/
theorem connection_count (sort : List weight → List weight) (hs : StdSort sort)
    (rows : List (List Int)) (hwf : WellFormed rows) (hn : 2 ≤ rows.length) :
    ∃ st1 st2 a,
      cycleBuilder (initState sort rows) (initState sort rows).myGraph.weights = some st1 ∧
      cycleCloser st1 = some (st2, a) ∧
      st1.myGraph.numNodes = rows.length ∧ st2.myGraph.numNodes = rows.length ∧
      st1.myGraph.connectedNodes.length = st1.myGraph.numNodes - 1 ∧
      st2.myGraph.connectedNodes.length = st2.myGraph.numNodes := by
  obtain ⟨st1, a, mid, b, hrun, _, _, hp, hperm⟩ := builder_single_path sort hs rows hwf hn
  obtain ⟨hlen, hname, hnum, _, hmat⟩ := builder_frame sort rows _ hrun
  have hdist : ∀ i j, i < st1.myGraph.nodes.length → j < st1.myGraph.nodes.length →
      ∃ d, st1.myGraph.distance i j = some d := by
    intro i j hi hj
    rw [distance_congr _ _ hmat]
    exact distance_defined rows hwf.1 i j (by omega) (by omega)
  obtain ⟨lo, mid2, hi, d, _, _, _, _, hclose⟩ := cycleCloser_spec hp hname hdist
  have hcount : st1.myGraph.connectedNodes.length = rows.length - 1 := by
    have h1 := hp.edges.length_eq
    rw [List.length_map] at h1
    rw [h1]
    simp only [List.flatMap_cons, List.flatMap_nil, List.append_nil, length_hops]
    rw [hperm.length_eq, List.length_range]
  refine ⟨st1, _, lo, hrun, hclose, hnum, hnum, by rw [hcount, hnum], ?_⟩
  show (st1.myGraph.connectedNodes ++ [connectedNode.new lo hi]).length = st1.myGraph.numNodes
  rw [List.length_append, hcount, hnum]
  simp
  omega

theorem connection_count_witness :
    StdSort insertionSortWeights ∧ WellFormed wellFormedRows ∧
    ∃ st1 st2 a,
      cycleBuilder (initState insertionSortWeights wellFormedRows)
        (initState insertionSortWeights wellFormedRows).myGraph.weights = some st1 ∧
      cycleCloser st1 = some (st2, a) ∧
      st1.myGraph.numNodes = wellFormedRows.length ∧
      st2.myGraph.numNodes = wellFormedRows.length ∧
      st1.myGraph.connectedNodes.length = st1.myGraph.numNodes - 1 ∧
      st2.myGraph.connectedNodes.length = st2.myGraph.numNodes :=
  ⟨insertionSortWeights_std, by decide,
    connection_count insertionSortWeights insertionSortWeights_std wellFormedRows
      (by decide) (by decide)⟩

/-! ## Claims C22 - C24: groups, paths and leaders -/

/-- C22. Group id means connectivity: on every input, after each step of the
edge loop (after its first `k` iterations, for every `k`) two touched nodes
(type 1 or 2) have equal `nodeGroup` if and only if a chain of accepted
connections joins them; every untouched node (type 0) has group 0, and every
touched node has a group id that is at least 1 and below the current group
counter. -/
theorem group_connectivity (sort : List weight → List weight) (rows : List (List Int))
    (k : Nat) (st : state)
    (hrun : cycleBuilder (initState sort rows)
      ((initState sort rows).myGraph.weights.take k) = some st) :
    (∀ u v, (typeAt st.myGraph.nodes u = 1 ∨ typeAt st.myGraph.nodes u = 2) →
      (typeAt st.myGraph.nodes v = 1 ∨ typeAt st.myGraph.nodes v = 2) →
      (groupAt st.myGraph.nodes u = groupAt st.myGraph.nodes v ↔
        Joined st.myGraph.connectedNodes u v)) ∧
    (∀ v, typeAt st.myGraph.nodes v = 0 → groupAt st.myGraph.nodes v = 0) ∧
    (∀ v, (typeAt st.myGraph.nodes v = 1 ∨ typeAt st.myGraph.nodes v = 2) →
      1 ≤ groupAt st.myGraph.nodes v ∧ groupAt st.myGraph.nodes v < st.globalGroupNumber) ∧
    (∀ v, typeAt st.myGraph.nodes v ≤ 2) := by
  have hinv := cycleBuilder_groupInv _ (initState_groupInv sort rows) hrun
  refine ⟨?_, ?_, ?_, hinv.le⟩
  · intro u v hu hv
    exact hinv.conn u v (by omega) (by omega)
  · intro v hv
    exact (hinv.untouched v hv).1
  · intro v hv
    exact hinv.touched v (by omega)

theorem group_connectivity_witness :
    ∃ st, cycleBuilder (initState insertionSortWeights mergeRows)
        ((initState insertionSortWeights mergeRows).myGraph.weights.take 2) = some st ∧
      st.myGraph.nodes.map (fun n => (n.nodeType, n.nodeGroup)) =
        [(1, 1), (1, 1), (1, 2), (1, 2)] ∧
      (groupAt st.myGraph.nodes 0 = groupAt st.myGraph.nodes 1 ↔
        Joined st.myGraph.connectedNodes 0 1) ∧
      (groupAt st.myGraph.nodes 0 = groupAt st.myGraph.nodes 2 ↔
        Joined st.myGraph.connectedNodes 0 2) :=
  ⟨_, rfl, by decide,
    (group_connectivity insertionSortWeights mergeRows 2 _ rfl).1 0 1
      (Or.inl (by decide)) (Or.inl (by decide)),
    (group_connectivity insertionSortWeights mergeRows 2 _ rfl).1 0 2
      (Or.inl (by decide)) (Or.inl (by decide))⟩

/-- C23. No premature cycle closure: for every input whose edge list contains no
self-loop, after each step of the edge loop (after its first `k` iterations, for
every `k`) the accepted connections are exactly the hops of vertex-disjoint
simple paths `ps` (no node occurs twice in all of `ps`, every path has at least
two nodes), and they contain no cycle. -/
theorem no_premature_cycle (sort : List weight → List weight) (hs : StdSort sort)
    (rows : List (List Int))
    (hno : ∀ w ∈ (readGraph rows).weights, w.fromNode ≠ w.toNode)
    (k : Nat) (st : state)
    (hrun : cycleBuilder (initState sort rows)
      ((initState sort rows).myGraph.weights.take k) = some st) :
    (∃ ps : List (List Nat), ps.flatten.Nodup ∧ (∀ p ∈ ps, 2 ≤ p.length) ∧
      (∀ v ∈ ps.flatten, v < st.myGraph.nodes.length) ∧
      (st.myGraph.connectedNodes.map connectedNode.ends).Perm (ps.flatMap hops)) ∧
    ∀ vs, ¬ IsCycle (st.myGraph.connectedNodes.map connectedNode.ends) vs := by
  have hne : ∀ w ∈ (initState sort rows).myGraph.weights.take k, w.fromNode ≠ w.toNode := by
    intro w hw
    have hw2 := List.mem_of_mem_take hw
    rw [initState_weights] at hw2
    exact hno w ((hs _).1.subset hw2)
  obtain ⟨ps, hinv⟩ := cycleBuilder_pathInv _ (initState_pathInv sort rows) hne hrun
  refine ⟨⟨ps, hinv.nodup, ?_, hinv.bound, hinv.edges⟩,
    no_cycle_in_paths _ ps hinv.nodup hinv.edges⟩
  intro p hp
  obtain ⟨a, mid, b, rfl, _⟩ := hinv.good p hp
  simp

theorem no_premature_cycle_witness :
    StdSort insertionSortWeights ∧
    (∀ w ∈ (readGraph twoPathRows).weights, w.fromNode ≠ w.toNode) ∧
    ∃ st, cycleBuilder (initState insertionSortWeights twoPathRows)
        ((initState insertionSortWeights twoPathRows).myGraph.weights.take 2) = some st ∧
      st.myGraph.connectedNodes = [⟨1, 0, false⟩, ⟨3, 2, false⟩] ∧
      ∀ vs, ¬ IsCycle (st.myGraph.connectedNodes.map connectedNode.ends) vs :=
  ⟨insertionSortWeights_std, by decide, _, rfl, by decide,
    (no_premature_cycle insertionSortWeights insertionSortWeights_std twoPathRows (by decide)
      2 _ rfl).2⟩

/-- C24. Two leaders per cluster: for every input whose edge list contains no
self-loop (zero entries between distinct nodes allowed), after each step of the
edge loop (after its first `k` iterations, for every `k`) every group id held by
some touched node (type 1 or 2) is held by exactly two leaders `a ≠ b`; hence
the number of leaders is even, and no state with exactly one leader is reached. -/
theorem two_leaders_per_group (sort : List weight → List weight) (hs : StdSort sort)
    (rows : List (List Int))
    (hno : ∀ w ∈ (readGraph rows).weights, w.fromNode ≠ w.toNode)
    (k : Nat) (st : state)
    (hrun : cycleBuilder (initState sort rows)
      ((initState sort rows).myGraph.weights.take k) = some st) :
    (∀ g, (∃ v, (typeAt st.myGraph.nodes v = 1 ∨ typeAt st.myGraph.nodes v = 2) ∧
        groupAt st.myGraph.nodes v = g) →
      ∃ a b, a ≠ b ∧ ∀ i, (typeAt st.myGraph.nodes i = 1 ∧ groupAt st.myGraph.nodes i = g) ↔
        (i = a ∨ i = b)) ∧
    Even (leaderNames st.myGraph.nodes).length ∧
    (leaderNames st.myGraph.nodes).length ≠ 1 ∧
    ¬ ∃ a, ∀ i, typeAt st.myGraph.nodes i = 1 ↔ i = a := by
  have hne : ∀ w ∈ (initState sort rows).myGraph.weights.take k, w.fromNode ≠ w.toNode := by
    intro w hw
    have hw2 := List.mem_of_mem_take hw
    rw [initState_weights] at hw2
    exact hno w ((hs _).1.subset hw2)
  obtain ⟨ps, hinv⟩ := cycleBuilder_pathInv _ (initState_pathInv sort rows) hne hrun
  obtain ⟨_, hname, _, _, _⟩ := builder_frame sort rows _ hrun
  have hgrp : ∀ g, (∃ v, (typeAt st.myGraph.nodes v = 1 ∨ typeAt st.myGraph.nodes v = 2) ∧
      groupAt st.myGraph.nodes v = g) →
      ∃ a b, a ≠ b ∧ ∀ i, (typeAt st.myGraph.nodes i = 1 ∧ groupAt st.myGraph.nodes i = g) ↔
        (i = a ∨ i = b) := by
    rintro g ⟨v, hv, rfl⟩
    exact hinv.group_leaders v (by omega)
  have hcount : (leaderNames st.myGraph.nodes).length = 2 * ps.length := by
    rw [leaderNames_eq _ hname]
    exact hinv.leaders_count
  refine ⟨hgrp, ⟨ps.length, by rw [hcount]; omega⟩, by omega, ?_⟩
  rintro ⟨a, ha⟩
  have hTa : typeAt st.myGraph.nodes a = 1 := (ha a).mpr rfl
  obtain ⟨a1, b1, hab, hiff⟩ := hgrp _ ⟨a, Or.inl hTa, rfl⟩
  have h1 := (ha a1).mp ((hiff a1).mpr (Or.inl rfl)).1
  have h2 := (ha b1).mp ((hiff b1).mpr (Or.inr rfl)).1
  exact hab (h1.trans h2.symm)

theorem two_leaders_per_group_witness :
    StdSort insertionSortWeights ∧
    (∀ w ∈ (readGraph twoPathRows).weights, w.fromNode ≠ w.toNode) ∧
    ∃ st, cycleBuilder (initState insertionSortWeights twoPathRows)
        ((initState insertionSortWeights twoPathRows).myGraph.weights.take 2) = some st ∧
      leaderNames st.myGraph.nodes = [0, 1, 2, 3] ∧
      Even (leaderNames st.myGraph.nodes).length :=
  ⟨insertionSortWeights_std, by decide, _, rfl, by decide,
    (two_leaders_per_group insertionSortWeights insertionSortWeights_std twoPathRows
      (by decide) 2 _ rfl).2.1⟩

/-! ## Claim C26: the discovered edges -/

/-- C26. Edge discovery: after reading all rows, for every input, the unsorted
weights list is the row-major list of all entries (row, then column), each
recorded as `(value = entry, fromNode = row index, toNode = column index)`, with
the zero entries removed; in particular no weight has value 0, and a zero entry
at row `i`, column `j` yields no edge from `i` to `j`. -/
theorem edge_discovery (rows : List (List Int)) :
    (readGraph rows).weights =
      (rowMajorEntries rows).filter (fun w => decide (w.value ≠ 0)) ∧
    (∀ w, w ∈ rowMajorEntries rows ↔ (rowAt rows w.fromNode)[w.toNode]? = some w.value) ∧
    (∀ w ∈ (readGraph rows).weights, w.value ≠ 0) ∧
    (∀ i j, (rowAt rows i)[j]? = some 0 →
      ∀ w ∈ (readGraph rows).weights, ¬ (w.fromNode = i ∧ w.toNode = j)) := by
  have h1 : (readGraph rows).weights =
      (rowMajorEntries rows).filter (fun w => decide (w.value ≠ 0)) := by
    rw [readGraph_weights, rowsWeights_eq_filter]
    unfold rowMajorEntries
    simp only [Nat.zero_add]
  have hmem : ∀ w, w ∈ (readGraph rows).weights ↔
      (rowAt rows w.fromNode)[w.toNode]? = some w.value ∧ w.value ≠ 0 := by
    intro w
    rw [readGraph_weights, mem_rowsWeights]
    simp
  refine ⟨h1, ?_, fun w hw => ((hmem w).mp hw).2, ?_⟩
  · intro w
    unfold rowMajorEntries
    simp only [List.mem_flatMap, List.mem_range, List.mem_map]
    constructor
    · rintro ⟨i, hi, j, hj, rfl⟩
      simp only []
      rw [List.getD_eq_getElem?_getD, List.getElem?_eq_getElem hj]
      rfl
    · intro h
      have hj : w.toNode < (rowAt rows w.fromNode).length := by
        by_contra hc
        rw [List.getElem?_eq_none (by omega)] at h
        cases h
      have hi : w.fromNode < rows.length := by
        by_contra hc
        have : rowAt rows w.fromNode = [] := by
          unfold rowAt
          rw [List.getD_eq_getElem?_getD, List.getElem?_eq_none (by omega)]
          rfl
        rw [this] at hj
        simp at hj
      refine ⟨w.fromNode, hi, w.toNode, hj, ?_⟩
      rw [List.getD_eq_getElem?_getD, h]
      rfl
  · rintro i j h0 w hw ⟨rfl, rfl⟩
    have := (hmem w).mp hw
    rw [h0] at this
    exact this.2 (Option.some.inj this.1).symm

theorem edge_discovery_example :
    (readGraph [[0], [10, 0], [0, 35, 0]]).weights = [⟨10, 1, 0⟩, ⟨35, 2, 1⟩] ∧
    rowMajorEntries [[0], [10, 0], [0, 35, 0]] =
      [⟨0, 0, 0⟩, ⟨10, 1, 0⟩, ⟨0, 1, 1⟩, ⟨0, 2, 0⟩, ⟨35, 2, 1⟩, ⟨0, 2, 2⟩] := by
  decide

/-! ## Claim C25: the retrace loop and the one-hop procedure -/

/-- C25. Path retrace equals the one-hop-per-iteration walk: whenever the
connection list (all unchecked) forms a single cycle `a :: rest` through all
`numNodes ≥ 2` nodes, each named by its index, the retrace loop of the code,
started at `a` with an empty `pathTaken`, makes exactly `numNodes` hops in total
(`pathTaken` ends with `numNodes + 1` entries, the closing one included), and
the procedure that performs exactly one hop per iteration, each time taking the
lowest-index unchecked connection touching the current node, ends normally with
the same result: the same sequence and the same connection list. -/
theorem retrace_eq_oneHop (st : state) (a : Nat) (rest : List Nat) (hnd : (a :: rest).Nodup)
    (hrest : rest ≠ []) (hname : ∀ v ∈ a :: rest, nameAt st.myGraph.nodes v = v)
    (hfresh : ∀ c ∈ st.myGraph.connectedNodes, c.checked = false)
    (hedges : (st.myGraph.connectedNodes.map connectedNode.ends).Perm (hops (a :: rest ++ [a])))
    (hpath : st.myGraph.pathTaken = []) (hnum : st.myGraph.numNodes = (a :: rest).length) :
    (retraceLoop st.myGraph.nodes st.myGraph.numNodes ⟨a, st.myGraph.pathTaken⟩
      st.myGraph.connectedNodes).1.pathTaken.length = st.myGraph.numNodes ∧
    (retrace st a).myGraph.pathTaken.length = st.myGraph.numNodes + 1 ∧
    oneHopRetrace st a = some (retrace st a) ∧
    (oneHopRetrace st a).map (fun s => s.myGraph.pathTaken) =
      some (retrace st a).myGraph.pathTaken := by
  have h0 : Tracing a rest ⟨a, st.myGraph.pathTaken⟩ st.myGraph.connectedNodes := by
    left
    refine ⟨hpath, rfl, ?_⟩
    rw [openEnds_of_fresh _ hfresh]
    exact hedges
  have hspec := retrace_spec st a rest hnd hrest hname hfresh hedges hpath hnum
  have hlen : (retrace st a).myGraph.pathTaken.length = st.myGraph.numNodes + 1 := by
    rcases hspec with h1 | h1 <;> rw [h1, hnum] <;> simp
  have hwalker : (retraceLoop st.myGraph.nodes st.myGraph.numNodes ⟨a, st.myGraph.pathTaken⟩
      st.myGraph.connectedNodes).1.pathTaken.length = st.myGraph.numNodes := by
    have h2 : (retrace st a).myGraph.pathTaken.length =
        (retraceLoop st.myGraph.nodes st.myGraph.numNodes ⟨a, st.myGraph.pathTaken⟩
          st.myGraph.connectedNodes).1.pathTaken.length + 1 := by
      unfold retrace
      simp
    omega
  obtain ⟨m, hm⟩ := loop_simulates st.myGraph.nodes a rest hnd hrest hname
    st.myGraph.numNodes _ _ h0
  have hmlen := oneHopWalk_length _ _ _ _ _ hm
  have hmn : m = st.myGraph.numNodes := by
    rw [hwalker] at hmlen
    simp only [hpath, List.length_nil] at hmlen
    omega
  rw [hmn] at hm
  have hone : oneHopRetrace st a = some (retrace st a) := by
    unfold oneHopRetrace
    rw [hm]
    rfl
  refine ⟨hwalker, hlen, hone, ?_⟩
  rw [hone]
  rfl

theorem retrace_eq_oneHop_witness :
    (cycleBuilder (initState insertionSortWeights scenarioRows)
      (initState insertionSortWeights scenarioRows).myGraph.weights).bind cycleCloser =
      some (closedState, 2) ∧
    (retrace closedState 2).myGraph.pathTaken = [2, 0, 1, 3, 2] ∧
    oneHopRetrace closedState 2 = some (retrace closedState 2) :=
  ⟨by decide, by decide,
    (retrace_eq_oneHop closedState 2 [0, 1, 3] (by decide) (by decide) (by decide) (by decide)
      (by decide) rfl rfl).2.2.1⟩

/-! ## Claim C27: the nearest-neighbour mode -/

/-- C27, as stated, fails: `totalWeight` is a 32-bit `int`.  On the well-formed
matrix whose three distances are all `INT_MAX - 1`, below `INT_MAX`, the path is
`0,1,2` and the sum of its distances with the way back to node 0 is 6442450938;
the second addition makes the `int` wrap around to -4 and the reported total
is 2147483642. -/
theorem nearest_total_counterexample :
    WellFormed nearMaxRows ∧
    (∀ i < nearMaxRows.length, ∀ j < nearMaxRows.length,
      (readGraph nearMaxRows).dist i j < INT_MAX) ∧
    nearestNeighbor nearMaxRows = some ([0, 1, 2], 2147483642) ∧
    walkLength (readGraph nearMaxRows) ([0, 1, 2] ++ [0]) = 6442450938 := by
  decide

/-- C27, amended. Nearest-neighbour mode: for every well-formed distance matrix
with at least one node, no negative entry and all distances below `INT_MAX` the
mode ends normally; `pathTaken` is a permutation of `0 .. numNodes-1` that
starts at node 0; each next node is an unvisited node of minimum distance from
the node before it, the lowest id among those of minimum distance; and whenever
the sum of the distances between consecutive path nodes plus the distance from
the last node back to node 0 is at most `INT_MAX`, `totalWeight` is that sum. -/
theorem nearest_valid_tour (rows : List (List Int)) (hwf : WellFormed rows)
    (hn : 1 ≤ rows.length) (hnn : NonNegative rows)
    (hlt : ∀ i < rows.length, ∀ j < rows.length, (readGraph rows).dist i j < INT_MAX) :
    ∃ path totalWeight, nearestNeighbor rows = some (path, totalWeight) ∧
      path.Perm (List.range rows.length) ∧ path.head? = some 0 ∧
      Greedy (readGraph rows) rows.length path ∧
      (walkLength (readGraph rows) (path ++ [0]) ≤ INT_MAX →
        totalWeight = walkLength (readGraph rows) (path ++ [0])) := by
  have hlen : (readGraph rows).nodes.length = rows.length := by
    rw [readGraph_nodes]; simp
  have hdef : ∀ i j, i < rows.length → j < rows.length →
      ∃ d, (readGraph rows).distance i j = some d :=
    fun i j hi hj => distance_defined rows hwf.1 i j hi hj
  have h0 : NearInv (readGraph rows) rows.length
      ⟨{ readGraph rows with nodes := setTouched (readGraph rows).nodes 0 }, 0, none, 0⟩ := by
    have hpt : (readGraph rows).pathTaken = [] := (readGraph_connectedNodes rows).2
    refine ⟨?_, rfl, ?_, ?_, ?_, ?_, ?_, ?_⟩
    · show (setTouched (readGraph rows).nodes 0).length = rows.length
      rw [length_setTouched, hlen]
    · show ((readGraph rows).pathTaken ++ [0]).Nodup
      rw [hpt]; simp
    · show ∀ v ∈ (readGraph rows).pathTaken ++ [0], v < rows.length
      rw [hpt]
      intro v hv
      simp only [List.nil_append, List.mem_singleton] at hv
      omega
    · show ((readGraph rows).pathTaken ++ [0]).head? = some 0
      rw [hpt]; rfl
    · show ∀ i, touchedAt (setTouched (readGraph rows).nodes 0) i = true ↔
        i ∈ (readGraph rows).pathTaken ++ [0]
      intro i
      have hft : touchedAt (readGraph rows).nodes i = false := by
        unfold touchedAt
        rw [readGraph_nodes, getElem?_new_nodes]
        by_cases hi : i < rows.length
        · rw [if_pos hi]; rfl
        · rw [if_neg hi]
      rw [touchedAt_setTouched, hpt, hft, hlen]
      simp only [List.nil_append, List.mem_singleton]
      by_cases hi : i = 0
      · simp [hi]; omega
      · simp [hi]
    · show (0 : Int) = wrapInt (walkLength (readGraph rows) ((readGraph rows).pathTaken ++ [0]))
      rw [hpt]; rfl
    · show Greedy (readGraph rows) rows.length ((readGraph rows).pathTaken ++ [0])
      rw [hpt]
      intro pre cur nxt post heq
      have := congrArg List.length heq
      simp at this
      omega
  obtain ⟨s1, hloop, hinv, hfull⟩ := nearestLoop_spec (readGraph rows) rows.length hdef
    (fun i j hi hj => hlt i hi j hj)
    (rows.length - 1) _ h0 (by
      show ((readGraph rows).pathTaken ++ [0]).length + (rows.length - 1) = rows.length
      rw [(readGraph_connectedNodes rows).2]
      simp
      omega)
  have hcur : s1.currentNodeIndex < rows.length := hinv.bound _ (by simp)
  obtain ⟨d, hd⟩ := hdef s1.currentNodeIndex 0 hcur (by omega)
  have hd1 : s1.myGraph.distance s1.currentNodeIndex 0 = some d := by
    rw [distance_congr _ _ hinv.mat]
    exact hd
  refine ⟨s1.myGraph.pathTaken ++ [s1.currentNodeIndex], doubleToInt (s1.totalWeight + d),
    ?_, ?_, hinv.start, hinv.greedy, ?_⟩
  · unfold nearestNeighbor
    simp only []
    rw [if_pos (by rw [hlen]; omega), hlen, hloop]
    simp only []
    rw [hd1]
  · have hsub : s1.myGraph.pathTaken ++ [s1.currentNodeIndex] ⊆ List.range rows.length :=
      fun v hv => List.mem_range.mpr (hinv.bound v hv)
    exact (List.subperm_of_subset hinv.nodup hsub).perm_of_length_le (by
      rw [hfull, List.length_range])
  · intro hle
    rw [walkLength_snoc, dist_of_distance _ _ _ d hd] at hle ⊢
    have hw0 : 0 ≤ walkLength (readGraph rows) (s1.myGraph.pathTaken ++ [s1.currentNodeIndex]) := by
      rw [walkLength_eq_walkLen]
      exact walkLen_nonneg _ (dist_nonneg rows hnn) _
    have hd0 : 0 ≤ d := by
      rw [← dist_of_distance _ _ _ d hd]
      exact dist_nonneg rows hnn _ _
    have hmin : INT_MIN ≤ 0 := by decide
    rw [hinv.total, wrapInt_of_range _ (by omega) (by omega),
      doubleToInt_of_range _ (by omega) (by omega)]

theorem nearest_valid_tour_witness :
    WellFormed wellFormedRows ∧ NonNegative wellFormedRows ∧
    nearestNeighbor wellFormedRows = some ([0, 1, 3, 2], 80) ∧
    ∃ path totalWeight, nearestNeighbor wellFormedRows = some (path, totalWeight) ∧
      path.Perm (List.range wellFormedRows.length) ∧ path.head? = some 0 ∧
      Greedy (readGraph wellFormedRows) wellFormedRows.length path ∧
      (walkLength (readGraph wellFormedRows) (path ++ [0]) ≤ INT_MAX →
        totalWeight = walkLength (readGraph wellFormedRows) (path ++ [0])) :=
  ⟨by decide, by decide, by decide,
    nearest_valid_tour wellFormedRows (by decide) (by decide) (by decide) (by decide)⟩

end TSP
